import Mathlib

/-!
# FastMysticSquare: the 15-puzzle state, its moves, the IDA* driver and the pattern database

A shallow embedding of `State.hpp`, `State.cpp`, `SearchNode.hpp`,
`SearchNode.cpp`, `AlgorithmIDA.hpp`, `DistanceManhattan.cpp`, `PatternDB.hpp`
of the replay loop of `printSolutionStates` in `Kpuzzle4.cpp` and of the
constant `kMasksPattern` of `Kpuzzle4.hpp`, followed by the properties proved
of them.

Conventions of the embedding.
* `std::uint64_t` values are natural numbers below `2 ^ 64`; a left shift and a
  bitwise complement are reduced modulo `2 ^ 64` (`shl64`, `not64`).
* `int` values are integers. A shift count taken from an `int` is used through
  `Int.toNat`; every statement below is about states in which these counts lie
  in `0 .. 60`. Sums of `int` values are not reduced modulo `2 ^ 32`.
* `std::int8_t` (`Cost_t`) values are integers narrowed by `toInt8` at every
  assignment.
* The `int` index of `PatternDB::hash2index` is kept as its 32-bit pattern: a
  shifted value is reduced modulo `2 ^ 32`, and the result is read as a signed
  number (`toInt32`).
* A member function writing to an output parameter takes the previous content
  of that parameter and returns the result value together with the new content.
* The two `while` loops of `AlgorithmIDA` and the loop of `PatternDB::bfs` take
  a bound on the number of their iterations and return `none` when it is
  reached.
* A stream is the list of its bytes, numbers below `256`; an object of `k`
  bytes is written with its least significant byte first.
* The call of `std::vector::resize` in `PatternDB::deserialize`, whose size is
  read from the stream, returns for a size up to the parameter `aMaxSize` and
  throws for a larger one. The call in `PatternDB::bfs`, whose size is computed
  from the mask, is taken to return.
-/

namespace kpuzzle4

/-! ## Machine arithmetic -/

/-- Left shift of a 64-bit unsigned value. -/
def shl64 (x k : Nat) : Nat := (x <<< k) % 2 ^ 64

/-- Bitwise complement of a 64-bit unsigned value. -/
def not64 (x : Nat) : Nat := (2 ^ 64 - 1) ^^^ (x % 2 ^ 64)

/-- Conversion `static_cast<std::uint64_t>` of an `int`. -/
def toU64 (x : Int) : Nat := (x % 2 ^ 64).toNat

/-- Narrowing of an `int` to `std::int8_t`. -/
def toInt8 (x : Int) : Int := (x + 128) % 256 - 128

/-! ## State (State.hpp, State.cpp) -/

/-- Row size `State::kSize`. -/
def kSize : Int := 4

/-- Number of cells `State::kNumTiles`. -/
def kNumTiles : Nat := 16

/-- Constant `State::kNumTilesMinusOne`. -/
def kNumTilesMinusOne : Nat := 15

/-- Value of the blank `State::kValueSpaceTile`. -/
def kValueSpaceTile : Nat := 0

/-- The three data members of `class State`. -/
structure State where
  _data : Nat
  _indexSpace : Int
  _tilesPositions : Nat
  deriving DecidableEq

/-- The nibble `(iState >> (i << 2)) & 0xF`. -/
def nibbleAt (iState : Nat) (i : Nat) : Nat := (iState >>> (i <<< 2)) &&& 0xF

/-- Loop of `State::computePositionFromConfiguration`: `n` iterations are left,
the next index is `n - 1`. -/
def computePositionLoop (iState : Nat) : Nat → Nat → Nat
  | 0, aTilesPositions => aTilesPositions
  | i + 1, aTilesPositions =>
    let aTile := nibbleAt iState i
    computePositionLoop iState i (aTilesPositions ||| shl64 i (aTile <<< 2))

/-- Function `State::computePositionFromConfiguration`. -/
def computePositionFromConfiguration (iState : Nat) : Nat :=
  computePositionLoop iState kNumTiles 0

/-- Loop of `State::findIndexSpace`, from index `n - 1` down to `0`. -/
def findIndexSpaceLoop (iState : Nat) : Nat → Int
  | 0 => -1
  | i + 1 => if nibbleAt iState i = kValueSpaceTile then (i : Int) else findIndexSpaceLoop iState i

/-- Function `State::findIndexSpace`. -/
def findIndexSpace (iState : Nat) : Int := findIndexSpaceLoop iState kNumTiles

/-- Constructor `State::State(StateConfiguration_t)`. -/
def State.ofConfiguration (iStateConfiguration : Nat) : State :=
  { _data := iStateConfiguration
    _indexSpace := findIndexSpace iStateConfiguration
    _tilesPositions := computePositionFromConfiguration iStateConfiguration }

/-- Loop of the constructor `State::State(const std::array<int, kNumTiles>&)`:
`n` iterations are left, the next index is `16 - n`. -/
def ofValuesLoop (iVectorValue : Fin 16 → Int) : Nat → Nat → Nat
  | 0, aData => aData
  | n + 1, aData =>
    let i := kNumTiles - (n + 1)
    ofValuesLoop iVectorValue n
      (aData ||| shl64 (toU64 (iVectorValue (Fin.ofNat i))) (i <<< 2))

/-- Constructor `State::State(const std::array<int, kNumTiles>&)`. -/
def State.ofValues (iVectorValue : Fin 16 → Int) : State :=
  State.ofConfiguration (ofValuesLoop iVectorValue kNumTiles 0)

/-- Function `State::generateSortedState`. -/
def State.generateSortedState : State := State.ofConfiguration 0x0fedcba987654321

/-- Function `State::getStateConfiguration`. -/
def State.getStateConfiguration (s : State) : Nat := s._data

/-- Function `State::getIndexSpace`. -/
def State.getIndexSpace (s : State) : Int := s._indexSpace

/-- Function `State::getTilesPositions`. -/
def State.getTilesPositions (s : State) : Nat := s._tilesPositions

/-- Function `State::getValueTileAt`. -/
def State.getValueTileAt (s : State) (iIndex : Nat) : Nat := (s._data >>> (iIndex <<< 2)) &&& 0xf

/-- Operator `State::operator==`: only the configurations are compared. -/
def State.eqState (s iOthState : State) : Bool := s._data == iOthState._data

/-- Loop of `State::isValid`: `n` iterations are left, the next index is
`16 - n`. -/
def isValidLoop (s : State) : Nat → Nat → Bool
  | 0, _ => true
  | n + 1, aValuesCheck =>
    let aValue := s.getValueTileAt (kNumTiles - (n + 1))
    if aValue > kNumTilesMinusOne then false
    else if (aValuesCheck >>> aValue) &&& 0x1 ≠ 0 then false
    else isValidLoop s n (aValuesCheck ||| shl64 0x1 aValue)

/-- Function `State::isValid`. -/
def State.isValid (s : State) : Bool := isValidLoop s kNumTiles 0

/-- Inner loop of `State::isSolveable`: `m` iterations are left, the next index
`j` is `16 - m`. -/
def inversionInnerLoop (s : State) (aTileI : Nat) : Nat → Int → Int
  | 0, aInversionCounter => aInversionCounter
  | m + 1, aInversionCounter =>
    let aTileJ := s.getValueTileAt (kNumTiles - (m + 1))
    inversionInnerLoop s aTileI m
      (if aTileJ ≠ kValueSpaceTile ∧ aTileJ < aTileI then aInversionCounter + 1
       else aInversionCounter)

/-- Outer loop of `State::isSolveable`: `n` iterations are left, the next index
`i` is `16 - n`; the inner loop runs over `j = i + 1 .. 15`. -/
def inversionOuterLoop (s : State) : Nat → Int → Int
  | 0, aInversionCounter => aInversionCounter
  | n + 1, aInversionCounter =>
    let i := kNumTiles - (n + 1)
    let aTileI := s.getValueTileAt i
    inversionOuterLoop s n
      (if aTileI ≠ kValueSpaceTile then inversionInnerLoop s aTileI n aInversionCounter
       else aInversionCounter + (1 + (i : Int) / kSize))

/-- Function `State::isSolveable`. -/
def State.isSolveable (s : State) : Bool :=
  let aInversionCounter := inversionOuterLoop s kNumTiles 0
  if aInversionCounter % 2 ≠ 0 then false else true

/-- Function `State::moveLeft`: `oState` is the previous content of the output
parameter. -/
def State.moveLeft (s oState : State) : Int × State :=
  if Int.tmod s._indexSpace kSize = 0 then (-1, oState)
  else
    let d0 := s._data
    let aPosTimes4 := s._indexSpace * 4
    let aPosMinusOneTimes4 := (s._indexSpace - 1) * 4
    let aSpace := (d0 >>> aPosTimes4.toNat) &&& 0xF
    let aTile := (d0 >>> aPosMinusOneTimes4.toNat) &&& 0xF
    let zeroBitTile := shl64 0xF aPosMinusOneTimes4.toNat
    let d1 := d0 &&& not64 zeroBitTile
    let d2 := d1 ||| shl64 aTile aPosTimes4.toNat
    let d3 := d2 ||| shl64 aSpace aPosMinusOneTimes4.toNat
    ((aTile : Int),
      { _data := d3
        _indexSpace := s._indexSpace - 1
        _tilesPositions := computePositionFromConfiguration d3 })

/-- Function `State::moveRight`. -/
def State.moveRight (s oState : State) : Int × State :=
  let aIndexSpacePlusOne := s._indexSpace + 1
  if Int.tmod aIndexSpacePlusOne kSize = 0 then (-1, oState)
  else
    let d0 := s._data
    let aPosTimes4 := s._indexSpace * 4
    let aPosPlusOneTimes4 := aIndexSpacePlusOne * 4
    let aSpace := (d0 >>> aPosTimes4.toNat) &&& 0xF
    let aTile := (d0 >>> aPosPlusOneTimes4.toNat) &&& 0xF
    let zeroBitTile := shl64 0xF aPosPlusOneTimes4.toNat
    let d1 := d0 &&& not64 zeroBitTile
    let d2 := d1 ||| shl64 aTile aPosTimes4.toNat
    let d3 := d2 ||| shl64 aSpace aPosPlusOneTimes4.toNat
    ((aTile : Int),
      { _data := d3
        _indexSpace := aIndexSpacePlusOne
        _tilesPositions := computePositionFromConfiguration d3 })

/-- Function `State::moveUp`. -/
def State.moveUp (s oState : State) : Int × State :=
  if s._indexSpace < kSize then (-1, oState)
  else
    let d0 := s._data
    let aPosTimes4 := s._indexSpace * 4
    let aPosMinusDimTimes4 := (s._indexSpace - kSize) * 4
    let aSpace := (d0 >>> aPosTimes4.toNat) &&& 0xF
    let aTile := (d0 >>> aPosMinusDimTimes4.toNat) &&& 0xF
    let zeroBitTile := shl64 0xF aPosMinusDimTimes4.toNat
    let d1 := d0 &&& not64 zeroBitTile
    let d2 := d1 ||| shl64 aTile aPosTimes4.toNat
    let d3 := d2 ||| shl64 aSpace aPosMinusDimTimes4.toNat
    ((aTile : Int),
      { _data := d3
        _indexSpace := s._indexSpace - kSize
        _tilesPositions := computePositionFromConfiguration d3 })

/-- Function `State::moveDown`. -/
def State.moveDown (s oState : State) : Int × State :=
  if s._indexSpace ≥ (kNumTiles : Int) - kSize then (-1, oState)
  else
    let d0 := s._data
    let aPosTimes4 := s._indexSpace * 4
    let aPosPlusDimTimes4 := (s._indexSpace + kSize) * 4
    let aSpace := (d0 >>> aPosTimes4.toNat) &&& 0xF
    let aTile := (d0 >>> aPosPlusDimTimes4.toNat) &&& 0xF
    let zeroBitTile := shl64 0xF aPosPlusDimTimes4.toNat
    let d1 := d0 &&& not64 zeroBitTile
    let d2 := d1 ||| shl64 aTile aPosTimes4.toNat
    let d3 := d2 ||| shl64 aSpace aPosPlusDimTimes4.toNat
    ((aTile : Int),
      { _data := d3
        _indexSpace := s._indexSpace + kSize
        _tilesPositions := computePositionFromConfiguration d3 })

/-- Exchange `std::swap(aValuesTiles[i], aValuesTiles[j])` of two array cells. -/
def swapValues (aValuesTiles : Fin 16 → Int) (i j : Fin 16) : Fin 16 → Int :=
  fun k => if k = i then aValuesTiles j else if k = j then aValuesTiles i else aValuesTiles k

/-- Function `State::generateValidRandState`, from the point where
`std::shuffle` has returned: `aValuesTiles` is the shuffled array (the random
engine `std::mt19937_64` and `std::shuffle` belong to the standard library). -/
def State.generateValidRandState (aValuesTiles : Fin 16 → Int) : State :=
  let aRndState := State.ofValues aValuesTiles
  if ¬ aRndState.isSolveable = true then
    if aValuesTiles 0 ≠ (kValueSpaceTile : Int) ∧ aValuesTiles 1 ≠ (kValueSpaceTile : Int) then
      State.ofValues (swapValues aValuesTiles 0 1)
    else
      State.ofValues (swapValues aValuesTiles 2 3)
  else aRndState

/-! ## SearchNode (SearchNode.hpp, SearchNode.cpp) -/

/-- Constant `SearchNode::kNoMask`. -/
def kNoMask : Nat := 0xFFFFFFFFFFFFFFFF

/-- Constant `SearchNode::kMaxPath`. -/
def kMaxPath : Nat := 80

/-- Enumeration `SearchNode::Direction`. -/
inductive Direction where
  | NONE
  | LEFT
  | RIGHT
  | DOWN
  | UP
  deriving DecidableEq

/-- The data members of `class SearchNode`. The array `_path2Here` of type
`std::array<char, kMaxPath>` is a list of `kMaxPath` characters. -/
structure SearchNode where
  _state : State
  _lastMove : Direction
  _cost2Here : Int
  _counterPath : Int
  _path2Here : List Char
  deriving DecidableEq

/-- Constructor `SearchNode::SearchNode(State)`; the path is value-initialised. -/
def SearchNode.ofState (iState : State) : SearchNode :=
  { _state := iState
    _lastMove := Direction.NONE
    _cost2Here := 0
    _counterPath := 0
    _path2Here := List.replicate kMaxPath (Char.ofNat 0) }

/-- Constructor `SearchNode::SearchNode(State, Direction, Cost_t, int)`: it
does not initialise the path, and `aPath` is the content of the array. -/
def SearchNode.ofFields (iState : State) (iLastMove : Direction) (iCost2Here : Int)
    (iCounterPath : Int) (aPath : List Char) : SearchNode :=
  { _state := iState
    _lastMove := iLastMove
    _cost2Here := iCost2Here
    _counterPath := iCounterPath
    _path2Here := aPath }

/-- Function `SearchNode::getState`. -/
def SearchNode.getState (n : SearchNode) : State := n._state

/-- Function `SearchNode::getLastMove`. -/
def SearchNode.getLastMove (n : SearchNode) : Direction := n._lastMove

/-- Function `SearchNode::getCost2Here`. -/
def SearchNode.getCost2Here (n : SearchNode) : Int := n._cost2Here

/-- Function `SearchNode::getCounterPath`. -/
def SearchNode.getCounterPath (n : SearchNode) : Int := n._counterPath

/-- Function `SearchNode::getPath2Here`. -/
def SearchNode.getPath2Here (n : SearchNode) : List Char := n._path2Here

/-- The assignment `_path2Here[_counterPath] = c`. An index outside
`0 .. kMaxPath - 1` is outside the array in the source, which gives such a
write no defined behaviour; here it leaves the list and the other members of
the node as they are. The search reads the path of a node only when the node
holds the solved state. -/
def writePath (aPath : List Char) (aCounterPath : Int) (c : Char) : List Char :=
  if 0 ≤ aCounterPath then aPath.set aCounterPath.toNat c else aPath

/-- The new value of `_cost2Here` in the four moves of `SearchNode`. -/
def costAfterMove (iMask : Nat) (aTileMoved : Int) (aCost2Here : Int) : Int :=
  if (iMask >>> (aTileMoved * 4).toNat) &&& 0x1 ≠ 0 then toInt8 (aCost2Here + 1) else aCost2Here

/-- Function `SearchNode::moveLeft`: `oSearchNode` is the previous content of
the output parameter. -/
def SearchNode.moveLeft (n oSearchNode : SearchNode) (iMask : Nat) : Int × SearchNode :=
  let r := n._state.moveLeft oSearchNode._state
  let aTileMoved := r.1
  if aTileMoved ≠ -1 then
    (aTileMoved,
      { _state := r.2
        _lastMove := Direction.LEFT
        _cost2Here := costAfterMove iMask aTileMoved n._cost2Here
        _counterPath := n._counterPath + 1
        _path2Here := writePath n._path2Here n._counterPath 'L' })
  else (aTileMoved, { oSearchNode with _state := r.2 })

/-- Function `SearchNode::moveRight`. -/
def SearchNode.moveRight (n oSearchNode : SearchNode) (iMask : Nat) : Int × SearchNode :=
  let r := n._state.moveRight oSearchNode._state
  let aTileMoved := r.1
  if aTileMoved ≠ -1 then
    (aTileMoved,
      { _state := r.2
        _lastMove := Direction.RIGHT
        _cost2Here := costAfterMove iMask aTileMoved n._cost2Here
        _counterPath := n._counterPath + 1
        _path2Here := writePath n._path2Here n._counterPath 'R' })
  else (aTileMoved, { oSearchNode with _state := r.2 })

/-- Function `SearchNode::moveDown`. -/
def SearchNode.moveDown (n oSearchNode : SearchNode) (iMask : Nat) : Int × SearchNode :=
  let r := n._state.moveDown oSearchNode._state
  let aTileMoved := r.1
  if aTileMoved ≠ -1 then
    (aTileMoved,
      { _state := r.2
        _lastMove := Direction.DOWN
        _cost2Here := costAfterMove iMask aTileMoved n._cost2Here
        _counterPath := n._counterPath + 1
        _path2Here := writePath n._path2Here n._counterPath 'D' })
  else (aTileMoved, { oSearchNode with _state := r.2 })

/-- Function `SearchNode::moveUp`. -/
def SearchNode.moveUp (n oSearchNode : SearchNode) (iMask : Nat) : Int × SearchNode :=
  let r := n._state.moveUp oSearchNode._state
  let aTileMoved := r.1
  if aTileMoved ≠ -1 then
    (aTileMoved,
      { _state := r.2
        _lastMove := Direction.UP
        _cost2Here := costAfterMove iMask aTileMoved n._cost2Here
        _counterPath := n._counterPath + 1
        _path2Here := writePath n._path2Here n._counterPath 'U' })
  else (aTileMoved, { oSearchNode with _state := r.2 })

/-! ## AlgorithmIDA (AlgorithmIDA.hpp) -/

/-- Constant `AlgorithmIDA::kTotalDepthLimit`. -/
def kTotalDepthLimit : Int := 80

/-- The data members of `class AlgorithmIDA`. The counter `_nodeExplored` is a
`long long`; it is an unbounded integer here. -/
structure AlgorithmIDA where
  _maxCurrentDepth : Int
  _nodeExplored : Int
  _solutionLengthPath : Int
  _solutionPath : List Char
  deriving DecidableEq

/-- Function `AlgorithmIDA::getCurrentMaxDepth`. -/
def AlgorithmIDA.getCurrentMaxDepth (a : AlgorithmIDA) : Int := a._maxCurrentDepth

/-- Function `AlgorithmIDA::getExploredNodes`. -/
def AlgorithmIDA.getExploredNodes (a : AlgorithmIDA) : Int := a._nodeExplored

/-- Function `AlgorithmIDA::getSolutionLength`. -/
def AlgorithmIDA.getSolutionLength (a : AlgorithmIDA) : Int := a._solutionLengthPath

/-- Function `AlgorithmIDA::getSolutionPath`. -/
def AlgorithmIDA.getSolutionPath (a : AlgorithmIDA) : List Char := a._solutionPath

/-- The constant `kFinalState` of `limitedDepthSearch`. -/
def kFinalState : State := State.generateSortedState

/-- The local `SearchNode aChildNode;` of `limitedDepthSearch` before its first
use: its content is indeterminate in the source and is never read. -/
def aChildNodeInit : SearchNode := SearchNode.ofState (State.ofConfiguration 0)

/-- The four conditional pushes of `limitedDepthSearch` for the node
`aCurrentNode`; the head of the list is the top of the stack. -/
def pushChildren (aCurrentNode : SearchNode) (aOpenList : List SearchNode) : List SearchNode :=
  let aLastMove := aCurrentNode.getLastMove
  let aChildNode := aChildNodeInit
  let st1 : List SearchNode × SearchNode :=
    if aLastMove ≠ Direction.RIGHT then
      let r := aCurrentNode.moveLeft aChildNode kNoMask
      if r.1 ≠ -1 then (r.2 :: aOpenList, r.2) else (aOpenList, r.2)
    else (aOpenList, aChildNode)
  let st2 : List SearchNode × SearchNode :=
    if aLastMove ≠ Direction.LEFT then
      let r := aCurrentNode.moveRight st1.2 kNoMask
      if r.1 ≠ -1 then (r.2 :: st1.1, r.2) else (st1.1, r.2)
    else st1
  let st3 : List SearchNode × SearchNode :=
    if aLastMove ≠ Direction.UP then
      let r := aCurrentNode.moveDown st2.2 kNoMask
      if r.1 ≠ -1 then (r.2 :: st2.1, r.2) else (st2.1, r.2)
    else st2
  let st4 : List SearchNode × SearchNode :=
    if aLastMove ≠ Direction.DOWN then
      let r := aCurrentNode.moveUp st3.2 kNoMask
      if r.1 ≠ -1 then (r.2 :: st3.1, r.2) else (st3.1, r.2)
    else st3
  st4.1

/-- The loop `while (!aOpenList.empty())` of `AlgorithmIDA::limitedDepthSearch`.
The first argument bounds the number of iterations; `none` means that the bound
was reached before the loop ended. -/
def limitedDepthSearchLoop (iHeuristicFn : State → Int) :
    Nat → AlgorithmIDA → List SearchNode → Option (Bool × AlgorithmIDA)
  | _, a, [] => some (false, a)
  | 0, _, _ :: _ => none
  | fuel + 1, a, aCurrentNode :: aOpenList =>
    let a1 := { a with _nodeExplored := a._nodeExplored + 1 }
    if aCurrentNode.getState.eqState kFinalState = true then
      some (true,
        { a1 with
          _solutionLengthPath := aCurrentNode.getCounterPath
          _solutionPath := aCurrentNode.getPath2Here })
    else
      let aHeuristicCost := iHeuristicFn aCurrentNode.getState
      let aCostHere := aCurrentNode.getCost2Here
      if aCostHere + aHeuristicCost ≤ a1._maxCurrentDepth then
        limitedDepthSearchLoop iHeuristicFn fuel a1 (pushChildren aCurrentNode aOpenList)
      else
        limitedDepthSearchLoop iHeuristicFn fuel a1 aOpenList

/-- Function `AlgorithmIDA::limitedDepthSearch`. -/
def AlgorithmIDA.limitedDepthSearch (fuel : Nat) (a : AlgorithmIDA) (iStartingState : State)
    (iHeuristicFn : State → Int) : Option (Bool × AlgorithmIDA) :=
  limitedDepthSearchLoop iHeuristicFn fuel a [SearchNode.ofState iStartingState]

/-- The loop of `AlgorithmIDA::findSolution`. The first argument bounds the
number of iterations, `fuel` bounds each call of `limitedDepthSearch`. -/
def findSolutionLoop (fuel : Nat) (iStartingState : State) (iHeuristicFn : State → Int) :
    Nat → AlgorithmIDA → Bool → Option (Bool × AlgorithmIDA)
  | n, a, aSolutionFound =>
    if a._maxCurrentDepth ≤ kTotalDepthLimit ∧ aSolutionFound = false then
      match n with
      | 0 => none
      | n + 1 =>
        match a.limitedDepthSearch fuel iStartingState iHeuristicFn with
        | none => none
        | some (aFound, a1) =>
          findSolutionLoop fuel iStartingState iHeuristicFn n
            (if aFound = false then { a1 with _maxCurrentDepth := a1._maxCurrentDepth + 2 } else a1)
            aFound
    else some (aSolutionFound, a)

/-- Function `AlgorithmIDA::findSolution`; the first component of the result is
`_solutionFound`, the elapsed time is left out. `none` means that `fuel` did not
suffice. -/
def AlgorithmIDA.findSolution (fuel : Nat) (a : AlgorithmIDA) (iStartingState : State)
    (iHeuristicFn : State → Int) : Option (Bool × AlgorithmIDA) :=
  findSolutionLoop fuel iStartingState iHeuristicFn fuel
    { a with
      _maxCurrentDepth := iHeuristicFn iStartingState
      _nodeExplored := 0
      _solutionLengthPath := 0 }
    false

/-! ## DistanceManhattan (DistanceManhattan.hpp, DistanceManhattan.cpp) -/

/-- Constant `DistanceManhattan::kFinalState`. -/
def DistanceManhattan.kFinalState : State := State.generateSortedState

/-- Loop of `DistanceManhattan::computeDistance`, from index `n - 1` down to
`0`; `aCost` has type `Cost_t`, narrowed at each assignment. -/
def computeDistanceLoop (iStateA iStateB : State) : Nat → Int → Int
  | 0, aCost => aCost
  | i + 1, aCost =>
    let aPosTimes4 := i <<< 2
    let aStateATile := (iStateA.getStateConfiguration >>> aPosTimes4) &&& 0xF
    let aStateBTile := (iStateB.getStateConfiguration >>> aPosTimes4) &&& 0xF
    computeDistanceLoop iStateA iStateB i
      (if aStateATile ≠ 0 ∧ aStateATile ≠ aStateBTile then
        let aStateAPosition : Int :=
          (((iStateA.getTilesPositions >>> (aStateATile <<< 2)) &&& 0xF : Nat) : Int)
        let aStateBPosition : Int :=
          (((iStateB.getTilesPositions >>> (aStateATile <<< 2)) &&& 0xF : Nat) : Int)
        let aStateAX := Int.tdiv aStateAPosition kSize
        let aStateBX := Int.tdiv aStateBPosition kSize
        let aStateAY := Int.tmod aStateAPosition kSize
        let aStateBY := Int.tmod aStateBPosition kSize
        let aValueX : Int := ((aStateAX - aStateBX).natAbs : Int)
        let aValueY : Int := ((aStateAY - aStateBY).natAbs : Int)
        toInt8 (aCost + (aValueX + aValueY))
      else aCost)

/-- Function `DistanceManhattan::computeDistance`. -/
def DistanceManhattan.computeDistance (iStateA iStateB : State) : Int :=
  computeDistanceLoop iStateA iStateB kNumTiles 0

/-- Function `DistanceManhattan::computeDistanceWithFinal`. -/
def DistanceManhattan.computeDistanceWithFinal (iState : State) : Int :=
  DistanceManhattan.computeDistance iState DistanceManhattan.kFinalState

/-! ## Replay of the solution path (Kpuzzle4.cpp) -/

/-- The replay of one symbol of the solution path, as in `printSolutionStates`
(Kpuzzle4.cpp); `none` when the symbol is not one of `L`, `R`, `U`, `D` or the
move is not legal. -/
def applySymbol (ioState : State) (c : Char) : Option State :=
  if c = 'L' then
    (if (ioState.moveLeft ioState).1 ≠ -1 then some (ioState.moveLeft ioState).2 else none)
  else if c = 'R' then
    (if (ioState.moveRight ioState).1 ≠ -1 then some (ioState.moveRight ioState).2 else none)
  else if c = 'U' then
    (if (ioState.moveUp ioState).1 ≠ -1 then some (ioState.moveUp ioState).2 else none)
  else if c = 'D' then
    (if (ioState.moveDown ioState).1 ≠ -1 then some (ioState.moveDown ioState).2 else none)
  else none

/-- The replay of a sequence of symbols from a state. -/
def replayPath : State → List Char → Option State
  | s, [] => some s
  | s, c :: rest =>
    match applySymbol s c with
    | none => none
    | some s1 => replayPath s1 rest

/-! ## PatternDB (PatternDB.hpp)

The template parameters `Masks...` are the list `sMaskPartitions`, passed to
every function. A function whose source indexes outside a cost table, or
writes outside the path of a node, has no defined result there and returns
`none`. -/

/-- Function `State::getHashWithMask`. -/
def State.getHashWithMask (s : State) (iMask : Nat) : Nat := s._tilesPositions &&& iMask

/-- Function `SearchNode::getHashWithMask`. -/
def SearchNode.getHashWithMask (n : SearchNode) (iMask : Nat) : Nat :=
  n._state.getHashWithMask iMask

/-- Narrowing of an integer to a 32-bit `int`. -/
def toInt32 (x : Int) : Int := (x + 2147483648) % 4294967296 - 2147483648

/-- The data member of `class PatternDB`: the cost tables, one per partition. -/
structure PatternDB where
  _costTablePartitions : List (List Int)
  deriving DecidableEq

/-- A default-constructed `PatternDB`: `kNumPartitions` empty tables. -/
def PatternDB.new (sMaskPartitions : List Nat) : PatternDB :=
  { _costTablePartitions := List.replicate sMaskPartitions.length [] }

/-- Constant `PatternDB::kNumPartitions`. -/
def kNumPartitions (sMaskPartitions : List Nat) : Int := (sMaskPartitions.length : Int)

/-- Function `PatternDB::getMaskPartitions`. -/
def getMaskPartitions (sMaskPartitions : List Nat) : List Nat := sMaskPartitions

/-- Function `PatternDB::getCostTable`. -/
def PatternDB.getCostTable (db : PatternDB) (iPartitionIndex : Nat) : List Int :=
  db._costTablePartitions.getD iPartitionIndex []

/-- Loop of `PatternDB::countEnabledField`: `n` iterations are left, the next
index is `16 - n`. -/
def countEnabledFieldLoop (iMask : Nat) : Nat → Int → Int
  | 0, aCounter => aCounter
  | n + 1, aCounter =>
    let i := kNumTiles - (n + 1)
    countEnabledFieldLoop iMask n (aCounter + (((iMask >>> (i <<< 2)) &&& 0x1 : Nat) : Int))

/-- Function `PatternDB::countEnabledField`. -/
def countEnabledField (iMask : Nat) : Int := countEnabledFieldLoop iMask kNumTiles 0

/-- Loop of `PatternDB::getPartitionIndexOfTileIndex` over the partitions that
are left, the first of them with index `i`. -/
def getPartitionIndexLoop (iTileValue : Int) : List Nat → Int → Int
  | [], _ => -1
  | aMask :: rest, i =>
    if (aMask >>> (iTileValue * 4).toNat) &&& 0xF ≠ 0 then i
    else getPartitionIndexLoop iTileValue rest (i + 1)

/-- Function `PatternDB::getPartitionIndexOfTileIndex`. -/
def getPartitionIndexOfTileIndex (sMaskPartitions : List Nat) (iTileValue : Int) : Int :=
  getPartitionIndexLoop iTileValue sMaskPartitions 0

/-- Loop of `PatternDB::computeIndicesOfIndex`, from tile `n` down to tile
`1`. -/
def computeIndicesLoop (sMaskPartitions : List Nat) : Nat → List Nat → Nat → Nat
  | 0, _, aIndicesOfIndex => aIndicesOfIndex
  | n + 1, aCounters, aIndicesOfIndex =>
    let i := n + 1
    let aPartitionIndex := getPartitionIndexOfTileIndex sMaskPartitions (i : Int)
    if aPartitionIndex ≠ -1 then
      computeIndicesLoop sMaskPartitions n
        (aCounters.set aPartitionIndex.toNat (aCounters.getD aPartitionIndex.toNat 0 + 1))
        (aIndicesOfIndex ||| shl64 (aCounters.getD aPartitionIndex.toNat 0) (i <<< 2))
    else computeIndicesLoop sMaskPartitions n aCounters aIndicesOfIndex

/-- Function `PatternDB::computeIndicesOfIndex`. -/
def computeIndicesOfIndex (sMaskPartitions : List Nat) : Nat :=
  computeIndicesLoop sMaskPartitions kNumTilesMinusOne
    (List.replicate sMaskPartitions.length 0) 0

/-- Constant `PatternDB::sIndicesForValues`. -/
def sIndicesForValues (sMaskPartitions : List Nat) : Nat :=
  computeIndicesOfIndex sMaskPartitions

/-- Inner loop of `PatternDB::checkPartitionsDisjoint`: mask `i` against the
masks `j > i`. -/
def checkDisjointInner (aMaskI : Nat) : List Nat → Bool
  | [] => true
  | aMaskJ :: rest => if aMaskI &&& aMaskJ ≠ 0xF then false else checkDisjointInner aMaskI rest

/-- Outer loop of `PatternDB::checkPartitionsDisjoint`, over the masks that are
left. -/
def checkDisjointOuter : List Nat → Bool
  | [] => true
  | aMaskI :: rest => if checkDisjointInner aMaskI rest = false then false else checkDisjointOuter rest

/-- Function `PatternDB::checkPartitionsDisjoint`. -/
def checkPartitionsDisjoint (sMaskPartitions : List Nat) : Bool :=
  checkDisjointOuter sMaskPartitions

/-- Loop of `PatternDB::checkAllPartitionsHasZero`. -/
def checkHasZeroLoop : List Nat → Bool
  | [] => true
  | aMask :: rest => if aMask &&& 0xF ≠ 0xF then false else checkHasZeroLoop rest

/-- Function `PatternDB::checkAllPartitionsHasZero`. -/
def checkAllPartitionsHasZero (sMaskPartitions : List Nat) : Bool :=
  checkHasZeroLoop sMaskPartitions

/-- Loop of `PatternDB::checkPartitionsAreTotal`, from tile `n` down to tile
`1`. -/
def checkTotalLoop (sMaskPartitions : List Nat) : Nat → Bool
  | 0 => true
  | n + 1 =>
    if getPartitionIndexOfTileIndex sMaskPartitions ((n + 1 : Nat) : Int) = -1 then false
    else checkTotalLoop sMaskPartitions n

/-- Function `PatternDB::checkPartitionsAreTotal`. -/
def checkPartitionsAreTotal (sMaskPartitions : List Nat) : Bool :=
  checkTotalLoop sMaskPartitions kNumTilesMinusOne

/-- Function `PatternDB::isValidPartitions`. -/
def isValidPartitions (sMaskPartitions : List Nat) : Bool :=
  checkPartitionsDisjoint sMaskPartitions && checkAllPartitionsHasZero sMaskPartitions &&
    checkPartitionsAreTotal sMaskPartitions

/-- Loop of `PatternDB::hash2index`, from tile `n` down to tile `1`. The `int`
`aIndex` is kept as its 32-bit pattern; the shifted value is reduced to 32
bits. -/
def hash2indexLoop (sMaskPartitions : List Nat) (iHash : Nat) : Nat → Nat → Nat
  | 0, aIndex => aIndex
  | n + 1, aIndex =>
    let i := n + 1
    let kHashValueOfI := (iHash >>> (i <<< 2)) &&& 0xF
    let kShift := (((sIndicesForValues sMaskPartitions) >>> (i <<< 2)) &&& 0xF) <<< 2
    hash2indexLoop sMaskPartitions iHash n (aIndex ||| ((kHashValueOfI <<< kShift) % 4294967296))

/-- Function `PatternDB::hash2index`. -/
def hash2index (sMaskPartitions : List Nat) (iHash : Nat) : Int :=
  toInt32 (hash2indexLoop sMaskPartitions iHash kNumTilesMinusOne 0 : Nat)

/-- Function `PatternDB::computeSizeOfTableCost`. -/
def computeSizeOfTableCost (iMask : Nat) : Nat :=
  let kSizeMask := countEnabledField iMask - 1
  shl64 1 (kSizeMask * 4).toNat

/-- The four conditional moves and pushes of `PatternDB::bfs` for the node
`aCurrentNode`: the queue, with the new nodes at its back, and the content of
`aChildNode`. -/
def bfsPushChildren (aCurrentNode : SearchNode) (kMaskPartition : Nat)
    (aOpenList : List SearchNode) (aChildNode : SearchNode) : List SearchNode × SearchNode :=
  let aLastMove := aCurrentNode.getLastMove
  let st1 : List SearchNode × SearchNode :=
    if aLastMove ≠ Direction.RIGHT then
      let r := aCurrentNode.moveLeft aChildNode kMaskPartition
      if r.1 ≠ -1 then (aOpenList ++ [r.2], r.2) else (aOpenList, r.2)
    else (aOpenList, aChildNode)
  let st2 : List SearchNode × SearchNode :=
    if aLastMove ≠ Direction.LEFT then
      let r := aCurrentNode.moveRight st1.2 kMaskPartition
      if r.1 ≠ -1 then (st1.1 ++ [r.2], r.2) else (st1.1, r.2)
    else st1
  let st3 : List SearchNode × SearchNode :=
    if aLastMove ≠ Direction.UP then
      let r := aCurrentNode.moveDown st2.2 kMaskPartition
      if r.1 ≠ -1 then (st2.1 ++ [r.2], r.2) else (st2.1, r.2)
    else st2
  let st4 : List SearchNode × SearchNode :=
    if aLastMove ≠ Direction.DOWN then
      let r := aCurrentNode.moveUp st3.2 kMaskPartition
      if r.1 ≠ -1 then (st3.1 ++ [r.2], r.2) else (st3.1, r.2)
    else st3
  st4

/-- The loop `while (!aOpenList.empty())` of `PatternDB::bfs`; the head of
`aOpenList` is the front of the queue and `aCloseList` lists the hashes of the
set. The first argument bounds the number of iterations. The result is `none`
when the bound is reached, when `aIndex` is not an index of the cost table, and
when a move of a node whose path counter is not an index of its path
succeeds. -/
def bfsLoop (sMaskPartitions : List Nat) (kMaskPartition : Nat) :
    Nat → List Int → List SearchNode → List Nat → SearchNode → Option (List Int)
  | _, oCostTable, [], _, _ => some oCostTable
  | 0, _, _ :: _, _, _ => none
  | fuel + 1, oCostTable, aCurrentNode :: aOpenList, aCloseList, aChildNode =>
    let aHash := aCurrentNode.getHashWithMask kMaskPartition
    if aCloseList.contains aHash = false then
      let aIndex := hash2index sMaskPartitions aHash
      let aCost := aCurrentNode.getCost2Here
      if 0 ≤ aIndex ∧ aIndex < (oCostTable.length : Int) then
        let r := bfsPushChildren aCurrentNode kMaskPartition aOpenList aChildNode
        if (0 ≤ aCurrentNode.getCounterPath ∧ aCurrentNode.getCounterPath < (kMaxPath : Int)) ∨
            r.1.length = aOpenList.length then
          bfsLoop sMaskPartitions kMaskPartition fuel
            (oCostTable.set aIndex.toNat (min aCost (oCostTable.getD aIndex.toNat 0)))
            r.1 (aHash :: aCloseList) r.2
        else none
      else none
    else bfsLoop sMaskPartitions kMaskPartition fuel oCostTable aOpenList aCloseList aChildNode

/-- The call `oCostTable->resize(n, v)`. -/
def resizeTable (oCostTable : List Int) (n : Nat) (v : Int) : List Int :=
  oCostTable.take n ++ List.replicate (n - oCostTable.length) v

/-- Function `PatternDB::bfs`; `oCostTable` is the previous content of the
table. The local `aChildNode` is indeterminate before its first use and never
read. -/
def bfs (fuel : Nat) (sMaskPartitions : List Nat) (iIndexPartition : Nat)
    (oCostTable : List Int) : Option (List Int) :=
  let kMaskPartition := sMaskPartitions.getD iIndexPartition 0
  bfsLoop sMaskPartitions kMaskPartition fuel
    (resizeTable oCostTable (computeSizeOfTableCost kMaskPartition) 127)
    [SearchNode.ofState State.generateSortedState] [] aChildNodeInit

/-- Loop of `PatternDB::generate`: `n` iterations are left, the next index is
`kNumPartitions - n`. -/
def generateLoop (fuel : Nat) (sMaskPartitions : List Nat) : Nat → PatternDB → Option PatternDB
  | 0, db => some db
  | n + 1, db =>
    let i := sMaskPartitions.length - (n + 1)
    match bfs fuel sMaskPartitions i (db._costTablePartitions.getD i []) with
    | none => none
    | some aTable =>
      generateLoop fuel sMaskPartitions n
        { _costTablePartitions := db._costTablePartitions.set i aTable }

/-- Function `PatternDB::generate`; `fuel` bounds the iterations of each call
of `bfs`. -/
def PatternDB.generate (fuel : Nat) (sMaskPartitions : List Nat) (db : PatternDB) :
    Option PatternDB :=
  generateLoop fuel sMaskPartitions sMaskPartitions.length db

/-- Loop of `PatternDB::getCost`: `n` iterations are left, the next index is
`kNumPartitions - n`; `aCost` has type `Cost_t`. The result is `none` when
`aIndex` is not an index of the cost table. -/
def getCostLoop (sMaskPartitions : List Nat) (db : PatternDB) (iState : State) :
    Nat → Int → Option Int
  | 0, aCost => some aCost
  | n + 1, aCost =>
    let i := sMaskPartitions.length - (n + 1)
    let aMaskedHash := iState.getHashWithMask (sMaskPartitions.getD i 0)
    let aIndex := hash2index sMaskPartitions aMaskedHash
    if 0 ≤ aIndex ∧ aIndex < ((db._costTablePartitions.getD i []).length : Int) then
      getCostLoop sMaskPartitions db iState n
        (toInt8 (aCost + (db._costTablePartitions.getD i []).getD aIndex.toNat 0))
    else none

/-- Function `PatternDB::getCost`. -/
def PatternDB.getCost (sMaskPartitions : List Nat) (db : PatternDB) (iState : State) :
    Option Int :=
  getCostLoop sMaskPartitions db iState sMaskPartitions.length 0

/-- Conversion of an integer to `std::uint8_t`. -/
def toU8 (x : Int) : Nat := (x % 256).toNat

/-- Conversion of an integer to the bit pattern of a 32-bit `int`. -/
def toU32 (x : Int) : Nat := (x % 4294967296).toNat

/-- The bytes of an integer object of `k` bytes with the unsigned value `x`, as
`write` copies them from memory: lowest address first, which holds the least
significant byte. -/
def objectBytes : Nat → Nat → List Nat
  | 0, _ => []
  | k + 1, x => x % 256 :: objectBytes k (x / 256)

/-- The unsigned value of an integer object with the given bytes, as `read`
copies them to memory. -/
def objectValue : List Nat → Nat
  | [] => 0
  | b :: rest => b + 256 * objectValue rest

/-- The call `oStream->write(p, k)` for an object with the bytes `bytes`; the
stream is the list of the bytes written so far. -/
def streamWrite (oStream : List Nat) (bytes : List Nat) : List Nat := oStream ++ bytes

/-- The call `iStream->read(p, k)`; the stream is the list of the bytes not yet
read. The result is the bytes extracted, whose number is `gcount()`, and the
rest of the stream. -/
def streamRead (iStream : List Nat) (k : Nat) : List Nat × List Nat :=
  (iStream.take k, iStream.drop k)

/-- First loop of `PatternDB::serialize`, over the masks that are left. -/
def serializeMasksLoop : List Nat → List Nat → List Nat
  | [], oStream => oStream
  | aMask :: rest, oStream => serializeMasksLoop rest (streamWrite oStream (objectBytes 8 aMask))

/-- Inner loop of `PatternDB::serialize`, over the entries of a table that are
left. -/
def serializeCostsLoop : List Int → List Nat → List Nat
  | [], oStream => oStream
  | c :: rest, oStream => serializeCostsLoop rest (streamWrite oStream (objectBytes 1 (toU8 c)))

/-- Second loop of `PatternDB::serialize`: `n` iterations are left, the next
index is `kNumPartitions - n`. -/
def serializeTablesLoop (sMaskPartitions : List Nat) (db : PatternDB) : Nat → List Nat → List Nat
  | 0, oStream => oStream
  | n + 1, oStream =>
    let i := sMaskPartitions.length - (n + 1)
    let aTable := db._costTablePartitions.getD i []
    let aSizeTable := aTable.length
    serializeTablesLoop sMaskPartitions db n
      (serializeCostsLoop aTable (streamWrite oStream (objectBytes 8 aSizeTable)))

/-- Function `PatternDB::serialize`: the content of the stream after the
call. -/
def PatternDB.serialize (sMaskPartitions : List Nat) (db : PatternDB) (oStream : List Nat) :
    List Nat :=
  let aNumPartitions := toInt32 (kNumPartitions sMaskPartitions)
  serializeTablesLoop sMaskPartitions db sMaskPartitions.length
    (serializeMasksLoop sMaskPartitions (streamWrite oStream (objectBytes 4 (toU32 aNumPartitions))))

/-- The outcome of `PatternDB::deserialize`: it returns, with the cost tables
loaded and the rest of the stream; or it throws `std::runtime_error(what)`; or
the call of `resize` throws. The content of the object after an exception is
not described. -/
inductive DeserializeResult where
  | loaded (db : PatternDB) (iStream : List Nat)
  | thrown (what : String)
  | resizeThrown
  deriving DecidableEq

/-- Second loop of `PatternDB::deserialize`, over the masks that are left. -/
def deserializeMasksLoop : List Nat → List Nat → Except String (List Nat)
  | [], iStream => Except.ok iStream
  | aModelMask :: rest, iStream =>
    let r := streamRead iStream 8
    if r.1.length ≠ 8 then Except.error "PatternDB File is not valid"
    else if objectValue r.1 ≠ aModelMask then
      Except.error "PatternDB File has different partitions model"
    else deserializeMasksLoop rest r.2

/-- Inner loop of `PatternDB::deserialize`: `n` entries are left to read; the
entries read and the rest of the stream. -/
def deserializeCostsLoop : Nat → List Nat → Except String (List Int × List Nat)
  | 0, iStream => Except.ok ([], iStream)
  | n + 1, iStream =>
    let r := streamRead iStream 1
    if r.1.length ≠ 1 then Except.error "PatternDB File is not valid"
    else
      match deserializeCostsLoop n r.2 with
      | Except.error e => Except.error e
      | Except.ok (aCosts, aRest) => Except.ok (toInt8 (objectValue r.1) :: aCosts, aRest)

/-- Third loop of `PatternDB::deserialize`: `n` iterations are left, the next
index is `kNumPartitions - n`. The call `_costTablePartitions[i].resize(aSizeTable)`
comes before the cost bytes are read; `aMaxSize` is the largest number of
entries for which it returns, which is `max_size()` of the vector, or less
where storage is short. For a larger number the call throws
(`std::length_error` above `max_size()`, `std::bad_alloc` below it). -/
def deserializeTablesLoop (aMaxSize : Nat) (sMaskPartitions : List Nat) :
    Nat → PatternDB → List Nat → DeserializeResult
  | 0, db, iStream => DeserializeResult.loaded db iStream
  | n + 1, db, iStream =>
    let i := sMaskPartitions.length - (n + 1)
    let r := streamRead iStream 8
    if r.1.length ≠ 8 then DeserializeResult.thrown "PatternDB File is not valid"
    else
      let aSizeTable := objectValue r.1
      if aSizeTable > aMaxSize then DeserializeResult.resizeThrown
      else
        match deserializeCostsLoop aSizeTable r.2 with
        | Except.error e => DeserializeResult.thrown e
        | Except.ok (aCosts, aRest) =>
          deserializeTablesLoop aMaxSize sMaskPartitions n
            { _costTablePartitions := db._costTablePartitions.set i aCosts } aRest

/-- Function `PatternDB::deserialize`; `aMaxSize` is the largest number of
entries that `resize` accepts (see `deserializeTablesLoop`). -/
def PatternDB.deserialize (aMaxSize : Nat) (sMaskPartitions : List Nat) (db : PatternDB)
    (iStream : List Nat) : DeserializeResult :=
  let r := streamRead iStream 4
  if r.1.length ≠ 4 then DeserializeResult.thrown "PatternDB File is not valid"
  else
    let aNumPartitions := toInt32 (objectValue r.1 : Nat)
    if aNumPartitions ≠ kNumPartitions sMaskPartitions then
      DeserializeResult.thrown "PatternDB File has different number of partitions"
    else
      match deserializeMasksLoop sMaskPartitions r.2 with
      | Except.error e => DeserializeResult.thrown e
      | Except.ok aRest =>
        deserializeTablesLoop aMaxSize sMaskPartitions sMaskPartitions.length db aRest

/-! ## Properties used in the statements -/

/-- The sixteen nibbles of a configuration are pairwise distinct. -/
def NibblesDistinct (c : Nat) : Prop :=
  ∀ i j, i < 16 → j < 16 → i ≠ j → nibbleAt c i ≠ nibbleAt c j

/-- Every value `0 .. 15` is the nibble of some position. -/
def NibblesCover (c : Nat) : Prop :=
  ∀ v, v < 16 → ∃ i, i < 16 ∧ nibbleAt c i = v

/-- The configuration written by the four moves of `State`, for a blank (or any
cell) at position `p` and the neighbouring cell at position `q`. -/
def moveData (d p q : Nat) : Nat :=
  ((d &&& not64 (shl64 0xF (4 * q))) ||| shl64 ((d >>> (4 * q)) &&& 0xF) (4 * p))
    ||| shl64 ((d >>> (4 * p)) &&& 0xF) (4 * q)

/-- A state as the public constructors build it from a valid configuration: a
64-bit layout with pairwise distinct nibbles and the two caches computed from
it. -/
def ValidState (s : State) : Prop :=
  s._data < 2 ^ 64 ∧ s.isValid = true ∧ s = State.ofConfiguration s._data

/-- Layout `d'` is layout `d` with the nibbles at positions `p` and `q`
exchanged and every other nibble unchanged. -/
def Exchanged (d d' p q : Nat) : Prop :=
  ∀ i, i < 16 → nibbleAt d' i =
    if i = p then nibbleAt d q else if i = q then nibbleAt d p else nibbleAt d i

/-- Number of inversions among the non-blank tiles read in position order: the
pairs of positions `i < j`, both holding a tile, with the tile at `j` smaller
than the tile at `i`. -/
def inversions (s : State) : Nat :=
  ((Finset.range 16 ×ˢ Finset.range 16).filter (fun p : Nat × Nat =>
    p.1 < p.2 ∧ s.getValueTileAt p.1 ≠ 0 ∧ s.getValueTileAt p.2 ≠ 0 ∧
      s.getValueTileAt p.2 < s.getValueTileAt p.1)).card

/-- Row index of the blank counted from the bottom row, starting at `1`. -/
def blankRowFromBottom (s : State) : Int := 4 - s.getIndexSpace / 4

/-- Contribution of position `i` to the counter of `isSolveable`, as a sum. -/
def solveTerm (s : State) (i : Nat) : Int :=
  if nibbleAt s._data i ≠ 0 then
    ∑ j in Finset.Ico (i + 1) 16,
      (if nibbleAt s._data j ≠ 0 ∧ nibbleAt s._data j < nibbleAt s._data i then (1 : Int) else 0)
  else 1 + (i : Int) / 4

/-- The array holds a permutation of the values `0 .. 15`: sixteen pairwise
distinct values, each in `0 .. 15`. -/
def IsPermutationArray (a : Fin 16 → Int) : Prop :=
  (∀ i, 0 ≤ a i ∧ a i < 16) ∧ Function.Injective a

/-- The counter of `isSolveable` over the list of tile values from position `i`
on. -/
def solveCountList : List Nat → Nat → Int
  | [], _ => 0
  | t :: rest, i =>
    (if t ≠ 0 then ((rest.filter (fun u => decide (u ≠ 0 ∧ u < t))).length : Int)
     else 1 + (i : Int) / 4) + solveCountList rest (i + 1)

/-! ## Move sequences and optimal solutions -/

/-- The symbol written to the path by the move of a direction. -/
def Direction.symbol : Direction → Char
  | Direction.NONE => Char.ofNat 0
  | Direction.LEFT => 'L'
  | Direction.RIGHT => 'R'
  | Direction.DOWN => 'D'
  | Direction.UP => 'U'

/-- The direction whose move undoes a move. -/
def Direction.opposite : Direction → Direction
  | Direction.NONE => Direction.NONE
  | Direction.LEFT => Direction.RIGHT
  | Direction.RIGHT => Direction.LEFT
  | Direction.DOWN => Direction.UP
  | Direction.UP => Direction.DOWN

/-- One legal move of the blank: the output state of `State::moveLeft`,
`moveRight`, `moveDown` or `moveUp`, and `none` when the call returns `-1`. -/
def applyDirection (s : State) : Direction → Option State
  | Direction.NONE => none
  | Direction.LEFT => if (s.moveLeft s).1 ≠ -1 then some (s.moveLeft s).2 else none
  | Direction.RIGHT => if (s.moveRight s).1 ≠ -1 then some (s.moveRight s).2 else none
  | Direction.DOWN => if (s.moveDown s).1 ≠ -1 then some (s.moveDown s).2 else none
  | Direction.UP => if (s.moveUp s).1 ≠ -1 then some (s.moveUp s).2 else none

/-- A sequence of legal moves from a state; `none` when some move is not
legal. -/
def applyMoves : State → List Direction → Option State
  | s, [] => some s
  | s, d :: rest =>
    match applyDirection s d with
    | none => none
    | some s1 => applyMoves s1 rest

/-- State `t` is reached from state `s` by `n` legal moves. -/
def Reach (n : Nat) (s t : State) : Prop :=
  ∃ ms : List Direction, ms.length = n ∧ applyMoves s ms = some t

/-- The minimal number of legal moves that take `s` to the solved state. -/
def IsMinimalSolutionLength (s : State) (n : Nat) : Prop :=
  Reach n s State.generateSortedState ∧ ∀ m, Reach m s State.generateSortedState → n ≤ m

/-- The heuristic has non-negative values. -/
def NonNegative (h : State → Int) : Prop := ∀ s, ValidState s → 0 ≤ h s

/-- The heuristic is admissible: its value at a state is at most the number of
moves of any sequence of legal moves from that state to the solved state. -/
def Admissible (h : State → Int) : Prop :=
  ∀ s, ValidState s → ∀ m, Reach m s State.generateSortedState → h s ≤ (m : Int)

/-- The node pushed by the move of direction `d` from node `n`, with output
state `s1` and the mask `kNoMask`. -/
def childNode (n : SearchNode) (d : Direction) (s1 : State) : SearchNode :=
  { _state := s1
    _lastMove := d
    _cost2Here := toInt8 (n._cost2Here + 1)
    _counterPath := n._counterPath + 1
    _path2Here := writePath n._path2Here n._counterPath d.symbol }

/-- Node `c` is pushed when node `n` is expanded. -/
def IsChild (n c : SearchNode) : Prop :=
  ∃ d s1, n._lastMove ≠ d.opposite ∧ applyDirection n._state d = some s1 ∧ c = childNode n d s1

/-- The node pushed for direction `d` when `n` is expanded, if any. -/
def optChild (n : SearchNode) (d : Direction) : List SearchNode :=
  if n._lastMove ≠ d.opposite then
    match applyDirection n._state d with
    | some s1 => [childNode n d s1]
    | none => []
  else []

/-- Node `n` leads to the solved state inside one call of `limitedDepthSearch`
with bound `bound`: it holds the solved state, or it is expanded and one of the
nodes pushed for it leads to the solved state. -/
inductive Good (h : State → Int) (bound : Int) : SearchNode → Prop
  | goal (n : SearchNode) : n._state.eqState kFinalState = true → Good h bound n
  | step (n c : SearchNode) : n._state.eqState kFinalState = false →
      n._cost2Here + h n._state ≤ bound → IsChild n c → Good h bound c → Good h bound n

/-- The cell that the blank at position `p` reaches by a move of direction `d`,
if the move is legal. -/
def target (p : Nat) : Direction → Option Nat
  | Direction.NONE => none
  | Direction.LEFT => if p % 4 = 0 then none else some (p - 1)
  | Direction.RIGHT => if (p + 1) % 4 = 0 then none else some (p + 1)
  | Direction.DOWN => if p ≥ 12 then none else some (p + 4)
  | Direction.UP => if p < 4 then none else some (p - 4)

/-- The state written by a move that takes the blank from `p` to `q`. -/
def movedState (s : State) (p q : Nat) : State :=
  { _data := moveData s._data p q
    _indexSpace := (q : Int)
    _tilesPositions := computePositionFromConfiguration (moveData s._data p q) }

/-- What the search keeps true of every node on its stack: the state is valid
and is reached from the start state by a sequence of legal moves whose length is
the path counter and whose symbols are the first entries of the path. -/
def NodeInv (start : State) (n : SearchNode) : Prop :=
  ValidState n._state ∧ ∃ ms : List Direction,
    applyMoves start ms = some n._state ∧ n._counterPath = (ms.length : Int) ∧
    n._path2Here.length = kMaxPath ∧
    (ms.length ≤ kMaxPath → n._path2Here.take ms.length = ms.map Direction.symbol)

/-- An `AlgorithmIDA` object before its first search. -/
def freshAlgorithm : AlgorithmIDA :=
  { _maxCurrentDepth := 0
    _nodeExplored := 0
    _solutionLengthPath := 0
    _solutionPath := List.replicate kMaxPath (Char.ofNat 0) }

/-- The heuristic that returns `0` on every state. -/
def zeroHeuristic : State → Int := fun _ => 0

/-- The state two moves from the solved state used by the unit test
`AlgorithmIDA.TwoSteps`: the solved state after `moveLeft` and `moveUp`. -/
def twoStepsState : State := State.ofConfiguration 0xfbedc0a987654321

/-- Colour of the cell of the blank on the chessboard colouring of the board. -/
def blankParity (s : State) : Nat :=
  (s._indexSpace.toNat / 4 + s._indexSpace.toNat % 4) % 2

/-- All states reached from `s` by exactly `m` legal moves. -/
def statesAfter : Nat → State → List State
  | 0, s => [s]
  | m + 1, s =>
    ([Direction.LEFT, Direction.RIGHT, Direction.DOWN, Direction.UP].filterMap
      (applyDirection s)).flatMap (statesAfter m)

/-- Contribution of position `i` to `computeDistance`. -/
def mdTerm (iStateA iStateB : State) (i : Nat) : Int :=
  if nibbleAt iStateA._data i ≠ 0 ∧ nibbleAt iStateA._data i ≠ nibbleAt iStateB._data i then
    ((((nibbleAt iStateA._tilesPositions (nibbleAt iStateA._data i) : Nat) : Int) / 4 -
      ((nibbleAt iStateB._tilesPositions (nibbleAt iStateA._data i) : Nat) : Int) / 4).natAbs
        : Int) +
    ((((nibbleAt iStateA._tilesPositions (nibbleAt iStateA._data i) : Nat) : Int) % 4 -
      ((nibbleAt iStateB._tilesPositions (nibbleAt iStateA._data i) : Nat) : Int) % 4).natAbs
        : Int)
  else 0

/-- Position of tile `t` in the solved state. -/
def goalPosition (t : Nat) : Nat := nibbleAt State.generateSortedState._tilesPositions t

/-- Distance on the board between cell `i` and the cell of tile `t` in the
solved state; `0` for the blank. -/
def cellDistance (i t : Nat) : Int :=
  if t ≠ 0 then
    ((((i : Int) / 4 - (goalPosition t : Int) / 4).natAbs : Int) +
      (((i : Int) % 4 - (goalPosition t : Int) % 4).natAbs : Int))
  else 0

/-- A start state five moves from the solved state: the solved state after the
moves left, up, right, down, left of the blank. -/
def fiveMovesState : State := State.ofConfiguration 0xb0edfca987654321

/-- A heuristic that is `4` on the state four moves from the solved state that
lies on the shortest solution of `fiveMovesState`, and `0` elsewhere. -/
def sparseHeuristic : State → Int :=
  fun s => if s._data = 0x0bedfca987654321 then 4 else 0

/-! ## Nodes built by the moves of SearchNode -/

/-- What a successful move of node `n` with mask `m` in direction `d`, whose
symbol is `c`, is expected to return in `r` (the returned tile and the output
node): the tile `t` of the legal state move, the moved state, the direction as
last move, the counter of the path increased by one, the path of `n` with `c` at
index `n.getCounterPath` and nothing else changed, and the cost of `n`
increased by one exactly when bit `4 * t` of the mask is set. -/
def MoveAccounting (n : SearchNode) (m : Nat) (d : Direction) (c : Char)
    (r : Int × SearchNode) : Prop :=
  ∃ t : Nat, 1 ≤ t ∧ t ≤ 15 ∧ r.1 = (t : Int) ∧
    applyDirection n.getState d = some r.2.getState ∧
    r.2.getLastMove = d ∧
    r.2.getCounterPath = n.getCounterPath + 1 ∧
    r.2.getPath2Here.length = n.getPath2Here.length ∧
    r.2.getPath2Here[n.getCounterPath.toNat]? = some c ∧
    (∀ i : Nat, i ≠ n.getCounterPath.toNat → r.2.getPath2Here[i]? = n.getPath2Here[i]?) ∧
    r.2.getCost2Here = if m.testBit (4 * t) = true then n.getCost2Here + 1 else n.getCost2Here

/-- Node `n` is derived from the initial node of `start` with the all-ones
mask: it is `SearchNode(start)`, or the output of a successful move, called with
`kNoMask`, of a derived node whose path has room for one more symbol. -/
inductive DerivedNode (start : State) : SearchNode → Prop
  | initial : DerivedNode start (SearchNode.ofState start)
  | left (n o : SearchNode) : DerivedNode start n → n.getCounterPath < (kMaxPath : Int) →
      (n.moveLeft o kNoMask).1 ≠ -1 → DerivedNode start (n.moveLeft o kNoMask).2
  | right (n o : SearchNode) : DerivedNode start n → n.getCounterPath < (kMaxPath : Int) →
      (n.moveRight o kNoMask).1 ≠ -1 → DerivedNode start (n.moveRight o kNoMask).2
  | down (n o : SearchNode) : DerivedNode start n → n.getCounterPath < (kMaxPath : Int) →
      (n.moveDown o kNoMask).1 ≠ -1 → DerivedNode start (n.moveDown o kNoMask).2
  | up (n o : SearchNode) : DerivedNode start n → n.getCounterPath < (kMaxPath : Int) →
      (n.moveUp o kNoMask).1 ≠ -1 → DerivedNode start (n.moveUp o kNoMask).2

/-! ## Trace of a run of the search -/

/-- The nodes taken from the open list by the loop of
`AlgorithmIDA::limitedDepthSearch`, in the order of the iterations: the loop
`limitedDepthSearchLoop` with the popped node recorded at each iteration. -/
def limitedDepthSearchLoopTrace (iHeuristicFn : State → Int) :
    Nat → AlgorithmIDA → List SearchNode → List SearchNode
  | _, _, [] => []
  | 0, _, _ :: _ => []
  | fuel + 1, a, aCurrentNode :: aOpenList =>
    let a1 := { a with _nodeExplored := a._nodeExplored + 1 }
    aCurrentNode ::
      (if aCurrentNode.getState.eqState kFinalState = true then []
      else
        let aHeuristicCost := iHeuristicFn aCurrentNode.getState
        let aCostHere := aCurrentNode.getCost2Here
        if aCostHere + aHeuristicCost ≤ a1._maxCurrentDepth then
          limitedDepthSearchLoopTrace iHeuristicFn fuel a1 (pushChildren aCurrentNode aOpenList)
        else
          limitedDepthSearchLoopTrace iHeuristicFn fuel a1 aOpenList)

/-- The nodes taken from the open list by one call of
`AlgorithmIDA::limitedDepthSearch`. -/
def AlgorithmIDA.limitedDepthSearchTrace (fuel : Nat) (a : AlgorithmIDA) (iStartingState : State)
    (iHeuristicFn : State → Int) : List SearchNode :=
  limitedDepthSearchLoopTrace iHeuristicFn fuel a [SearchNode.ofState iStartingState]

/-- The calls of `limitedDepthSearch` made by the loop of
`AlgorithmIDA::findSolution`: for each call, the value of `_maxCurrentDepth`
and the nodes taken from the open list. -/
def findSolutionLoopTrace (fuel : Nat) (iStartingState : State) (iHeuristicFn : State → Int) :
    Nat → AlgorithmIDA → Bool → List (Int × List SearchNode)
  | n, a, aSolutionFound =>
    if a._maxCurrentDepth ≤ kTotalDepthLimit ∧ aSolutionFound = false then
      match n with
      | 0 => []
      | n + 1 =>
        (a._maxCurrentDepth, a.limitedDepthSearchTrace fuel iStartingState iHeuristicFn) ::
          (match a.limitedDepthSearch fuel iStartingState iHeuristicFn with
          | none => []
          | some (aFound, a1) =>
            findSolutionLoopTrace fuel iStartingState iHeuristicFn n
              (if aFound = false then { a1 with _maxCurrentDepth := a1._maxCurrentDepth + 2 }
                else a1)
              aFound)
    else []

/-- The calls of `limitedDepthSearch` made by `AlgorithmIDA::findSolution`. -/
def AlgorithmIDA.findSolutionTrace (fuel : Nat) (a : AlgorithmIDA) (iStartingState : State)
    (iHeuristicFn : State → Int) : List (Int × List SearchNode) :=
  findSolutionLoopTrace fuel iStartingState iHeuristicFn fuel
    { a with
      _maxCurrentDepth := iHeuristicFn iStartingState
      _nodeExplored := 0
      _solutionLengthPath := 0 }
    false

/-- The arguments of the calls of the heuristic made by
`AlgorithmIDA::findSolution`, in order: the start state for the first bound,
then, in `limitedDepthSearch`, the state of each node taken from the open list
that is not the solved state. -/
def AlgorithmIDA.heuristicCalls (fuel : Nat) (a : AlgorithmIDA) (iStartingState : State)
    (iHeuristicFn : State → Int) : List State :=
  iStartingState ::
    (a.findSolutionTrace fuel iStartingState iHeuristicFn).flatMap (fun p =>
      (p.2.filter (fun n => !n.getState.eqState kFinalState)).map SearchNode.getState)

/-- The nodes expanded by `AlgorithmIDA::findSolution`, in order: the nodes
taken from the open list that are not the solved state and whose cost plus
heuristic value is at most the bound of the call, for which the four conditional
moves and pushes are executed. -/
def AlgorithmIDA.expandedNodes (fuel : Nat) (a : AlgorithmIDA) (iStartingState : State)
    (iHeuristicFn : State → Int) : List SearchNode :=
  (a.findSolutionTrace fuel iStartingState iHeuristicFn).flatMap (fun p =>
    p.2.filter (fun n => !n.getState.eqState kFinalState &&
      decide (n.getCost2Here + iHeuristicFn n.getState ≤ p.1)))

/-- The start state of the unit test `AlgorithmIDA.ImpossibleCase`: the solved
state with tiles 14 and 15 exchanged. -/
def kUnsolvableState : State := State.ofConfiguration 0x0efdcba987654321

/-- The layouts of the twelve states that the blank of `kUnsolvableState`
passes when it circles the 2 x 2 block of the cells 10, 11, 14 and 15. -/
def cornerCycle : List Nat :=
  [0x0efdcba987654321, 0xe0fdcba987654321, 0xebfdc0a987654321, 0xebfd0ca987654321,
   0x0bfdeca987654321, 0xb0fdeca987654321, 0xbcfde0a987654321, 0xbcfd0ea987654321,
   0x0cfdbea987654321, 0xc0fdbea987654321, 0xcefdb0a987654321, 0xcefd0ba987654321]

/-- A heuristic with non-negative values: `0` on the states of `cornerCycle`
and `80` on every other state. -/
def cornerHeuristic : State → Int :=
  fun s => if s.getStateConfiguration ∈ cornerCycle then 0 else 80

/-! ## Reference definition of the Manhattan distance -/

/-- Scan of the layout for the position of the tile of value `v`, from index
`n - 1` down to `0`. -/
def positionOfTileLoop (s : State) (v : Nat) : Nat → Nat
  | 0 => 0
  | i + 1 => if s.getValueTileAt i = v then i else positionOfTileLoop s v i

/-- Position of the tile of value `v` on the board of `s`. -/
def positionOfTile (s : State) (v : Nat) : Nat := positionOfTileLoop s v 16

/-- Distance between two cells of the board: `|rowP - rowQ| + |colP - colQ|`
with `row = position / 4` and `col = position % 4`. -/
def boardDistance (p q : Nat) : Int :=
  ((((p : Int) / 4 - (q : Int) / 4).natAbs : Int) + (((p : Int) % 4 - (q : Int) % 4).natAbs : Int))

/-- Reference Manhattan distance: the sum, over the fifteen non-blank tile
values, of the distance between the positions of the tile in the two states. -/
def manhattanReference (A B : State) : Int :=
  ∑ v in Finset.Icc 1 15, boardDistance (positionOfTile A v) (positionOfTile B v)


/-! ## Partition masks -/

/-- A 64-bit mask whose 16 nibbles are each `0x0` or `0xF`. -/
def NibbleMask (m : Nat) : Prop :=
  m < 2 ^ 64 ∧ ∀ i, i < 16 → nibbleAt m i = 0 ∨ nibbleAt m i = 0xF

/-- Mask `m` selects nibble `v`. -/
def Selects (m v : Nat) : Prop := nibbleAt m v = 0xF

/-! ## The serialised layout -/

/-- The record of a cost table in the serialised layout: the number of entries
as an 8-byte unsigned integer, then one byte per entry. -/
def tableRecord (t : List Int) : List Nat := objectBytes 8 t.length ++ t.map toU8

/-- The serialised layout of a partition model and its cost tables: the
partition count as a 4-byte integer, the masks as 8-byte unsigned integers in
partition order, then the record of each table in partition order. -/
def serializedLayout (sMaskPartitions : List Nat) (tables : List (List Int)) : List Nat :=
  objectBytes 4 (toU32 (sMaskPartitions.length : Int)) ++
    (sMaskPartitions.flatMap (objectBytes 8) ++ tables.flatMap tableRecord)

/-- The cost tables of a `PatternDB` object of the model: one table per
partition, fewer than `2 ^ 64` entries per table, each entry a value of the
8-bit type `Cost_t`; the partition count is an `int` and the masks are 64-bit
values. -/
def WellTyped (sMaskPartitions : List Nat) (db : PatternDB) : Prop :=
  sMaskPartitions.length < 2 ^ 31 ∧ (∀ m ∈ sMaskPartitions, m < 2 ^ 64) ∧
    db._costTablePartitions.length = sMaskPartitions.length ∧
    ∀ t ∈ db._costTablePartitions, t.length < 2 ^ 64 ∧ ∀ c ∈ t, -128 ≤ c ∧ c ≤ 127

/-- The index at which `bfs` and `getCost` look up state `s` in the cost table
of partition `i`: `hash2index(s.getHashWithMask(sMaskPartitions[i]))`. -/
def entryIndex (sMaskPartitions : List Nat) (i : Nat) (s : State) : Int :=
  hash2index sMaskPartitions (s.getHashWithMask (sMaskPartitions.getD i 0))

/-- The entry of state `s` in the cost table of partition `i`, when the index
lies inside the table. -/
def PatternDB.entryOf (sMaskPartitions : List Nat) (db : PatternDB) (i : Nat) (s : State) :
    Option Int :=
  if 0 ≤ entryIndex sMaskPartitions i s then
    (db.getCostTable i)[(entryIndex sMaskPartitions i s).toNat]?
  else none

/-! ## A second form of the loop of `bfs`, for evaluation

The loop of `bfs` is evaluated below on concrete partition models. The form
here takes the same steps on the fields of the nodes that `bfs` reads: the
queue is kept as two lists, the set of closed hashes as the set of bits of a
number, the cost table as the bytes of a number, the configuration and the
tile positions of a child are derived from those of its parent, and the index
of a hash is computed from the tiles of the partition only. It is written
with the functions of `Nat` and with case analysis on numbers, which take few
steps to evaluate. It gives up (`none`) where `bfs` does and also when a cost
reaches 127. The theorem `bfs_of_fastBfs` states that a table returned by this
form is the table returned by `bfs`. -/

/-- The value `f x`, computed after `x`. -/
def forceNat {α : Type} (x : Nat) (f : Nat → α) : α :=
  @Nat.casesOn (fun _ => α) x (f Nat.zero) (fun k => f (Nat.succ k))

/-- The value `a` if `c` is zero, else `b`. -/
def ifZero {α : Type} (c : Nat) (a b : α) : α :=
  @Nat.casesOn (fun _ => α) c a (fun _ => b)

/-- The code of a direction in a `FastNode`. -/
def Direction.code : Direction → Nat
  | Direction.NONE => 0
  | Direction.LEFT => 1
  | Direction.RIGHT => 2
  | Direction.DOWN => 3
  | Direction.UP => 4

/-- The fields of a `SearchNode` that `bfs` reads, as natural numbers:
`_data`, `_tilesPositions`, `_indexSpace`, the code of `_lastMove`,
`_cost2Here`, `_counterPath`. -/
structure FastNode where
  data : Nat
  tiles : Nat
  space : Nat
  last : Nat
  cost : Nat
  counter : Nat

/-- The value `f c`, computed after the fields of `c`. -/
def forceNode {α : Type} (c : FastNode) (f : FastNode → α) : α :=
  @FastNode.casesOn (fun _ => α) c fun a1 a2 a3 a4 a5 a6 =>
    forceNat a1 fun b1 => forceNat a2 fun b2 => forceNat a3 fun b3 => forceNat a4 fun b4 =>
    forceNat a5 fun b5 => forceNat a6 fun b6 =>
    f { data := b1, tiles := b2, space := b3, last := b4, cost := b5, counter := b6 }

/-- The node written by the legal move with code `d` of node `m`, whose blank
goes to cell `q`. -/
def fastChild (kMaskPartition : Nat) (m : FastNode) (d : Nat) (q : Nat) : FastNode :=
  { data := Nat.xor m.data
      (Nat.lor
        (Nat.shiftLeft (Nat.land (Nat.shiftRight m.data (Nat.shiftLeft q 2)) 15)
          (Nat.shiftLeft q 2))
        (Nat.shiftLeft (Nat.land (Nat.shiftRight m.data (Nat.shiftLeft q 2)) 15)
          (Nat.shiftLeft m.space 2)))
    tiles := Nat.xor m.tiles
      (Nat.lor (Nat.xor m.space q)
        (Nat.shiftLeft (Nat.xor m.space q)
          (Nat.shiftLeft (Nat.land (Nat.shiftRight m.data (Nat.shiftLeft q 2)) 15) 2)))
    space := q
    last := d
    cost := Nat.add m.cost
      (Nat.land
        (Nat.shiftRight kMaskPartition
          (Nat.shiftLeft (Nat.land (Nat.shiftRight m.data (Nat.shiftLeft q 2)) 15) 2)) 1)
    counter := Nat.succ m.counter }

/-- The value of `f` at the queue after the push of `child`, made unless `c`
is zero. -/
def fastPush {α : Type} (c : Nat) (child : FastNode) (back : List FastNode)
    (f : List FastNode → α) : α :=
  ifZero c (f back) (forceNode child fun x => f (x :: back))

/-- The value of `f` at the queue after the pushes of `bfs` for node `m`; the
queue lists the last pushed node first. A push is made unless the product of
its line is zero: the first factor is zero when the last move is the opposite
one, the second when the blank is on the border. -/
def fastChildren {α : Type} (kMaskPartition : Nat) (m : FastNode) (back : List FastNode)
    (f : List FastNode → α) : α :=
  fastPush (Nat.mul (Nat.add (Nat.sub m.last 2) (Nat.sub 2 m.last)) (Nat.mod m.space 4))
    (fastChild kMaskPartition m 1 (Nat.pred m.space)) back fun b1 =>
  fastPush
    (Nat.mul (Nat.add (Nat.sub m.last 1) (Nat.sub 1 m.last)) (Nat.mod (Nat.succ m.space) 4))
    (fastChild kMaskPartition m 2 (Nat.succ m.space)) b1 fun b2 =>
  fastPush (Nat.mul (Nat.add (Nat.sub m.last 4) (Nat.sub 4 m.last)) (Nat.sub 12 m.space))
    (fastChild kMaskPartition m 3 (Nat.add m.space 4)) b2 fun b3 =>
  fastPush (Nat.mul (Nat.add (Nat.sub m.last 3) (Nat.sub 3 m.last)) (Nat.sub m.space 3))
    (fastChild kMaskPartition m 4 (Nat.sub m.space 4)) b3 f

/-- Loop of `hash2index` over the tiles of the list, with the constant
`sIndicesForValues` passed as `kIndices`. -/
def packIndex (kIndices : Nat) (iHash : Nat) : List Nat → Nat → Nat
  | [], aIndex => aIndex
  | i :: rest, aIndex =>
    packIndex kIndices iHash rest
      (Nat.lor aIndex
        (Nat.mod
          (Nat.shiftLeft (Nat.land (Nat.shiftRight iHash (Nat.shiftLeft i 2)) 15)
            (Nat.shiftLeft (Nat.land (Nat.shiftRight kIndices (Nat.shiftLeft i 2)) 15) 2))
          4294967296))

/-- Entry `i` of a cost table kept as the bytes of `t`. -/
def byteAt (t i : Nat) : Nat := Nat.land (Nat.shiftRight t (Nat.shiftLeft i 3)) 255

/-- The table after the assignment `table[i] = std::min(c, table[i])`. -/
def fastUpdate (t i c : Nat) : Nat :=
  Nat.xor t
    (Nat.shiftLeft
      (Nat.xor (byteAt t i) (Nat.sub (byteAt t i) (Nat.sub (byteAt t i) c)))
      (Nat.shiftLeft i 3))

/-- A table of `n` entries 127. -/
def fastTable : Nat → Nat
  | 0 => 0
  | n + 1 => Nat.add 127 (Nat.mul 256 (fastTable n))

/-- The first `n` entries of the table `t`, in front of `acc`. -/
def unpackTable (t : Nat) : Nat → List Int → List Int
  | 0, acc => acc
  | n + 1, acc => unpackTable t n (Int.ofNat (byteAt t n) :: acc)

/-- One iteration of the second form of the loop of `bfs`, for the node `m`
taken from the queue; `f` is applied to the new table, the new back of the
queue and the new set of closed keys. The table has `len` entries and `moved`
lists the tiles of the partition without the blank. The step gives up unless
the index is inside the table and is an `int`, the path counter is below
`kMaxPath`, and the cost is below 127. -/
def fastStep {α : Type} (kIndices kMaskPartition : Nat) (moved : List Nat) (len : Nat)
    (m : FastNode) (t : Nat) (back : List FastNode) (bits : Nat)
    (f : Nat → List FastNode → Nat → Option α) : Option α :=
  forceNat (Nat.land m.tiles kMaskPartition) fun aHash =>
  forceNat (packIndex kIndices aHash moved 0) fun aIndex =>
  forceNat (Nat.add (Nat.shiftLeft aIndex 4) (Nat.land aHash 15)) fun key =>
  ifZero (Nat.land (Nat.shiftRight bits key) 1)
    (ifZero
      (Nat.mul (Nat.sub len aIndex)
        (Nat.mul (Nat.sub 2147483648 aIndex)
          (Nat.mul (Nat.sub 80 m.counter) (Nat.sub 127 m.cost))))
      none
      (forceNat (Nat.lor bits (Nat.shiftLeft 1 key)) fun bits1 =>
        forceNat (fastUpdate t aIndex m.cost) fun t1 =>
        fastChildren kMaskPartition m back fun back1 => f t1 back1 bits1))
    (f t back bits)

/-- The second form of the loop of `bfs`: the queue is `front` followed by
`back` reversed. -/
def fastLoop (kIndices kMaskPartition : Nat) (moved : List Nat) (len : Nat) :
    Nat → Nat → List FastNode → List FastNode → Nat → Option (List Int)
  | 0, t, front, back, _ =>
    match front, back with
    | [], [] => some (unpackTable t len [])
    | _, _ => none
  | fuel + 1, t, front, back, bits =>
    match front with
    | m :: rest =>
      fastStep kIndices kMaskPartition moved len m t back bits
        (fun t1 back1 bits1 => fastLoop kIndices kMaskPartition moved len fuel t1 rest back1 bits1)
    | [] =>
      match back with
      | [] => some (unpackTable t len [])
      | _ :: _ => fastLoop kIndices kMaskPartition moved len fuel t back.reverse [] bits

/-- The fields of the node `SearchNode(State::generateSortedState())`. -/
def fastStart : FastNode :=
  { data := State.generateSortedState._data
    tiles := State.generateSortedState._tilesPositions
    space := State.generateSortedState._indexSpace.toNat
    last := 0
    cost := 0
    counter := 0 }

/-- The second form of `bfs` on an empty table. -/
def fastBfs (fuel : Nat) (kIndices kMaskPartition : Nat) (moved : List Nat) :
    Option (List Int) :=
  forceNat (computeSizeOfTableCost kMaskPartition) fun len =>
  forceNat (fastTable len) fun t =>
  forceNode fastStart fun m =>
  fastLoop kIndices kMaskPartition moved len fuel t [m] [] 0

/-- Node `n` of the queue of `bfs` and node `m` of the second form hold the
same fields, and the state of `n` is valid. -/
def NodeRel (n : SearchNode) (m : FastNode) : Prop :=
  ValidState n._state ∧ n._state._data = m.data ∧ n._state._tilesPositions = m.tiles ∧
    n._state._indexSpace = (m.space : Int) ∧ n._lastMove.code = m.last ∧
    n._cost2Here = (m.cost : Int) ∧ n._counterPath = (m.counter : Int)

/-- The number `x` has 64 bits, none of them outside nibble 0 and the nibbles
of the tiles of the list. -/
def NibblesWithin (x : Nat) (moved : List Nat) : Prop :=
  x < 2 ^ 64 ∧ ∀ i, i < 16 → i ≠ 0 → i ∉ moved → nibbleAt x i = 0

/-- The tiles of the list are among `1 .. 15`, and their nibbles in `kIndices`
are pairwise distinct and below 8. -/
def SlotsDistinct (kIndices : Nat) (moved : List Nat) : Prop :=
  (moved.map (nibbleAt kIndices)).Nodup ∧
    ∀ i ∈ moved, 1 ≤ i ∧ i ≤ 15 ∧ nibbleAt kIndices i < 8

instance decNibblesWithin (x : Nat) (moved : List Nat) : Decidable (NibblesWithin x moved) := by
  unfold NibblesWithin; infer_instance

instance decSlotsDistinct (kIndices : Nat) (moved : List Nat) :
    Decidable (SlotsDistinct kIndices moved) := by
  unfold SlotsDistinct; infer_instance

/-- The bit of the hash `h` in the set of closed keys of the second form. -/
def closedKey (kIndices : Nat) (moved : List Nat) (h : Nat) : Nat :=
  (packIndex kIndices h moved 0) <<< 4 + (h &&& 15)

/-- The set of closed keys `bits` holds the keys of the hashes of `closed`. -/
def ClosedRel (kIndices : Nat) (moved : List Nat) (closed : List Nat) (bits : Nat) : Prop :=
  ∀ h, NibblesWithin h moved →
    (closed.contains h = true ↔ bits.testBit (closedKey kIndices moved h) = true)

/-- The nodes that the second form pushes for node `m`, in the order of the
pushes. -/
def fastKids (kMaskPartition : Nat) (m : FastNode) : List FastNode :=
  (if Nat.mul (Nat.add (Nat.sub m.last 2) (Nat.sub 2 m.last)) (Nat.mod m.space 4) = 0 then []
    else [fastChild kMaskPartition m 1 (Nat.pred m.space)]) ++
  ((if Nat.mul (Nat.add (Nat.sub m.last 1) (Nat.sub 1 m.last)) (Nat.mod (Nat.succ m.space) 4) = 0
    then [] else [fastChild kMaskPartition m 2 (Nat.succ m.space)]) ++
  ((if Nat.mul (Nat.add (Nat.sub m.last 4) (Nat.sub 4 m.last)) (Nat.sub 12 m.space) = 0 then []
    else [fastChild kMaskPartition m 3 (Nat.add m.space 4)]) ++
  (if Nat.mul (Nat.add (Nat.sub m.last 3) (Nat.sub 3 m.last)) (Nat.sub m.space 3) = 0 then []
    else [fastChild kMaskPartition m 4 (Nat.sub m.space 4)])))

/-! ## A partition model with a partition of two tiles

The model below has the partition of the tiles 15 and 10 and thirteen
partitions of one tile each. The tables are those that `generate()` builds
for it (theorem `pairModel_generate`). -/

/-- The masks of the model: tiles 15 and 10, then each other tile from 14 down
to 1, each with the blank. -/
def pairModel : List Nat :=
  [0xF0000F000000000F,
   0x0F0000000000000F,
   0x00F000000000000F,
   0x000F00000000000F,
   0x0000F0000000000F,
   0x000000F00000000F,
   0x0000000F0000000F,
   0x00000000F000000F,
   0x000000000F00000F,
   0x0000000000F0000F,
   0x00000000000F000F,
   0x000000000000F00F,
   0x0000000000000F0F,
   0x00000000000000FF]

/-- The tiles of each partition of `pairModel` without the blank, from the
largest. -/
def pairMoved : List (List Nat) :=
  [[15, 10], [14], [13], [12], [11], [9], [8], [7], [6], [5], [4], [3], [2], [1]]

/-- The cost tables of `pairModel`. -/
def pairTables : List (List Int) :=
  [[127, 7, 6, 7, 7, 6, 5, 6, 6, 5, 4, 5, 5, 4, 3, 4, 9, 127, 7, 6, 6, 5, 6, 5, 5, 4, 3, 4, 4, 3, 2,
    3, 8, 7, 127, 7, 7, 6, 5, 6, 6, 5, 4, 5, 5, 4, 3, 4, 9, 8, 7, 127, 8, 7, 6, 7, 7, 6, 5, 6, 6, 5,
    4, 5, 9, 6, 5, 6, 127, 5, 4, 5, 5, 4, 3, 4, 4, 3, 2, 3, 8, 7, 4, 5, 7, 127, 5, 4, 4, 3, 2, 3, 3,
    2, 1, 2, 7, 6, 5, 6, 6, 5, 127, 5, 5, 4, 3, 4, 4, 3, 2, 3, 8, 7, 6, 7, 7, 6, 5, 127, 6, 5, 4, 5,
    5, 4, 3, 4, 6, 5, 4, 5, 5, 4, 3, 4, 127, 3, 2, 3, 7, 2, 1, 2, 7, 4, 3, 4, 6, 5, 2, 3, 5, 127, 1,
    2, 4, 1, 0, 1, 6, 5, 4, 5, 5, 4, 3, 4, 4, 3, 127, 3, 3, 2, 1, 2, 7, 6, 5, 6, 6, 5, 6, 5, 5, 4,
    5, 127, 4, 3, 4, 3, 7, 6, 5, 6, 6, 5, 4, 5, 5, 4, 3, 4, 127, 5, 2, 3, 6, 5, 4, 5, 5, 4, 3, 4, 4,
    3, 2, 3, 5, 127, 3, 2, 7, 6, 5, 6, 6, 5, 4, 5, 5, 4, 5, 4, 4, 3, 127, 3, 8, 7, 6, 7, 7, 6, 7, 6,
    6, 5, 6, 5, 5, 4, 5, 127],
   [4, 3, 4, 5, 3, 2, 3, 4, 2, 1, 2, 3, 1, 0, 1, 2],
   [3, 4, 5, 6, 2, 3, 4, 5, 1, 2, 3, 4, 0, 1, 2, 3],
   [5, 4, 3, 2, 4, 3, 2, 1, 3, 2, 1, 0, 4, 3, 2, 1],
   [4, 3, 2, 3, 3, 2, 1, 2, 2, 1, 0, 1, 3, 2, 1, 2],
   [2, 3, 4, 5, 1, 2, 3, 4, 0, 1, 2, 3, 1, 2, 3, 4],
   [4, 3, 2, 1, 3, 2, 1, 0, 4, 3, 2, 1, 5, 4, 3, 2],
   [3, 2, 1, 2, 2, 1, 0, 1, 3, 2, 1, 2, 4, 3, 2, 3],
   [2, 1, 2, 3, 1, 0, 1, 2, 2, 1, 2, 3, 3, 2, 3, 4],
   [1, 2, 3, 4, 0, 1, 2, 3, 1, 2, 3, 4, 2, 3, 4, 5],
   [3, 2, 1, 0, 4, 3, 2, 1, 5, 4, 3, 2, 6, 5, 4, 3],
   [2, 1, 0, 1, 3, 2, 1, 2, 4, 3, 2, 3, 5, 4, 3, 4],
   [1, 0, 1, 2, 2, 1, 2, 3, 3, 2, 3, 4, 4, 3, 4, 5],
   [0, 1, 2, 3, 1, 2, 3, 4, 2, 3, 4, 5, 3, 4, 5, 6]]

/-! ## Moves of the tiles of a partition -/

/-- The number of moves of the sequence, made from state `s`, that move a tile
of the partition with mask `kMaskPartition`; the count stops at a move that is
not legal. The tile that a move takes is the one on the cell that the blank
reaches. -/
def movesOfPartition (kMaskPartition : Nat) : State → List Direction → Nat
  | _, [] => 0
  | s, d :: ds =>
    match applyDirection s d with
    | none => 0
    | some s1 =>
      (if nibbleAt kMaskPartition (nibbleAt s._data s1._indexSpace.toNat) ≠ 0 then 1 else 0) +
        movesOfPartition kMaskPartition s1 ds

/-- A state eight moves away from the solved state. -/
def eightMovesState : State := State.ofConfiguration 0xcfeda069b8754321

/-- A state nine moves away from the solved state, reached with one move of
tile 10 and no move of tile 15. -/
def nineMovesState : State := State.ofConfiguration 0xcfae8b0d76594321

/-! ## A bound on the iterations of `limitedDepthSearch` -/

/-- A bound on the number of iterations that `limitedDepthSearch` spends on a
node and the nodes pushed below it, when the cost of the node is `k` less than
the depth bound plus one: the node itself and at most four pushed nodes. -/
def searchWeight : Nat → Nat
  | 0 => 1
  | k + 1 => 1 + 4 * searchWeight k

/-- The bound `searchWeight` for node `n` in a search with depth bound `bound`. -/
def nodeWeight (bound : Int) (n : SearchNode) : Nat :=
  searchWeight (bound + 1 - n._cost2Here).toNat

/-- The sum of the bounds of the nodes of the stack. -/
def stackWeight (bound : Int) (stack : List SearchNode) : Nat :=
  (stack.map (nodeWeight bound)).sum

/-- The largest even depth bound that is at most `d`. -/
def evenBound (d : Nat) : Int := (d : Int) - (d : Int) % 2

/-! ## Partition models and states of the claims on the validator, the sizes and
the packed index -/

/-- The number of the nibbles `0 .. 15` that mask `m` selects. -/
def selectedCount (m : Nat) : Nat :=
  ((List.range 16).filter (fun v => decide (nibbleAt m v = 0xF))).length

/-- The partition model of the program, `Kpuzzle4::kMasksPattern`
(Kpuzzle4.hpp). -/
def kMasksPattern : List Nat := [0xFFFFF0000000000F, 0x00000FFFFF00000F, 0x0000000000FFFFFF]

/-- The masks of the test `checkZeroEnabled` (testPatternDB.cpp): the tiles of
odd value, and the tiles of even value with the blank. -/
def noZeroModel : List Nat := [0xF0F0F0F0F0F0F0F0, 0x0F0F0F0F0F0F0F0F]

/-- The model of the test `checkDisjoint` (testPatternDB.cpp), which the test
expects to be valid: the tiles 8 to 15, and the tiles 1 to 7, each with the
blank. -/
def eightTilesModel : List Nat := [0xFFFFFFFF0000000F, 0x00000000FFFFFFFF]

/-- A model with a partition of nine tiles: the tiles 7 to 15, and the tiles 1
to 6, each with the blank. -/
def nineTilesModel : List Nat := [0xFFFFFFFFF000000F, 0x000000000FFFFFFF]

/-- The model of the tests `generateDB` and `getCost` (testPatternDB.cpp):
tile 15 and the blank. -/
def singleModel : List Nat := [0xF00000000000000F]

/-- The state two moves up from the solved state: the blank is at position 7,
tile 12 at position 15 and tile 8 at position 11. -/
def twoUpState : State := State.ofConfiguration 0xcfed8ba907654321

/-- The state one move left from the solved state: the blank is at position
14 and tile 15 at position 15. -/
def oneLeftState : State := State.ofConfiguration 0xf0edcba987654321

/-- The state `oneLeftState` with the tiles 7 and 6 exchanged and the tiles 5
and 4 exchanged. -/
def exchangedState : State := State.ofConfiguration 0xf0edcba986745321

/-- An array with the element 33 at index 0. -/
def wrongValues : Fin 16 → Int := ![33, 2, 3, 4, 5, 6, 7, 8, 9, 10, 11, 12, 13, 14, 15, 0]

/-- A file of 52 bytes: the count 3, the three masks of `kMasksPattern`, and
three table sizes 0. -/
def emptyTablesFile : List Nat :=
  [3, 0, 0, 0,
   0x0F, 0, 0, 0, 0, 0xF0, 0xFF, 0xFF,
   0x0F, 0, 0, 0xFF, 0xFF, 0x0F, 0, 0,
   0xFF, 0xFF, 0xFF, 0, 0, 0, 0, 0,
   0, 0, 0, 0, 0, 0, 0, 0,
   0, 0, 0, 0, 0, 0, 0, 0,
   0, 0, 0, 0, 0, 0, 0, 0]

/-- The layout of state `t` is a permutation of the values `0 .. 15` with
exactly one blank: it has 64 bits, its sixteen nibbles are pairwise distinct,
every value `0 .. 15` is the nibble of some position, and exactly one position
holds the value 0. -/
def PermutationLayout (t : State) : Prop :=
  t._data < 2 ^ 64 ∧ NibblesDistinct t._data ∧ NibblesCover t._data ∧
    ∃ p, p < 16 ∧ ∀ i, i < 16 → (t.getValueTileAt i = kValueSpaceTile ↔ i = p)

/-- The sixteen entries of the cost table that `generate()` builds for
`singleModel` (theorem `singleModel_generate`). -/
def singleTable : List Int := [5, 4, 3, 4, 4, 3, 2, 3, 3, 2, 1, 2, 2, 1, 0, 1]

theorem nibbleAt_testBit (x i k : Nat) :
    (nibbleAt x i).testBit k = (decide (k < 4) && x.testBit (4 * i + k)) := by
  unfold nibbleAt
  have h15 : (0xF : Nat) = 2 ^ 4 - 1 := by norm_num
  rw [Nat.testBit_and, Nat.testBit_shiftRight, h15, Nat.testBit_two_pow_sub_one,
    Nat.shiftLeft_eq, Bool.and_comm]
  norm_num [Nat.mul_comm]

theorem nibbleAt_lt (x i : Nat) : nibbleAt x i < 16 := by
  have h : nibbleAt x i < 2 ^ 4 := by
    apply Nat.lt_pow_two_of_testBit
    intro k hk
    rw [nibbleAt_testBit]
    have : ¬ k < 4 := by omega
    simp [this]
  simpa using h

theorem nibbleAt_eq_of_lt (v : Nat) (hv : v < 16) : nibbleAt v 0 = v := by
  apply Nat.eq_of_testBit_eq
  intro k
  rw [nibbleAt_testBit]
  by_cases hk : k < 4
  · simp [hk]
  · have : v < 2 ^ k := lt_of_lt_of_le (by simpa using hv) (Nat.pow_le_pow_right (by norm_num) (by omega : 4 ≤ k))
    simp [hk, Nat.testBit_lt_two_pow this]

theorem testBit_eq_nibbleAt (x j : Nat) :
    x.testBit j = (nibbleAt x (j / 4)).testBit (j % 4) := by
  rw [nibbleAt_testBit]
  have h1 : j % 4 < 4 := Nat.mod_lt _ (by norm_num)
  have h2 : 4 * (j / 4) + j % 4 = j := Nat.div_add_mod j 4
  simp [h1, h2]

theorem eq_of_nibbleAt_eq {x y : Nat} (hx : x < 2 ^ 64) (hy : y < 2 ^ 64)
    (h : ∀ i, i < 16 → nibbleAt x i = nibbleAt y i) : x = y := by
  apply Nat.eq_of_testBit_eq
  intro j
  by_cases hj : j < 64
  · rw [testBit_eq_nibbleAt x j, testBit_eq_nibbleAt y j, h (j / 4) (by omega)]
  · have hp : (2 : Nat) ^ 64 ≤ 2 ^ j := Nat.pow_le_pow_right (by norm_num) (by omega)
    rw [Nat.testBit_lt_two_pow (lt_of_lt_of_le hx hp),
      Nat.testBit_lt_two_pow (lt_of_lt_of_le hy hp)]

theorem nibbleAt_or (a b i : Nat) : nibbleAt (a ||| b) i = nibbleAt a i ||| nibbleAt b i := by
  apply Nat.eq_of_testBit_eq
  intro k
  simp only [nibbleAt_testBit, Nat.testBit_or]
  cases decide (k < 4) <;> simp

theorem nibbleAt_and (a b i : Nat) : nibbleAt (a &&& b) i = nibbleAt a i &&& nibbleAt b i := by
  apply Nat.eq_of_testBit_eq
  intro k
  simp only [nibbleAt_testBit, Nat.testBit_and]
  cases decide (k < 4) <;> simp

theorem nibbleAt_mod (x i : Nat) (hi : i < 16) : nibbleAt (x % 2 ^ 64) i = nibbleAt x i := by
  apply Nat.eq_of_testBit_eq
  intro k
  simp only [nibbleAt_testBit, Nat.testBit_mod_two_pow]
  by_cases hk : k < 4
  · have : 4 * i + k < 64 := by omega
    simp [hk, this]
  · simp [hk]

theorem shiftLeft_two (k : Nat) : k <<< 2 = 4 * k := by
  rw [Nat.shiftLeft_eq]; omega

theorem nibbleAt_shl64 (v k i : Nat) (hv : v < 16) (hk : k < 16) (hi : i < 16) :
    nibbleAt (shl64 v (k <<< 2)) i = if i = k then v else 0 := by
  unfold shl64
  rw [nibbleAt_mod _ _ hi, shiftLeft_two]
  apply Nat.eq_of_testBit_eq
  intro j
  rw [nibbleAt_testBit, Nat.testBit_shiftLeft]
  by_cases hj : j < 4
  · by_cases hik : i = k
    · subst hik
      have h1 : 4 * i + j ≥ 4 * i := by omega
      have h2 : 4 * i + j - 4 * i = j := by omega
      simp [hj, h2]
    · simp only [hj, decide_True, Bool.true_and, if_neg hik, Nat.zero_testBit]
      by_cases hlt : 4 * i + j ≥ 4 * k
      · have h4 : 4 * i + j - 4 * k ≥ 4 := by omega
        have : v < 2 ^ (4 * i + j - 4 * k) :=
          lt_of_lt_of_le (by simpa using hv) (Nat.pow_le_pow_right (by norm_num) h4)
        simp [Nat.testBit_lt_two_pow this]
      · simp [hlt]
  · have hv2 : v < 2 ^ j := lt_of_lt_of_le (by simpa using hv)
      (Nat.pow_le_pow_right (by norm_num) (by omega : 4 ≤ j))
    split <;> simp [hj, Nat.testBit_lt_two_pow hv2]

theorem nibbleAt_not64 (x i : Nat) (hi : i < 16) : nibbleAt (not64 x) i = 15 - nibbleAt x i := by
  have hn : nibbleAt x i < 16 := nibbleAt_lt x i
  have h15 : 15 - nibbleAt x i = 2 ^ 4 - (nibbleAt x i + 1) := by omega
  rw [h15]
  apply Nat.eq_of_testBit_eq
  intro j
  rw [Nat.testBit_two_pow_sub_succ (by simpa using hn), nibbleAt_testBit, nibbleAt_testBit]
  unfold not64
  rw [Nat.testBit_xor, Nat.testBit_two_pow_sub_one, Nat.testBit_mod_two_pow]
  by_cases hj : j < 4
  · have : 4 * i + j < 64 := by omega
    simp [hj, this]
  · simp [hj]

theorem nibbleAt_zero_left (i : Nat) : nibbleAt 0 i = 0 := by
  simp [nibbleAt]

/-! ## Validity -/

theorem getValueTileAt_eq (s : State) (i : Nat) : s.getValueTileAt i = nibbleAt s._data i := rfl

theorem testBit_shl64_one (v w : Nat) (hv : v < 64) :
    (shl64 0x1 v).testBit w = decide (v = w) := by
  unfold shl64
  rw [Nat.testBit_mod_two_pow, Nat.shiftLeft_eq, Nat.one_mul, Nat.testBit_two_pow]
  by_cases h : v = w
  · subst h; simp [hv]
  · simp [h]

theorem shiftRight_and_one_ne_zero (x v : Nat) : ((x >>> v) &&& 0x1 ≠ 0) ↔ x.testBit v = true := by
  rw [Nat.and_one_is_mod, Nat.shiftRight_eq_div_pow, Nat.testBit_to_div_mod]
  have := Nat.mod_two_eq_zero_or_one (x / 2 ^ v)
  constructor
  · intro h; simp; omega
  · intro h; simp at h; omega

theorem isValidLoop_iff (s : State) (n : Nat) (hn : n ≤ 16) (aValuesCheck : Nat) :
    isValidLoop s n aValuesCheck = true ↔
      (∀ i, 16 - n ≤ i → i < 16 → aValuesCheck.testBit (nibbleAt s._data i) = false) ∧
      (∀ i j, 16 - n ≤ i → i < j → j < 16 → nibbleAt s._data i ≠ nibbleAt s._data j) := by
  induction n generalizing aValuesCheck with
  | zero =>
    simp only [isValidLoop, true_iff]
    exact ⟨fun i h1 h2 => by omega, fun i j h1 h2 h3 => by omega⟩
  | succ n ih =>
    have hv : nibbleAt s._data (16 - (n + 1)) < 16 := nibbleAt_lt _ _
    simp only [isValidLoop, kNumTiles, kNumTilesMinusOne, getValueTileAt_eq]
    rw [if_neg (by omega)]
    by_cases hc : aValuesCheck.testBit (nibbleAt s._data (16 - (n + 1))) = true
    · rw [if_pos ((shiftRight_and_one_ne_zero _ _).2 hc)]
      simp only [Bool.false_eq_true, false_iff, not_and]
      intro h
      have := h (16 - (n + 1)) (le_refl _) (by omega)
      rw [hc] at this
      exact absurd this (by simp)
    · rw [if_neg (fun h => hc ((shiftRight_and_one_ne_zero _ _).1 h)), ih (by omega)]
      simp only [Nat.testBit_or, testBit_shl64_one _ _ (lt_trans hv (by norm_num : 16 < 64)),
        Bool.or_eq_false_iff, decide_eq_false_iff_not]
      constructor
      · rintro ⟨h1, h2⟩
        refine ⟨fun i hi hi2 => ?_, fun i j hi hij hj => ?_⟩
        · by_cases hi0 : i = 16 - (n + 1)
          · subst hi0; simpa using hc
          · exact (h1 i (by omega) hi2).1
        · by_cases hi0 : i = 16 - (n + 1)
          · subst hi0; exact (h1 j (by omega) hj).2
          · exact h2 i j (by omega) hij hj
      · rintro ⟨h1, h2⟩
        refine ⟨fun i hi hi2 => ⟨h1 i (by omega) hi2, ?_⟩, fun i j hi hij hj => h2 i j (by omega) hij hj⟩
        exact h2 (16 - (n + 1)) i (le_refl _) (by omega) hi2

theorem isValid_iff_distinct (s : State) : s.isValid = true ↔ NibblesDistinct s._data := by
  unfold State.isValid kNumTiles
  rw [isValidLoop_iff s 16 (le_refl _) 0]
  constructor
  · rintro ⟨_, h⟩ i j hi hj hij
    rcases Nat.lt_or_gt_of_ne hij with h1 | h1
    · exact h i j (by omega) h1 hj
    · exact fun e => h j i (by omega) h1 hi e.symm
  · intro h
    exact ⟨fun i _ _ => by simp, fun i j _ hij hj => h i j (by omega) hj (by omega)⟩

theorem distinct_iff_cover (c : Nat) : NibblesDistinct c ↔ NibblesCover c := by
  let f : Fin 16 → Fin 16 := fun i => ⟨nibbleAt c i, nibbleAt_lt c i⟩
  have hinj : NibblesDistinct c ↔ Function.Injective f := by
    constructor
    · intro h a b hab
      by_contra hne
      exact h a b a.2 b.2 (fun e => hne (Fin.ext e)) (by simpa [f] using congrArg Fin.val hab)
    · intro h i j hi hj hij e
      have : (⟨i, hi⟩ : Fin 16) = ⟨j, hj⟩ := h (Fin.ext (by simpa [f] using e))
      exact hij (by simpa using congrArg Fin.val this)
  have hsur : NibblesCover c ↔ Function.Surjective f := by
    constructor
    · intro h v
      obtain ⟨i, hi, e⟩ := h v v.2
      exact ⟨⟨i, hi⟩, Fin.ext (by simpa [f] using e)⟩
    · intro h v hv
      obtain ⟨i, e⟩ := h ⟨v, hv⟩
      exact ⟨i, i.2, by simpa [f] using congrArg Fin.val e⟩
  rw [hinj, hsur]
  exact Finite.injective_iff_surjective

/-! ## The blank and the moves -/

theorem nibbleAt_four_mul (x i : Nat) : (x >>> (4 * i)) &&& 0xF = nibbleAt x i := by
  unfold nibbleAt; rw [shiftLeft_two]

theorem nibbleAt_shl64' (v k i : Nat) (hv : v < 16) (hk : k < 16) (hi : i < 16) :
    nibbleAt (shl64 v (4 * k)) i = if i = k then v else 0 := by
  rw [← shiftLeft_two]; exact nibbleAt_shl64 v k i hv hk hi

theorem and_fifteen (a : Nat) (ha : a < 16) : a &&& 15 = a := by
  have := Nat.and_pow_two_sub_one_eq_mod a 4
  norm_num at this
  rw [this]; exact Nat.mod_eq_of_lt ha

theorem shl64_lt (x k : Nat) : shl64 x k < 2 ^ 64 := Nat.mod_lt _ (by norm_num)

theorem moveData_lt (d p q : Nat) (hd : d < 2 ^ 64) : moveData d p q < 2 ^ 64 := by
  unfold moveData
  apply Nat.or_lt_two_pow _ (shl64_lt _ _)
  apply Nat.or_lt_two_pow _ (shl64_lt _ _)
  exact lt_of_le_of_lt Nat.and_le_left hd

theorem nibbleAt_moveData (d p q i : Nat) (hp : p < 16) (hq : q < 16) (hpq : p ≠ q)
    (hi : i < 16) :
    nibbleAt (moveData d p q) i =
      if i = p then nibbleAt d p ||| nibbleAt d q
      else if i = q then nibbleAt d p else nibbleAt d i := by
  unfold moveData
  rw [nibbleAt_or, nibbleAt_or, nibbleAt_and, nibbleAt_not64 _ _ hi, nibbleAt_four_mul,
    nibbleAt_four_mul, nibbleAt_shl64' _ _ _ (by norm_num) hq hi,
    nibbleAt_shl64' _ _ _ (nibbleAt_lt _ _) hp hi, nibbleAt_shl64' _ _ _ (nibbleAt_lt _ _) hq hi]
  by_cases h1 : i = p
  · subst h1
    simp [hpq, and_fifteen _ (nibbleAt_lt d i)]
  · by_cases h2 : i = q
    · subst h2; simp [h1]
    · simp [h1, h2, and_fifteen _ (nibbleAt_lt d i)]

theorem findIndexSpaceLoop_spec (c n : Nat) :
    (findIndexSpaceLoop c n = -1 ∧ ∀ i, i < n → nibbleAt c i ≠ 0) ∨
    (∃ p, p < n ∧ findIndexSpaceLoop c n = (p : Int) ∧ nibbleAt c p = 0) := by
  induction n with
  | zero => left; exact ⟨rfl, fun i hi => by omega⟩
  | succ n ih =>
    unfold findIndexSpaceLoop kValueSpaceTile
    by_cases h : nibbleAt c n = 0
    · right; exact ⟨n, by omega, by rw [if_pos h], h⟩
    · rw [if_neg h]
      rcases ih with ⟨h1, h2⟩ | ⟨p, hp, h1, h2⟩
      · left
        refine ⟨h1, fun i hi => ?_⟩
        by_cases hin : i = n
        · subst hin; exact h
        · exact h2 i (by omega)
      · right; exact ⟨p, by omega, h1, h2⟩

/-- The blank of a valid state: its position is the cached index, and no other
cell holds the value `0`. -/
theorem ValidState.blank {s : State} (hs : ValidState s) :
    ∃ p : Nat, p < 16 ∧ s._indexSpace = (p : Int) ∧ nibbleAt s._data p = 0 ∧
      ∀ i : Nat, i < 16 → i ≠ p → nibbleAt s._data i ≠ 0 := by
  obtain ⟨_, hv, he⟩ := hs
  have hd := (isValid_iff_distinct s).1 hv
  have hc := (distinct_iff_cover _).1 hd
  have hidx : s._indexSpace = findIndexSpaceLoop s._data 16 := by
    conv_lhs => rw [he]
    rfl
  rcases findIndexSpaceLoop_spec s._data 16 with ⟨_, h2⟩ | ⟨p, hp, h1, h2⟩
  · obtain ⟨i, hi, h0⟩ := hc 0 (by norm_num)
    exact absurd h0 (h2 i hi)
  · refine ⟨p, hp, hidx.trans h1, h2, fun i hi hip e => ?_⟩
    exact hd i p hi hp hip (e.trans h2.symm)

theorem moveLeft_eq (s oState : State) (p : Nat) (hp : s._indexSpace = (p : Int)) :
    s.moveLeft oState =
      if p % 4 = 0 then (-1, oState)
      else ((nibbleAt s._data (p - 1) : Int),
        { _data := moveData s._data p (p - 1)
          _indexSpace := (p : Int) - 1
          _tilesPositions := computePositionFromConfiguration (moveData s._data p (p - 1)) }) := by
  unfold State.moveLeft kSize
  rw [hp]
  have h0 : Int.tmod (p : Int) 4 = 0 ↔ p % 4 = 0 := by
    rw [Int.tmod_eq_emod (by omega) (by norm_num)]; omega
  by_cases h : p % 4 = 0
  · rw [if_pos h, if_pos (h0.2 h)]
  · rw [if_neg h, if_neg (fun e => h (h0.1 e))]
    have e1 : ((p : Int) * 4).toNat = 4 * p := by omega
    have e2 : (((p : Int) - 1) * 4).toNat = 4 * (p - 1) := by omega
    simp only [e1, e2, nibbleAt_four_mul, moveData]

theorem moveRight_eq (s oState : State) (p : Nat) (hp : s._indexSpace = (p : Int)) :
    s.moveRight oState =
      if (p + 1) % 4 = 0 then (-1, oState)
      else ((nibbleAt s._data (p + 1) : Int),
        { _data := moveData s._data p (p + 1)
          _indexSpace := (p : Int) + 1
          _tilesPositions := computePositionFromConfiguration (moveData s._data p (p + 1)) }) := by
  unfold State.moveRight kSize
  rw [hp]
  have h0 : Int.tmod ((p : Int) + 1) 4 = 0 ↔ (p + 1) % 4 = 0 := by
    rw [Int.tmod_eq_emod (by omega) (by norm_num)]; omega
  by_cases h : (p + 1) % 4 = 0
  · rw [if_pos h]; simp only [if_pos (h0.2 h)]
  · rw [if_neg h]; simp only [if_neg (fun e => h (h0.1 e))]
    have e1 : ((p : Int) * 4).toNat = 4 * p := by omega
    have e2 : (((p : Int) + 1) * 4).toNat = 4 * (p + 1) := by omega
    simp only [e1, e2, nibbleAt_four_mul, moveData]

theorem moveUp_eq (s oState : State) (p : Nat) (hp : s._indexSpace = (p : Int)) :
    s.moveUp oState =
      if p < 4 then (-1, oState)
      else ((nibbleAt s._data (p - 4) : Int),
        { _data := moveData s._data p (p - 4)
          _indexSpace := (p : Int) - 4
          _tilesPositions := computePositionFromConfiguration (moveData s._data p (p - 4)) }) := by
  unfold State.moveUp kSize
  rw [hp]
  by_cases h : p < 4
  · rw [if_pos h, if_pos (by omega)]
  · rw [if_neg h, if_neg (by omega)]
    have e1 : ((p : Int) * 4).toNat = 4 * p := by omega
    have e2 : (((p : Int) - 4) * 4).toNat = 4 * (p - 4) := by omega
    simp only [e1, e2, nibbleAt_four_mul, moveData]

theorem moveDown_eq (s oState : State) (p : Nat) (hp : s._indexSpace = (p : Int)) :
    s.moveDown oState =
      if p ≥ 12 then (-1, oState)
      else ((nibbleAt s._data (p + 4) : Int),
        { _data := moveData s._data p (p + 4)
          _indexSpace := (p : Int) + 4
          _tilesPositions := computePositionFromConfiguration (moveData s._data p (p + 4)) }) := by
  unfold State.moveDown kSize kNumTiles
  rw [hp]
  by_cases h : p ≥ 12
  · rw [if_pos h, if_pos (by omega)]
  · rw [if_neg h, if_neg (by omega)]
    have e1 : ((p : Int) * 4).toNat = 4 * p := by omega
    have e2 : (((p : Int) + 4) * 4).toNat = 4 * (p + 4) := by omega
    simp only [e1, e2, nibbleAt_four_mul, moveData]

theorem findIndexSpace_eq (c q : Nat) (hd : NibblesDistinct c) (hq : q < 16)
    (h0 : nibbleAt c q = 0) : findIndexSpace c = (q : Int) := by
  unfold findIndexSpace kNumTiles
  rcases findIndexSpaceLoop_spec c 16 with ⟨_, h2⟩ | ⟨p, hp, h1, h2⟩
  · exact absurd h0 (h2 q hq)
  · by_cases hpq : p = q
    · rw [h1, hpq]
    · exact absurd (h2.trans h0.symm) (hd p q hp hq hpq)

theorem ValidState.blank_eq {s : State} (hs : ValidState s) {p : Nat}
    (hp : s._indexSpace = (p : Int)) :
    p < 16 ∧ nibbleAt s._data p = 0 ∧ ∀ i : Nat, i < 16 → i ≠ p → nibbleAt s._data i ≠ 0 := by
  obtain ⟨b, hb, hb1, hb2, hb3⟩ := hs.blank
  have : p = b := by omega
  subst this
  exact ⟨hb, hb2, hb3⟩

theorem exchanged_moveData (d p q : Nat) (hp : p < 16) (hq : q < 16) (hpq : p ≠ q)
    (h0 : nibbleAt d p = 0) : Exchanged d (moveData d p q) p q := by
  intro i hi
  rw [nibbleAt_moveData d p q i hp hq hpq hi, h0]
  simp

theorem Exchanged.nibble {d d' p q : Nat} (h : Exchanged d d' p q) (i : Nat) (hi : i < 16) :
    nibbleAt d' i = nibbleAt d (if i = p then q else if i = q then p else i) := by
  rw [h i hi]
  split_ifs <;> rfl

theorem Exchanged.distinct {d d' p q : Nat} (h : Exchanged d d' p q) (hp : p < 16) (hq : q < 16)
    (hd : NibblesDistinct d) : NibblesDistinct d' := by
  intro i j hi hj hij
  rw [h.nibble i hi, h.nibble j hj]
  apply hd
  · split_ifs <;> omega
  · split_ifs <;> omega
  · split_ifs <;> omega

theorem ValidState.move {s : State} (hs : ValidState s) {p q : Nat}
    (hp : s._indexSpace = (p : Int)) (hq : q < 16) (hpq : p ≠ q) :
    ValidState
      { _data := moveData s._data p q
        _indexSpace := (q : Int)
        _tilesPositions := computePositionFromConfiguration (moveData s._data p q) } := by
  obtain ⟨hp16, h0, _⟩ := hs.blank_eq hp
  have hex := exchanged_moveData s._data p q hp16 hq hpq h0
  have hd' : NibblesDistinct (moveData s._data p q) :=
    hex.distinct hp16 hq ((isValid_iff_distinct s).1 hs.2.1)
  refine ⟨moveData_lt _ _ _ hs.1, (isValid_iff_distinct _).2 hd', ?_⟩
  have hq0 : nibbleAt (moveData s._data p q) q = 0 := by
    rw [hex q hq]; simp [h0, hpq.symm]
  simp only [State.ofConfiguration, findIndexSpace_eq _ q hd' hq hq0]

theorem moveData_involution (d p q : Nat) (hd : d < 2 ^ 64) (hp : p < 16) (hq : q < 16)
    (hpq : p ≠ q) (h0 : nibbleAt d p = 0) : moveData (moveData d p q) q p = d := by
  apply eq_of_nibbleAt_eq (moveData_lt _ _ _ (moveData_lt _ _ _ hd)) hd
  intro i hi
  have hex := exchanged_moveData d p q hp hq hpq h0
  have hq0 : nibbleAt (moveData d p q) q = 0 := by
    rw [hex q hq]; simp [h0, hpq.symm]
  rw [exchanged_moveData _ q p hq hp hpq.symm hq0 i hi, hex p hp, hex q hq, hex i hi]
  by_cases h1 : i = p <;> by_cases h2 : i = q <;> simp [h1, h2, hpq, hpq.symm]

theorem ValidState.eq_of_data {s t : State} (hs : ValidState s) (ht : ValidState t)
    (h : s._data = t._data) : s = t := by
  rw [hs.2.2, ht.2.2, h]

theorem validState_ofConfiguration (c : Nat) (hc : c < 2 ^ 64)
    (hv : (State.ofConfiguration c).isValid = true) : ValidState (State.ofConfiguration c) :=
  ⟨hc, hv, rfl⟩

theorem validState_sorted : ValidState State.generateSortedState :=
  ⟨by decide, by decide, by decide⟩

theorem ValidState.indexSpace_eq {s : State} (hs : ValidState s) :
    s._indexSpace = findIndexSpace s._data :=
  congrArg State._indexSpace hs.2.2

theorem ValidState.tilesPositions_eq {s : State} (hs : ValidState s) :
    s._tilesPositions = computePositionFromConfiguration s._data :=
  congrArg State._tilesPositions hs.2.2

/-! ## The solvability counter -/

theorem sum_Ico_peel (f : Nat → Int) (n : Nat) (hn : n + 1 ≤ 16) :
    ∑ j in Finset.Ico (16 - (n + 1)) 16, f j =
      f (16 - (n + 1)) + ∑ j in Finset.Ico (16 - n) 16, f j := by
  have e : 16 - (n + 1) + 1 = 16 - n := by omega
  rw [Finset.sum_eq_sum_Ico_succ_bot (by omega : 16 - (n + 1) < 16), e]

theorem inversionInnerLoop_eq (s : State) (t : Nat) (m : Nat) (hm : m ≤ 16) (acc : Int) :
    inversionInnerLoop s t m acc =
      acc + ∑ j in Finset.Ico (16 - m) 16,
        (if nibbleAt s._data j ≠ 0 ∧ nibbleAt s._data j < t then (1 : Int) else 0) := by
  induction m generalizing acc with
  | zero => simp [inversionInnerLoop]
  | succ m ih =>
    rw [inversionInnerLoop, ih (by omega), sum_Ico_peel _ m hm]
    simp only [kNumTiles, kValueSpaceTile, getValueTileAt_eq]
    split_ifs <;> ring

theorem inversionOuterLoop_eq (s : State) (n : Nat) (hn : n ≤ 16) (acc : Int) :
    inversionOuterLoop s n acc = acc + ∑ i in Finset.Ico (16 - n) 16, solveTerm s i := by
  induction n generalizing acc with
  | zero => simp [inversionOuterLoop]
  | succ n ih =>
    rw [inversionOuterLoop, ih (by omega), sum_Ico_peel _ n hn]
    have e : 16 - (n + 1) + 1 = 16 - n := by omega
    simp only [kNumTiles, kValueSpaceTile, kSize, getValueTileAt_eq, solveTerm, e]
    by_cases h : nibbleAt s._data (16 - (n + 1)) ≠ 0
    · simp only [if_pos h, inversionInnerLoop_eq s _ n (by omega)]
      ring
    · simp only [if_neg h]; ring

theorem inversions_eq_sum (s : State) :
    (inversions s : Int) = ∑ i in Finset.range 16,
      (if nibbleAt s._data i ≠ 0 then
        ∑ j in Finset.Ico (i + 1) 16,
          (if nibbleAt s._data j ≠ 0 ∧ nibbleAt s._data j < nibbleAt s._data i
            then (1 : Int) else 0)
      else 0) := by
  unfold inversions
  rw [Finset.card_filter, Nat.cast_sum, Finset.sum_product]
  apply Finset.sum_congr rfl
  intro i _
  simp only [getValueTileAt_eq]
  by_cases h : nibbleAt s._data i ≠ 0
  · rw [if_pos h]
    have hI : Finset.Ico (i + 1) 16 = (Finset.range 16).filter (fun j => i < j) := by
      ext j; simp only [Finset.mem_Ico, Finset.mem_filter, Finset.mem_range]; omega
    rw [hI, Finset.sum_filter]
    push_cast
    apply Finset.sum_congr rfl
    intro j _
    by_cases h1 : i < j <;> simp [h1, h]
  · simp [h]

theorem solveCounter_eq (s : State) (hs : ValidState s) :
    inversionOuterLoop s kNumTiles 0 = (inversions s : Int) + (1 + s._indexSpace / 4) := by
  obtain ⟨b, hb, hidx, h0, hne⟩ := hs.blank
  have hsplit : ∀ i ∈ Finset.range 16, solveTerm s i =
      (if nibbleAt s._data i ≠ 0 then
        ∑ j in Finset.Ico (i + 1) 16,
          (if nibbleAt s._data j ≠ 0 ∧ nibbleAt s._data j < nibbleAt s._data i
            then (1 : Int) else 0)
      else 0) + (if i = b then 1 + (b : Int) / 4 else 0) := by
    intro i hi
    unfold solveTerm
    by_cases h : nibbleAt s._data i ≠ 0
    · have hib : i ≠ b := fun e => h (e ▸ h0)
      simp [h, hib]
    · have hib : i = b := by
        by_contra hib
        exact h (hne i (Finset.mem_range.1 hi) hib)
      simp [hib, h0]
  rw [show kNumTiles = 16 from rfl, inversionOuterLoop_eq s 16 (le_refl _), inversions_eq_sum,
    hidx]
  simp only [Nat.sub_self, zero_add, ← Finset.range_eq_Ico]
  rw [Finset.sum_congr rfl hsplit, Finset.sum_add_distrib, Finset.sum_ite_eq',
    if_pos (Finset.mem_range.2 hb)]

/-! ## The solvability counter on lists, and the array constructor -/

theorem inversionInnerLoop_list (s : State) (t : Nat) (m : Nat) (hm : m ≤ 16) (acc : Int) :
    inversionInnerLoop s t m acc =
      acc + ((((List.range' (16 - m) m).map (nibbleAt s._data)).filter
        (fun u => decide (u ≠ 0 ∧ u < t))).length : Int) := by
  induction m generalizing acc with
  | zero => simp [inversionInnerLoop]
  | succ m ih =>
    have e : 16 - (m + 1) + 1 = 16 - m := by omega
    rw [inversionInnerLoop, ih (by omega), List.range'_succ, e]
    simp only [kNumTiles, kValueSpaceTile, getValueTileAt_eq, List.map_cons, List.filter_cons]
    split_ifs with h1 h2 h2
    · simp; ring
    · exact absurd (by simpa using h1) h2
    · exact absurd (by simpa using h2) h1
    · rfl

theorem inversionOuterLoop_list (s : State) (n : Nat) (hn : n ≤ 16) (acc : Int) :
    inversionOuterLoop s n acc =
      acc + solveCountList ((List.range' (16 - n) n).map (nibbleAt s._data)) (16 - n) := by
  induction n generalizing acc with
  | zero => simp [inversionOuterLoop, solveCountList]
  | succ n ih =>
    have e : 16 - (n + 1) + 1 = 16 - n := by omega
    rw [inversionOuterLoop, ih (by omega), List.range'_succ, e]
    simp only [kNumTiles, kValueSpaceTile, kSize, getValueTileAt_eq, List.map_cons, solveCountList,
      e]
    by_cases h : nibbleAt s._data (16 - (n + 1)) ≠ 0
    · simp only [if_pos h, inversionInnerLoop_list s _ n (by omega)]
      ring
    · simp only [if_neg h]; ring

theorem filter_length_swap (p : Nat → Bool) (pre rest : List Nat) (a b : Nat) :
    ((pre ++ a :: b :: rest).filter p).length = ((pre ++ b :: a :: rest).filter p).length := by
  simp only [List.filter_append, List.filter_cons, List.length_append]
  split_ifs <;> simp

theorem solveCountList_swap (pre rest : List Nat) (a b i : Nat) (ha : a ≠ 0) (hb : b ≠ 0)
    (hab : a ≠ b) :
    (solveCountList (pre ++ a :: b :: rest) i + solveCountList (pre ++ b :: a :: rest) i) % 2
      = 1 := by
  induction pre generalizing i with
  | nil =>
    simp only [List.nil_append, solveCountList, if_pos ha, if_pos hb, List.filter_cons]
    by_cases h : a < b
    · have h' : ¬ b < a := by omega
      simp [h, h', ha, hb]
      omega
    · have h' : b < a := by omega
      simp [h, h', ha, hb]
      omega
  | cons x pre ih =>
    have := ih (i + 1)
    rw [List.cons_append, List.cons_append, solveCountList, solveCountList,
      filter_length_swap _ pre rest a b]
    omega

theorem toU64_of_small (x : Int) (h0 : 0 ≤ x) (h1 : x < 16) : toU64 x = x.toNat := by
  unfold toU64
  rw [Int.emod_eq_of_lt h0 (by omega)]

theorem ofValuesLoop_lt (v : Fin 16 → Int) (n acc : Nat) (hacc : acc < 2 ^ 64) :
    ofValuesLoop v n acc < 2 ^ 64 := by
  induction n generalizing acc with
  | zero => exact hacc
  | succ n ih => exact ih _ (Nat.or_lt_two_pow hacc (shl64_lt _ _))

theorem ofValuesLoop_nibble (v : Fin 16 → Int) (hv : ∀ i, 0 ≤ v i ∧ v i < 16) (n : Nat)
    (hn : n ≤ 16) (acc k : Nat) (hk : k < 16) :
    nibbleAt (ofValuesLoop v n acc) k =
      nibbleAt acc k ||| (if 16 - n ≤ k then (v (Fin.ofNat k)).toNat else 0) := by
  induction n generalizing acc with
  | zero =>
    have : ¬ 16 - 0 ≤ k := by omega
    simp [ofValuesLoop, this]
  | succ n ih =>
    have hvi := hv (Fin.ofNat (16 - (n + 1)))
    have hlt : (v (Fin.ofNat (16 - (n + 1)))).toNat < 16 := by omega
    rw [ofValuesLoop, ih (by omega)]
    simp only [kNumTiles]
    rw [nibbleAt_or, toU64_of_small _ hvi.1 hvi.2, nibbleAt_shl64 _ _ _ hlt (by omega) hk]
    by_cases h1 : k = 16 - (n + 1)
    · subst h1
      have h2 : ¬ 16 - n ≤ 16 - (n + 1) := by omega
      simp only [if_true, if_neg h2, le_refl, Nat.or_zero]
    · by_cases h2 : 16 - n ≤ k
      · have h3 : 16 - (n + 1) ≤ k := by omega
        simp only [if_neg h1, if_pos h2, if_pos h3, Nat.or_zero]
      · have h3 : ¬ 16 - (n + 1) ≤ k := by omega
        simp only [if_neg h1, if_neg h2, if_neg h3, Nat.or_zero]

theorem ofValues_tile (v : Fin 16 → Int) (hv : ∀ i, 0 ≤ v i ∧ v i < 16) (k : Fin 16) :
    nibbleAt (State.ofValues v)._data k = (v k).toNat := by
  have h := ofValuesLoop_nibble v hv 16 (le_refl _) 0 k k.2
  simp only [nibbleAt_zero_left, Nat.sub_self, Nat.zero_le, if_true, Nat.zero_or] at h
  have hk : (Fin.ofNat (k : Nat) : Fin 16) = k := by
    apply Fin.ext
    simp [Fin.ofNat, Nat.mod_eq_of_lt k.2]
  rw [hk] at h
  exact h

theorem validState_ofValues (v : Fin 16 → Int) (hv : IsPermutationArray v) :
    ValidState (State.ofValues v) := by
  refine ⟨ofValuesLoop_lt v 16 0 (by norm_num), ?_, rfl⟩
  rw [isValid_iff_distinct]
  intro i j hi hj hij e
  have e1 := ofValues_tile v hv.1 ⟨i, hi⟩
  have e2 := ofValues_tile v hv.1 ⟨j, hj⟩
  simp only at e1 e2
  rw [e1, e2] at e
  have h1 := hv.1 ⟨i, hi⟩
  have h2 := hv.1 ⟨j, hj⟩
  have : v ⟨i, hi⟩ = v ⟨j, hj⟩ := by omega
  exact hij (by simpa using congrArg Fin.val (hv.2 this))

theorem isPermutationArray_swap (v : Fin 16 → Int) (hv : IsPermutationArray v) (i j : Fin 16) :
    IsPermutationArray (swapValues v i j) := by
  refine ⟨fun k => ?_, fun a b hab => ?_⟩
  · unfold swapValues; split_ifs <;> exact hv.1 _
  · unfold swapValues at hab
    split_ifs at hab with h1 h2 h3 h4 h5 h6 <;> have := hv.2 hab <;> simp_all

theorem map_range_sixteen (f : Nat → Nat) :
    (List.range' 0 16).map f =
      [f 0, f 1, f 2, f 3, f 4, f 5, f 6, f 7, f 8, f 9, f 10, f 11, f 12, f 13, f 14, f 15] :=
  rfl

theorem isSolveable_iff_list (s : State) :
    s.isSolveable = true ↔
      solveCountList [nibbleAt s._data 0, nibbleAt s._data 1, nibbleAt s._data 2,
        nibbleAt s._data 3, nibbleAt s._data 4, nibbleAt s._data 5, nibbleAt s._data 6,
        nibbleAt s._data 7, nibbleAt s._data 8, nibbleAt s._data 9, nibbleAt s._data 10,
        nibbleAt s._data 11, nibbleAt s._data 12, nibbleAt s._data 13, nibbleAt s._data 14,
        nibbleAt s._data 15] 0 % 2 = 0 := by
  unfold State.isSolveable
  rw [show kNumTiles = 16 from rfl, inversionOuterLoop_list s 16 (le_refl _)]
  simp only [Nat.sub_self, zero_add, map_range_sixteen]
  split_ifs with h
  · simp only [Bool.false_eq_true, false_iff]; omega
  · simp only [true_iff]; omega

theorem isSolveable_ofValues (v : Fin 16 → Int) (hv : ∀ i, 0 ≤ v i ∧ v i < 16) :
    (State.ofValues v).isSolveable = true ↔
      solveCountList [(v 0).toNat, (v 1).toNat, (v 2).toNat, (v 3).toNat, (v 4).toNat,
        (v 5).toNat, (v 6).toNat, (v 7).toNat, (v 8).toNat, (v 9).toNat, (v 10).toNat,
        (v 11).toNat, (v 12).toNat, (v 13).toNat, (v 14).toNat, (v 15).toNat] 0 % 2 = 0 := by
  have t0 : nibbleAt (State.ofValues v)._data 0 = (v 0).toNat := ofValues_tile v hv 0
  have t1 : nibbleAt (State.ofValues v)._data 1 = (v 1).toNat := ofValues_tile v hv 1
  have t2 : nibbleAt (State.ofValues v)._data 2 = (v 2).toNat := ofValues_tile v hv 2
  have t3 : nibbleAt (State.ofValues v)._data 3 = (v 3).toNat := ofValues_tile v hv 3
  have t4 : nibbleAt (State.ofValues v)._data 4 = (v 4).toNat := ofValues_tile v hv 4
  have t5 : nibbleAt (State.ofValues v)._data 5 = (v 5).toNat := ofValues_tile v hv 5
  have t6 : nibbleAt (State.ofValues v)._data 6 = (v 6).toNat := ofValues_tile v hv 6
  have t7 : nibbleAt (State.ofValues v)._data 7 = (v 7).toNat := ofValues_tile v hv 7
  have t8 : nibbleAt (State.ofValues v)._data 8 = (v 8).toNat := ofValues_tile v hv 8
  have t9 : nibbleAt (State.ofValues v)._data 9 = (v 9).toNat := ofValues_tile v hv 9
  have t10 : nibbleAt (State.ofValues v)._data 10 = (v 10).toNat := ofValues_tile v hv 10
  have t11 : nibbleAt (State.ofValues v)._data 11 = (v 11).toNat := ofValues_tile v hv 11
  have t12 : nibbleAt (State.ofValues v)._data 12 = (v 12).toNat := ofValues_tile v hv 12
  have t13 : nibbleAt (State.ofValues v)._data 13 = (v 13).toNat := ofValues_tile v hv 13
  have t14 : nibbleAt (State.ofValues v)._data 14 = (v 14).toNat := ofValues_tile v hv 14
  have t15 : nibbleAt (State.ofValues v)._data 15 = (v 15).toNat := ofValues_tile v hv 15
  rw [isSolveable_iff_list, t0, t1, t2, t3, t4, t5, t6, t7, t8, t9, t10, t11, t12, t13, t14, t15]

theorem toNat_ne_of_ne (v : Fin 16 → Int) (hv : IsPermutationArray v) (i j : Fin 16)
    (hij : i ≠ j) : (v i).toNat ≠ (v j).toNat := by
  intro e
  have h1 := hv.1 i
  have h2 := hv.1 j
  exact hij (hv.2 (by omega))

theorem toNat_ne_zero (v : Fin 16 → Int) (hv : IsPermutationArray v) (i : Fin 16)
    (h : v i ≠ 0) : (v i).toNat ≠ 0 := by
  have h1 := hv.1 i
  omega

theorem generateValidRandState_eq (v : Fin 16 → Int) :
    State.generateValidRandState v =
      if ¬ (State.ofValues v).isSolveable = true then
        (if v 0 ≠ (kValueSpaceTile : Int) ∧ v 1 ≠ (kValueSpaceTile : Int) then
          State.ofValues (swapValues v 0 1)
        else State.ofValues (swapValues v 2 3))
      else State.ofValues v :=
  rfl

/-! ## The moves of `SearchNode` and the expansion of a node -/

theorem State.moveLeft_fst (s o o' : State) : (s.moveLeft o).1 = (s.moveLeft o').1 := by
  unfold State.moveLeft; split_ifs <;> rfl

theorem State.moveLeft_snd (s o o' : State) (h : (s.moveLeft o).1 ≠ -1) :
    (s.moveLeft o).2 = (s.moveLeft o').2 := by
  unfold State.moveLeft at h ⊢; split_ifs at h ⊢ <;> first | rfl | exact absurd rfl h

theorem State.moveRight_fst (s o o' : State) : (s.moveRight o).1 = (s.moveRight o').1 := by
  unfold State.moveRight; simp only; split_ifs <;> rfl

theorem State.moveRight_snd (s o o' : State) (h : (s.moveRight o).1 ≠ -1) :
    (s.moveRight o).2 = (s.moveRight o').2 := by
  unfold State.moveRight at h ⊢; simp only at h ⊢
  split_ifs at h ⊢ <;> first | rfl | exact absurd rfl h

theorem State.moveDown_fst (s o o' : State) : (s.moveDown o).1 = (s.moveDown o').1 := by
  unfold State.moveDown; split_ifs <;> rfl

theorem State.moveDown_snd (s o o' : State) (h : (s.moveDown o).1 ≠ -1) :
    (s.moveDown o).2 = (s.moveDown o').2 := by
  unfold State.moveDown at h ⊢; split_ifs at h ⊢ <;> first | rfl | exact absurd rfl h

theorem State.moveUp_fst (s o o' : State) : (s.moveUp o).1 = (s.moveUp o').1 := by
  unfold State.moveUp; split_ifs <;> rfl

theorem State.moveUp_snd (s o o' : State) (h : (s.moveUp o).1 ≠ -1) :
    (s.moveUp o).2 = (s.moveUp o').2 := by
  unfold State.moveUp at h ⊢; split_ifs at h ⊢ <;> first | rfl | exact absurd rfl h

theorem and_fifteen_lt (x : Nat) : x &&& 0xF < 16 :=
  lt_of_le_of_lt Nat.and_le_right (by norm_num)

theorem State.moveLeft_range (s o : State) (h : (s.moveLeft o).1 ≠ -1) :
    ∃ t : Nat, t < 16 ∧ (s.moveLeft o).1 = (t : Int) := by
  unfold State.moveLeft at h ⊢
  split_ifs at h ⊢
  · exact absurd rfl h
  · exact ⟨_, and_fifteen_lt _, rfl⟩

theorem State.moveRight_range (s o : State) (h : (s.moveRight o).1 ≠ -1) :
    ∃ t : Nat, t < 16 ∧ (s.moveRight o).1 = (t : Int) := by
  unfold State.moveRight at h ⊢
  simp only at h ⊢
  split_ifs at h ⊢
  · exact absurd rfl h
  · exact ⟨_, and_fifteen_lt _, rfl⟩

theorem State.moveDown_range (s o : State) (h : (s.moveDown o).1 ≠ -1) :
    ∃ t : Nat, t < 16 ∧ (s.moveDown o).1 = (t : Int) := by
  unfold State.moveDown at h ⊢
  split_ifs at h ⊢
  · exact absurd rfl h
  · exact ⟨_, and_fifteen_lt _, rfl⟩

theorem State.moveUp_range (s o : State) (h : (s.moveUp o).1 ≠ -1) :
    ∃ t : Nat, t < 16 ∧ (s.moveUp o).1 = (t : Int) := by
  unfold State.moveUp at h ⊢
  split_ifs at h ⊢
  · exact absurd rfl h
  · exact ⟨_, and_fifteen_lt _, rfl⟩

theorem costAfterMove_noMask (t : Nat) (ht : t < 16) (c : Int) :
    costAfterMove kNoMask (t : Int) c = toInt8 (c + 1) := by
  unfold costAfterMove
  have e : ((t : Int) * 4).toNat = 4 * t := by omega
  rw [e, if_pos]
  unfold kNoMask
  interval_cases t <;> decide

theorem applyDirection_left (s : State) :
    applyDirection s Direction.LEFT =
      if (s.moveLeft s).1 ≠ -1 then some (s.moveLeft s).2 else none := rfl

theorem applyDirection_right (s : State) :
    applyDirection s Direction.RIGHT =
      if (s.moveRight s).1 ≠ -1 then some (s.moveRight s).2 else none := rfl

theorem applyDirection_down (s : State) :
    applyDirection s Direction.DOWN =
      if (s.moveDown s).1 ≠ -1 then some (s.moveDown s).2 else none := rfl

theorem applyDirection_up (s : State) :
    applyDirection s Direction.UP =
      if (s.moveUp s).1 ≠ -1 then some (s.moveUp s).2 else none := rfl

theorem applyDirection_none (s : State) : applyDirection s Direction.NONE = none := rfl

theorem SearchNode.moveLeft_none (n o : SearchNode)
    (h : applyDirection n._state Direction.LEFT = none) : (n.moveLeft o kNoMask).1 = -1 := by
  rw [applyDirection_left] at h
  split_ifs at h with h1
  rw [State.moveLeft_fst _ _ o._state] at h1
  unfold SearchNode.moveLeft
  simp only
  rw [if_neg h1]
  exact not_not.1 h1

theorem SearchNode.moveLeft_some (n o : SearchNode) (s1 : State)
    (h : applyDirection n._state Direction.LEFT = some s1) :
    (n.moveLeft o kNoMask).1 ≠ -1 ∧ (n.moveLeft o kNoMask).2 = childNode n Direction.LEFT s1 := by
  rw [applyDirection_left] at h
  split_ifs at h with h1
  have h2 := h1
  rw [State.moveLeft_fst _ _ o._state] at h2
  obtain ⟨t, ht, et⟩ := State.moveLeft_range _ _ h2
  unfold SearchNode.moveLeft
  simp only
  rw [if_pos h2]
  refine ⟨h2, ?_⟩
  rw [et, costAfterMove_noMask t ht, ← State.moveLeft_snd _ _ _ h1]
  simp only [Option.some.injEq] at h
  rw [h]
  rfl

theorem SearchNode.moveRight_none (n o : SearchNode)
    (h : applyDirection n._state Direction.RIGHT = none) : (n.moveRight o kNoMask).1 = -1 := by
  rw [applyDirection_right] at h
  split_ifs at h with h1
  rw [State.moveRight_fst _ _ o._state] at h1
  unfold SearchNode.moveRight
  simp only
  rw [if_neg h1]
  exact not_not.1 h1

theorem SearchNode.moveRight_some (n o : SearchNode) (s1 : State)
    (h : applyDirection n._state Direction.RIGHT = some s1) :
    (n.moveRight o kNoMask).1 ≠ -1 ∧
      (n.moveRight o kNoMask).2 = childNode n Direction.RIGHT s1 := by
  rw [applyDirection_right] at h
  split_ifs at h with h1
  have h2 := h1
  rw [State.moveRight_fst _ _ o._state] at h2
  obtain ⟨t, ht, et⟩ := State.moveRight_range _ _ h2
  unfold SearchNode.moveRight
  simp only
  rw [if_pos h2]
  refine ⟨h2, ?_⟩
  rw [et, costAfterMove_noMask t ht, ← State.moveRight_snd _ _ _ h1]
  simp only [Option.some.injEq] at h
  rw [h]
  rfl

theorem SearchNode.moveDown_none (n o : SearchNode)
    (h : applyDirection n._state Direction.DOWN = none) : (n.moveDown o kNoMask).1 = -1 := by
  rw [applyDirection_down] at h
  split_ifs at h with h1
  rw [State.moveDown_fst _ _ o._state] at h1
  unfold SearchNode.moveDown
  simp only
  rw [if_neg h1]
  exact not_not.1 h1

theorem SearchNode.moveDown_some (n o : SearchNode) (s1 : State)
    (h : applyDirection n._state Direction.DOWN = some s1) :
    (n.moveDown o kNoMask).1 ≠ -1 ∧ (n.moveDown o kNoMask).2 = childNode n Direction.DOWN s1 := by
  rw [applyDirection_down] at h
  split_ifs at h with h1
  have h2 := h1
  rw [State.moveDown_fst _ _ o._state] at h2
  obtain ⟨t, ht, et⟩ := State.moveDown_range _ _ h2
  unfold SearchNode.moveDown
  simp only
  rw [if_pos h2]
  refine ⟨h2, ?_⟩
  rw [et, costAfterMove_noMask t ht, ← State.moveDown_snd _ _ _ h1]
  simp only [Option.some.injEq] at h
  rw [h]
  rfl

theorem SearchNode.moveUp_none (n o : SearchNode)
    (h : applyDirection n._state Direction.UP = none) : (n.moveUp o kNoMask).1 = -1 := by
  rw [applyDirection_up] at h
  split_ifs at h with h1
  rw [State.moveUp_fst _ _ o._state] at h1
  unfold SearchNode.moveUp
  simp only
  rw [if_neg h1]
  exact not_not.1 h1

theorem SearchNode.moveUp_some (n o : SearchNode) (s1 : State)
    (h : applyDirection n._state Direction.UP = some s1) :
    (n.moveUp o kNoMask).1 ≠ -1 ∧ (n.moveUp o kNoMask).2 = childNode n Direction.UP s1 := by
  rw [applyDirection_up] at h
  split_ifs at h with h1
  have h2 := h1
  rw [State.moveUp_fst _ _ o._state] at h2
  obtain ⟨t, ht, et⟩ := State.moveUp_range _ _ h2
  unfold SearchNode.moveUp
  simp only
  rw [if_pos h2]
  refine ⟨h2, ?_⟩
  rw [et, costAfterMove_noMask t ht, ← State.moveUp_snd _ _ _ h1]
  simp only [Option.some.injEq] at h
  rw [h]
  rfl

theorem pushStep_left (n : SearchNode) (st : List SearchNode × SearchNode) :
    (if (n.moveLeft st.2 kNoMask).1 ≠ -1 then
        ((n.moveLeft st.2 kNoMask).2 :: st.1, (n.moveLeft st.2 kNoMask).2)
      else (st.1, (n.moveLeft st.2 kNoMask).2)).1 =
      (match applyDirection n._state Direction.LEFT with
        | some s1 => [childNode n Direction.LEFT s1]
        | none => []) ++ st.1 := by
  rcases h : applyDirection n._state Direction.LEFT with _ | s1
  · rw [if_neg (not_not.2 (SearchNode.moveLeft_none n st.2 h))]; rfl
  · obtain ⟨h1, h2⟩ := SearchNode.moveLeft_some n st.2 s1 h
    rw [if_pos h1, h2]; rfl

theorem pushStep_right (n : SearchNode) (st : List SearchNode × SearchNode) :
    (if (n.moveRight st.2 kNoMask).1 ≠ -1 then
        ((n.moveRight st.2 kNoMask).2 :: st.1, (n.moveRight st.2 kNoMask).2)
      else (st.1, (n.moveRight st.2 kNoMask).2)).1 =
      (match applyDirection n._state Direction.RIGHT with
        | some s1 => [childNode n Direction.RIGHT s1]
        | none => []) ++ st.1 := by
  rcases h : applyDirection n._state Direction.RIGHT with _ | s1
  · rw [if_neg (not_not.2 (SearchNode.moveRight_none n st.2 h))]; rfl
  · obtain ⟨h1, h2⟩ := SearchNode.moveRight_some n st.2 s1 h
    rw [if_pos h1, h2]; rfl

theorem pushStep_down (n : SearchNode) (st : List SearchNode × SearchNode) :
    (if (n.moveDown st.2 kNoMask).1 ≠ -1 then
        ((n.moveDown st.2 kNoMask).2 :: st.1, (n.moveDown st.2 kNoMask).2)
      else (st.1, (n.moveDown st.2 kNoMask).2)).1 =
      (match applyDirection n._state Direction.DOWN with
        | some s1 => [childNode n Direction.DOWN s1]
        | none => []) ++ st.1 := by
  rcases h : applyDirection n._state Direction.DOWN with _ | s1
  · rw [if_neg (not_not.2 (SearchNode.moveDown_none n st.2 h))]; rfl
  · obtain ⟨h1, h2⟩ := SearchNode.moveDown_some n st.2 s1 h
    rw [if_pos h1, h2]; rfl

theorem pushStep_up (n : SearchNode) (st : List SearchNode × SearchNode) :
    (if (n.moveUp st.2 kNoMask).1 ≠ -1 then
        ((n.moveUp st.2 kNoMask).2 :: st.1, (n.moveUp st.2 kNoMask).2)
      else (st.1, (n.moveUp st.2 kNoMask).2)).1 =
      (match applyDirection n._state Direction.UP with
        | some s1 => [childNode n Direction.UP s1]
        | none => []) ++ st.1 := by
  rcases h : applyDirection n._state Direction.UP with _ | s1
  · rw [if_neg (not_not.2 (SearchNode.moveUp_none n st.2 h))]; rfl
  · obtain ⟨h1, h2⟩ := SearchNode.moveUp_some n st.2 s1 h
    rw [if_pos h1, h2]; rfl

theorem pushChildren_eq (n : SearchNode) (rest : List SearchNode) :
    pushChildren n rest =
      optChild n Direction.UP ++ (optChild n Direction.DOWN ++
        (optChild n Direction.RIGHT ++ (optChild n Direction.LEFT ++ rest))) := by
  unfold pushChildren
  lift_lets
  intro aLastMove aChildNode r1 st1 r2 st2 r3 st3 r4 st4
  have h1 : st1.1 = optChild n Direction.LEFT ++ rest := by
    simp only [st1, r1, optChild, Direction.opposite, aLastMove, SearchNode.getLastMove]
    by_cases h : n._lastMove ≠ Direction.RIGHT
    · rw [if_pos h]
      exact (pushStep_left n (rest, aChildNode)).trans (by rw [if_pos h])
    · rw [if_neg h, if_neg h]; rfl
  have h2 : st2.1 = optChild n Direction.RIGHT ++ st1.1 := by
    simp only [st2, r2, optChild, Direction.opposite, aLastMove, SearchNode.getLastMove]
    by_cases h : n._lastMove ≠ Direction.LEFT
    · rw [if_pos h]
      exact (pushStep_right n st1).trans (by rw [if_pos h])
    · rw [if_neg h, if_neg h]; rfl
  have h3 : st3.1 = optChild n Direction.DOWN ++ st2.1 := by
    simp only [st3, r3, optChild, Direction.opposite, aLastMove, SearchNode.getLastMove]
    by_cases h : n._lastMove ≠ Direction.UP
    · rw [if_pos h]
      exact (pushStep_down n st2).trans (by rw [if_pos h])
    · rw [if_neg h, if_neg h]; rfl
  have h4 : st4.1 = optChild n Direction.UP ++ st3.1 := by
    simp only [st4, r4, optChild, Direction.opposite, aLastMove, SearchNode.getLastMove]
    by_cases h : n._lastMove ≠ Direction.DOWN
    · rw [if_pos h]
      exact (pushStep_up n st3).trans (by rw [if_pos h])
    · rw [if_neg h, if_neg h]; rfl
  rw [h4, h3, h2, h1]

theorem mem_optChild (n : SearchNode) (d : Direction) (x : SearchNode) :
    x ∈ optChild n d ↔
      n._lastMove ≠ d.opposite ∧ ∃ s1, applyDirection n._state d = some s1 ∧
        x = childNode n d s1 := by
  unfold optChild
  by_cases h : n._lastMove ≠ d.opposite
  · rw [if_pos h]
    rcases h1 : applyDirection n._state d with _ | s1
    · simp
    · simp [h]
  · rw [if_neg h]; simp [h]

theorem mem_pushChildren (n : SearchNode) (rest : List SearchNode) (x : SearchNode) :
    x ∈ pushChildren n rest ↔ IsChild n x ∨ x ∈ rest := by
  rw [pushChildren_eq]
  simp only [List.mem_append, mem_optChild, IsChild]
  constructor
  · rintro (h | h | h | h | h)
    · exact Or.inl ⟨_, h.2.choose, h.1, h.2.choose_spec⟩
    · exact Or.inl ⟨_, h.2.choose, h.1, h.2.choose_spec⟩
    · exact Or.inl ⟨_, h.2.choose, h.1, h.2.choose_spec⟩
    · exact Or.inl ⟨_, h.2.choose, h.1, h.2.choose_spec⟩
    · exact Or.inr h
  · rintro (⟨d, s1, h1, h2, h3⟩ | h)
    · cases d
      · rw [applyDirection_none] at h2; exact absurd h2 (by simp)
      · exact Or.inr (Or.inr (Or.inr (Or.inl ⟨h1, s1, h2, h3⟩)))
      · exact Or.inr (Or.inr (Or.inl ⟨h1, s1, h2, h3⟩))
      · exact Or.inr (Or.inl ⟨h1, s1, h2, h3⟩)
      · exact Or.inl ⟨h1, s1, h2, h3⟩
    · exact Or.inr (Or.inr (Or.inr (Or.inr h)))

/-! ## The loop of `limitedDepthSearch` -/

theorem limitedDepthSearchLoop_nil (h : State → Int) (fuel : Nat) (a : AlgorithmIDA) :
    limitedDepthSearchLoop h fuel a [] = some (false, a) := by
  cases fuel <;> rfl

theorem limitedDepthSearchLoop_zero (h : State → Int) (a : AlgorithmIDA) (n : SearchNode)
    (rest : List SearchNode) : limitedDepthSearchLoop h 0 a (n :: rest) = none := rfl

theorem limitedDepthSearchLoop_succ (h : State → Int) (fuel : Nat) (a : AlgorithmIDA)
    (n : SearchNode) (rest : List SearchNode) :
    limitedDepthSearchLoop h (fuel + 1) a (n :: rest) =
      if n._state.eqState kFinalState = true then
        some (true,
          { _maxCurrentDepth := a._maxCurrentDepth
            _nodeExplored := a._nodeExplored + 1
            _solutionLengthPath := n._counterPath
            _solutionPath := n._path2Here })
      else if n._cost2Here + h n._state ≤ a._maxCurrentDepth then
        limitedDepthSearchLoop h fuel { a with _nodeExplored := a._nodeExplored + 1 }
          (pushChildren n rest)
      else
        limitedDepthSearchLoop h fuel { a with _nodeExplored := a._nodeExplored + 1 } rest :=
  rfl

theorem limitedDepthSearchLoop_maxDepth (h : State → Int) (fuel : Nat) :
    ∀ (a : AlgorithmIDA) (stack : List SearchNode) (f : Bool) (a' : AlgorithmIDA),
      limitedDepthSearchLoop h fuel a stack = some (f, a') →
        a'._maxCurrentDepth = a._maxCurrentDepth := by
  induction fuel with
  | zero =>
    intro a stack f a' hr
    cases stack with
    | nil => rw [limitedDepthSearchLoop_nil] at hr; cases hr; rfl
    | cons n rest => rw [limitedDepthSearchLoop_zero] at hr; cases hr
  | succ fuel ih =>
    intro a stack f a' hr
    cases stack with
    | nil => rw [limitedDepthSearchLoop_nil] at hr; cases hr; rfl
    | cons n rest =>
      rw [limitedDepthSearchLoop_succ] at hr
      split_ifs at hr
      · cases hr; rfl
      · have := ih _ _ _ _ hr
        exact this
      · have := ih _ _ _ _ hr
        exact this

/-- A property of the nodes that is kept by every push leads to a popped node
with the property whenever the loop reports a solution. -/
theorem limitedDepthSearchLoop_found (h : State → Int) (P : SearchNode → Prop) (bound : Int)
    (hstep : ∀ n c, P n → n._state.eqState kFinalState = false →
      n._cost2Here + h n._state ≤ bound → IsChild n c → P c) (fuel : Nat) :
    ∀ (a : AlgorithmIDA) (stack : List SearchNode) (a' : AlgorithmIDA),
      a._maxCurrentDepth = bound → (∀ n ∈ stack, P n) →
      limitedDepthSearchLoop h fuel a stack = some (true, a') →
      ∃ n, P n ∧ n._state.eqState kFinalState = true ∧
        a'._solutionLengthPath = n._counterPath ∧ a'._solutionPath = n._path2Here := by
  induction fuel with
  | zero =>
    intro a stack a' _ _ hr
    cases stack with
    | nil => rw [limitedDepthSearchLoop_nil] at hr; cases hr
    | cons n rest => rw [limitedDepthSearchLoop_zero] at hr; cases hr
  | succ fuel ih =>
    intro a stack a' hb hP hr
    cases stack with
    | nil => rw [limitedDepthSearchLoop_nil] at hr; cases hr
    | cons n rest =>
      rw [limitedDepthSearchLoop_succ] at hr
      have hPn : P n := hP n (List.mem_cons_self _ _)
      have hPrest : ∀ x ∈ rest, P x := fun x hx => hP x (List.mem_cons_of_mem _ hx)
      split_ifs at hr with h1 h2
      · cases hr
        exact ⟨n, hPn, h1, rfl, rfl⟩
      · refine ih { a with _nodeExplored := a._nodeExplored + 1 } _ _ hb (fun x hx => ?_) hr
        rcases (mem_pushChildren n rest x).1 hx with hc | hx'
        · exact hstep n x hPn (by simpa using h1) (hb ▸ h2) hc
        · exact hPrest x hx'
      · exact ih { a with _nodeExplored := a._nodeExplored + 1 } _ _ hb hPrest hr

/-- When the loop ends without a solution, no node of the stack leads to the
solved state. -/
theorem limitedDepthSearchLoop_not_good (h : State → Int) (fuel : Nat) :
    ∀ (a : AlgorithmIDA) (stack : List SearchNode) (a' : AlgorithmIDA),
      limitedDepthSearchLoop h fuel a stack = some (false, a') →
      ∀ n ∈ stack, ¬ Good h a._maxCurrentDepth n := by
  induction fuel with
  | zero =>
    intro a stack a' hr n hn
    cases stack with
    | nil => cases hn
    | cons n rest => rw [limitedDepthSearchLoop_zero] at hr; cases hr
  | succ fuel ih =>
    intro a stack a' hr x hx
    cases stack with
    | nil => cases hx
    | cons n rest =>
      rw [limitedDepthSearchLoop_succ] at hr
      split_ifs at hr with h1 h2
      · cases hr
      · have hall := ih _ _ _ hr
        rcases List.mem_cons.1 hx with rfl | hx'
        · intro hg
          cases hg with
          | goal _ hgoal => exact h1 hgoal
          | step _ c _ _ hc hgc =>
            exact hall c ((mem_pushChildren _ rest c).2 (Or.inl hc)) hgc
        · exact hall x ((mem_pushChildren n rest x).2 (Or.inr hx'))
      · have hall := ih _ _ _ hr
        rcases List.mem_cons.1 hx with rfl | hx'
        · intro hg
          cases hg with
          | goal _ hgoal => exact h1 hgoal
          | step _ c _ hle _ _ => exact h2 hle
        · exact hall x hx'

/-! ## Legal moves on valid states -/

theorem applyDirection_eq (s : State) (p : Nat) (hp : s._indexSpace = (p : Int))
    (d : Direction) : applyDirection s d = (target p d).map (movedState s p) := by
  have hcast : ∀ v : Nat, (v : Int) ≠ -1 := fun v => by omega
  cases d
  · rfl
  · rw [applyDirection_left, moveLeft_eq s s p hp]
    unfold target movedState
    by_cases h : p % 4 = 0
    · simp [h]
    · simp only [if_neg h, ne_eq, hcast, not_false_eq_true, if_true, Option.map_some']
      congr 2; omega
  · rw [applyDirection_right, moveRight_eq s s p hp]
    unfold target movedState
    by_cases h : (p + 1) % 4 = 0
    · simp [h]
    · simp only [if_neg h, ne_eq, hcast, not_false_eq_true, if_true, Option.map_some']
      congr 2
  · rw [applyDirection_down, moveDown_eq s s p hp]
    unfold target movedState
    by_cases h : p ≥ 12
    · simp [h]
    · simp only [if_neg h, ne_eq, hcast, not_false_eq_true, if_true, Option.map_some']
      congr 2
  · rw [applyDirection_up, moveUp_eq s s p hp]
    unfold target movedState
    by_cases h : p < 4
    · simp [h]
    · simp only [if_neg h, ne_eq, hcast, not_false_eq_true, if_true, Option.map_some']
      congr 2; omega

theorem target_lt (p q : Nat) (d : Direction) (hp : p < 16) (h : target p d = some q) :
    q < 16 ∧ p ≠ q := by
  cases d <;> simp only [target] at h
  · cases h
  all_goals
    split_ifs at h
    simp only [Option.some.injEq] at h
    omega

theorem applyDirection_valid (s s1 : State) (d : Direction) (hs : ValidState s)
    (h : applyDirection s d = some s1) : ValidState s1 := by
  obtain ⟨p, hp, hidx, _, _⟩ := hs.blank
  rw [applyDirection_eq s p hidx d] at h
  rcases ht : target p d with _ | q
  · rw [ht] at h; cases h
  · rw [ht] at h
    simp only [Option.map_some', Option.some.injEq] at h
    obtain ⟨hq, hpq⟩ := target_lt p q d hp ht
    rw [← h]
    exact hs.move hidx hq hpq

theorem applyMoves_append (s : State) (ms : List Direction) (d : Direction) :
    applyMoves s (ms ++ [d]) =
      match applyMoves s ms with
      | none => none
      | some s1 => applyDirection s1 d := by
  induction ms generalizing s with
  | nil =>
    simp only [List.nil_append, applyMoves]
    cases applyDirection s d <;> rfl
  | cons m ms ih =>
    simp only [List.cons_append, applyMoves]
    cases applyDirection s m with
    | none => rfl
    | some s1 => exact ih s1

theorem applyMoves_valid (s t : State) (ms : List Direction) (hs : ValidState s)
    (h : applyMoves s ms = some t) : ValidState t := by
  induction ms generalizing s with
  | nil => simp only [applyMoves, Option.some.injEq] at h; exact h ▸ hs
  | cons m ms ih =>
    simp only [applyMoves] at h
    rcases h1 : applyDirection s m with _ | s1
    · rw [h1] at h; cases h
    · rw [h1] at h
      exact ih s1 (applyDirection_valid s s1 m hs h1) h

theorem writePath_length (l : List Char) (k : Int) (c : Char) :
    (writePath l k c).length = l.length := by
  unfold writePath; split_ifs <;> simp

theorem take_writePath (l : List Char) (k : Nat) (c : Char) (hk : k < l.length) :
    (writePath l (k : Int) c).take (k + 1) = l.take k ++ [c] := by
  unfold writePath
  rw [if_pos (by omega), Int.toNat_ofNat, List.take_succ, List.set_take,
    List.set_eq_of_length_le (by simp), List.getElem?_set_self hk]
  rfl

theorem nodeInv_start (start : State) (hs : ValidState start) :
    NodeInv start (SearchNode.ofState start) :=
  ⟨hs, [], rfl, rfl, by simp [SearchNode.ofState], fun _ => rfl⟩

theorem nodeInv_child (start : State) (n c : SearchNode) (hn : NodeInv start n)
    (hc : IsChild n c) : NodeInv start c := by
  obtain ⟨hv, ms, hms, hcnt, hlen, htake⟩ := hn
  obtain ⟨d, s1, _, hd, rfl⟩ := hc
  refine ⟨applyDirection_valid _ _ _ hv hd, ms ++ [d], ?_, ?_, ?_, ?_⟩
  · rw [applyMoves_append, hms]; exact hd
  · simp only [childNode, hcnt, List.length_append, List.length_singleton]; push_cast; rfl
  · simp only [childNode, writePath_length, hlen]
  · intro hle
    simp only [List.length_append, List.length_singleton] at hle ⊢
    simp only [childNode, hcnt, List.map_append, List.map_cons, List.map_nil]
    rw [take_writePath _ _ _ (by rw [hlen]; omega), htake (by omega)]

/-! ## The loop of `findSolution` -/

theorem findSolutionLoop_eq (fuel : Nat) (start : State) (h : State → Int) (n : Nat)
    (a : AlgorithmIDA) (found : Bool) :
    findSolutionLoop fuel start h n a found =
      if a._maxCurrentDepth ≤ kTotalDepthLimit ∧ found = false then
        match n with
        | 0 => none
        | n + 1 =>
          match a.limitedDepthSearch fuel start h with
          | none => none
          | some (aFound, a1) =>
            findSolutionLoop fuel start h n
              (if aFound = false then { a1 with _maxCurrentDepth := a1._maxCurrentDepth + 2 }
               else a1)
              aFound
      else some (found, a) := by
  cases n <;> rfl

theorem findSolutionLoop_true (fuel : Nat) (start : State) (h : State → Int) (n : Nat)
    (a : AlgorithmIDA) : findSolutionLoop fuel start h n a true = some (true, a) := by
  rw [findSolutionLoop_eq]; simp

/-- An invariant `I` of the iterations without a solution gives the property `Q`
of the iteration that reports one. -/
theorem findSolutionLoop_inv (fuel : Nat) (start : State) (h : State → Int)
    (I Q : AlgorithmIDA → Prop)
    (hfail : ∀ a a', I a → a._maxCurrentDepth ≤ kTotalDepthLimit →
      a.limitedDepthSearch fuel start h = some (false, a') →
      I { a' with _maxCurrentDepth := a'._maxCurrentDepth + 2 })
    (hfound : ∀ a a', I a → a._maxCurrentDepth ≤ kTotalDepthLimit →
      a.limitedDepthSearch fuel start h = some (true, a') → Q a') (n : Nat) :
    ∀ (a r : AlgorithmIDA), I a → findSolutionLoop fuel start h n a false = some (true, r) →
      Q r := by
  induction n with
  | zero =>
    intro a r _ hr
    rw [findSolutionLoop_eq] at hr
    split_ifs at hr
    cases hr
  | succ n ih =>
    intro a r hI hr
    rw [findSolutionLoop_eq] at hr
    split_ifs at hr with hc
    · rcases hl : a.limitedDepthSearch fuel start h with _ | ⟨f, a1⟩
      · rw [hl] at hr; cases hr
      · rw [hl] at hr
        simp only at hr
        cases f with
        | true =>
          simp only [Bool.true_eq_false, if_false] at hr
          rw [findSolutionLoop_true] at hr
          cases hr
          exact hfound a _ hI hc.1 hl
        | false =>
          simp only [if_true] at hr
          exact ih _ r (hfail a a1 hI hc.1 hl) hr
    · cases hr

/-! ## Replay of a path -/

theorem applySymbol_symbol (s : State) (d : Direction) :
    applySymbol s d.symbol = applyDirection s d := by
  cases d <;> rfl

theorem replayPath_map_symbol (s : State) (ms : List Direction) :
    replayPath s (ms.map Direction.symbol) = applyMoves s ms := by
  induction ms generalizing s with
  | nil => rfl
  | cons d ms ih =>
    simp only [List.map_cons, replayPath, applyMoves, applySymbol_symbol]
    cases applyDirection s d with
    | none => rfl
    | some s1 => exact ih s1

theorem eq_final_of_eqState (s : State) (hs : ValidState s)
    (h : s.eqState kFinalState = true) : s = State.generateSortedState := by
  apply hs.eq_of_data validState_sorted
  simpa [State.eqState] using h

theorem limitedDepthSearch_sound (fuel : Nat) (a a' : AlgorithmIDA) (start : State)
    (h : State → Int) (hs : ValidState start)
    (hr : a.limitedDepthSearch fuel start h = some (true, a')) :
    ∃ ms : List Direction, applyMoves start ms = some State.generateSortedState ∧
      a'._solutionLengthPath = (ms.length : Int) ∧
      (ms.length ≤ kMaxPath → a'._solutionPath.take ms.length = ms.map Direction.symbol) := by
  obtain ⟨n, ⟨hv, ms, hms, hcnt, _, htake⟩, hfin, hl, hp⟩ :=
    limitedDepthSearchLoop_found h (NodeInv start) a._maxCurrentDepth
      (fun n c hn _ _ hc => nodeInv_child start n c hn hc) fuel a _ a' rfl
      (fun n hn => by
        rw [List.mem_singleton.1 hn]; exact nodeInv_start start hs) hr
  refine ⟨ms, ?_, hl.trans hcnt, fun hle => ?_⟩
  · rw [hms, eq_final_of_eqState _ hv hfin]
  · rw [hp]; exact htake hle

/-! ## Inverse moves, parity and minimal move sequences -/

theorem opposite_opposite (d : Direction) : d.opposite.opposite = d := by
  cases d <;> rfl

theorem target_opposite (p q : Nat) (d : Direction) (hp : p < 16) (h : target p d = some q) :
    target q d.opposite = some p := by
  cases d <;> simp only [target, Direction.opposite] at h ⊢
  · cases h
  all_goals
    split_ifs at h
    simp only [Option.some.injEq] at h
    subst h
    rw [if_neg (by omega)]
    simp only [Option.some.injEq]
    omega

theorem target_parity (p q : Nat) (d : Direction) (h : target p d = some q) :
    (q / 4 + q % 4) % 2 = (p / 4 + p % 4 + 1) % 2 := by
  cases d <;> simp only [target] at h
  · cases h
  all_goals
    split_ifs at h
    simp only [Option.some.injEq] at h
    omega

theorem movedState_involution (s : State) (hs : ValidState s) (p q : Nat)
    (hp : s._indexSpace = (p : Int)) (hq : q < 16) (hpq : p ≠ q) :
    movedState (movedState s p q) q p = s := by
  obtain ⟨hp16, h0, _⟩ := hs.blank_eq hp
  unfold movedState
  simp only
  rw [moveData_involution _ _ _ hs.1 hp16 hq hpq h0, ← hp, ← hs.tilesPositions_eq]

theorem applyDirection_opposite (s s1 : State) (d : Direction) (hs : ValidState s)
    (h : applyDirection s d = some s1) : applyDirection s1 d.opposite = some s := by
  obtain ⟨p, hp, hidx, _, _⟩ := hs.blank
  rw [applyDirection_eq s p hidx d] at h
  rcases ht : target p d with _ | q
  · rw [ht] at h; cases h
  · rw [ht] at h
    simp only [Option.map_some', Option.some.injEq] at h
    obtain ⟨hq, hpq⟩ := target_lt p q d hp ht
    subst h
    rw [applyDirection_eq (movedState s p q) q rfl, target_opposite p q d hp ht]
    simp only [Option.map_some', movedState_involution s hs p q hidx hq hpq]

theorem applyDirection_parity (s s1 : State) (d : Direction) (hs : ValidState s)
    (h : applyDirection s d = some s1) : blankParity s1 = (blankParity s + 1) % 2 := by
  obtain ⟨p, hp, hidx, _, _⟩ := hs.blank
  rw [applyDirection_eq s p hidx d] at h
  rcases ht : target p d with _ | q
  · rw [ht] at h; cases h
  · rw [ht] at h
    simp only [Option.map_some', Option.some.injEq] at h
    subst h
    have := target_parity p q d ht
    simp only [blankParity, movedState, hidx, Int.toNat_ofNat]
    omega

theorem applyMoves_parity (s t : State) (ms : List Direction) (hs : ValidState s)
    (h : applyMoves s ms = some t) : blankParity t = (blankParity s + ms.length) % 2 := by
  induction ms generalizing s with
  | nil =>
    simp only [applyMoves, Option.some.injEq] at h
    subst h
    simp only [List.length_nil, add_zero, blankParity]
    omega
  | cons d ms ih =>
    simp only [applyMoves] at h
    rcases h1 : applyDirection s d with _ | s1
    · rw [h1] at h; cases h
    · rw [h1] at h
      rw [ih s1 (applyDirection_valid s s1 d hs h1) h, applyDirection_parity s s1 d hs h1]
      simp only [List.length_cons]
      omega

/-- Two sequences of legal moves between the same two states have lengths of the
same parity. -/
theorem reach_parity (s t : State) (m1 m2 : Nat) (hs : ValidState s) (h1 : Reach m1 s t)
    (h2 : Reach m2 s t) : m1 % 2 = m2 % 2 := by
  obtain ⟨ms1, rfl, e1⟩ := h1
  obtain ⟨ms2, rfl, e2⟩ := h2
  have p1 := applyMoves_parity s t ms1 hs e1
  have p2 := applyMoves_parity s t ms2 hs e2
  omega

theorem reach_cons (s s1 t : State) (d : Direction) (m : Nat)
    (h1 : applyDirection s d = some s1) (h2 : Reach m s1 t) : Reach (m + 1) s t := by
  obtain ⟨ms, rfl, e⟩ := h2
  exact ⟨d :: ms, rfl, by simp only [applyMoves, h1, e]⟩

theorem exists_minimal (s : State) (m : Nat) (h : Reach m s State.generateSortedState) :
    ∃ d, IsMinimalSolutionLength s d := by
  classical
  have hex : ∃ k, Reach k s State.generateSortedState := ⟨m, h⟩
  exact ⟨Nat.find hex, Nat.find_spec hex, fun k hk => Nat.find_min' hex hk⟩

theorem mem_statesAfter (s t : State) (ms : List Direction) (h : applyMoves s ms = some t) :
    t ∈ statesAfter ms.length s := by
  induction ms generalizing s with
  | nil =>
    simp only [applyMoves, Option.some.injEq] at h
    simp [statesAfter, h]
  | cons d ms ih =>
    simp only [applyMoves] at h
    rcases h1 : applyDirection s d with _ | s1
    · rw [h1] at h; cases h
    · rw [h1] at h
      simp only [List.length_cons, statesAfter, List.mem_flatMap, List.mem_filterMap]
      refine ⟨s1, ⟨d, ?_, h1⟩, ih s1 h⟩
      cases d
      · rw [applyDirection_none] at h1; cases h1
      all_goals simp

/-! ## Completeness of one bounded search and optimality of the driver -/

theorem toInt8_of_small (x : Int) (h0 : -128 ≤ x) (h1 : x ≤ 127) : toInt8 x = x := by
  unfold toInt8
  rw [Int.emod_eq_of_lt (by omega) (by omega)]
  omega

theorem eqState_final_iff (s : State) (hs : ValidState s) :
    s.eqState kFinalState = true ↔ s = State.generateSortedState :=
  ⟨eq_final_of_eqState s hs, fun h => by rw [h]; rfl⟩

/-- A node whose state is the start of a shortest sequence of legal moves to the
solved state leads to the solved state in a search whose bound is at least the
cost of the node plus the length of the sequence. -/
theorem good_of_minimal_path (h : State → Int) (hadm : Admissible h) (bound : Int)
    (hb : bound ≤ 126) :
    ∀ (ms : List Direction) (n : SearchNode), ValidState n._state →
      applyMoves n._state ms = some State.generateSortedState →
      (∀ m, Reach m n._state State.generateSortedState → ms.length ≤ m) →
      (∀ d, ms.head? = some d → n._lastMove ≠ d.opposite) →
      0 ≤ n._cost2Here → n._cost2Here + (ms.length : Int) ≤ bound →
      Good h bound n := by
  intro ms
  induction ms with
  | nil =>
    intro n hv hms _ _ _ _
    simp only [applyMoves, Option.some.injEq] at hms
    exact Good.goal n ((eqState_final_iff _ hv).2 hms)
  | cons d ms ih =>
    intro n hv hms hmin hlast h0 hle
    simp only [applyMoves] at hms
    rcases h1 : applyDirection n._state d with _ | s1
    · rw [h1] at hms; cases hms
    rw [h1] at hms
    have hv1 := applyDirection_valid _ _ _ hv h1
    have hreach : Reach (ms.length + 1) n._state State.generateSortedState :=
      reach_cons _ _ _ d _ h1 ⟨ms, rfl, hms⟩
    have hnotfinal : n._state.eqState kFinalState = false := by
      by_contra hf
      have hfin := (eqState_final_iff _ hv).1 (by simpa using hf)
      have := hmin 0 ⟨[], rfl, by rw [hfin]; rfl⟩
      simp at this
    have hh : h n._state ≤ ((ms.length + 1 : Nat) : Int) := hadm _ hv _ hreach
    simp only [List.length_cons] at hle
    refine Good.step n (childNode n d s1) hnotfinal (by push_cast at hh hle; omega)
      ⟨d, s1, hlast d rfl, h1, rfl⟩ ?_
    have hcost : (childNode n d s1)._cost2Here = n._cost2Here + 1 := by
      simp only [childNode]
      exact toInt8_of_small _ (by omega) (by push_cast at hle; omega)
    apply ih (childNode n d s1) hv1 hms
    · intro m hm
      have := hmin (m + 1) (reach_cons _ _ _ d _ h1 hm)
      simp only [List.length_cons] at this
      omega
    · intro d' hd' hopp
      cases ms with
      | nil => simp at hd'
      | cons d2 ms2 =>
        simp only [List.head?_cons, Option.some.injEq] at hd'
        subst hd'
        simp only [childNode] at hopp
        have hd2 : d2 = d.opposite := by rw [hopp, opposite_opposite]
        simp only [applyMoves] at hms
        have hback := applyDirection_opposite _ _ _ hv h1
        rw [hd2, hback] at hms
        have := hmin ms2.length ⟨ms2, rfl, hms⟩
        simp only [List.length_cons] at this
        omega
    · rw [hcost]; omega
    · rw [hcost]; push_cast at hle ⊢; omega

/-- A search that ends without a solution has a bound below the length of every
sequence of legal moves from the start state to the solved state. -/
theorem limitedDepthSearch_false_bound (fuel : Nat) (a a' : AlgorithmIDA) (start : State)
    (h : State → Int) (hs : ValidState start) (hadm : Admissible h)
    (hb : a._maxCurrentDepth ≤ 126)
    (hr : a.limitedDepthSearch fuel start h = some (false, a')) (d : Nat)
    (hd : IsMinimalSolutionLength start d) : a._maxCurrentDepth < (d : Int) := by
  by_contra hlt
  obtain ⟨⟨ms, hlen, hms⟩, hmin⟩ := hd
  have hgood : Good h a._maxCurrentDepth (SearchNode.ofState start) := by
    apply good_of_minimal_path h hadm _ hb ms (SearchNode.ofState start) hs hms
    · intro m hm; rw [hlen]; exact hmin m hm
    · intro d' hd'
      cases d' with
      | NONE =>
        cases ms with
        | nil => simp at hd'
        | cons d2 ms2 =>
          simp only [List.head?_cons, Option.some.injEq] at hd'
          subst hd'
          simp [applyMoves, applyDirection_none] at hms
      | LEFT => simp [SearchNode.ofState, Direction.opposite]
      | RIGHT => simp [SearchNode.ofState, Direction.opposite]
      | DOWN => simp [SearchNode.ofState, Direction.opposite]
      | UP => simp [SearchNode.ofState, Direction.opposite]
    · simp [SearchNode.ofState]
    · simp only [SearchNode.ofState, zero_add, hlen]; omega
  exact limitedDepthSearchLoop_not_good h fuel a _ a' hr _ (List.mem_singleton.2 rfl) hgood

/-- What the search keeps true of every node on its stack when the heuristic is
non-negative: the cost equals the path counter, which is at most the bound plus
one. -/
theorem limitedDepthSearch_length_bound (fuel : Nat) (a a' : AlgorithmIDA) (start : State)
    (h : State → Int) (hs : ValidState start) (hnn : NonNegative h)
    (hb0 : -1 ≤ a._maxCurrentDepth) (hb : a._maxCurrentDepth ≤ 126)
    (hr : a.limitedDepthSearch fuel start h = some (true, a')) :
    ∃ ms : List Direction, applyMoves start ms = some State.generateSortedState ∧
      a'._solutionLengthPath = (ms.length : Int) ∧
      (ms.length : Int) ≤ a._maxCurrentDepth + 1 := by
  obtain ⟨n, ⟨⟨hv, ms, hms, hcnt, _, _⟩, _, hle⟩, hfin, hl, _⟩ :=
    limitedDepthSearchLoop_found h
      (fun n => NodeInv start n ∧ n._cost2Here = n._counterPath ∧
        n._counterPath ≤ a._maxCurrentDepth + 1) a._maxCurrentDepth
      (fun n c hn _ hf hc => by
        obtain ⟨hinv, hcost, _⟩ := hn
        have hinv' := nodeInv_child start n c hinv hc
        obtain ⟨hv, ms, _, hcnt, _, _⟩ := hinv
        obtain ⟨d, s1, _, _, rfl⟩ := hc
        have hh := hnn _ hv
        refine ⟨hinv', ?_, ?_⟩
        · simp only [childNode]
          rw [toInt8_of_small _ (by omega) (by omega), hcost]
        · simp only [childNode]; omega)
      fuel a _ a' rfl
      (fun n hn => by
        rw [List.mem_singleton.1 hn]
        exact ⟨nodeInv_start start hs, rfl, by simp only [SearchNode.ofState]; omega⟩) hr
  refine ⟨ms, ?_, hl.trans hcnt, by omega⟩
  rw [hms, eq_final_of_eqState _ hv hfin]

theorem limitedDepthSearch_maxDepth (fuel : Nat) (a a' : AlgorithmIDA) (start : State)
    (h : State → Int) (f : Bool) (hr : a.limitedDepthSearch fuel start h = some (f, a')) :
    a'._maxCurrentDepth = a._maxCurrentDepth :=
  limitedDepthSearchLoop_maxDepth h fuel a _ f a' hr

/-- Optimality of the driver for a non-negative admissible heuristic whose value
at the start state has the parity of the solution lengths. -/
theorem findSolution_optimal (fuel : Nat) (a r : AlgorithmIDA) (start : State)
    (h : State → Int) (hs : ValidState start) (hnn : NonNegative h) (hadm : Admissible h)
    (hpar : ∀ m, Reach m start State.generateSortedState → (h start - (m : Int)) % 2 = 0)
    (hrun : a.findSolution fuel start h = some (true, r)) :
    ∃ n : Nat, r._solutionLengthPath = (n : Int) ∧ IsMinimalSolutionLength start n := by
  have h0 := hnn start hs
  refine findSolutionLoop_inv fuel start h
    (fun a => h start ≤ a._maxCurrentDepth ∧ (a._maxCurrentDepth - h start) % 2 = 0 ∧
      (h start < a._maxCurrentDepth →
        ∀ d, IsMinimalSolutionLength start d → a._maxCurrentDepth - 2 < (d : Int)))
    (fun r => ∃ n : Nat, r._solutionLengthPath = (n : Int) ∧ IsMinimalSolutionLength start n)
    ?_ ?_ fuel _ r ⟨le_refl _, by simp, fun hlt => absurd hlt (lt_irrefl _)⟩ hrun
  · intro a a' ⟨h1, h2, _⟩ hle hr
    have hmax := limitedDepthSearch_maxDepth fuel a a' start h false hr
    unfold kTotalDepthLimit at hle
    refine ⟨by simp only [hmax]; omega, by simp only [hmax]; omega, fun _ d hd => ?_⟩
    have := limitedDepthSearch_false_bound fuel a a' start h hs hadm (by omega) hr d hd
    simp only [hmax]; omega
  · intro a a' ⟨h1, h2, h3⟩ hle hr
    unfold kTotalDepthLimit at hle
    obtain ⟨ms, hms, hl, hlen⟩ :=
      limitedDepthSearch_length_bound fuel a a' start h hs hnn (by omega) (by omega) hr
    have hreach : Reach ms.length start State.generateSortedState := ⟨ms, rfl, hms⟩
    obtain ⟨d, hd⟩ := exists_minimal start _ hreach
    have hdn := hd.2 _ hreach
    have hpd := reach_parity start _ _ _ hs hreach hd.1
    have hp := hpar d hd.1
    have hadm0 := hadm start hs d hd.1
    have hnd : ms.length = d := by
      by_cases hcase : h start < a._maxCurrentDepth
      · have := h3 hcase d hd
        omega
      · omega
    exact ⟨ms.length, hl, hnd ▸ hd⟩

/-! ## Manhattan distance -/

theorem computePositionLoop_nibble (d : Nat) (hd : NibblesDistinct d) (i0 : Nat) (hi0 : i0 < 16)
    (n : Nat) (hn : n ≤ 16) (acc : Nat) :
    nibbleAt (computePositionLoop d n acc) (nibbleAt d i0) =
      nibbleAt acc (nibbleAt d i0) ||| (if i0 < n then i0 else 0) := by
  induction n generalizing acc with
  | zero => simp [computePositionLoop]
  | succ n ih =>
    rw [computePositionLoop, ih (by omega), nibbleAt_or,
      nibbleAt_shl64 _ _ _ (by omega) (nibbleAt_lt _ _) (nibbleAt_lt _ _)]
    by_cases h : i0 = n
    · subst h
      simp
    · have hne : nibbleAt d i0 ≠ nibbleAt d n := hd i0 n hi0 (by omega) h
      rw [if_neg hne]
      by_cases h2 : i0 < n
      · have h3 : i0 < n + 1 := by omega
        simp [h2, h3]
      · have h3 : ¬ i0 < n + 1 := by omega
        simp [h2, h3]

theorem tilesPositions_inverse (s : State) (hs : ValidState s) (i : Nat) (hi : i < 16) :
    nibbleAt s._tilesPositions (nibbleAt s._data i) = i := by
  rw [hs.tilesPositions_eq]
  unfold computePositionFromConfiguration kNumTiles
  rw [computePositionLoop_nibble _ ((isValid_iff_distinct s).1 hs.2.1) i hi 16 (le_refl _)]
  simp [nibbleAt_zero_left, hi]

theorem mdTerm_nonneg (A B : State) (i : Nat) : 0 ≤ mdTerm A B i := by
  unfold mdTerm; split_ifs <;> omega

theorem mdTerm_le (A B : State) (i : Nat) : mdTerm A B i ≤ 6 := by
  unfold mdTerm
  split_ifs
  · have h1 := nibbleAt_lt A._tilesPositions (nibbleAt A._data i)
    have h2 := nibbleAt_lt B._tilesPositions (nibbleAt A._data i)
    omega
  · omega

theorem computeDistanceLoop_eq (A B : State) (n : Nat) (acc : Int) (h0 : 0 ≤ acc)
    (h1 : acc + 6 * (n : Int) ≤ 127) :
    computeDistanceLoop A B n acc = acc + ∑ i in Finset.range n, mdTerm A B i := by
  induction n generalizing acc with
  | zero => simp [computeDistanceLoop]
  | succ n ih =>
    have hle := mdTerm_le A B n
    have hnn := mdTerm_nonneg A B n
    have hstep : (if (A.getStateConfiguration >>> (n <<< 2)) &&& 0xF ≠ 0 ∧
          (A.getStateConfiguration >>> (n <<< 2)) &&& 0xF ≠
            (B.getStateConfiguration >>> (n <<< 2)) &&& 0xF then
        toInt8 (acc +
          ((((Int.tdiv (((A.getTilesPositions >>>
                (((A.getStateConfiguration >>> (n <<< 2)) &&& 0xF) <<< 2)) &&& 0xF : Nat) : Int)
                kSize) -
              (Int.tdiv (((B.getTilesPositions >>>
                (((A.getStateConfiguration >>> (n <<< 2)) &&& 0xF) <<< 2)) &&& 0xF : Nat) : Int)
                kSize)).natAbs : Int) +
           (((Int.tmod (((A.getTilesPositions >>>
                (((A.getStateConfiguration >>> (n <<< 2)) &&& 0xF) <<< 2)) &&& 0xF : Nat) : Int)
                kSize) -
              (Int.tmod (((B.getTilesPositions >>>
                (((A.getStateConfiguration >>> (n <<< 2)) &&& 0xF) <<< 2)) &&& 0xF : Nat) : Int)
                kSize)).natAbs : Int)))
        else acc) = acc + mdTerm A B n := by
      have e1 : ∀ x : Nat, Int.tdiv (x : Int) kSize = (x : Int) / 4 :=
        fun x => Int.tdiv_eq_ediv (by omega) (by decide)
      have e2 : ∀ x : Nat, Int.tmod (x : Int) kSize = (x : Int) % 4 :=
        fun x => Int.tmod_eq_emod (by omega) (by decide)
      simp only [e1, e2]
      unfold mdTerm at hle hnn ⊢
      simp only [State.getStateConfiguration, State.getTilesPositions, nibbleAt] at hle hnn ⊢
      split_ifs at hle hnn ⊢ with hc
      · rw [toInt8_of_small _ (by omega) (by push_cast at h1; omega)]
      · omega
    rw [computeDistanceLoop]
    simp only
    rw [hstep, ih _ (by omega) (by push_cast at h1; omega), Finset.sum_range_succ]
    ring

theorem computeDistance_eq_sum (A B : State) :
    DistanceManhattan.computeDistance A B = ∑ i in Finset.range 16, mdTerm A B i := by
  unfold DistanceManhattan.computeDistance kNumTiles
  rw [computeDistanceLoop_eq A B 16 0 (le_refl _) (by norm_num), zero_add]

theorem goalPosition_lt (t : Nat) : goalPosition t < 16 := nibbleAt_lt _ _

theorem mdTerm_final (A : State) (hs : ValidState A) (i : Nat) (hi : i < 16) :
    mdTerm A State.generateSortedState i = cellDistance i (nibbleAt A._data i) := by
  unfold mdTerm cellDistance
  rw [tilesPositions_inverse A hs i hi]
  by_cases h0 : nibbleAt A._data i = 0
  · simp [h0]
  · by_cases h1 : nibbleAt A._data i = nibbleAt State.generateSortedState._data i
    · have hg : goalPosition (nibbleAt A._data i) = i := by
        unfold goalPosition
        rw [h1]
        exact tilesPositions_inverse _ validState_sorted i hi
      simp only [ne_eq, h0, not_false_eq_true, h1, not_true_eq_false, and_false, if_false,
        if_true]
      rw [← h1, hg]
      simp
    · simp only [ne_eq, h0, not_false_eq_true, h1, and_self, if_true]
      rfl

theorem computeDistanceWithFinal_eq (A : State) (hs : ValidState A) :
    DistanceManhattan.computeDistanceWithFinal A =
      ∑ i in Finset.range 16, cellDistance i (nibbleAt A._data i) := by
  unfold DistanceManhattan.computeDistanceWithFinal DistanceManhattan.kFinalState
  rw [computeDistance_eq_sum]
  exact Finset.sum_congr rfl (fun i hi => mdTerm_final A hs i (Finset.mem_range.1 hi))

theorem sum_two_changes (f f' : Nat → Int) (p q : Nat) (hp : p < 16) (hq : q < 16)
    (hpq : p ≠ q) (hsame : ∀ i, i < 16 → i ≠ p → i ≠ q → f' i = f i) :
    ∑ i in Finset.range 16, f' i - ∑ i in Finset.range 16, f i =
      (f' p - f p) + (f' q - f q) := by
  rw [← Finset.sum_sub_distrib]
  have hterm : ∀ i ∈ Finset.range 16, f' i - f i =
      (if i = p then f' p - f p else 0) + (if i = q then f' q - f q else 0) := by
    intro i hi
    by_cases h1 : i = p
    · subst h1; simp [hpq]
    · by_cases h2 : i = q
      · subst h2; simp [h1]
      · simp [h1, h2, hsame i (Finset.mem_range.1 hi) h1 h2]
  rw [Finset.sum_congr rfl hterm, Finset.sum_add_distrib, Finset.sum_ite_eq',
    Finset.sum_ite_eq', if_pos (Finset.mem_range.2 hp), if_pos (Finset.mem_range.2 hq)]

theorem cellDistance_adjacent (p q t : Nat) (d : Direction) (hp : p < 16) (ht : t ≠ 0)
    (h : target p d = some q) :
    cellDistance p t = cellDistance q t + 1 ∨ cellDistance p t + 1 = cellDistance q t := by
  have hg := goalPosition_lt t
  unfold cellDistance
  rw [if_pos ht, if_pos ht]
  cases d <;> simp only [target] at h
  · cases h
  all_goals
    split_ifs at h
    simp only [Option.some.injEq] at h
    subst h
    omega

/-- One legal move changes the Manhattan distance to the solved state by exactly
one. -/
theorem manhattan_step (s s1 : State) (d : Direction) (hs : ValidState s)
    (h : applyDirection s d = some s1) :
    DistanceManhattan.computeDistanceWithFinal s1 =
        DistanceManhattan.computeDistanceWithFinal s + 1 ∨
      DistanceManhattan.computeDistanceWithFinal s1 + 1 =
        DistanceManhattan.computeDistanceWithFinal s := by
  have hs1 := applyDirection_valid s s1 d hs h
  obtain ⟨p, hp, hidx, h0, hne⟩ := hs.blank
  rw [applyDirection_eq s p hidx d] at h
  rcases ht : target p d with _ | q
  · rw [ht] at h; cases h
  rw [ht] at h
  simp only [Option.map_some', Option.some.injEq] at h
  obtain ⟨hq, hpq⟩ := target_lt p q d hp ht
  have hex := exchanged_moveData s._data p q hp hq hpq h0
  have hd1 : s1._data = moveData s._data p q := by rw [← h]; rfl
  rw [computeDistanceWithFinal_eq s1 hs1, computeDistanceWithFinal_eq s hs]
  have hdiff := sum_two_changes (fun i => cellDistance i (nibbleAt s._data i))
    (fun i => cellDistance i (nibbleAt s1._data i)) p q hp hq hpq
    (fun i hi h1 h2 => by
      simp only [hd1, hex i hi, if_neg h1, if_neg h2])
  have e_p : nibbleAt (moveData s._data p q) p = nibbleAt s._data q := by
    rw [hex p hp, if_pos rfl]
  have e_q : nibbleAt (moveData s._data p q) q = 0 := by
    rw [hex q hq, if_neg hpq.symm, if_pos rfl, h0]
  have hz : ∀ i, cellDistance i 0 = 0 := fun i => by simp [cellDistance]
  simp only [hd1, e_p, e_q, h0, hz] at hdiff
  have hadj := cellDistance_adjacent p q (nibbleAt s._data q) d hp (hne q hq hpq.symm) ht
  simp only [hd1]
  omega

theorem manhattan_sorted :
    DistanceManhattan.computeDistanceWithFinal State.generateSortedState = 0 := by
  decide!

theorem manhattan_path (s : State) (ms : List Direction) (hs : ValidState s)
    (h : applyMoves s ms = some State.generateSortedState) :
    DistanceManhattan.computeDistanceWithFinal s ≤ (ms.length : Int) ∧
      (DistanceManhattan.computeDistanceWithFinal s - (ms.length : Int)) % 2 = 0 := by
  induction ms generalizing s with
  | nil =>
    simp only [applyMoves, Option.some.injEq] at h
    rw [h, manhattan_sorted]
    simp
  | cons d ms ih =>
    simp only [applyMoves] at h
    rcases h1 : applyDirection s d with _ | s1
    · rw [h1] at h; cases h
    · rw [h1] at h
      have hstep := manhattan_step s s1 d hs h1
      have := ih s1 (applyDirection_valid s s1 d hs h1) h
      simp only [List.length_cons]
      push_cast
      omega

theorem manhattan_nonNegative : NonNegative DistanceManhattan.computeDistanceWithFinal := by
  intro s _
  unfold DistanceManhattan.computeDistanceWithFinal
  rw [computeDistance_eq_sum]
  exact Finset.sum_nonneg (fun i _ => mdTerm_nonneg _ _ i)

theorem manhattan_admissible : Admissible DistanceManhattan.computeDistanceWithFinal := by
  intro s hs m hm
  obtain ⟨ms, rfl, e⟩ := hm
  exact (manhattan_path s ms hs e).1

/-! ## Claims about the IDA* driver -/

/-- C1. Soundness of the solver: for a valid start state and any heuristic, when
`findSolution` reports a solution with `getSolutionLength() = n` and `n ≤ 80`,
the first `n` symbols of `getSolutionPath()`, replayed from the start state with
`L`, `R`, `U`, `D` as `moveLeft`, `moveRight`, `moveUp`, `moveDown`, are legal
moves at every step and end in `State::generateSortedState()`. -/
theorem C1_solution_path_sound (fuel : Nat) (a r : AlgorithmIDA) (start : State)
    (h : State → Int) (hs : ValidState start)
    (hrun : a.findSolution fuel start h = some (true, r))
    (hlen : r.getSolutionLength ≤ 80) :
    0 ≤ r.getSolutionLength ∧
    replayPath start (r.getSolutionPath.take r.getSolutionLength.toNat) =
      some State.generateSortedState := by
  have key : ∃ ms : List Direction, applyMoves start ms = some State.generateSortedState ∧
      r._solutionLengthPath = (ms.length : Int) ∧
      (ms.length ≤ kMaxPath → r._solutionPath.take ms.length = ms.map Direction.symbol) :=
    findSolutionLoop_inv fuel start h (fun _ => True)
      (fun r => ∃ ms : List Direction, applyMoves start ms = some State.generateSortedState ∧
        r._solutionLengthPath = (ms.length : Int) ∧
        (ms.length ≤ kMaxPath → r._solutionPath.take ms.length = ms.map Direction.symbol))
      (fun _ _ _ _ _ => trivial)
      (fun a a' _ _ hl => limitedDepthSearch_sound fuel a a' start h hs hl)
      fuel _ r trivial hrun
  obtain ⟨ms, hms, hl, htake⟩ := key
  unfold AlgorithmIDA.getSolutionLength AlgorithmIDA.getSolutionPath at *
  rw [hl] at hlen ⊢
  refine ⟨by omega, ?_⟩
  rw [Int.toNat_ofNat, htake (by unfold kMaxPath; omega), replayPath_map_symbol, hms]

/-- Witness of C1: the run of the unit test `AlgorithmIDA.TwoSteps`, which
reports the path `D`, `R` of length `2`. -/
theorem C1_solution_path_sound_witness :
    ValidState twoStepsState ∧
    freshAlgorithm.findSolution 64 twoStepsState zeroHeuristic =
      some (true,
        { _maxCurrentDepth := 2
          _nodeExplored := 19
          _solutionLengthPath := 2
          _solutionPath := 'D' :: 'R' :: List.replicate 78 (Char.ofNat 0) }) ∧
    (0 ≤ (2 : Int) ∧
      replayPath twoStepsState
          (('D' :: 'R' :: List.replicate 78 (Char.ofNat 0)).take (2 : Int).toNat) =
        some State.generateSortedState) :=
  ⟨⟨by decide, by decide, by decide⟩, by decide!,
    C1_solution_path_sound 64 freshAlgorithm
      { _maxCurrentDepth := 2
        _nodeExplored := 19
        _solutionLengthPath := 2
        _solutionPath := 'D' :: 'R' :: List.replicate 78 (Char.ofNat 0) }
      twoStepsState zeroHeuristic ⟨by decide, by decide, by decide⟩ (by decide!) (by decide)⟩

/-- C2, as stated, fails: `sparseHeuristic` is non-negative and admissible, the
start state `fiveMovesState` has a solution of five moves, and `findSolution`
reports a solution of length seven (bounds `0, 2, 4` fail because the node after
the first move of the five-move solution has cost `1 + 4`, and the search with
bound `6` meets the seven-move solution first). -/
theorem C2_admissible_not_optimal :
    ValidState fiveMovesState ∧
    (∀ s, 0 ≤ sparseHeuristic s) ∧
    Admissible sparseHeuristic ∧
    freshAlgorithm.findSolution 300 fiveMovesState sparseHeuristic =
      some (true,
        { _maxCurrentDepth := 6
          _nodeExplored := 283
          _solutionLengthPath := 7
          _solutionPath :=
            'U' :: 'R' :: 'D' :: 'L' :: 'U' :: 'R' :: 'D' :: List.replicate 73 (Char.ofNat 0) }) ∧
    Reach 5 fiveMovesState State.generateSortedState ∧
    ¬ IsMinimalSolutionLength fiveMovesState 7 := by
  have hreach : Reach 5 fiveMovesState State.generateSortedState :=
    ⟨[Direction.RIGHT, Direction.UP, Direction.LEFT, Direction.DOWN, Direction.RIGHT], rfl,
      by decide!⟩
  refine ⟨⟨by decide, by decide, by decide⟩, ?_, ?_, by decide!, hreach, ?_⟩
  · intro s
    unfold sparseHeuristic
    split_ifs <;> decide
  · intro s hv m hm
    unfold sparseHeuristic
    split_ifs with hd
    · obtain ⟨ms, rfl, e⟩ := hm
      have hmem := mem_statesAfter s _ ms e
      have hs : s = State.ofConfiguration 0x0bedfca987654321 := by
        rw [hv.2.2, hd]
      rw [hs] at hmem
      by_contra hlt
      have hlen : ms.length < 4 := by omega
      have hnot : ∀ k, k < 4 → State.generateSortedState ∉
          statesAfter k (State.ofConfiguration 0x0bedfca987654321) := by decide!
      exact hnot _ hlen hmem
    · omega
  · intro hmin
    have := hmin.2 5 hreach
    omega

/-- C2, amended. For a valid start state and a heuristic that is non-negative,
admissible and whose value at the start state has the parity of the lengths of
the move sequences from the start state to the solved state, when `findSolution`
reports a solution, `getSolutionLength()` is the minimal number of legal moves
that take the start state to the solved state. -/
theorem C2_optimal_with_parity (fuel : Nat) (a r : AlgorithmIDA) (start : State)
    (h : State → Int) (hs : ValidState start) (hnn : NonNegative h) (hadm : Admissible h)
    (hpar : ∀ m, Reach m start State.generateSortedState → (h start - (m : Int)) % 2 = 0)
    (hrun : a.findSolution fuel start h = some (true, r)) :
    ∃ n : Nat, r.getSolutionLength = (n : Int) ∧ IsMinimalSolutionLength start n :=
  findSolution_optimal fuel a r start h hs hnn hadm hpar hrun

/-- Witness of the amended C2: the run of the unit test `AlgorithmIDA.TwoSteps`
with the heuristic that is `0` everywhere. -/
theorem C2_optimal_with_parity_witness :
    ValidState twoStepsState ∧ NonNegative zeroHeuristic ∧ Admissible zeroHeuristic ∧
    (∀ m, Reach m twoStepsState State.generateSortedState →
      (zeroHeuristic twoStepsState - (m : Int)) % 2 = 0) ∧
    freshAlgorithm.findSolution 64 twoStepsState zeroHeuristic =
      some (true,
        { _maxCurrentDepth := 2
          _nodeExplored := 19
          _solutionLengthPath := 2
          _solutionPath := 'D' :: 'R' :: List.replicate 78 (Char.ofNat 0) }) ∧
    ∃ n : Nat, (2 : Int) = (n : Int) ∧ IsMinimalSolutionLength twoStepsState n := by
  have hv : ValidState twoStepsState := ⟨by decide, by decide, by decide⟩
  have hnn : NonNegative zeroHeuristic := fun _ _ => le_refl _
  have hadm : Admissible zeroHeuristic := fun _ _ m _ => by
    simp only [zeroHeuristic]; omega
  have hpar : ∀ m, Reach m twoStepsState State.generateSortedState →
      (zeroHeuristic twoStepsState - (m : Int)) % 2 = 0 := by
    intro m hm
    have h2 : Reach 2 twoStepsState State.generateSortedState :=
      ⟨[Direction.DOWN, Direction.RIGHT], rfl, by decide!⟩
    have := reach_parity _ _ _ _ hv hm h2
    simp only [zeroHeuristic]
    omega
  have hrun : freshAlgorithm.findSolution 64 twoStepsState zeroHeuristic =
      some (true,
        { _maxCurrentDepth := 2
          _nodeExplored := 19
          _solutionLengthPath := 2
          _solutionPath := 'D' :: 'R' :: List.replicate 78 (Char.ofNat 0) }) := by decide!
  exact ⟨hv, hnn, hadm, hpar, hrun,
    C2_optimal_with_parity 64 freshAlgorithm _ twoStepsState zeroHeuristic hv hnn hadm hpar hrun⟩

/-- C3. Optimality with the Manhattan heuristic: for a valid start state, when
`findSolution` is run with `DistanceManhattan::computeDistanceWithFinal` and
reports a solution, `getSolutionLength()` is the minimal number of legal moves
from the start state to the solved state. -/
theorem C3_manhattan_optimal (fuel : Nat) (a r : AlgorithmIDA) (start : State)
    (hs : ValidState start)
    (hrun : a.findSolution fuel start DistanceManhattan.computeDistanceWithFinal =
      some (true, r)) :
    ∃ n : Nat, r.getSolutionLength = (n : Int) ∧ IsMinimalSolutionLength start n :=
  findSolution_optimal fuel a r start DistanceManhattan.computeDistanceWithFinal hs
    manhattan_nonNegative manhattan_admissible
    (fun m hm => by
      obtain ⟨ms, rfl, e⟩ := hm
      exact (manhattan_path start ms hs e).2)
    hrun
/-- Witness of C3: from `fiveMovesState` the search with the Manhattan heuristic
reports the five-move solution `R`, `U`, `L`, `D`, `R`. -/
theorem C3_manhattan_optimal_witness :
    ValidState fiveMovesState ∧
    freshAlgorithm.findSolution 64 fiveMovesState DistanceManhattan.computeDistanceWithFinal =
      some (true,
        { _maxCurrentDepth := 5
          _nodeExplored := 9
          _solutionLengthPath := 5
          _solutionPath :=
            'R' :: 'U' :: 'L' :: 'D' :: 'R' :: List.replicate 75 (Char.ofNat 0) }) ∧
    ∃ n : Nat, (5 : Int) = (n : Int) ∧ IsMinimalSolutionLength fiveMovesState n :=
  ⟨⟨by decide, by decide, by decide⟩, by decide!,
    C3_manhattan_optimal 64 freshAlgorithm
      { _maxCurrentDepth := 5
        _nodeExplored := 9
        _solutionLengthPath := 5
        _solutionPath :=
          'R' :: 'U' :: 'L' :: 'D' :: 'R' :: List.replicate 75 (Char.ofNat 0) }
      fiveMovesState ⟨by decide, by decide, by decide⟩ (by decide!)⟩

/-! ## Claims about the moves of `State` -/

/-- C4. Move legality and return value: for a valid state with the blank at
position `b`, `moveLeft` returns `-1` exactly when the blank's column `b % 4` is
`0`, `moveRight` exactly when it is `3`, `moveUp` exactly when the row `b / 4` is
`0`, `moveDown` exactly when it is `3`; otherwise the call returns the value,
between `1` and `15`, of the tile at `b - 1`, `b + 1`, `b - 4`, `b + 4`. -/
theorem C4_move_legality_and_return (s oState : State) (hs : ValidState s) :
    ∃ b : Nat, b < 16 ∧ s.getIndexSpace = (b : Int) ∧ s.getValueTileAt b = kValueSpaceTile ∧
      (((s.moveLeft oState).1 = -1 ↔ b % 4 = 0) ∧
        ((s.moveLeft oState).1 ≠ -1 →
          (s.moveLeft oState).1 = (s.getValueTileAt (b - 1) : Int) ∧
            1 ≤ s.getValueTileAt (b - 1) ∧ s.getValueTileAt (b - 1) ≤ 15)) ∧
      (((s.moveRight oState).1 = -1 ↔ b % 4 = 3) ∧
        ((s.moveRight oState).1 ≠ -1 →
          (s.moveRight oState).1 = (s.getValueTileAt (b + 1) : Int) ∧
            1 ≤ s.getValueTileAt (b + 1) ∧ s.getValueTileAt (b + 1) ≤ 15)) ∧
      (((s.moveUp oState).1 = -1 ↔ b / 4 = 0) ∧
        ((s.moveUp oState).1 ≠ -1 →
          (s.moveUp oState).1 = (s.getValueTileAt (b - 4) : Int) ∧
            1 ≤ s.getValueTileAt (b - 4) ∧ s.getValueTileAt (b - 4) ≤ 15)) ∧
      (((s.moveDown oState).1 = -1 ↔ b / 4 = 3) ∧
        ((s.moveDown oState).1 ≠ -1 →
          (s.moveDown oState).1 = (s.getValueTileAt (b + 4) : Int) ∧
            1 ≤ s.getValueTileAt (b + 4) ∧ s.getValueTileAt (b + 4) ≤ 15)) := by
  obtain ⟨b, hb, hidx, h0, hne⟩ := hs.blank
  have hpos : ∀ q, q < 16 → q ≠ b →
      1 ≤ s.getValueTileAt q ∧ s.getValueTileAt q ≤ 15 := by
    intro q hq hqb
    have h1 := hne q hq hqb
    have h2 := nibbleAt_lt s._data q
    rw [getValueTileAt_eq]
    omega
  have hcast : ∀ v : Nat, ((v : Int) = -1) ↔ False :=
    fun v => ⟨fun h => by omega, False.elim⟩
  refine ⟨b, hb, hidx, h0, ?_, ?_, ?_, ?_⟩
  · rw [moveLeft_eq s oState b hidx]
    by_cases h : b % 4 = 0
    · simp [h]
    · simp only [if_neg h, hcast, h, getValueTileAt_eq, ne_eq, not_false_eq_true, true_and,
        forall_const, iff_self]
      simpa [getValueTileAt_eq] using hpos (b - 1) (by omega) (by omega)
  · rw [moveRight_eq s oState b hidx]
    by_cases h : (b + 1) % 4 = 0
    · have : b % 4 = 3 := by omega
      simp [h, this]
    · have h3 : ¬ b % 4 = 3 := by omega
      simp only [if_neg h, hcast, h3, getValueTileAt_eq, ne_eq, not_false_eq_true, true_and,
        forall_const, iff_self]
      simpa [getValueTileAt_eq] using hpos (b + 1) (by omega) (by omega)
  · rw [moveUp_eq s oState b hidx]
    by_cases h : b < 4
    · have : b / 4 = 0 := by omega
      simp [h, this]
    · have h3 : ¬ b / 4 = 0 := by omega
      simp only [if_neg h, hcast, h3, getValueTileAt_eq, ne_eq, not_false_eq_true, true_and,
        forall_const, iff_self]
      simpa [getValueTileAt_eq] using hpos (b - 4) (by omega) (by omega)
  · rw [moveDown_eq s oState b hidx]
    by_cases h : b ≥ 12
    · have : b / 4 = 3 := by omega
      simp [h, this]
    · have h3 : ¬ b / 4 = 3 := by omega
      simp only [if_neg h, hcast, h3, getValueTileAt_eq, ne_eq, not_false_eq_true, true_and,
        forall_const, iff_self]
      simpa [getValueTileAt_eq] using hpos (b + 4) (by omega) (by omega)

/-- Witness of C4 at the solved state and an arbitrary previous content of the
output parameter. -/
theorem C4_move_legality_and_return_witness :
    ValidState State.generateSortedState ∧
    ∃ b : Nat, b < 16 ∧ State.generateSortedState.getIndexSpace = (b : Int) ∧
      State.generateSortedState.getValueTileAt b = kValueSpaceTile ∧
      ((((State.generateSortedState).moveLeft (State.ofConfiguration 0)).1 = -1 ↔ b % 4 = 0) ∧
        (((State.generateSortedState).moveLeft (State.ofConfiguration 0)).1 ≠ -1 →
          ((State.generateSortedState).moveLeft (State.ofConfiguration 0)).1 =
              (State.generateSortedState.getValueTileAt (b - 1) : Int) ∧
            1 ≤ State.generateSortedState.getValueTileAt (b - 1) ∧
            State.generateSortedState.getValueTileAt (b - 1) ≤ 15)) ∧
      ((((State.generateSortedState).moveRight (State.ofConfiguration 0)).1 = -1 ↔ b % 4 = 3) ∧
        (((State.generateSortedState).moveRight (State.ofConfiguration 0)).1 ≠ -1 →
          ((State.generateSortedState).moveRight (State.ofConfiguration 0)).1 =
              (State.generateSortedState.getValueTileAt (b + 1) : Int) ∧
            1 ≤ State.generateSortedState.getValueTileAt (b + 1) ∧
            State.generateSortedState.getValueTileAt (b + 1) ≤ 15)) ∧
      ((((State.generateSortedState).moveUp (State.ofConfiguration 0)).1 = -1 ↔ b / 4 = 0) ∧
        (((State.generateSortedState).moveUp (State.ofConfiguration 0)).1 ≠ -1 →
          ((State.generateSortedState).moveUp (State.ofConfiguration 0)).1 =
              (State.generateSortedState.getValueTileAt (b - 4) : Int) ∧
            1 ≤ State.generateSortedState.getValueTileAt (b - 4) ∧
            State.generateSortedState.getValueTileAt (b - 4) ≤ 15)) ∧
      ((((State.generateSortedState).moveDown (State.ofConfiguration 0)).1 = -1 ↔ b / 4 = 3) ∧
        (((State.generateSortedState).moveDown (State.ofConfiguration 0)).1 ≠ -1 →
          ((State.generateSortedState).moveDown (State.ofConfiguration 0)).1 =
              (State.generateSortedState.getValueTileAt (b + 4) : Int) ∧
            1 ≤ State.generateSortedState.getValueTileAt (b + 4) ∧
            State.generateSortedState.getValueTileAt (b + 4) ≤ 15)) :=
  ⟨validState_sorted,
    C4_move_legality_and_return State.generateSortedState (State.ofConfiguration 0)
      validState_sorted⟩

/-- C5. Move effect: for a valid state with the blank at position `b` and every
legal move, the output layout is the input layout with the nibbles at `b` and
at the neighbouring position (`b - 1`, `b + 1`, `b - 4`, `b + 4`) exchanged and
all other nibbles unchanged, and the output's blank index is that neighbouring
position. -/
theorem C5_move_effect (s oState : State) (hs : ValidState s) :
    ∃ b : Nat, b < 16 ∧ s.getIndexSpace = (b : Int) ∧
      ((s.moveLeft oState).1 ≠ -1 →
        1 ≤ b ∧ Exchanged s._data (s.moveLeft oState).2._data b (b - 1) ∧
          (s.moveLeft oState).2.getIndexSpace = ((b - 1 : Nat) : Int)) ∧
      ((s.moveRight oState).1 ≠ -1 →
        b + 1 < 16 ∧ Exchanged s._data (s.moveRight oState).2._data b (b + 1) ∧
          (s.moveRight oState).2.getIndexSpace = ((b + 1 : Nat) : Int)) ∧
      ((s.moveUp oState).1 ≠ -1 →
        4 ≤ b ∧ Exchanged s._data (s.moveUp oState).2._data b (b - 4) ∧
          (s.moveUp oState).2.getIndexSpace = ((b - 4 : Nat) : Int)) ∧
      ((s.moveDown oState).1 ≠ -1 →
        b + 4 < 16 ∧ Exchanged s._data (s.moveDown oState).2._data b (b + 4) ∧
          (s.moveDown oState).2.getIndexSpace = ((b + 4 : Nat) : Int)) := by
  obtain ⟨b, hb, hidx, h0, _⟩ := hs.blank
  refine ⟨b, hb, hidx, ?_, ?_, ?_, ?_⟩
  · rw [moveLeft_eq s oState b hidx]
    by_cases h : b % 4 = 0
    · simp [h]
    · rw [if_neg h]
      intro _
      exact ⟨by omega, exchanged_moveData _ _ _ hb (by omega) (by omega) h0,
        by simp only [State.getIndexSpace]; omega⟩
  · rw [moveRight_eq s oState b hidx]
    by_cases h : (b + 1) % 4 = 0
    · simp [h]
    · rw [if_neg h]
      intro _
      exact ⟨by omega, exchanged_moveData _ _ _ hb (by omega) (by omega) h0,
        by simp only [State.getIndexSpace]; omega⟩
  · rw [moveUp_eq s oState b hidx]
    by_cases h : b < 4
    · simp [h]
    · rw [if_neg h]
      intro _
      exact ⟨by omega, exchanged_moveData _ _ _ hb (by omega) (by omega) h0,
        by simp only [State.getIndexSpace]; omega⟩
  · rw [moveDown_eq s oState b hidx]
    by_cases h : b ≥ 12
    · simp [h]
    · rw [if_neg h]
      intro _
      exact ⟨by omega, exchanged_moveData _ _ _ hb (by omega) (by omega) h0,
        by simp only [State.getIndexSpace]; omega⟩

/-- Witness of C5 at the solved state. -/
theorem C5_move_effect_witness :
    ValidState State.generateSortedState ∧
    ∃ b : Nat, b < 16 ∧ State.generateSortedState.getIndexSpace = (b : Int) ∧
      ((State.generateSortedState.moveLeft (State.ofConfiguration 0)).1 ≠ -1 →
        1 ≤ b ∧
          Exchanged State.generateSortedState._data
            (State.generateSortedState.moveLeft (State.ofConfiguration 0)).2._data b (b - 1) ∧
          (State.generateSortedState.moveLeft (State.ofConfiguration 0)).2.getIndexSpace =
            ((b - 1 : Nat) : Int)) ∧
      ((State.generateSortedState.moveRight (State.ofConfiguration 0)).1 ≠ -1 →
        b + 1 < 16 ∧
          Exchanged State.generateSortedState._data
            (State.generateSortedState.moveRight (State.ofConfiguration 0)).2._data b (b + 1) ∧
          (State.generateSortedState.moveRight (State.ofConfiguration 0)).2.getIndexSpace =
            ((b + 1 : Nat) : Int)) ∧
      ((State.generateSortedState.moveUp (State.ofConfiguration 0)).1 ≠ -1 →
        4 ≤ b ∧
          Exchanged State.generateSortedState._data
            (State.generateSortedState.moveUp (State.ofConfiguration 0)).2._data b (b - 4) ∧
          (State.generateSortedState.moveUp (State.ofConfiguration 0)).2.getIndexSpace =
            ((b - 4 : Nat) : Int)) ∧
      ((State.generateSortedState.moveDown (State.ofConfiguration 0)).1 ≠ -1 →
        b + 4 < 16 ∧
          Exchanged State.generateSortedState._data
            (State.generateSortedState.moveDown (State.ofConfiguration 0)).2._data b (b + 4) ∧
          (State.generateSortedState.moveDown (State.ofConfiguration 0)).2.getIndexSpace =
            ((b + 4 : Nat) : Int)) :=
  ⟨validState_sorted,
    C5_move_effect State.generateSortedState (State.ofConfiguration 0) validState_sorted⟩

/-- C6. Inverse property of the moves: for a valid state `s`, when `moveLeft`
succeeds with output `s'`, `moveRight` on `s'` succeeds and its output is `s`
(same layout, blank index and tile positions); likewise for up then down, right
then left, and down then up. -/
theorem C6_move_inverse (s o1 o2 : State) (hs : ValidState s) :
    ((s.moveLeft o1).1 ≠ -1 →
      ((s.moveLeft o1).2.moveRight o2).1 ≠ -1 ∧ ((s.moveLeft o1).2.moveRight o2).2 = s) ∧
    ((s.moveUp o1).1 ≠ -1 →
      ((s.moveUp o1).2.moveDown o2).1 ≠ -1 ∧ ((s.moveUp o1).2.moveDown o2).2 = s) ∧
    ((s.moveRight o1).1 ≠ -1 →
      ((s.moveRight o1).2.moveLeft o2).1 ≠ -1 ∧ ((s.moveRight o1).2.moveLeft o2).2 = s) ∧
    ((s.moveDown o1).1 ≠ -1 →
      ((s.moveDown o1).2.moveUp o2).1 ≠ -1 ∧ ((s.moveDown o1).2.moveUp o2).2 = s) := by
  obtain ⟨b, hb, hidx, h0, _⟩ := hs.blank
  have hback : ∀ q : Nat, q < 16 → b ≠ q →
      ({ _data := moveData (moveData s._data b q) q b
         _indexSpace := (b : Int)
         _tilesPositions :=
           computePositionFromConfiguration (moveData (moveData s._data b q) q b) } : State)
        = s := by
    intro q hq hbq
    rw [moveData_involution _ _ _ hs.1 hb hq hbq h0, ← hidx, ← hs.tilesPositions_eq]
  have hcast : ∀ v : Nat, (v : Int) ≠ -1 := fun v => by omega
  refine ⟨?_, ?_, ?_, ?_⟩
  · rw [moveLeft_eq s o1 b hidx]
    by_cases h : b % 4 = 0
    · simp [h]
    · rw [if_neg h]
      intro _
      have hq : ((b : Int) - 1) = ((b - 1 : Nat) : Int) := by omega
      simp only [hq]
      rw [moveRight_eq _ o2 (b - 1) rfl, if_neg (by omega)]
      refine ⟨hcast _, ?_⟩
      have e1 : b - 1 + 1 = b := by omega
      have e2 : ((b - 1 : Nat) : Int) + 1 = (b : Int) := by omega
      simp only [e1, e2]
      exact hback (b - 1) (by omega) (by omega)
  · rw [moveUp_eq s o1 b hidx]
    by_cases h : b < 4
    · simp [h]
    · rw [if_neg h]
      intro _
      have hq : ((b : Int) - 4) = ((b - 4 : Nat) : Int) := by omega
      simp only [hq]
      rw [moveDown_eq _ o2 (b - 4) rfl, if_neg (by omega)]
      refine ⟨hcast _, ?_⟩
      have e1 : b - 4 + 4 = b := by omega
      have e2 : ((b - 4 : Nat) : Int) + 4 = (b : Int) := by omega
      simp only [e1, e2]
      exact hback (b - 4) (by omega) (by omega)
  · rw [moveRight_eq s o1 b hidx]
    by_cases h : (b + 1) % 4 = 0
    · simp [h]
    · rw [if_neg h]
      intro _
      have hq : ((b : Int) + 1) = ((b + 1 : Nat) : Int) := by omega
      simp only [hq]
      rw [moveLeft_eq _ o2 (b + 1) rfl, if_neg (by omega)]
      refine ⟨hcast _, ?_⟩
      have e1 : b + 1 - 1 = b := by omega
      have e2 : ((b + 1 : Nat) : Int) - 1 = (b : Int) := by omega
      simp only [e1, e2]
      exact hback (b + 1) (by omega) (by omega)
  · rw [moveDown_eq s o1 b hidx]
    by_cases h : b ≥ 12
    · simp [h]
    · rw [if_neg h]
      intro _
      have hq : ((b : Int) + 4) = ((b + 4 : Nat) : Int) := by omega
      simp only [hq]
      rw [moveUp_eq _ o2 (b + 4) rfl, if_neg (by omega)]
      refine ⟨hcast _, ?_⟩
      have e1 : b + 4 - 4 = b := by omega
      have e2 : ((b + 4 : Nat) : Int) - 4 = (b : Int) := by omega
      simp only [e1, e2]
      exact hback (b + 4) (by omega) (by omega)

/-- Witness of C6 at the solved state. -/
theorem C6_move_inverse_witness :
    ValidState State.generateSortedState ∧
    (((State.generateSortedState.moveLeft (State.ofConfiguration 0)).1 ≠ -1 →
      (((State.generateSortedState.moveLeft (State.ofConfiguration 0)).2.moveRight
          (State.ofConfiguration 0)).1 ≠ -1 ∧
        ((State.generateSortedState.moveLeft (State.ofConfiguration 0)).2.moveRight
          (State.ofConfiguration 0)).2 = State.generateSortedState)) ∧
    ((State.generateSortedState.moveUp (State.ofConfiguration 0)).1 ≠ -1 →
      (((State.generateSortedState.moveUp (State.ofConfiguration 0)).2.moveDown
          (State.ofConfiguration 0)).1 ≠ -1 ∧
        ((State.generateSortedState.moveUp (State.ofConfiguration 0)).2.moveDown
          (State.ofConfiguration 0)).2 = State.generateSortedState)) ∧
    ((State.generateSortedState.moveRight (State.ofConfiguration 0)).1 ≠ -1 →
      (((State.generateSortedState.moveRight (State.ofConfiguration 0)).2.moveLeft
          (State.ofConfiguration 0)).1 ≠ -1 ∧
        ((State.generateSortedState.moveRight (State.ofConfiguration 0)).2.moveLeft
          (State.ofConfiguration 0)).2 = State.generateSortedState)) ∧
    ((State.generateSortedState.moveDown (State.ofConfiguration 0)).1 ≠ -1 →
      (((State.generateSortedState.moveDown (State.ofConfiguration 0)).2.moveUp
          (State.ofConfiguration 0)).1 ≠ -1 ∧
        ((State.generateSortedState.moveDown (State.ofConfiguration 0)).2.moveUp
          (State.ofConfiguration 0)).2 = State.generateSortedState))) :=
  ⟨validState_sorted,
    C6_move_inverse State.generateSortedState (State.ofConfiguration 0) (State.ofConfiguration 0)
      validState_sorted⟩

/-- C7. For a 64-bit configuration `c`, `State(c).isValid()` is true exactly
when the sixteen nibbles of `c` are pairwise distinct, which is the same as the
layout being a permutation of the values `0 .. 15`. -/
theorem C7_isValid_iff_distinct (c : Nat) (_hc : c < 2 ^ 64) :
    ((State.ofConfiguration c).isValid = true ↔ NibblesDistinct c) ∧
    (NibblesDistinct c ↔ NibblesCover c) :=
  ⟨isValid_iff_distinct (State.ofConfiguration c), distinct_iff_cover c⟩

/-- Witness of C7 at the configuration of the solved state. -/
theorem C7_isValid_iff_distinct_witness :
    (0x0fedcba987654321 : Nat) < 2 ^ 64 ∧
    (((State.ofConfiguration 0x0fedcba987654321).isValid = true ↔
        NibblesDistinct 0x0fedcba987654321) ∧
      (NibblesDistinct 0x0fedcba987654321 ↔ NibblesCover 0x0fedcba987654321)) :=
  ⟨by norm_num, C7_isValid_iff_distinct 0x0fedcba987654321 (by norm_num)⟩

/-! ## Claims about solvability -/

/-- C8, as stated, fails at the solved state: it is reported solvable, it has no
inversion and its blank is in the bottom row (row index `1` from the bottom), so
the sum named by the claim is odd. -/
theorem C8_even_rule_fails_at_sorted :
    ValidState State.generateSortedState ∧
    inversions State.generateSortedState = 0 ∧
    blankRowFromBottom State.generateSortedState = 1 ∧
    ¬ (State.generateSortedState.isSolveable = true ↔
        Even ((inversions State.generateSortedState : Int) +
          blankRowFromBottom State.generateSortedState)) := by
  have hinv : inversions State.generateSortedState = 0 := by
    have h := solveCounter_eq State.generateSortedState validState_sorted
    have h4 : inversionOuterLoop State.generateSortedState kNumTiles 0 = 4 := by decide
    have h15 : State.generateSortedState._indexSpace = 15 := by decide
    rw [h4, h15] at h
    omega
  have hrow : blankRowFromBottom State.generateSortedState = 1 := by decide
  refine ⟨validState_sorted, hinv, hrow, ?_⟩
  rw [hinv, hrow]
  have hs : State.generateSortedState.isSolveable = true := by decide
  rw [hs]
  simp

/-- C8, amended. For a valid state, `isSolveable()` returns true exactly when
(the number of inversions among the non-blank tiles read in position order) +
(the blank's row index counted from the bottom row, starting at 1) is odd. -/
theorem C8_isSolveable_iff_odd (s : State) (hs : ValidState s) :
    s.isSolveable = true ↔ Odd ((inversions s : Int) + blankRowFromBottom s) := by
  obtain ⟨b, hb, hidx, _, _⟩ := hs.blank
  unfold State.isSolveable blankRowFromBottom State.getIndexSpace
  simp only [solveCounter_eq s hs, hidx]
  rw [Int.odd_iff]
  split_ifs with h <;> simp <;> omega

/-- Witness of the amended C8 at the solved state. -/
theorem C8_isSolveable_iff_odd_witness :
    ValidState State.generateSortedState ∧
    (State.generateSortedState.isSolveable = true ↔
      Odd ((inversions State.generateSortedState : Int) +
        blankRowFromBottom State.generateSortedState)) :=
  ⟨validState_sorted, C8_isSolveable_iff_odd State.generateSortedState validState_sorted⟩

/-- C9. The solved reference state has configuration `0x0fedcba987654321`: tile
`i + 1` at position `i` for `i = 0 .. 14` and the blank at position `15`; it is
valid and solvable. -/
theorem C9_sorted_state_valid_solvable :
    State.generateSortedState.getStateConfiguration = 0x0fedcba987654321 ∧
    (∀ i : Fin 15, State.generateSortedState.getValueTileAt i = i + 1) ∧
    State.generateSortedState.getValueTileAt 15 = kValueSpaceTile ∧
    State.generateSortedState.getIndexSpace = 15 ∧
    State.generateSortedState.isValid = true ∧
    State.generateSortedState.isSolveable = true := by
  refine ⟨rfl, by decide, by decide, by decide, by decide, by decide⟩

/-- C10. Whatever permutation of `0 .. 15` the shuffle leaves in the array, the
state returned by `generateValidRandState` (the shuffled board, or, when that
board is not solvable, the board with positions `0, 1` exchanged if neither
holds the blank and positions `2, 3` exchanged otherwise) is valid and
solvable. -/
theorem C10_generateValidRandState_valid_solvable (aValuesTiles : Fin 16 → Int)
    (hperm : IsPermutationArray aValuesTiles) :
    (State.generateValidRandState aValuesTiles).isValid = true ∧
    (State.generateValidRandState aValuesTiles).isSolveable = true := by
  rw [generateValidRandState_eq]
  by_cases hsolv : (State.ofValues aValuesTiles).isSolveable = true
  · rw [if_neg (not_not.2 hsolv)]
    exact ⟨(validState_ofValues _ hperm).2.1, hsolv⟩
  · have hodd := hsolv
    rw [isSolveable_ofValues _ hperm.1] at hodd
    rw [if_pos hsolv]
    by_cases h01 : aValuesTiles 0 ≠ (kValueSpaceTile : Int) ∧
        aValuesTiles 1 ≠ (kValueSpaceTile : Int)
    · rw [if_pos h01]
      have hp' := isPermutationArray_swap _ hperm 0 1
      refine ⟨(validState_ofValues _ hp').2.1, ?_⟩
      rw [isSolveable_ofValues _ hp'.1]
      have hsw := solveCountList_swap []
        [(aValuesTiles 2).toNat, (aValuesTiles 3).toNat, (aValuesTiles 4).toNat,
          (aValuesTiles 5).toNat, (aValuesTiles 6).toNat, (aValuesTiles 7).toNat,
          (aValuesTiles 8).toNat, (aValuesTiles 9).toNat, (aValuesTiles 10).toNat,
          (aValuesTiles 11).toNat, (aValuesTiles 12).toNat, (aValuesTiles 13).toNat,
          (aValuesTiles 14).toNat, (aValuesTiles 15).toNat]
        (aValuesTiles 0).toNat (aValuesTiles 1).toNat 0
        (toNat_ne_zero _ hperm 0 h01.1) (toNat_ne_zero _ hperm 1 h01.2)
        (toNat_ne_of_ne _ hperm 0 1 (by decide))
      simp only [List.nil_append] at hsw
      simp only [swapValues, Fin.reduceEq, if_true, if_false]
      omega
    · rw [if_neg h01]
      have hp' := isPermutationArray_swap _ hperm 2 3
      refine ⟨(validState_ofValues _ hp').2.1, ?_⟩
      rw [isSolveable_ofValues _ hp'.1]
      have h2 : aValuesTiles 2 ≠ 0 := by
        intro e
        by_cases h0 : aValuesTiles 0 = 0
        · exact absurd (hperm.2 (e.trans h0.symm)) (by decide)
        · have h1 : aValuesTiles 1 = 0 := by
            by_contra h1
            exact h01 ⟨by simpa [kValueSpaceTile] using h0, by simpa [kValueSpaceTile] using h1⟩
          exact absurd (hperm.2 (e.trans h1.symm)) (by decide)
      have h3 : aValuesTiles 3 ≠ 0 := by
        intro e
        by_cases h0 : aValuesTiles 0 = 0
        · exact absurd (hperm.2 (e.trans h0.symm)) (by decide)
        · have h1 : aValuesTiles 1 = 0 := by
            by_contra h1
            exact h01 ⟨by simpa [kValueSpaceTile] using h0, by simpa [kValueSpaceTile] using h1⟩
          exact absurd (hperm.2 (e.trans h1.symm)) (by decide)
      have hsw := solveCountList_swap [(aValuesTiles 0).toNat, (aValuesTiles 1).toNat]
        [(aValuesTiles 4).toNat,
          (aValuesTiles 5).toNat, (aValuesTiles 6).toNat, (aValuesTiles 7).toNat,
          (aValuesTiles 8).toNat, (aValuesTiles 9).toNat, (aValuesTiles 10).toNat,
          (aValuesTiles 11).toNat, (aValuesTiles 12).toNat, (aValuesTiles 13).toNat,
          (aValuesTiles 14).toNat, (aValuesTiles 15).toNat]
        (aValuesTiles 2).toNat (aValuesTiles 3).toNat 0
        (toNat_ne_zero _ hperm 2 h2) (toNat_ne_zero _ hperm 3 h3)
        (toNat_ne_of_ne _ hperm 2 3 (by decide))
      simp only [List.cons_append, List.nil_append] at hsw
      simp only [swapValues, Fin.reduceEq, if_true, if_false]
      omega

/-- Witness of C10 at a shuffled array whose board is not solvable, so that the
exchange of positions `0, 1` is applied. -/
theorem C10_generateValidRandState_valid_solvable_witness :
    IsPermutationArray ![2, 1, 3, 4, 5, 6, 7, 8, 9, 10, 11, 12, 13, 14, 15, 0] ∧
    (State.generateValidRandState
        ![2, 1, 3, 4, 5, 6, 7, 8, 9, 10, 11, 12, 13, 14, 15, 0]).isValid = true ∧
    (State.generateValidRandState
        ![2, 1, 3, 4, 5, 6, 7, 8, 9, 10, 11, 12, 13, 14, 15, 0]).isSolveable = true :=
  ⟨⟨by decide, by decide⟩,
    C10_generateValidRandState_valid_solvable
      ![2, 1, 3, 4, 5, 6, 7, 8, 9, 10, 11, 12, 13, 14, 15, 0] ⟨by decide, by decide⟩⟩

/-! ## Exchange of two adjacent tiles -/

theorem isSolveable_iff_range (s : State) :
    s.isSolveable = true ↔
      solveCountList ((List.range' 0 16).map (nibbleAt s._data)) 0 % 2 = 0 := by
  rw [map_range_sixteen]; exact isSolveable_iff_list s

theorem range_split_at (i : Nat) (hi : i + 1 < 16) :
    List.range' 0 16 = List.range' 0 i ++ i :: (i + 1) :: List.range' (i + 2) (14 - i) := by
  have h1 : List.range' 0 16 = List.range' 0 i ++ List.range' (0 + i) (16 - i) := by
    rw [List.range'_append_1]; congr 1; omega
  have h2 : 16 - i = (14 - i) + 1 + 1 := by omega
  rw [h1, h2, List.range'_succ, List.range'_succ, Nat.zero_add]

theorem map_exchanged (c c' : Nat) (i : Nat) (hi : i + 1 < 16)
    (hex : Exchanged c c' i (i + 1)) :
    (List.range' 0 16).map (nibbleAt c) =
        (List.range' 0 i).map (nibbleAt c) ++ nibbleAt c i :: nibbleAt c (i + 1) ::
          (List.range' (i + 2) (14 - i)).map (nibbleAt c) ∧
      (List.range' 0 16).map (nibbleAt c') =
        (List.range' 0 i).map (nibbleAt c) ++ nibbleAt c (i + 1) :: nibbleAt c i ::
          (List.range' (i + 2) (14 - i)).map (nibbleAt c) := by
  rw [range_split_at i hi]
  refine ⟨by simp only [List.map_append, List.map_cons], ?_⟩
  simp only [List.map_append, List.map_cons]
  have e1 : (List.range' 0 i).map (nibbleAt c') = (List.range' 0 i).map (nibbleAt c) := by
    apply List.map_congr_left
    intro k hk
    rw [List.mem_range'_1] at hk
    rw [hex k (by omega), if_neg (by omega), if_neg (by omega)]
  have e2 : (List.range' (i + 2) (14 - i)).map (nibbleAt c') =
      (List.range' (i + 2) (14 - i)).map (nibbleAt c) := by
    apply List.map_congr_left
    intro k hk
    rw [List.mem_range'_1] at hk
    rw [hex k (by omega), if_neg (by omega), if_neg (by omega)]
  have e3 : nibbleAt c' i = nibbleAt c (i + 1) := by rw [hex i (by omega), if_pos rfl]
  have e4 : nibbleAt c' (i + 1) = nibbleAt c i := by
    rw [hex (i + 1) hi, if_neg (by omega), if_pos rfl]
  rw [e1, e2, e3, e4]

/-- Exchanging the tiles of two consecutive positions that both hold a tile
inverts the result of `isSolveable`. -/
theorem isSolveable_exchanged (s : State) (c' : Nat) (i : Nat) (hs : ValidState s)
    (hi : i + 1 < 16) (ha : nibbleAt s._data i ≠ 0) (hb : nibbleAt s._data (i + 1) ≠ 0)
    (hex : Exchanged s._data c' i (i + 1)) :
    (State.ofConfiguration c').isSolveable = !s.isSolveable := by
  have hab : nibbleAt s._data i ≠ nibbleAt s._data (i + 1) :=
    (isValid_iff_distinct s).1 hs.2.1 i (i + 1) (by omega) hi (by omega)
  obtain ⟨h1, h2⟩ := map_exchanged s._data c' i hi hex
  have hsw := solveCountList_swap ((List.range' 0 i).map (nibbleAt s._data))
    ((List.range' (i + 2) (14 - i)).map (nibbleAt s._data)) _ _ 0 ha hb hab
  rw [← h1, ← h2] at hsw
  have k1 := isSolveable_iff_range s
  have k2 := isSolveable_iff_range (State.ofConfiguration c')
  have e : (State.ofConfiguration c')._data = c' := rfl
  rw [e] at k2
  cases hA : s.isSolveable <;> cases hB : (State.ofConfiguration c').isSolveable <;>
    simp only [hA, hB, Bool.not_true, Bool.not_false, Bool.false_eq_true, false_iff,
      true_iff] at k1 k2 ⊢ <;> omega

/-! ## Claims about parity-broken boards and the derived caches -/

/-- C11. For a valid state and two consecutive positions `i`, `i + 1` that both
hold a tile (in particular two such positions of one row), the board with the
two tiles exchanged has the opposite result of `isSolveable()`; every board
obtained in this way from the solved board is reported unsolvable, for instance
`0x0efdcba987654321` (tiles 14 and 15 exchanged). -/
theorem C11_adjacent_swap_inverts_isSolveable (s : State) (c' : Nat) (i : Nat)
    (hs : ValidState s) (hi : i + 1 < 16) (ha : s.getValueTileAt i ≠ kValueSpaceTile)
    (hb : s.getValueTileAt (i + 1) ≠ kValueSpaceTile)
    (hex : Exchanged s._data c' i (i + 1)) :
    (State.ofConfiguration c').isSolveable = !s.isSolveable ∧
    (s = State.generateSortedState → (State.ofConfiguration c').isSolveable = false) ∧
    (Exchanged State.generateSortedState._data 0x0efdcba987654321 13 14 ∧
      (State.ofConfiguration 0x0efdcba987654321).isSolveable = false) := by
  have key := isSolveable_exchanged s c' i hs hi ha hb hex
  refine ⟨key, fun h => ?_, ?_, by decide⟩
  · rw [key, h]; decide
  · intro k hk
    interval_cases k <;> decide

/-- Witness of C11: the solved board with the tiles of positions 13 and 14
exchanged. -/
theorem C11_adjacent_swap_inverts_isSolveable_witness :
    ValidState State.generateSortedState ∧
    (State.ofConfiguration 0x0efdcba987654321).isSolveable =
      !State.generateSortedState.isSolveable ∧
    (State.generateSortedState = State.generateSortedState →
      (State.ofConfiguration 0x0efdcba987654321).isSolveable = false) ∧
    (Exchanged State.generateSortedState._data 0x0efdcba987654321 13 14 ∧
      (State.ofConfiguration 0x0efdcba987654321).isSolveable = false) :=
  ⟨validState_sorted,
    C11_adjacent_swap_inverts_isSolveable State.generateSortedState 0x0efdcba987654321 13
      validState_sorted (by decide) (by decide) (by decide)
      (fun k hk => by interval_cases k <;> decide)⟩

/-- C12. Derived-cache invariant: in a state built from a valid configuration,
and in every state obtained from it by a sequence of legal moves, the tile
positions are the exact inverse of the layout (for positions `i` and values `v`
in `0 .. 15`, nibble `i` of the layout is `v` exactly when nibble `v` of
`getTilesPositions()` is `i`) and `getIndexSpace()` is the unique position whose
layout nibble is `0`. -/
theorem C12_derived_caches (c : Nat) (ms : List Direction) (t : State) (hc : c < 2 ^ 64)
    (hv : (State.ofConfiguration c).isValid = true)
    (hms : applyMoves (State.ofConfiguration c) ms = some t) :
    (∀ i v, i < 16 → v < 16 →
      (nibbleAt t.getStateConfiguration i = v ↔ nibbleAt t.getTilesPositions v = i)) ∧
    (∃ p : Nat, p < 16 ∧ t.getIndexSpace = (p : Int) ∧
      ∀ i, i < 16 → (nibbleAt t.getStateConfiguration i = 0 ↔ i = p)) := by
  have ht : ValidState t :=
    applyMoves_valid _ t ms (validState_ofConfiguration c hc hv) hms
  refine ⟨fun i v hi hv' => ⟨fun h => ?_, fun h => ?_⟩, ?_⟩
  · rw [← h]; exact tilesPositions_inverse t ht i hi
  · obtain ⟨j, hj, hjv⟩ := (distinct_iff_cover _).1 ((isValid_iff_distinct t).1 ht.2.1) v hv'
    have := tilesPositions_inverse t ht j hj
    simp only [State.getStateConfiguration, State.getTilesPositions] at *
    rw [hjv, h] at this
    rw [this]; exact hjv
  · obtain ⟨p, hp, hidx, h0, hne⟩ := ht.blank
    refine ⟨p, hp, hidx, fun i hi => ⟨fun h => ?_, fun h => by rw [h]; exact h0⟩⟩
    by_contra hip
    exact hne i hi hip h

/-- Witness of C12: the solved configuration followed by the moves left and
up. -/
theorem C12_derived_caches_witness :
    (0x0fedcba987654321 : Nat) < 2 ^ 64 ∧
    (State.ofConfiguration 0x0fedcba987654321).isValid = true ∧
    applyMoves (State.ofConfiguration 0x0fedcba987654321) [Direction.LEFT, Direction.UP] =
      some twoStepsState ∧
    (∀ i v, i < 16 → v < 16 →
      (nibbleAt twoStepsState.getStateConfiguration i = v ↔
        nibbleAt twoStepsState.getTilesPositions v = i)) ∧
    (∃ p : Nat, p < 16 ∧ twoStepsState.getIndexSpace = (p : Int) ∧
      ∀ i, i < 16 → (nibbleAt twoStepsState.getStateConfiguration i = 0 ↔ i = p)) :=
  ⟨by norm_num, by decide, by decide!,
    C12_derived_caches 0x0fedcba987654321 [Direction.LEFT, Direction.UP] twoStepsState
      (by norm_num) (by decide) (by decide!)⟩

/-! ## The four moves of SearchNode with an arbitrary mask -/

theorem costAfterMove_testBit (m t : Nat) (c : Int) :
    costAfterMove m (t : Int) c = if m.testBit (4 * t) = true then toInt8 (c + 1) else c := by
  unfold costAfterMove
  have e : ((t : Int) * 4).toNat = 4 * t := by omega
  rw [e]
  by_cases h : m.testBit (4 * t) = true
  · rw [if_pos h, if_pos ((shiftRight_and_one_ne_zero m (4 * t)).2 h)]
  · rw [if_neg h, if_neg (fun hc => h ((shiftRight_and_one_ne_zero m (4 * t)).1 hc))]

theorem SearchNode.moveLeft_returns (n o : SearchNode) (m : Nat) :
    (n.moveLeft o m).1 = (n._state.moveLeft n._state).1 := by
  unfold SearchNode.moveLeft
  simp only
  rw [State.moveLeft_fst n._state o._state n._state]
  split_ifs <;> rfl

theorem SearchNode.moveRight_returns (n o : SearchNode) (m : Nat) :
    (n.moveRight o m).1 = (n._state.moveRight n._state).1 := by
  unfold SearchNode.moveRight
  simp only
  rw [State.moveRight_fst n._state o._state n._state]
  split_ifs <;> rfl

theorem SearchNode.moveDown_returns (n o : SearchNode) (m : Nat) :
    (n.moveDown o m).1 = (n._state.moveDown n._state).1 := by
  unfold SearchNode.moveDown
  simp only
  rw [State.moveDown_fst n._state o._state n._state]
  split_ifs <;> rfl

theorem SearchNode.moveUp_returns (n o : SearchNode) (m : Nat) :
    (n.moveUp o m).1 = (n._state.moveUp n._state).1 := by
  unfold SearchNode.moveUp
  simp only
  rw [State.moveUp_fst n._state o._state n._state]
  split_ifs <;> rfl

theorem SearchNode.moveLeft_output (n o : SearchNode) (m : Nat)
    (h : (n.moveLeft o m).1 ≠ -1) :
    (n.moveLeft o m).2 =
      { _state := (n._state.moveLeft n._state).2
        _lastMove := Direction.LEFT
        _cost2Here := costAfterMove m (n._state.moveLeft n._state).1 n._cost2Here
        _counterPath := n._counterPath + 1
        _path2Here := writePath n._path2Here n._counterPath 'L' } := by
  rw [SearchNode.moveLeft_returns] at h
  have h2 := h
  rw [State.moveLeft_fst _ _ o._state] at h2
  unfold SearchNode.moveLeft
  simp only
  rw [if_pos h2, State.moveLeft_snd _ _ n._state h2, State.moveLeft_fst _ o._state n._state]

theorem SearchNode.moveRight_output (n o : SearchNode) (m : Nat)
    (h : (n.moveRight o m).1 ≠ -1) :
    (n.moveRight o m).2 =
      { _state := (n._state.moveRight n._state).2
        _lastMove := Direction.RIGHT
        _cost2Here := costAfterMove m (n._state.moveRight n._state).1 n._cost2Here
        _counterPath := n._counterPath + 1
        _path2Here := writePath n._path2Here n._counterPath 'R' } := by
  rw [SearchNode.moveRight_returns] at h
  have h2 := h
  rw [State.moveRight_fst _ _ o._state] at h2
  unfold SearchNode.moveRight
  simp only
  rw [if_pos h2, State.moveRight_snd _ _ n._state h2, State.moveRight_fst _ o._state n._state]

theorem SearchNode.moveDown_output (n o : SearchNode) (m : Nat)
    (h : (n.moveDown o m).1 ≠ -1) :
    (n.moveDown o m).2 =
      { _state := (n._state.moveDown n._state).2
        _lastMove := Direction.DOWN
        _cost2Here := costAfterMove m (n._state.moveDown n._state).1 n._cost2Here
        _counterPath := n._counterPath + 1
        _path2Here := writePath n._path2Here n._counterPath 'D' } := by
  rw [SearchNode.moveDown_returns] at h
  have h2 := h
  rw [State.moveDown_fst _ _ o._state] at h2
  unfold SearchNode.moveDown
  simp only
  rw [if_pos h2, State.moveDown_snd _ _ n._state h2, State.moveDown_fst _ o._state n._state]

theorem SearchNode.moveUp_output (n o : SearchNode) (m : Nat)
    (h : (n.moveUp o m).1 ≠ -1) :
    (n.moveUp o m).2 =
      { _state := (n._state.moveUp n._state).2
        _lastMove := Direction.UP
        _cost2Here := costAfterMove m (n._state.moveUp n._state).1 n._cost2Here
        _counterPath := n._counterPath + 1
        _path2Here := writePath n._path2Here n._counterPath 'U' } := by
  rw [SearchNode.moveUp_returns] at h
  have h2 := h
  rw [State.moveUp_fst _ _ o._state] at h2
  unfold SearchNode.moveUp
  simp only
  rw [if_pos h2, State.moveUp_snd _ _ n._state h2, State.moveUp_fst _ o._state n._state]

/-- The tile returned by a legal move of a valid state is one of `1 .. 15`. -/
theorem State.moveLeft_tile (s : State) (hs : ValidState s) (h : (s.moveLeft s).1 ≠ -1) :
    ∃ t : Nat, 1 ≤ t ∧ t ≤ 15 ∧ (s.moveLeft s).1 = (t : Int) := by
  obtain ⟨p, hp, hi, h0, hne⟩ := hs.blank
  rw [moveLeft_eq s s p hi] at h ⊢
  split_ifs at h ⊢ with h1
  · exact absurd rfl h
  · have := hne (p - 1) (by omega) (by omega)
    have := nibbleAt_lt s._data (p - 1)
    exact ⟨_, by omega, by omega, rfl⟩

theorem State.moveRight_tile (s : State) (hs : ValidState s) (h : (s.moveRight s).1 ≠ -1) :
    ∃ t : Nat, 1 ≤ t ∧ t ≤ 15 ∧ (s.moveRight s).1 = (t : Int) := by
  obtain ⟨p, hp, hi, h0, hne⟩ := hs.blank
  rw [moveRight_eq s s p hi] at h ⊢
  split_ifs at h ⊢ with h1
  · exact absurd rfl h
  · have := hne (p + 1) (by omega) (by omega)
    have := nibbleAt_lt s._data (p + 1)
    exact ⟨_, by omega, by omega, rfl⟩

theorem State.moveDown_tile (s : State) (hs : ValidState s) (h : (s.moveDown s).1 ≠ -1) :
    ∃ t : Nat, 1 ≤ t ∧ t ≤ 15 ∧ (s.moveDown s).1 = (t : Int) := by
  obtain ⟨p, hp, hi, h0, hne⟩ := hs.blank
  rw [moveDown_eq s s p hi] at h ⊢
  split_ifs at h ⊢ with h1
  · exact absurd rfl h
  · have := hne (p + 4) (by omega) (by omega)
    have := nibbleAt_lt s._data (p + 4)
    exact ⟨_, by omega, by omega, rfl⟩

theorem State.moveUp_tile (s : State) (hs : ValidState s) (h : (s.moveUp s).1 ≠ -1) :
    ∃ t : Nat, 1 ≤ t ∧ t ≤ 15 ∧ (s.moveUp s).1 = (t : Int) := by
  obtain ⟨p, hp, hi, h0, hne⟩ := hs.blank
  rw [moveUp_eq s s p hi] at h ⊢
  split_ifs at h ⊢ with h1
  · exact absurd rfl h
  · have := hne (p - 4) (by omega) (by omega)
    have := nibbleAt_lt s._data (p - 4)
    exact ⟨_, by omega, by omega, rfl⟩

theorem writePath_getElem (aPath : List Char) (k : Nat) (c : Char) (hk : k < aPath.length) :
    (writePath aPath (k : Int) c).length = aPath.length ∧
    (writePath aPath (k : Int) c)[k]? = some c ∧
    ∀ i : Nat, i ≠ k → (writePath aPath (k : Int) c)[i]? = aPath[i]? := by
  unfold writePath
  rw [if_pos (by omega)]
  have e : ((k : Int)).toNat = k := by omega
  rw [e]
  refine ⟨List.length_set _ _ _, ?_, fun i hi => ?_⟩
  · simp [hk]
  · exact List.getElem?_set_ne (Ne.symm hi)

theorem moveAccounting_of (n : SearchNode) (m : Nat) (d : Direction) (c : Char)
    (r : Int × SearchNode) (t k : Nat) (s1 : State)
    (hk : n._counterPath = (k : Int)) (hlen : k < n._path2Here.length)
    (hc0 : -128 ≤ n._cost2Here) (hc1 : n._cost2Here < 127)
    (ht1 : 1 ≤ t) (ht2 : t ≤ 15) (hr1 : r.1 = (t : Int))
    (hd : applyDirection n._state d = some s1)
    (hr2 : r.2 =
      { _state := s1
        _lastMove := d
        _cost2Here := costAfterMove m (t : Int) n._cost2Here
        _counterPath := n._counterPath + 1
        _path2Here := writePath n._path2Here n._counterPath c }) :
    MoveAccounting n m d c r := by
  obtain ⟨w1, w2, w3⟩ := writePath_getElem n._path2Here k c hlen
  have e : n._counterPath.toNat = k := by omega
  refine ⟨t, ht1, ht2, hr1, ?_⟩
  unfold SearchNode.getState SearchNode.getLastMove SearchNode.getCounterPath
    SearchNode.getPath2Here SearchNode.getCost2Here
  rw [hr2, e]
  refine ⟨hd, rfl, rfl, ?_, ?_, ?_, ?_⟩
  · rw [hk]; exact w1
  · rw [hk]; exact w2
  · rw [hk]; exact w3
  rw [costAfterMove_testBit, toInt8_of_small _ (by omega) (by omega)]

theorem derivedNode_inv (start : State) (n : SearchNode) (h : DerivedNode start n) :
    n._cost2Here = n._counterPath ∧ 0 ≤ n._counterPath ∧ n._counterPath ≤ 80 := by
  induction h with
  | initial => exact ⟨rfl, le_refl _, by show (0 : Int) ≤ 80; decide⟩
  | left n o _ hlt hm ih =>
    obtain ⟨ih1, ih2, ih3⟩ := ih
    unfold SearchNode.getCounterPath kMaxPath at hlt
    have hm1 := hm
    rw [SearchNode.moveLeft_returns] at hm1
    obtain ⟨t, ht, et⟩ := State.moveLeft_range _ _ hm1
    rw [SearchNode.moveLeft_output n o kNoMask hm, et, costAfterMove_noMask t ht]
    simp only
    rw [toInt8_of_small _ (by omega) (by omega)]
    omega
  | right n o _ hlt hm ih =>
    obtain ⟨ih1, ih2, ih3⟩ := ih
    unfold SearchNode.getCounterPath kMaxPath at hlt
    have hm1 := hm
    rw [SearchNode.moveRight_returns] at hm1
    obtain ⟨t, ht, et⟩ := State.moveRight_range _ _ hm1
    rw [SearchNode.moveRight_output n o kNoMask hm, et, costAfterMove_noMask t ht]
    simp only
    rw [toInt8_of_small _ (by omega) (by omega)]
    omega
  | down n o _ hlt hm ih =>
    obtain ⟨ih1, ih2, ih3⟩ := ih
    unfold SearchNode.getCounterPath kMaxPath at hlt
    have hm1 := hm
    rw [SearchNode.moveDown_returns] at hm1
    obtain ⟨t, ht, et⟩ := State.moveDown_range _ _ hm1
    rw [SearchNode.moveDown_output n o kNoMask hm, et, costAfterMove_noMask t ht]
    simp only
    rw [toInt8_of_small _ (by omega) (by omega)]
    omega
  | up n o _ hlt hm ih =>
    obtain ⟨ih1, ih2, ih3⟩ := ih
    unfold SearchNode.getCounterPath kMaxPath at hlt
    have hm1 := hm
    rw [SearchNode.moveUp_returns] at hm1
    obtain ⟨t, ht, et⟩ := State.moveUp_range _ _ hm1
    rw [SearchNode.moveUp_output n o kNoMask hm, et, costAfterMove_noMask t ht]
    simp only
    rw [toInt8_of_small _ (by omega) (by omega)]
    omega

theorem isSome_applyDirection_left (s : State) (h : (applyDirection s Direction.LEFT).isSome = true) :
    (s.moveLeft s).1 ≠ -1 ∧ applyDirection s Direction.LEFT = some (s.moveLeft s).2 := by
  rw [applyDirection_left] at h ⊢
  split_ifs at h ⊢ with h1
  · exact ⟨h1, rfl⟩
  · exact absurd h (by simp)

theorem isSome_applyDirection_right (s : State) (h : (applyDirection s Direction.RIGHT).isSome = true) :
    (s.moveRight s).1 ≠ -1 ∧ applyDirection s Direction.RIGHT = some (s.moveRight s).2 := by
  rw [applyDirection_right] at h ⊢
  split_ifs at h ⊢ with h1
  · exact ⟨h1, rfl⟩
  · exact absurd h (by simp)

theorem isSome_applyDirection_down (s : State) (h : (applyDirection s Direction.DOWN).isSome = true) :
    (s.moveDown s).1 ≠ -1 ∧ applyDirection s Direction.DOWN = some (s.moveDown s).2 := by
  rw [applyDirection_down] at h ⊢
  split_ifs at h ⊢ with h1
  · exact ⟨h1, rfl⟩
  · exact absurd h (by simp)

theorem isSome_applyDirection_up (s : State) (h : (applyDirection s Direction.UP).isSome = true) :
    (s.moveUp s).1 ≠ -1 ∧ applyDirection s Direction.UP = some (s.moveUp s).2 := by
  rw [applyDirection_up] at h ⊢
  split_ifs at h ⊢ with h1
  · exact ⟨h1, rfl⟩
  · exact absurd h (by simp)

/-! ## Claims about the moves of SearchNode -/

/-- Claim C13, as stated, fails at the largest cost of the 8-bit type
`Cost_t`: the node built by `SearchNode(sorted, NONE, 127, 0)` is over a valid
state with an empty path, its move to the left is legal and moves tile 15,
whose bit `4 * 15` of the all-ones mask is set, and the output cost is `-128`,
not `127 + 1`. -/
theorem C13_cost_wraps_at_127 :
    ValidState (SearchNode.ofFields State.generateSortedState Direction.NONE 127 0
        (List.replicate kMaxPath (Char.ofNat 0))).getState ∧
      (SearchNode.ofFields State.generateSortedState Direction.NONE 127 0
        (List.replicate kMaxPath (Char.ofNat 0))).getCounterPath = 0 ∧
      (applyDirection State.generateSortedState Direction.LEFT).isSome = true ∧
      ((SearchNode.ofFields State.generateSortedState Direction.NONE 127 0
        (List.replicate kMaxPath (Char.ofNat 0))).moveLeft aChildNodeInit kNoMask).1 = 15 ∧
      kNoMask.testBit (4 * 15) = true ∧
      ((SearchNode.ofFields State.generateSortedState Direction.NONE 127 0
        (List.replicate kMaxPath (Char.ofNat 0))).moveLeft aChildNodeInit kNoMask).2.getCost2Here
        = -128 ∧
      ¬ MoveAccounting
        (SearchNode.ofFields State.generateSortedState Direction.NONE 127 0
          (List.replicate kMaxPath (Char.ofNat 0)))
        kNoMask Direction.LEFT 'L'
        ((SearchNode.ofFields State.generateSortedState Direction.NONE 127 0
          (List.replicate kMaxPath (Char.ofNat 0))).moveLeft aChildNodeInit kNoMask) := by
  have h1 : ((SearchNode.ofFields State.generateSortedState Direction.NONE 127 0
      (List.replicate kMaxPath (Char.ofNat 0))).moveLeft aChildNodeInit kNoMask).1 = 15 := by
    decide
  have h2 : ((SearchNode.ofFields State.generateSortedState Direction.NONE 127 0
      (List.replicate kMaxPath (Char.ofNat 0))).moveLeft aChildNodeInit kNoMask).2.getCost2Here
      = -128 := by decide
  refine ⟨⟨by decide, by decide, by decide⟩, rfl, by decide, h1, by decide, h2, ?_⟩
  rintro ⟨t, _, _, e1, _, _, _, _, _, _, e2⟩
  rw [h1] at e1
  have e3 : t = 15 := by omega
  subst e3
  rw [h2] at e2
  revert e2
  decide

/-- Claim C13, with the cost below the largest value of `Cost_t` and a
non-negative path counter: for a node over a valid state whose path counter is
`k < 80` and whose cost is less than 127, every mask `m` and every direction
whose state move is legal, the move of the node returns the moved tile
`1 ≤ t ≤ 15` and writes the moved state, the direction as last move, the
counter `k + 1`, the path with the symbol of the direction at index `k` and
every other index unchanged, and the cost increased by one when bit `4 * t` of
`m` is set and unchanged otherwise; and every node derived from an initial node
with the all-ones mask has its cost equal to its path counter. -/
theorem C13_move_accounting (n o : SearchNode) (m k : Nat)
    (hs : ValidState n.getState) (hk : n.getCounterPath = (k : Int)) (hk80 : k < kMaxPath)
    (hlen : n.getPath2Here.length = kMaxPath)
    (hc0 : -128 ≤ n.getCost2Here) (hc1 : n.getCost2Here < 127) :
    ((applyDirection n.getState Direction.LEFT).isSome = true →
        MoveAccounting n m Direction.LEFT 'L' (n.moveLeft o m)) ∧
      ((applyDirection n.getState Direction.RIGHT).isSome = true →
        MoveAccounting n m Direction.RIGHT 'R' (n.moveRight o m)) ∧
      ((applyDirection n.getState Direction.DOWN).isSome = true →
        MoveAccounting n m Direction.DOWN 'D' (n.moveDown o m)) ∧
      ((applyDirection n.getState Direction.UP).isSome = true →
        MoveAccounting n m Direction.UP 'U' (n.moveUp o m)) ∧
      ∀ start n1, DerivedNode start n1 → n1.getCost2Here = n1.getCounterPath := by
  unfold SearchNode.getState SearchNode.getCounterPath SearchNode.getPath2Here
    SearchNode.getCost2Here at *
  have hl : k < n._path2Here.length := by rw [hlen]; exact hk80
  refine ⟨fun h => ?_, fun h => ?_, fun h => ?_, fun h => ?_, fun start n1 h =>
    (derivedNode_inv start n1 h).1⟩
  · obtain ⟨h1, h2⟩ := isSome_applyDirection_left _ h
    obtain ⟨t, ht1, ht2, et⟩ := State.moveLeft_tile _ hs h1
    have h3 : (n.moveLeft o m).1 ≠ -1 := by rw [SearchNode.moveLeft_returns]; exact h1
    exact moveAccounting_of n m _ _ _ t k _ hk hl hc0 hc1 ht1 ht2
      (by rw [SearchNode.moveLeft_returns, et]) h2 (by rw [SearchNode.moveLeft_output n o m h3, et])
  · obtain ⟨h1, h2⟩ := isSome_applyDirection_right _ h
    obtain ⟨t, ht1, ht2, et⟩ := State.moveRight_tile _ hs h1
    have h3 : (n.moveRight o m).1 ≠ -1 := by rw [SearchNode.moveRight_returns]; exact h1
    exact moveAccounting_of n m _ _ _ t k _ hk hl hc0 hc1 ht1 ht2
      (by rw [SearchNode.moveRight_returns, et]) h2 (by rw [SearchNode.moveRight_output n o m h3, et])
  · obtain ⟨h1, h2⟩ := isSome_applyDirection_down _ h
    obtain ⟨t, ht1, ht2, et⟩ := State.moveDown_tile _ hs h1
    have h3 : (n.moveDown o m).1 ≠ -1 := by rw [SearchNode.moveDown_returns]; exact h1
    exact moveAccounting_of n m _ _ _ t k _ hk hl hc0 hc1 ht1 ht2
      (by rw [SearchNode.moveDown_returns, et]) h2 (by rw [SearchNode.moveDown_output n o m h3, et])
  · obtain ⟨h1, h2⟩ := isSome_applyDirection_up _ h
    obtain ⟨t, ht1, ht2, et⟩ := State.moveUp_tile _ hs h1
    have h3 : (n.moveUp o m).1 ≠ -1 := by rw [SearchNode.moveUp_returns]; exact h1
    exact moveAccounting_of n m _ _ _ t k _ hk hl hc0 hc1 ht1 ht2
      (by rw [SearchNode.moveUp_returns, et]) h2 (by rw [SearchNode.moveUp_output n o m h3, et])

/-- Witness of C13: the node `SearchNode(sorted, NONE, 42, 0)` of the unit
tests, moved with the mask of tile 15. -/
theorem C13_move_accounting_witness :
    MoveAccounting
      (SearchNode.ofFields State.generateSortedState Direction.NONE 42 0
        (List.replicate kMaxPath (Char.ofNat 0)))
      0xf000000000000000 Direction.LEFT 'L'
      ((SearchNode.ofFields State.generateSortedState Direction.NONE 42 0
        (List.replicate kMaxPath (Char.ofNat 0))).moveLeft aChildNodeInit 0xf000000000000000) ∧
    ((SearchNode.ofFields State.generateSortedState Direction.NONE 42 0
        (List.replicate kMaxPath (Char.ofNat 0))).moveLeft aChildNodeInit
          0xf000000000000000).2.getCost2Here = 43 :=
  ⟨(C13_move_accounting
      (SearchNode.ofFields State.generateSortedState Direction.NONE 42 0
        (List.replicate kMaxPath (Char.ofNat 0)))
      aChildNodeInit 0xf000000000000000 0 ⟨by decide, by decide, by decide⟩ rfl (by decide)
      (by decide) (by decide) (by decide)).1 (by decide), by decide⟩

/-! ## The trace of a run -/

theorem limitedDepthSearchLoopTrace_succ (h : State → Int) (fuel : Nat) (a : AlgorithmIDA)
    (n : SearchNode) (rest : List SearchNode) :
    limitedDepthSearchLoopTrace h (fuel + 1) a (n :: rest) =
      n :: (if n._state.eqState kFinalState = true then []
        else if n._cost2Here + h n._state ≤ a._maxCurrentDepth then
          limitedDepthSearchLoopTrace h fuel { a with _nodeExplored := a._nodeExplored + 1 }
            (pushChildren n rest)
        else
          limitedDepthSearchLoopTrace h fuel { a with _nodeExplored := a._nodeExplored + 1 }
            rest) :=
  rfl

theorem findSolutionLoopTrace_eq (fuel : Nat) (start : State) (h : State → Int) (n : Nat)
    (a : AlgorithmIDA) (found : Bool) :
    findSolutionLoopTrace fuel start h n a found =
      if a._maxCurrentDepth ≤ kTotalDepthLimit ∧ found = false then
        match n with
        | 0 => []
        | n + 1 =>
          (a._maxCurrentDepth, a.limitedDepthSearchTrace fuel start h) ::
            (match a.limitedDepthSearch fuel start h with
            | none => []
            | some (aFound, a1) =>
              findSolutionLoopTrace fuel start h n
                (if aFound = false then { a1 with _maxCurrentDepth := a1._maxCurrentDepth + 2 }
                 else a1)
                aFound)
      else [] := by
  cases n <;> rfl

theorem findSolutionLoopTrace_true (fuel : Nat) (start : State) (h : State → Int) (n : Nat)
    (a : AlgorithmIDA) : findSolutionLoopTrace fuel start h n a true = [] := by
  rw [findSolutionLoopTrace_eq]; simp

theorem sorted_eqState_final :
    (SearchNode.ofState State.generateSortedState)._state.eqState kFinalState = true := by
  decide

/-- The run of `findSolution` from the solved state, for a heuristic that is `0`
there. -/
theorem findSolution_sorted (f : Nat) (a : AlgorithmIDA) (h : State → Int)
    (h0 : h State.generateSortedState = 0) :
    a.findSolution (f + 1) State.generateSortedState h =
      some (true,
        { _maxCurrentDepth := 0
          _nodeExplored := 1
          _solutionLengthPath := 0
          _solutionPath := (SearchNode.ofState State.generateSortedState)._path2Here }) ∧
    a.findSolutionTrace (f + 1) State.generateSortedState h =
      [(0, [SearchNode.ofState State.generateSortedState])] := by
  have hl : ∀ a1 : AlgorithmIDA,
      a1.limitedDepthSearch (f + 1) State.generateSortedState h =
        some (true,
          { _maxCurrentDepth := a1._maxCurrentDepth
            _nodeExplored := a1._nodeExplored + 1
            _solutionLengthPath := 0
            _solutionPath := (SearchNode.ofState State.generateSortedState)._path2Here }) := by
    intro a1
    unfold AlgorithmIDA.limitedDepthSearch
    rw [limitedDepthSearchLoop_succ, if_pos sorted_eqState_final]
    rfl
  have ht : ∀ a1 : AlgorithmIDA,
      a1.limitedDepthSearchTrace (f + 1) State.generateSortedState h =
        [SearchNode.ofState State.generateSortedState] := by
    intro a1
    unfold AlgorithmIDA.limitedDepthSearchTrace
    rw [limitedDepthSearchLoopTrace_succ, if_pos sorted_eqState_final]
  have hc : (0 : Int) ≤ kTotalDepthLimit ∧ false = false := ⟨by decide, rfl⟩
  constructor
  · unfold AlgorithmIDA.findSolution
    rw [h0, findSolutionLoop_eq, if_pos hc]
    simp only [hl]
    rw [findSolutionLoop_true]
    rfl
  · unfold AlgorithmIDA.findSolutionTrace
    rw [h0, findSolutionLoopTrace_eq, if_pos hc]
    simp only [hl, ht]
    rw [findSolutionLoopTrace_true]

/-! ## Claims about the runs of the driver on particular inputs -/

/-- Claim C14. Solved start state: for every heuristic `h` with
`h(solved) = 0`, and every iteration bound of at least one, `findSolution` on
`State::generateSortedState()` returns with a solution found,
`getSolutionLength() = 0`, `getExploredNodes() = 1` and
`getCurrentMaxDepth() = 0`, and the heuristic is called exactly once, on the
start state (the only node taken from the open list holds the solved state, for
which the heuristic is not called). Every non-negative admissible heuristic is
`0` on the solved state. -/
theorem C14_solved_start (fuel : Nat) (a : AlgorithmIDA) (h : State → Int)
    (hfuel : 1 ≤ fuel) (h0 : h State.generateSortedState = 0) :
    (∃ r : AlgorithmIDA,
      a.findSolution fuel State.generateSortedState h = some (true, r) ∧
      r.getSolutionLength = 0 ∧ r.getExploredNodes = 1 ∧ r.getCurrentMaxDepth = 0) ∧
    a.heuristicCalls fuel State.generateSortedState h = [State.generateSortedState] ∧
    (a.heuristicCalls fuel State.generateSortedState h).length = 1 ∧
    ∀ h1 : State → Int, NonNegative h1 → Admissible h1 → h1 State.generateSortedState = 0 := by
  obtain ⟨f, rfl⟩ : ∃ f, fuel = f + 1 := ⟨fuel - 1, by omega⟩
  obtain ⟨e1, e2⟩ := findSolution_sorted f a h h0
  have e3 : a.heuristicCalls (f + 1) State.generateSortedState h =
      [State.generateSortedState] := by
    unfold AlgorithmIDA.heuristicCalls
    rw [e2]
    rfl
  refine ⟨⟨_, e1, rfl, rfl, rfl⟩, e3, by rw [e3]; rfl, fun h1 hn ha => ?_⟩
  have hv : ValidState State.generateSortedState := ⟨by decide, by decide, by decide⟩
  have h2 := ha _ hv 0 ⟨[], rfl, rfl⟩
  have h3 := hn _ hv
  exact le_antisymm h2 h3

/-- Witness of C14: the Manhattan distance to the solved state, as in the
program, with an iteration bound of one. -/
theorem C14_solved_start_witness :
    ∃ r : AlgorithmIDA,
      freshAlgorithm.findSolution 1 State.generateSortedState
        DistanceManhattan.computeDistanceWithFinal = some (true, r) ∧
      r.getSolutionLength = 0 ∧ r.getExploredNodes = 1 ∧ r.getCurrentMaxDepth = 0 :=
  (C14_solved_start 1 freshAlgorithm DistanceManhattan.computeDistanceWithFinal
    (le_refl 1) (by decide)).1
/-- The run of `findSolution` from `kUnsolvableState` with `cornerHeuristic`
expands a node with path counter 80, cost 80 and heuristic value 0 whose last
move is to the right and whose move up takes tile 14. -/
theorem cornerRun_expands :
    ∃ n ∈ freshAlgorithm.expandedNodes 400 kUnsolvableState cornerHeuristic,
      n.getCounterPath = (kMaxPath : Int) ∧ n.getCost2Here = 80 ∧
      cornerHeuristic n.getState = 0 ∧ n.getLastMove = Direction.RIGHT ∧
      (n.moveUp n kNoMask).1 = 14 := by
  have h : (freshAlgorithm.expandedNodes 400 kUnsolvableState cornerHeuristic).any
      (fun n => decide (n.getCounterPath = (kMaxPath : Int)) && decide (n.getCost2Here = 80) &&
        decide (cornerHeuristic n.getState = 0) &&
        decide (n.getLastMove = Direction.RIGHT) &&
        decide ((n.moveUp n kNoMask).1 = 14)) = true := by
    decide!
  obtain ⟨n, hn, hp⟩ := List.any_eq_true.1 h
  simp only [Bool.and_eq_true, decide_eq_true_eq] at hp
  obtain ⟨⟨⟨⟨h1, h2⟩, h3⟩, h4⟩, h5⟩ := hp
  exact ⟨n, hn, h1, h2, h3, h4, h5⟩

/-! ## Manhattan distance between two states -/

theorem positionOfTileLoop_eq (s : State) (hs : ValidState s) (i0 : Nat) (hi0 : i0 < 16)
    (n : Nat) (hn : i0 < n) (hn16 : n ≤ 16) :
    positionOfTileLoop s (nibbleAt s._data i0) n = i0 := by
  induction n with
  | zero => omega
  | succ n ih =>
    rw [positionOfTileLoop, getValueTileAt_eq]
    by_cases h : n = i0
    · subst h; rw [if_pos rfl]
    · rw [if_neg ((isValid_iff_distinct s).1 hs.2.1 n i0 (by omega) hi0 h)]
      exact ih (by omega) (by omega)

theorem positionOfTile_nibble (s : State) (hs : ValidState s) (i : Nat) (hi : i < 16) :
    positionOfTile s (nibbleAt s._data i) = i :=
  positionOfTileLoop_eq s hs i hi 16 hi (le_refl _)

theorem positionOfTileLoop_lt (s : State) (v n : Nat) (hn : 0 < n) :
    positionOfTileLoop s v n < n := by
  induction n with
  | zero => omega
  | succ n ih =>
    rw [positionOfTileLoop]
    split_ifs
    · omega
    · rcases Nat.eq_zero_or_pos n with h0 | h0
      · subst h0; simp [positionOfTileLoop]
      · have := ih h0; omega

theorem positionOfTile_lt (s : State) (v : Nat) : positionOfTile s v < 16 :=
  positionOfTileLoop_lt s v 16 (by norm_num)

theorem exists_position (s : State) (hs : ValidState s) (v : Nat) (hv : v < 16) :
    ∃ i, i < 16 ∧ nibbleAt s._data i = v :=
  (distinct_iff_cover _).1 ((isValid_iff_distinct s).1 hs.2.1) v hv

theorem nibbleAt_positionOfTile (s : State) (hs : ValidState s) (v : Nat) (hv : v < 16) :
    nibbleAt s._data (positionOfTile s v) = v := by
  obtain ⟨i, hi, rfl⟩ := exists_position s hs v hv
  rw [positionOfTile_nibble s hs i hi]

theorem tilesPositions_eq_positionOfTile (s : State) (hs : ValidState s) (v : Nat)
    (hv : v < 16) : nibbleAt s._tilesPositions v = positionOfTile s v := by
  obtain ⟨i, hi, rfl⟩ := exists_position s hs v hv
  rw [positionOfTile_nibble s hs i hi, tilesPositions_inverse s hs i hi]

theorem boardDistance_nonneg (p q : Nat) : 0 ≤ boardDistance p q := by
  unfold boardDistance; omega

theorem boardDistance_self (p : Nat) : boardDistance p p = 0 := by
  unfold boardDistance; simp

theorem boardDistance_comm (p q : Nat) : boardDistance p q = boardDistance q p := by
  unfold boardDistance; omega

theorem boardDistance_eq_zero (p q : Nat) (h : boardDistance p q = 0) : p = q := by
  unfold boardDistance at h; omega

/-- The contribution of a position to `computeDistance`, for valid states. -/
theorem mdTerm_valid (A B : State) (hA : ValidState A) (hB : ValidState B) (i : Nat)
    (hi : i < 16) :
    mdTerm A B i =
      if nibbleAt A._data i ≠ 0 then
        boardDistance i (positionOfTile B (nibbleAt A._data i))
      else 0 := by
  unfold mdTerm
  rw [tilesPositions_inverse A hA i hi,
    tilesPositions_eq_positionOfTile B hB _ (nibbleAt_lt _ _)]
  by_cases h0 : nibbleAt A._data i = 0
  · simp [h0]
  · by_cases h1 : nibbleAt A._data i = nibbleAt B._data i
    · have hp : positionOfTile B (nibbleAt A._data i) = i := by
        rw [h1]; exact positionOfTile_nibble B hB i hi
      rw [if_neg (fun h => h.2 h1), if_pos h0, hp, boardDistance_self]
    · simp only [ne_eq, h0, not_false_eq_true, h1, and_self, if_true]
      rfl

theorem computeDistance_eq_positions (A B : State) (hA : ValidState A) (hB : ValidState B) :
    DistanceManhattan.computeDistance A B =
      ∑ i in Finset.range 16,
        (if nibbleAt A._data i ≠ 0 then
          boardDistance i (positionOfTile B (nibbleAt A._data i))
        else 0) := by
  rw [computeDistance_eq_sum]
  exact Finset.sum_congr rfl (fun i hi => mdTerm_valid A B hA hB i (Finset.mem_range.1 hi))

theorem image_nibbles (A : State) (hA : ValidState A) :
    (Finset.range 16).image (nibbleAt A._data) = Finset.range 16 := by
  ext v
  simp only [Finset.mem_image, Finset.mem_range]
  constructor
  · rintro ⟨i, _, rfl⟩; exact nibbleAt_lt _ _
  · intro hv
    obtain ⟨i, hi, e⟩ := exists_position A hA v hv
    exact ⟨i, hi, e⟩

/-- The Manhattan distance computed by the code is the reference distance. -/
theorem computeDistance_eq_reference (A B : State) (hA : ValidState A) (hB : ValidState B) :
    DistanceManhattan.computeDistance A B = manhattanReference A B := by
  rw [computeDistance_eq_positions A B hA hB]
  have hstep : ∀ i ∈ Finset.range 16,
      (if nibbleAt A._data i ≠ 0 then
          boardDistance i (positionOfTile B (nibbleAt A._data i))
        else 0) =
      (fun v => if v ≠ 0 then boardDistance (positionOfTile A v) (positionOfTile B v) else 0)
        (nibbleAt A._data i) := by
    intro i hi
    simp only [positionOfTile_nibble A hA i (Finset.mem_range.1 hi)]
  rw [Finset.sum_congr rfl hstep,
    ← Finset.sum_image (f := fun v =>
      if v ≠ 0 then boardDistance (positionOfTile A v) (positionOfTile B v) else 0)
      (fun x hx y hy hxy => by
        by_contra hne
        exact (isValid_iff_distinct A).1 hA.2.1 x y (Finset.mem_range.1 hx)
          (Finset.mem_range.1 hy) hne hxy),
    image_nibbles A hA]
  unfold manhattanReference
  have hr : Finset.range 16 = insert 0 (Finset.Icc 1 15) := by
    ext v; simp only [Finset.mem_range, Finset.mem_insert, Finset.mem_Icc]; omega
  rw [hr, Finset.sum_insert (by simp)]
  simp only [ne_eq, not_true_eq_false, if_false, zero_add]
  apply Finset.sum_congr rfl
  intro v hv
  have : v ≠ 0 := by
    rw [Finset.mem_Icc] at hv; omega
  simp [this]

theorem computeDistance_nonneg (A B : State) : 0 ≤ DistanceManhattan.computeDistance A B := by
  rw [computeDistance_eq_sum]
  exact Finset.sum_nonneg (fun i _ => mdTerm_nonneg _ _ i)

theorem computeDistance_comm (A B : State) (hA : ValidState A) (hB : ValidState B) :
    DistanceManhattan.computeDistance A B = DistanceManhattan.computeDistance B A := by
  rw [computeDistance_eq_reference A B hA hB, computeDistance_eq_reference B A hB hA]
  unfold manhattanReference
  exact Finset.sum_congr rfl (fun v _ => boardDistance_comm _ _)

theorem computeDistance_same_data (A B : State) (h : A._data = B._data) :
    DistanceManhattan.computeDistance A B = 0 := by
  rw [computeDistance_eq_sum]
  apply Finset.sum_eq_zero
  intro i _
  unfold mdTerm
  rw [h, if_neg (fun hc => hc.2 rfl)]

theorem positions_eq_of_distance_zero (A B : State) (hA : ValidState A) (hB : ValidState B)
    (h : DistanceManhattan.computeDistance A B = 0) (v : Nat) (hv1 : 1 ≤ v) (hv : v < 16) :
    positionOfTile A v = positionOfTile B v := by
  rw [computeDistance_eq_reference A B hA hB] at h
  unfold manhattanReference at h
  have hz := (Finset.sum_eq_zero_iff_of_nonneg
    (fun v _ => boardDistance_nonneg (positionOfTile A v) (positionOfTile B v))).1 h v
    (Finset.mem_Icc.2 ⟨hv1, by omega⟩)
  exact boardDistance_eq_zero _ _ hz

theorem nibble_eq_of_positions (A B : State) (hA : ValidState A) (hB : ValidState B)
    (hpos : ∀ v, 1 ≤ v → v < 16 → positionOfTile A v = positionOfTile B v) (i : Nat)
    (hi : i < 16) (h0 : nibbleAt A._data i ≠ 0) : nibbleAt B._data i = nibbleAt A._data i := by
  have hlt := nibbleAt_lt A._data i
  have hp := hpos _ (by omega) hlt
  rw [positionOfTile_nibble A hA i hi] at hp
  have := nibbleAt_positionOfTile B hB _ hlt
  rw [← hp] at this
  exact this

theorem data_eq_of_distance_zero (A B : State) (hA : ValidState A) (hB : ValidState B)
    (h : DistanceManhattan.computeDistance A B = 0) : A._data = B._data := by
  have hpos := positions_eq_of_distance_zero A B hA hB h
  apply eq_of_nibbleAt_eq hA.1 hB.1
  intro i hi
  by_cases h0 : nibbleAt A._data i = 0
  · by_contra hne
    have hb0 : nibbleAt B._data i ≠ 0 := fun e => hne (h0.trans e.symm)
    have := nibble_eq_of_positions B A hB hA (fun v h1 h2 => (hpos v h1 h2).symm) i hi hb0
    exact hb0 (this ▸ h0)
  · exact (nibble_eq_of_positions A B hA hB hpos i hi h0).symm

theorem boardDistance_adjacent (p q g : Nat) (d : Direction) (hp : p < 16) (hg : g < 16)
    (h : target p d = some q) :
    boardDistance p g = boardDistance q g + 1 ∨ boardDistance p g + 1 = boardDistance q g := by
  unfold boardDistance
  cases d <;> simp only [target] at h
  · cases h
  all_goals
    split_ifs at h
    simp only [Option.some.injEq] at h
    subst h
    omega

/-- One legal move changes the Manhattan distance to any valid state by exactly
one. -/
theorem computeDistance_step (A A1 C : State) (d : Direction) (hA : ValidState A)
    (hC : ValidState C) (h : applyDirection A d = some A1) :
    DistanceManhattan.computeDistance A1 C = DistanceManhattan.computeDistance A C + 1 ∨
      DistanceManhattan.computeDistance A1 C + 1 = DistanceManhattan.computeDistance A C := by
  have hA1 := applyDirection_valid A A1 d hA h
  obtain ⟨p, hp, hidx, h0, hne⟩ := hA.blank
  rw [applyDirection_eq A p hidx d] at h
  rcases ht : target p d with _ | q
  · rw [ht] at h; cases h
  rw [ht] at h
  simp only [Option.map_some', Option.some.injEq] at h
  obtain ⟨hq, hpq⟩ := target_lt p q d hp ht
  have hex := exchanged_moveData A._data p q hp hq hpq h0
  have hd1 : A1._data = moveData A._data p q := by rw [← h]; rfl
  rw [computeDistance_eq_positions A1 C hA1 hC, computeDistance_eq_positions A C hA hC]
  have e_p : nibbleAt (moveData A._data p q) p = nibbleAt A._data q := by
    rw [hex p hp, if_pos rfl]
  have e_q : nibbleAt (moveData A._data p q) q = 0 := by
    rw [hex q hq, if_neg hpq.symm, if_pos rfl, h0]
  have hq0 : nibbleAt A._data q ≠ 0 := hne q hq hpq.symm
  have hdiff :
      ∑ i in Finset.range 16,
          (if nibbleAt A1._data i ≠ 0 then
            boardDistance i (positionOfTile C (nibbleAt A1._data i)) else 0) -
        ∑ i in Finset.range 16,
          (if nibbleAt A._data i ≠ 0 then
            boardDistance i (positionOfTile C (nibbleAt A._data i)) else 0) =
      (boardDistance p (positionOfTile C (nibbleAt A._data q)) - 0) +
        (0 - boardDistance q (positionOfTile C (nibbleAt A._data q))) := by
    rw [sum_two_changes
      (fun i => if nibbleAt A._data i ≠ 0 then
        boardDistance i (positionOfTile C (nibbleAt A._data i)) else 0)
      (fun i => if nibbleAt A1._data i ≠ 0 then
        boardDistance i (positionOfTile C (nibbleAt A1._data i)) else 0) p q hp hq hpq
      (fun i hi h1 h2 => by
        simp only [hd1, hex i hi, if_neg h1, if_neg h2])]
    simp only [hd1, e_p, e_q]
    rw [if_pos hq0, if_neg (not_not.2 h0), if_neg (fun hc => hc rfl), if_pos hq0]
  have hadj := boardDistance_adjacent p q (positionOfTile C (nibbleAt A._data q)) d hp
    (positionOfTile_lt _ _) ht
  omega

theorem computeDistance_path (A B : State) (ms : List Direction) (hA : ValidState A)
    (h : applyMoves A ms = some B) :
    DistanceManhattan.computeDistance A B ≤ (ms.length : Int) := by
  have hB := applyMoves_valid A B ms hA h
  induction ms generalizing A with
  | nil =>
    simp only [applyMoves, Option.some.injEq] at h
    rw [computeDistance_same_data A B (by rw [h])]
    simp
  | cons d ms ih =>
    simp only [applyMoves] at h
    rcases h1 : applyDirection A d with _ | A1
    · rw [h1] at h; cases h
    · rw [h1] at h
      have hstep := computeDistance_step A A1 B d hA hB h1
      have := ih A1 (applyDirection_valid A A1 d hA h1) h
      simp only [List.length_cons]
      push_cast
      omega

/-! ## Claims about the Manhattan distance -/

/-- C16. For valid states `A` and `B`, `computeDistance(A, B)` equals the sum,
over the fifteen non-blank tile values `v`, of `|rowA(v) - rowB(v)| +
|colA(v) - colB(v)|`, where `row = position / 4` and `col = position % 4` of the
position of tile `v` in each state; `positionOfTile` is the position holding
that value. -/
theorem C16_computeDistance_eq_reference (A B : State) (hA : ValidState A)
    (hB : ValidState B) :
    DistanceManhattan.computeDistance A B = manhattanReference A B ∧
    (∀ v, v < 16 → A.getValueTileAt (positionOfTile A v) = v ∧
      B.getValueTileAt (positionOfTile B v) = v) :=
  ⟨computeDistance_eq_reference A B hA hB,
    fun v hv => ⟨nibbleAt_positionOfTile A hA v hv, nibbleAt_positionOfTile B hB v hv⟩⟩

/-- Witness of C16 at the solved state and the state two moves from it. -/
theorem C16_computeDistance_eq_reference_witness :
    ValidState State.generateSortedState ∧ ValidState twoStepsState ∧
    DistanceManhattan.computeDistance State.generateSortedState twoStepsState =
      manhattanReference State.generateSortedState twoStepsState ∧
    (∀ v, v < 16 →
      State.generateSortedState.getValueTileAt (positionOfTile State.generateSortedState v) = v ∧
      twoStepsState.getValueTileAt (positionOfTile twoStepsState v) = v) :=
  ⟨validState_sorted, ⟨by decide, by decide, by decide⟩,
    C16_computeDistance_eq_reference State.generateSortedState twoStepsState validState_sorted
      ⟨by decide, by decide, by decide⟩⟩

/-- C17. The Manhattan distance is symmetric: for valid states `A` and `B`,
`computeDistance(A, B) = computeDistance(B, A)`. -/
theorem C17_computeDistance_symmetric (A B : State) (hA : ValidState A) (hB : ValidState B) :
    DistanceManhattan.computeDistance A B = DistanceManhattan.computeDistance B A :=
  computeDistance_comm A B hA hB

/-- Witness of C17 at the solved state and the state two moves from it. -/
theorem C17_computeDistance_symmetric_witness :
    ValidState State.generateSortedState ∧ ValidState twoStepsState ∧
    DistanceManhattan.computeDistance State.generateSortedState twoStepsState =
      DistanceManhattan.computeDistance twoStepsState State.generateSortedState :=
  ⟨validState_sorted, ⟨by decide, by decide, by decide⟩,
    C17_computeDistance_symmetric State.generateSortedState twoStepsState validState_sorted
      ⟨by decide, by decide, by decide⟩⟩

/-- C18. The Manhattan distance is zero exactly on identical boards: for valid
states `A` and `B`, `computeDistance(A, B) = 0` if and only if `A` and `B` have
the same layout; in particular `computeDistance(A, A) = 0` and
`computeDistanceWithFinal` of the solved state is `0`. -/
theorem C18_computeDistance_zero_iff (A B : State) (hA : ValidState A) (hB : ValidState B) :
    (DistanceManhattan.computeDistance A B = 0 ↔
      A.getStateConfiguration = B.getStateConfiguration) ∧
    DistanceManhattan.computeDistance A A = 0 ∧
    DistanceManhattan.computeDistanceWithFinal State.generateSortedState = 0 :=
  ⟨⟨data_eq_of_distance_zero A B hA hB, computeDistance_same_data A B⟩,
    computeDistance_same_data A A rfl, computeDistance_same_data _ _ rfl⟩

/-- Witness of C18 at the solved state and the state two moves from it. -/
theorem C18_computeDistance_zero_iff_witness :
    ValidState State.generateSortedState ∧ ValidState twoStepsState ∧
    (DistanceManhattan.computeDistance State.generateSortedState twoStepsState = 0 ↔
      State.generateSortedState.getStateConfiguration = twoStepsState.getStateConfiguration) ∧
    DistanceManhattan.computeDistance State.generateSortedState State.generateSortedState = 0 ∧
    DistanceManhattan.computeDistanceWithFinal State.generateSortedState = 0 :=
  ⟨validState_sorted, ⟨by decide, by decide, by decide⟩,
    C18_computeDistance_zero_iff State.generateSortedState twoStepsState validState_sorted
      ⟨by decide, by decide, by decide⟩⟩

/-- C19. One move changes the Manhattan distance by exactly one: for valid
states `A` and `C` and a legal move taking `A` to `A1`,
`|computeDistance(A1, C) - computeDistance(A, C)| = 1`, and
`computeDistance(A, A1) = 1`. -/
theorem C19_computeDistance_one_move (A A1 C : State) (d : Direction) (hA : ValidState A)
    (hC : ValidState C) (hmove : applyDirection A d = some A1) :
    (DistanceManhattan.computeDistance A1 C - DistanceManhattan.computeDistance A C).natAbs = 1 ∧
    DistanceManhattan.computeDistance A A1 = 1 := by
  have h1 := computeDistance_step A A1 C d hA hC hmove
  have hA1 := applyDirection_valid A A1 d hA hmove
  have h2 := computeDistance_step A A1 A1 d hA hA1 hmove
  rw [computeDistance_same_data A1 A1 rfl] at h2
  have h3 := computeDistance_nonneg A A1
  constructor <;> omega

/-- Witness of C19: the move left from the solved state, measured against the
state two moves from the solved state. -/
theorem C19_computeDistance_one_move_witness :
    ValidState State.generateSortedState ∧ ValidState twoStepsState ∧
    applyDirection State.generateSortedState Direction.LEFT =
      some (State.ofConfiguration 0xf0edcba987654321) ∧
    (DistanceManhattan.computeDistance (State.ofConfiguration 0xf0edcba987654321)
        twoStepsState -
      DistanceManhattan.computeDistance State.generateSortedState twoStepsState).natAbs = 1 ∧
    DistanceManhattan.computeDistance State.generateSortedState
      (State.ofConfiguration 0xf0edcba987654321) = 1 :=
  ⟨validState_sorted, ⟨by decide, by decide, by decide⟩, by decide!,
    C19_computeDistance_one_move State.generateSortedState
      (State.ofConfiguration 0xf0edcba987654321) twoStepsState Direction.LEFT
      validState_sorted ⟨by decide, by decide, by decide⟩ (by decide!)⟩

/-- C20. The Manhattan heuristic is admissible: for a valid state `A` and a
state `B` reached from `A` by a sequence of `n` legal moves,
`computeDistance(A, B) ≤ n`; hence for a valid state `s`,
`computeDistanceWithFinal(s)` is non-negative and is at most the length of every
sequence of legal moves that takes `s` to the solved state. -/
theorem C20_manhattan_admissible (A B : State) (ms : List Direction) (hA : ValidState A)
    (hms : applyMoves A ms = some B) :
    DistanceManhattan.computeDistance A B ≤ (ms.length : Int) ∧
    (∀ s : State, ValidState s →
      0 ≤ DistanceManhattan.computeDistanceWithFinal s ∧
      ∀ ms1 : List Direction, applyMoves s ms1 = some State.generateSortedState →
        DistanceManhattan.computeDistanceWithFinal s ≤ (ms1.length : Int)) :=
  ⟨computeDistance_path A B ms hA hms,
    fun s hs => ⟨computeDistance_nonneg s _,
      fun ms1 h1 => computeDistance_path s _ ms1 hs h1⟩⟩

/-- Witness of C20: the two moves from `twoStepsState` to the solved state. -/
theorem C20_manhattan_admissible_witness :
    ValidState twoStepsState ∧
    applyMoves twoStepsState [Direction.DOWN, Direction.RIGHT] =
      some State.generateSortedState ∧
    DistanceManhattan.computeDistance twoStepsState State.generateSortedState ≤
      (([Direction.DOWN, Direction.RIGHT] : List Direction).length : Int) ∧
    (∀ s : State, ValidState s →
      0 ≤ DistanceManhattan.computeDistanceWithFinal s ∧
      ∀ ms1 : List Direction, applyMoves s ms1 = some State.generateSortedState →
        DistanceManhattan.computeDistanceWithFinal s ≤ (ms1.length : Int)) :=
  ⟨⟨by decide, by decide, by decide⟩, by decide!,
    C20_manhattan_admissible twoStepsState State.generateSortedState
      [Direction.DOWN, Direction.RIGHT] ⟨by decide, by decide, by decide⟩ (by decide!)⟩

/-! ## Masks and the masked hash -/

theorem nibbleAt_zero_index (m : Nat) : nibbleAt m 0 = m &&& 0xF := by
  unfold nibbleAt; simp

theorem nibbleAt_fifteen (i : Nat) : nibbleAt 0xF i = if i = 0 then 15 else 0 := by
  by_cases h : i = 0
  · subst h; decide
  · rw [if_neg h]
    unfold nibbleAt
    have h1 : (0xF : Nat) >>> (i <<< 2) = 0 := by
      rw [shiftLeft_two, Nat.shiftRight_eq_div_pow]
      apply Nat.div_eq_of_lt
      calc (0xF : Nat) < 2 ^ 4 := by norm_num
        _ ≤ 2 ^ (4 * i) := Nat.pow_le_pow_right (by norm_num) (by omega)
    rw [h1]; rfl

theorem NibbleMask.ne_zero_iff {m : Nat} (hm : NibbleMask m) (v : Nat) (hv : v < 16) :
    nibbleAt m v ≠ 0 ↔ Selects m v := by
  unfold Selects
  rcases hm.2 v hv with h | h <;> rw [h] <;> decide

theorem and_selected (x m v : Nat) (hx : x < 16) (h : Selects m v) : x &&& nibbleAt m v = x := by
  rw [h]; exact and_fifteen x hx

theorem hash_eq_iff (x y m : Nat) (hx : x < 2 ^ 64) (hy : y < 2 ^ 64) (hm : NibbleMask m) :
    x &&& m = y &&& m ↔ ∀ v, v < 16 → Selects m v → nibbleAt x v = nibbleAt y v := by
  constructor
  · intro h v hv hs
    have := congrArg (fun z => nibbleAt z v) h
    simp only [nibbleAt_and] at this
    rwa [and_selected _ _ _ (nibbleAt_lt _ _) hs, and_selected _ _ _ (nibbleAt_lt _ _) hs] at this
  · intro h
    apply eq_of_nibbleAt_eq (lt_of_le_of_lt Nat.and_le_left hx) (lt_of_le_of_lt Nat.and_le_left hy)
    intro i hi
    rw [nibbleAt_and, nibbleAt_and]
    rcases hm.2 i hi with h0 | hF
    · rw [h0]; simp
    · rw [h i hi hF]

theorem computePositionLoop_lt (d n acc : Nat) (h : acc < 2 ^ 64) :
    computePositionLoop d n acc < 2 ^ 64 := by
  induction n generalizing acc with
  | zero => simpa [computePositionLoop] using h
  | succ n ih =>
    rw [computePositionLoop]
    exact ih _ (Nat.or_lt_two_pow h (shl64_lt _ _))

theorem computePositionFromConfiguration_lt (d : Nat) :
    computePositionFromConfiguration d < 2 ^ 64 :=
  computePositionLoop_lt d _ 0 (by norm_num)

/-! ## The validator of the partition model -/

theorem checkHasZeroLoop_iff (masks : List Nat) :
    checkHasZeroLoop masks = true ↔ ∀ m ∈ masks, m &&& 0xF = 0xF := by
  induction masks with
  | nil => simp [checkHasZeroLoop]
  | cons m rest ih =>
    rw [checkHasZeroLoop]
    by_cases h : m &&& 0xF = 0xF
    · rw [if_neg (not_not.2 h), ih]; simp [h]
    · rw [if_pos h]; simp [h]

theorem getPartitionIndexLoop_nonneg (v : Int) (masks : List Nat) (i : Int) (hi : 0 ≤ i) :
    getPartitionIndexLoop v masks i = -1 ∨ 0 ≤ getPartitionIndexLoop v masks i := by
  induction masks generalizing i with
  | nil => left; rfl
  | cons m rest ih =>
    rw [getPartitionIndexLoop]
    split_ifs
    · right; exact hi
    · exact ih (i + 1) (by omega)

theorem getPartitionIndexLoop_ne (v : Nat) (masks : List Nat) (i : Int) (hi : 0 ≤ i) :
    getPartitionIndexLoop (v : Int) masks i ≠ -1 ↔ ∃ m ∈ masks, nibbleAt m v ≠ 0 := by
  induction masks generalizing i with
  | nil => simp [getPartitionIndexLoop]
  | cons m rest ih =>
    rw [getPartitionIndexLoop]
    have e : ((v : Int) * 4).toNat = v <<< 2 := by rw [shiftLeft_two]; omega
    rw [e]
    by_cases h : (m >>> (v <<< 2)) &&& 0xF ≠ 0
    · rw [if_pos h]
      constructor
      · intro _; exact ⟨m, List.mem_cons_self _ _, h⟩
      · intro _; omega
    · rw [if_neg h, ih (i + 1) (by omega)]
      constructor
      · rintro ⟨m1, hm1, h1⟩; exact ⟨m1, List.mem_cons_of_mem _ hm1, h1⟩
      · rintro ⟨m1, hm1, h1⟩
        rcases List.mem_cons.1 hm1 with rfl | hm2
        · exact absurd h1 h
        · exact ⟨m1, hm2, h1⟩

theorem checkTotalLoop_iff (masks : List Nat) (n : Nat) :
    checkTotalLoop masks n = true ↔
      ∀ v, 1 ≤ v → v ≤ n → ∃ m ∈ masks, nibbleAt m v ≠ 0 := by
  induction n with
  | zero => simp only [checkTotalLoop, true_iff]; intro v h1 h2; omega
  | succ n ih =>
    rw [checkTotalLoop]
    have key := getPartitionIndexLoop_ne (n + 1) masks 0 (le_refl _)
    unfold getPartitionIndexOfTileIndex
    by_cases h : getPartitionIndexLoop ((n + 1 : Nat) : Int) masks 0 = -1
    · rw [if_pos h]
      simp only [Bool.false_eq_true, false_iff]
      intro hall
      exact (key.2 (hall (n + 1) (by omega) (le_refl _))) h
    · rw [if_neg h, ih]
      constructor
      · intro hall v h1 h2
        by_cases hv : v = n + 1
        · subst hv; exact key.1 h
        · exact hall v h1 (by omega)
      · intro hall v h1 h2
        exact hall v h1 (by omega)

theorem checkDisjointInner_iff (a : Nat) (masks : List Nat) :
    checkDisjointInner a masks = true ↔ ∀ b ∈ masks, a &&& b = 0xF := by
  induction masks with
  | nil => simp [checkDisjointInner]
  | cons m rest ih =>
    rw [checkDisjointInner]
    by_cases h : a &&& m = 0xF
    · rw [if_neg (not_not.2 h), ih]; simp [h]
    · rw [if_pos h]; simp [h]

theorem checkDisjointOuter_iff (masks : List Nat) :
    checkDisjointOuter masks = true ↔ masks.Pairwise (fun a b => a &&& b = 0xF) := by
  induction masks with
  | nil => simp [checkDisjointOuter]
  | cons m rest ih =>
    rw [checkDisjointOuter, List.pairwise_cons]
    by_cases h : checkDisjointInner m rest = true
    · have h2 : ¬ checkDisjointInner m rest = false := by rw [h]; simp
      rw [if_neg h2, ih]
      exact ⟨fun hp => ⟨(checkDisjointInner_iff m rest).1 h, hp⟩, fun hp => hp.2⟩
    · have h2 : checkDisjointInner m rest = false := by simpa using h
      rw [if_pos h2]
      simp only [Bool.false_eq_true, false_iff]
      rintro ⟨h3, _⟩
      exact h ((checkDisjointInner_iff m rest).2 h3)

theorem and_eq_fifteen_iff (a b : Nat) (ha : NibbleMask a) (hb : NibbleMask b) :
    a &&& b = 0xF ↔
      Selects a 0 ∧ Selects b 0 ∧ ∀ v, 1 ≤ v → v ≤ 15 → ¬ (Selects a v ∧ Selects b v) := by
  unfold Selects
  constructor
  · intro h
    have key : ∀ i, nibbleAt a i &&& nibbleAt b i = if i = 0 then 15 else 0 := by
      intro i
      rw [← nibbleAt_and, h, nibbleAt_fifteen]
    have k0 := key 0
    rw [if_pos rfl] at k0
    refine ⟨?_, ?_, ?_⟩
    · rcases ha.2 0 (by norm_num) with h0 | h0
      · rw [h0] at k0; simp at k0
      · exact h0
    · rcases hb.2 0 (by norm_num) with h0 | h0
      · rw [h0] at k0; simp at k0
      · exact h0
    · rintro v hv1 hv2 ⟨h1, h2⟩
      have kv := key v
      rw [if_neg (by omega), h1, h2] at kv
      simp at kv
  · rintro ⟨h1, h2, h3⟩
    apply eq_of_nibbleAt_eq (lt_of_le_of_lt Nat.and_le_left ha.1) (by norm_num)
    intro i hi
    rw [nibbleAt_and, nibbleAt_fifteen]
    by_cases h0 : i = 0
    · subst h0; rw [if_pos rfl, h1, h2]; rfl
    · rw [if_neg h0]
      rcases ha.2 i hi with e1 | e1
      · rw [e1]; simp
      · rcases hb.2 i hi with e2 | e2
        · rw [e2]; simp
        · exact absurd ⟨e1, e2⟩ (h3 i (by omega) (by omega))

/-! ## Bytes of integer objects -/

theorem objectBytes_length (k x : Nat) : (objectBytes k x).length = k := by
  induction k generalizing x with
  | zero => rfl
  | succ k ih => simp [objectBytes, ih]

theorem objectValue_objectBytes (k x : Nat) : objectValue (objectBytes k x) = x % 256 ^ k := by
  induction k generalizing x with
  | zero => simp [objectBytes, objectValue, Nat.mod_one]
  | succ k ih =>
    rw [objectBytes, objectValue, ih, pow_succ, Nat.mul_comm (256 ^ k) 256, Nat.mod_mul]

theorem objectValue_objectBytes_of_lt (k x : Nat) (h : x < 256 ^ k) :
    objectValue (objectBytes k x) = x := by
  rw [objectValue_objectBytes, Nat.mod_eq_of_lt h]

theorem objectBytes_one (x : Nat) (h : x < 256) : objectBytes 1 x = [x] := by
  simp [objectBytes, Nat.mod_eq_of_lt h]

theorem objectBytes_lt (k x b : Nat) (h : b ∈ objectBytes k x) : b < 256 := by
  induction k generalizing x with
  | zero => simp [objectBytes] at h
  | succ k ih =>
    rw [objectBytes] at h
    rcases List.mem_cons.1 h with rfl | h1
    · exact Nat.mod_lt _ (by norm_num)
    · exact ih _ h1

theorem objectBytes_objectValue (bs : List Nat) (h : ∀ b ∈ bs, b < 256) :
    objectBytes bs.length (objectValue bs) = bs := by
  induction bs with
  | nil => rfl
  | cons b rest ih =>
    have hb := h b (List.mem_cons_self _ _)
    rw [List.length_cons, objectBytes, objectValue]
    have e1 : (b + 256 * objectValue rest) % 256 = b := by omega
    have e2 : (b + 256 * objectValue rest) / 256 = objectValue rest := by omega
    rw [e1, e2, ih (fun x hx => h x (List.mem_cons_of_mem _ hx))]

theorem objectBytes_injective (k x y : Nat) (hx : x < 256 ^ k) (hy : y < 256 ^ k)
    (h : objectBytes k x = objectBytes k y) : x = y := by
  rw [← objectValue_objectBytes_of_lt k x hx, ← objectValue_objectBytes_of_lt k y hy, h]

theorem toU8_lt (c : Int) : toU8 c < 256 := by unfold toU8; omega

theorem toInt8_toU8 (c : Int) (h0 : -128 ≤ c) (h1 : c ≤ 127) : toInt8 ((toU8 c : Nat) : Int) = c := by
  unfold toInt8 toU8; omega

theorem toInt32_toU32 (x : Int) (h0 : -2147483648 ≤ x) (h1 : x ≤ 2147483647) :
    toInt32 ((toU32 x : Nat) : Int) = x := by
  unfold toInt32 toU32; omega

theorem toU32_lt (x : Int) : toU32 x < 256 ^ 4 := by unfold toU32; omega

theorem toU32_toInt32 (x : Int) : toU32 (toInt32 x) = toU32 x := by
  unfold toInt32 toU32; omega

theorem toInt32_of_small (x : Int) (h0 : -2147483648 ≤ x) (h1 : x ≤ 2147483647) :
    toInt32 x = x := by unfold toInt32; omega

theorem streamRead_append (bs rest : List Nat) :
    streamRead (bs ++ rest) bs.length = (bs, rest) := by
  unfold streamRead
  rw [List.take_left, List.drop_left]

/-! ## The loops of `serialize` -/

theorem serializeMasksLoop_eq (masks s : List Nat) :
    serializeMasksLoop masks s = s ++ masks.flatMap (objectBytes 8) := by
  induction masks generalizing s with
  | nil => simp [serializeMasksLoop]
  | cons m rest ih =>
    rw [serializeMasksLoop, ih, streamWrite, List.flatMap_cons, List.append_assoc]

theorem serializeCostsLoop_eq (t : List Int) (s : List Nat) :
    serializeCostsLoop t s = s ++ t.map toU8 := by
  induction t generalizing s with
  | nil => simp [serializeCostsLoop]
  | cons c rest ih =>
    rw [serializeCostsLoop, ih, streamWrite, objectBytes_one _ (toU8_lt c), List.map_cons,
      List.append_assoc]
    rfl

theorem serializeTablesLoop_eq (masks : List Nat) (db : PatternDB)
    (hlen : db._costTablePartitions.length = masks.length) (k : Nat) (hk : k ≤ masks.length)
    (s : List Nat) :
    serializeTablesLoop masks db k s =
      s ++ (db._costTablePartitions.drop (masks.length - k)).flatMap tableRecord := by
  induction k generalizing s with
  | zero =>
    rw [serializeTablesLoop, Nat.sub_zero, ← hlen, List.drop_length]
    simp
  | succ k ih =>
    rw [serializeTablesLoop]
    have hi : masks.length - (k + 1) < db._costTablePartitions.length := by omega
    rw [ih (by omega), serializeCostsLoop_eq, streamWrite]
    have hd : db._costTablePartitions.drop (masks.length - (k + 1)) =
        db._costTablePartitions.getD (masks.length - (k + 1)) [] ::
          db._costTablePartitions.drop (masks.length - k) := by
      rw [List.getD_eq_getElem _ _ hi]
      have e : masks.length - k = masks.length - (k + 1) + 1 := by omega
      rw [e]
      exact List.drop_eq_getElem_cons hi
    rw [hd, List.flatMap_cons, tableRecord]
    simp only [List.append_assoc]

theorem serialize_eq (masks : List Nat) (db : PatternDB)
    (hlen : db._costTablePartitions.length = masks.length) (s : List Nat) :
    PatternDB.serialize masks db s = s ++ serializedLayout masks db._costTablePartitions := by
  unfold PatternDB.serialize serializedLayout kNumPartitions
  simp only
  rw [serializeTablesLoop_eq masks db hlen _ (le_refl _), serializeMasksLoop_eq, streamWrite,
    Nat.sub_self, List.drop_zero, toU32_toInt32]
  simp only [List.append_assoc]

theorem flatMap_objectBytes_length (masks : List Nat) :
    (masks.flatMap (objectBytes 8)).length = 8 * masks.length := by
  induction masks with
  | nil => rfl
  | cons m rest ih =>
    rw [List.flatMap_cons, List.length_append, objectBytes_length, ih, List.length_cons]
    omega

theorem tableRecord_length (t : List Int) : (tableRecord t).length = 8 + t.length := by
  simp [tableRecord, objectBytes_length]

theorem flatMap_tableRecord_length (tables : List (List Int)) :
    (tables.flatMap tableRecord).length = (tables.map (fun t => 8 + t.length)).sum := by
  induction tables with
  | nil => rfl
  | cons t rest ih =>
    rw [List.flatMap_cons, List.length_append, tableRecord_length, ih, List.map_cons,
      List.sum_cons]

theorem serializedLayout_length (masks : List Nat) (tables : List (List Int)) :
    (serializedLayout masks tables).length =
      4 + 8 * masks.length + (tables.map (fun t => 8 + t.length)).sum := by
  unfold serializedLayout
  rw [List.length_append, List.length_append, objectBytes_length, flatMap_objectBytes_length,
    flatMap_tableRecord_length]
  omega

/-! ## The loops of `deserialize` -/

theorem deserializeCostsLoop_eq (n : Nat) (s : List Nat) :
    deserializeCostsLoop n s =
      if n ≤ s.length then Except.ok ((s.take n).map (fun b => toInt8 ((b : Nat) : Int)), s.drop n)
      else Except.error "PatternDB File is not valid" := by
  induction n generalizing s with
  | zero => simp [deserializeCostsLoop]
  | succ n ih =>
    rw [deserializeCostsLoop]
    cases s with
    | nil => simp [streamRead]
    | cons b rest =>
      simp only [streamRead, List.take_succ_cons, List.take_zero, List.length_cons,
        List.length_nil, Nat.zero_add, ne_eq, not_true_eq_false, if_false, List.drop_succ_cons,
        List.drop_zero]
      rw [ih rest]
      by_cases h : n ≤ rest.length
      · rw [if_pos h, if_pos (by omega)]
        simp [objectValue]
      · rw [if_neg h, if_neg (by omega)]

theorem deserializeCostsLoop_encoded (t : List Int) (hc : ∀ c ∈ t, -128 ≤ c ∧ c ≤ 127)
    (rest : List Nat) :
    deserializeCostsLoop t.length (t.map toU8 ++ rest) = Except.ok (t, rest) := by
  rw [deserializeCostsLoop_eq, if_pos (by simp)]
  have e1 : (t.map toU8 ++ rest).take t.length = t.map toU8 := by
    rw [← List.length_map t toU8]; exact List.take_left _ _
  have e2 : (t.map toU8 ++ rest).drop t.length = rest := by
    rw [← List.length_map t toU8]; exact List.drop_left _ _
  rw [e1, e2, List.map_map]
  congr 2
  conv_rhs => rw [← List.map_id t]
  apply List.map_congr_left
  intro c hmem
  exact toInt8_toU8 c (hc c hmem).1 (hc c hmem).2

theorem streamRead_objectBytes (k x : Nat) (rest : List Nat) :
    streamRead (objectBytes k x ++ rest) k = (objectBytes k x, rest) := by
  have := streamRead_append (objectBytes k x) rest
  rwa [objectBytes_length] at this

theorem deserializeMasksLoop_encoded (masks : List Nat) (hm : ∀ m ∈ masks, m < 2 ^ 64)
    (rest : List Nat) :
    deserializeMasksLoop masks (masks.flatMap (objectBytes 8) ++ rest) = Except.ok rest := by
  induction masks with
  | nil => simp [deserializeMasksLoop]
  | cons m ms ih =>
    rw [deserializeMasksLoop, List.flatMap_cons, List.append_assoc, streamRead_objectBytes]
    simp only [objectBytes_length, ne_eq, not_true_eq_false, if_false]
    rw [objectValue_objectBytes_of_lt 8 m (by
      have := hm m (List.mem_cons_self _ _)
      norm_num at this ⊢; exact this)]
    simp only [not_true_eq_false, if_false]
    exact ih (fun x hx => hm x (List.mem_cons_of_mem _ hx))

theorem deserializeTablesLoop_step (aMaxSize : Nat) (masks : List Nat) (n : Nat)
    (db : PatternDB) (s : List Nat) (h : 8 ≤ s.length)
    (hm : objectValue (s.take 8) ≤ aMaxSize) :
    deserializeTablesLoop aMaxSize masks (n + 1) db s =
      match deserializeCostsLoop (objectValue (s.take 8)) (s.drop 8) with
      | Except.error e => DeserializeResult.thrown e
      | Except.ok (aCosts, aRest) =>
        deserializeTablesLoop aMaxSize masks n
          { _costTablePartitions :=
              db._costTablePartitions.set (masks.length - (n + 1)) aCosts } aRest := by
  rw [deserializeTablesLoop]
  simp only [streamRead, List.length_take]
  rw [if_neg (by omega), if_neg (by omega)]

theorem take_set_succ (l : List (List Int)) (i : Nat) (t : List Int) (hi : i < l.length) :
    (l.set i t).take (i + 1) = l.take i ++ [t] := by
  induction l generalizing i with
  | nil => simp at hi
  | cons a rest ih =>
    cases i with
    | zero => simp
    | succ i =>
      simp only [List.set_cons_succ, List.take_succ_cons, List.cons_append, List.cons.injEq,
        true_and]
      exact ih i (by simpa using hi)

theorem lt_256_pow_8 (x : Nat) (h : x < 2 ^ 64) : x < 256 ^ 8 := by
  norm_num at h ⊢; exact h

theorem take_objectBytes (k x : Nat) (r : List Nat) :
    (objectBytes k x ++ r).take k = objectBytes k x := by
  have := List.take_left (objectBytes k x) r
  rwa [objectBytes_length] at this

theorem drop_objectBytes (k x : Nat) (r : List Nat) :
    (objectBytes k x ++ r).drop k = r := by
  have := List.drop_left (objectBytes k x) r
  rwa [objectBytes_length] at this

theorem deserializeTablesLoop_encoded (aMaxSize : Nat) (masks : List Nat) (j : Nat)
    (hj : j ≤ masks.length)
    (db0 : PatternDB) (h0 : db0._costTablePartitions.length = masks.length)
    (T : List (List Int)) (hT : T.length = j)
    (hty : ∀ t ∈ T, t.length < 2 ^ 64 ∧ ∀ c ∈ t, -128 ≤ c ∧ c ≤ 127)
    (hsz : ∀ t ∈ T, t.length ≤ aMaxSize) (rest : List Nat) :
    deserializeTablesLoop aMaxSize masks j db0 (T.flatMap tableRecord ++ rest) =
      DeserializeResult.loaded
        { _costTablePartitions := db0._costTablePartitions.take (masks.length - j) ++ T } rest := by
  induction j generalizing db0 T with
  | zero =>
    have : T = [] := List.length_eq_zero.1 hT
    subst this
    rw [deserializeTablesLoop, Nat.sub_zero, ← h0, List.take_length]
    simp
  | succ j ih =>
    cases T with
    | nil => simp at hT
    | cons t T1 =>
      have ht := hty t (List.mem_cons_self _ _)
      have hst := hsz t (List.mem_cons_self _ _)
      have hv : objectValue ((objectBytes 8 t.length ++
          (t.map toU8 ++ (T1.flatMap tableRecord ++ rest))).take 8) = t.length := by
        rw [take_objectBytes, objectValue_objectBytes_of_lt 8 _ (lt_256_pow_8 _ ht.1)]
      rw [List.flatMap_cons, tableRecord, List.append_assoc, List.append_assoc,
        deserializeTablesLoop_step _ _ _ _ _ (by
          rw [List.length_append, objectBytes_length]; omega) (by rw [hv]; exact hst),
        hv, drop_objectBytes, deserializeCostsLoop_encoded t ht.2]
      dsimp only
      rw [ih (by omega) _ (by simp [h0]) T1 (by simpa using hT)
        (fun x hx => hty x (List.mem_cons_of_mem _ hx))
        (fun x hx => hsz x (List.mem_cons_of_mem _ hx))]
      have e : masks.length - j = masks.length - (j + 1) + 1 := by omega
      have e2 : List.take (masks.length - j)
          (db0._costTablePartitions.set (masks.length - (j + 1)) t) ++ T1 =
          List.take (masks.length - (j + 1)) db0._costTablePartitions ++ t :: T1 := by
        rw [e, take_set_succ _ _ _ (by omega)]
        simp
      dsimp only
      rw [e2]

theorem serializedLayout_take_four (masks : List Nat) (tables : List (List Int))
    (rest : List Nat) :
    streamRead (serializedLayout masks tables ++ rest) 4 =
      (objectBytes 4 (toU32 (masks.length : Int)),
        masks.flatMap (objectBytes 8) ++ tables.flatMap tableRecord ++ rest) := by
  unfold serializedLayout
  rw [List.append_assoc, streamRead_objectBytes, List.append_assoc]

theorem storedCount_layout (n : Nat) (hn : n < 2 ^ 31) :
    toInt32 ((objectValue (objectBytes 4 (toU32 (n : Int))) : Nat) : Int) = (n : Int) := by
  rw [objectValue_objectBytes_of_lt 4 _ (toU32_lt _)]
  exact toInt32_toU32 _ (by omega) (by norm_num at hn; omega)

theorem deserialize_encoded (aMaxSize : Nat) (masks : List Nat) (db db0 : PatternDB)
    (hw : WellTyped masks db) (hsz : ∀ t ∈ db._costTablePartitions, t.length ≤ aMaxSize)
    (h0 : db0._costTablePartitions.length = masks.length) (rest : List Nat) :
    PatternDB.deserialize aMaxSize masks db0
        (serializedLayout masks db._costTablePartitions ++ rest) =
      DeserializeResult.loaded db rest := by
  obtain ⟨hn, hm, hlen, hty⟩ := hw
  unfold PatternDB.deserialize
  rw [serializedLayout_take_four]
  dsimp only
  rw [if_neg (by rw [objectBytes_length]; exact not_not.2 rfl), storedCount_layout _ hn]
  unfold kNumPartitions
  rw [if_neg (not_not.2 rfl), List.append_assoc, deserializeMasksLoop_encoded masks hm]
  dsimp only
  rw [deserializeTablesLoop_encoded aMaxSize masks _ (le_refl _) db0 h0 _ hlen hty hsz]
  simp

theorem bfsLoop_nil (masks : List Nat) (mask fuel : Nat) (t : List Int) (closed : List Nat)
    (child : SearchNode) : bfsLoop masks mask fuel t [] closed child = some t := by
  cases fuel <;> rfl

theorem bfsLoop_zero (masks : List Nat) (mask : Nat) (t : List Int) (n : SearchNode)
    (q : List SearchNode) (closed : List Nat) (child : SearchNode) :
    bfsLoop masks mask 0 t (n :: q) closed child = none := rfl

theorem bfsLoop_succ (masks : List Nat) (mask fuel : Nat) (t : List Int) (n : SearchNode)
    (q : List SearchNode) (closed : List Nat) (child : SearchNode) :
    bfsLoop masks mask (fuel + 1) t (n :: q) closed child =
      if closed.contains (n.getHashWithMask mask) = false then
        if 0 ≤ hash2index masks (n.getHashWithMask mask) ∧
            hash2index masks (n.getHashWithMask mask) < (t.length : Int) then
          if (0 ≤ n.getCounterPath ∧ n.getCounterPath < (kMaxPath : Int)) ∨
              (bfsPushChildren n mask q child).1.length = q.length then
            bfsLoop masks mask fuel
              (t.set (hash2index masks (n.getHashWithMask mask)).toNat
                (min n.getCost2Here (t.getD (hash2index masks (n.getHashWithMask mask)).toNat 0)))
              (bfsPushChildren n mask q child).1 (n.getHashWithMask mask :: closed)
              (bfsPushChildren n mask q child).2
          else none
        else none
      else bfsLoop masks mask fuel t q closed child := rfl

theorem resizeTable_nil (n : Nat) (v : Int) : resizeTable [] n v = List.replicate n v := by
  unfold resizeTable; simp

theorem forceNat_eq {α : Type} (x : Nat) (f : Nat → α) : forceNat x f = f x := by
  cases x <;> rfl

theorem ifZero_eq {α : Type} (c : Nat) (a b : α) : ifZero c a b = if c = 0 then a else b := by
  cases c <;> rfl

theorem forceNode_eq {α : Type} (c : FastNode) (f : FastNode → α) : forceNode c f = f c := by
  cases c
  simp only [forceNode, forceNat_eq]

theorem fastPush_eq {α : Type} (c : Nat) (child : FastNode) (back : List FastNode)
    (f : List FastNode → α) :
    fastPush c child back f = f ((if c = 0 then [] else [child]) ++ back) := by
  unfold fastPush
  rw [ifZero_eq, forceNode_eq]
  split_ifs <;> rfl

theorem fastChildren_eq {α : Type} (mask : Nat) (m : FastNode) (back : List FastNode)
    (f : List FastNode → α) :
    fastChildren mask m back f = f ((fastKids mask m).reverse ++ back) := by
  unfold fastChildren fastKids
  simp only [fastPush_eq]
  congr 1
  simp only [List.reverse_append, List.append_assoc]
  congr 1
  · split_ifs <;> rfl
  congr 1
  · split_ifs <;> rfl
  congr 1
  · split_ifs <;> rfl
  · split_ifs <;> rfl

theorem nibbleAt_xor (a b i : Nat) : nibbleAt (a ^^^ b) i = nibbleAt a i ^^^ nibbleAt b i := by
  apply Nat.eq_of_testBit_eq
  intro k
  simp only [nibbleAt_testBit, Nat.testBit_xor]
  cases decide (k < 4) <;> simp

theorem nibbleAt_shiftLeft (v k i : Nat) (hv : v < 16) :
    nibbleAt (v <<< (k <<< 2)) i = if i = k then v else 0 := by
  rw [shiftLeft_two]
  apply Nat.eq_of_testBit_eq
  intro j
  rw [nibbleAt_testBit, Nat.testBit_shiftLeft]
  by_cases hj : j < 4
  · by_cases hik : i = k
    · subst hik
      have h1 : 4 * i + j ≥ 4 * i := by omega
      have h2 : 4 * i + j - 4 * i = j := by omega
      simp [hj, h2]
    · simp only [hj, decide_True, Bool.true_and, if_neg hik, Nat.zero_testBit]
      by_cases hlt : 4 * i + j ≥ 4 * k
      · have h4 : 4 * i + j - 4 * k ≥ 4 := by omega
        have : v < 2 ^ (4 * i + j - 4 * k) :=
          lt_of_lt_of_le (by simpa using hv) (Nat.pow_le_pow_right (by norm_num) h4)
        simp [Nat.testBit_lt_two_pow this]
      · simp [hlt]
  · have hv2 : v < 2 ^ j := lt_of_lt_of_le (by simpa using hv)
      (Nat.pow_le_pow_right (by norm_num) (by omega : 4 ≤ j))
    split <;> simp [hj, Nat.testBit_lt_two_pow hv2]

theorem nibbleAt_small (v i : Nat) (hv : v < 16) : nibbleAt v i = if i = 0 then v else 0 := by
  have h := nibbleAt_shiftLeft v 0 i hv
  simpa using h

theorem shiftLeft_lt_two_pow (v k : Nat) (hv : v < 16) (hk : k < 16) :
    v <<< (k <<< 2) < 2 ^ 64 := by
  rw [shiftLeft_two, Nat.shiftLeft_eq]
  calc v * 2 ^ (4 * k) < 16 * 2 ^ (4 * k) := by
        exact Nat.mul_lt_mul_of_pos_right hv (Nat.two_pow_pos _)
    _ = 2 ^ (4 + 4 * k) := by rw [Nat.pow_add]
    _ ≤ 2 ^ 64 := Nat.pow_le_pow_right (by norm_num) (by omega)

theorem xor_lt_sixteen (a b : Nat) (ha : a < 16) (hb : b < 16) : a ^^^ b < 16 :=
  Nat.xor_lt_two_pow (n := 4) ha hb

theorem moveData_eq_xor (d p q : Nat) (hd : d < 2 ^ 64) (hp : p < 16) (hq : q < 16)
    (hpq : p ≠ q) (h0 : nibbleAt d p = 0) :
    moveData d p q =
      d ^^^ ((nibbleAt d q <<< (q <<< 2)) ||| (nibbleAt d q <<< (p <<< 2))) := by
  have ht := nibbleAt_lt d q
  apply eq_of_nibbleAt_eq (moveData_lt _ _ _ hd)
    (Nat.xor_lt_two_pow hd (Nat.or_lt_two_pow (shiftLeft_lt_two_pow _ _ ht hq)
      (shiftLeft_lt_two_pow _ _ ht hp)))
  intro i hi
  rw [exchanged_moveData d p q hp hq hpq h0 i hi, nibbleAt_xor, nibbleAt_or,
    nibbleAt_shiftLeft _ _ _ ht, nibbleAt_shiftLeft _ _ _ ht]
  by_cases h1 : i = p
  · subst h1
    simp [hpq, h0]
  · by_cases h2 : i = q
    · subst h2
      simp [h1, h0]
    · simp [h1, h2]

theorem tilesPositions_moved (s : State) (hs : ValidState s) (p q : Nat)
    (hp : s._indexSpace = (p : Int)) (hq : q < 16) (hpq : p ≠ q) :
    computePositionFromConfiguration (moveData s._data p q) =
      s._tilesPositions ^^^ ((p ^^^ q) ||| ((p ^^^ q) <<< (nibbleAt s._data q <<< 2))) := by
  obtain ⟨hp16, h0, hne⟩ := hs.blank_eq hp
  have hs' := hs.move hp hq hpq
  have hex := exchanged_moveData s._data p q hp16 hq hpq h0
  have hx : p ^^^ q < 16 := xor_lt_sixteen p q hp16 hq
  have ht := nibbleAt_lt s._data q
  have htp : s._tilesPositions < 2 ^ 64 := by
    rw [hs.tilesPositions_eq]; exact computePositionFromConfiguration_lt _
  apply eq_of_nibbleAt_eq (computePositionFromConfiguration_lt _)
    (Nat.xor_lt_two_pow htp (Nat.or_lt_two_pow (lt_trans hx (by norm_num))
      (shiftLeft_lt_two_pow _ _ hx ht)))
  intro v hv
  obtain ⟨i, hi, hiv⟩ := exists_position s hs v hv
  rw [nibbleAt_xor, nibbleAt_or, nibbleAt_small _ _ hx, nibbleAt_shiftLeft _ _ _ hx]
  have hd := (isValid_iff_distinct s).1 hs.2.1
  by_cases h1 : i = p
  · subst h1
    have hv0 : v = 0 := by rw [← hiv, h0]
    have e := tilesPositions_inverse _ hs' q hq
    simp only at e
    rw [hex q hq] at e
    simp only [if_neg (Ne.symm hpq), if_true] at e
    rw [h0] at e
    have e2 := tilesPositions_inverse s hs i hi
    rw [h0] at e2
    have hq0 : nibbleAt s._data q ≠ 0 := hne q hq (Ne.symm hpq)
    rw [hv0, e, e2, if_pos rfl, if_neg (fun h => hq0 h.symm)]
    simp [← Nat.xor_assoc]
  · by_cases h2 : i = q
    · subst h2
      have e := tilesPositions_inverse _ hs' p hp16
      simp only at e
      rw [hex p hp16] at e
      simp only [if_true] at e
      have e2 := tilesPositions_inverse s hs i hi
      have hv0 : v ≠ 0 := by rw [← hiv]; exact hne i hi h1
      rw [← hiv, e, e2, if_neg (hiv ▸ hv0), if_pos rfl]
      rw [Nat.zero_or, Nat.xor_comm p i, ← Nat.xor_assoc, Nat.xor_self, Nat.zero_xor]
    · have e := tilesPositions_inverse _ hs' i hi
      simp only at e
      rw [hex i hi] at e
      simp only [if_neg h1, if_neg h2] at e
      have e2 := tilesPositions_inverse s hs i hi
      have hv0 : v ≠ 0 := by rw [← hiv]; exact hne i hi h1
      have hvt : v ≠ nibbleAt s._data q := by
        rw [← hiv]; exact hd i q hi hq h2
      rw [← hiv, e, e2, if_neg (hiv ▸ hv0), if_neg (hiv ▸ hvt)]
      simp

theorem and_one_eq_testBit (x k : Nat) :
    (x >>> k) &&& 1 = if x.testBit k = true then 1 else 0 := by
  rw [Nat.testBit_to_div_mod, Nat.and_one_is_mod, Nat.shiftRight_eq_div_pow]
  have h := Nat.mod_two_eq_zero_or_one (x / 2 ^ k)
  rcases h with h | h <;> simp [h]

theorem costAfterMove_add (mask t c : Nat) (hc : c < 127) :
    costAfterMove mask (t : Int) (c : Int) =
      ((c + ((mask >>> (t <<< 2)) &&& 1) : Nat) : Int) := by
  rw [costAfterMove_testBit, shiftLeft_two, and_one_eq_testBit]
  by_cases h : mask.testBit (4 * t) = true
  · rw [if_pos h, if_pos h, toInt8_of_small _ (by omega) (by omega)]
    push_cast; rfl
  · rw [if_neg h, if_neg h]
    simp

theorem nodeRel_kid (n : SearchNode) (m : FastNode) (mask : Nat) (d : Direction) (q : Nat)
    (r : Int × State) (path : List Char) (h : NodeRel n m) (hc : m.cost < 127) (hq : q < 16)
    (hpq : m.space ≠ q)
    (hr : r = ((nibbleAt n._state._data q : Int),
      { _data := moveData n._state._data m.space q
        _indexSpace := (q : Int)
        _tilesPositions := computePositionFromConfiguration (moveData n._state._data m.space q) })) :
    NodeRel
      { _state := r.2
        _lastMove := d
        _cost2Here := costAfterMove mask r.1 n._cost2Here
        _counterPath := n._counterPath + 1
        _path2Here := path }
      (fastChild mask m d.code q) := by
  obtain ⟨hs, hdata, htiles, hspace, _, hcost, hcounter⟩ := h
  obtain ⟨hp16, h0, _⟩ := hs.blank_eq hspace
  subst hr
  refine ⟨hs.move hspace hq hpq, ?_, ?_, rfl, rfl, ?_, ?_⟩
  · show moveData n._state._data m.space q = _
    rw [moveData_eq_xor _ _ _ hs.1 hp16 hq hpq h0, hdata]
    rfl
  · show computePositionFromConfiguration (moveData n._state._data m.space q) = _
    rw [tilesPositions_moved n._state hs m.space q hspace hq hpq, hdata, htiles]
    rfl
  · show costAfterMove mask ((nibbleAt n._state._data q : Nat) : Int) n._cost2Here = _
    rw [hcost, costAfterMove_add _ _ _ hc, hdata]
    rfl
  · show n._counterPath + 1 = _
    rw [hcounter]
    rfl

theorem NodeRel.space_lt {n : SearchNode} {m : FastNode} (h : NodeRel n m) : m.space < 16 :=
  (h.1.blank_eq h.2.2.2.1).1

theorem moveLeft_rel (n o : SearchNode) (m : FastNode) (mask : Nat) (h : NodeRel n m)
    (hc : m.cost < 127) :
    ((n.moveLeft o mask).1 ≠ -1 ↔ m.space % 4 ≠ 0) ∧
      ((n.moveLeft o mask).1 ≠ -1 →
        NodeRel (n.moveLeft o mask).2 (fastChild mask m 1 (Nat.pred m.space))) := by
  have hp := h.2.2.2.1
  have hp16 := h.space_lt
  have hcast : ∀ v : Nat, (v : Int) ≠ -1 := fun v => by omega
  have e := moveLeft_eq n._state n._state m.space hp
  have h1 : (n.moveLeft o mask).1 ≠ -1 ↔ m.space % 4 ≠ 0 := by
    rw [SearchNode.moveLeft_returns, e]
    by_cases hz : m.space % 4 = 0
    · simp [hz]
    · simp [hz, hcast]
  refine ⟨h1, fun hne => ?_⟩
  have hz := h1.1 hne
  rw [SearchNode.moveLeft_output n o mask hne]
  rw [if_neg hz] at e
  have e1 : ((m.space : Int) - 1) = ((Nat.pred m.space : Nat) : Int) := by
    have : Nat.pred m.space = m.space - 1 := rfl
    omega
  have e2 : m.space - 1 = Nat.pred m.space := rfl
  rw [e1, e2] at e
  exact nodeRel_kid n m mask Direction.LEFT (Nat.pred m.space) _ _ h hc
    (by have : Nat.pred m.space = m.space - 1 := rfl
        omega)
    (by have : Nat.pred m.space = m.space - 1 := rfl
        omega) e

theorem moveRight_rel (n o : SearchNode) (m : FastNode) (mask : Nat) (h : NodeRel n m)
    (hc : m.cost < 127) :
    ((n.moveRight o mask).1 ≠ -1 ↔ (m.space + 1) % 4 ≠ 0) ∧
      ((n.moveRight o mask).1 ≠ -1 →
        NodeRel (n.moveRight o mask).2 (fastChild mask m 2 (Nat.succ m.space))) := by
  have hp := h.2.2.2.1
  have hp16 := h.space_lt
  have hcast : ∀ v : Nat, (v : Int) ≠ -1 := fun v => by omega
  have e := moveRight_eq n._state n._state m.space hp
  have h1 : (n.moveRight o mask).1 ≠ -1 ↔ (m.space + 1) % 4 ≠ 0 := by
    rw [SearchNode.moveRight_returns, e]
    by_cases hz : (m.space + 1) % 4 = 0
    · simp [hz]
    · simp [hz, hcast]
  refine ⟨h1, fun hne => ?_⟩
  have hz := h1.1 hne
  rw [SearchNode.moveRight_output n o mask hne]
  rw [if_neg hz] at e
  have e1 : ((m.space : Int) + 1) = ((Nat.succ m.space : Nat) : Int) := by
    push_cast; rfl
  have e2 : m.space + 1 = Nat.succ m.space := rfl
  rw [e1, e2] at e
  exact nodeRel_kid n m mask Direction.RIGHT (Nat.succ m.space) _ _ h hc
    (by omega) (by omega) e

theorem moveDown_rel (n o : SearchNode) (m : FastNode) (mask : Nat) (h : NodeRel n m)
    (hc : m.cost < 127) :
    ((n.moveDown o mask).1 ≠ -1 ↔ m.space < 12) ∧
      ((n.moveDown o mask).1 ≠ -1 →
        NodeRel (n.moveDown o mask).2 (fastChild mask m 3 (Nat.add m.space 4))) := by
  have hp := h.2.2.2.1
  have hp16 := h.space_lt
  have hcast : ∀ v : Nat, (v : Int) ≠ -1 := fun v => by omega
  have e := moveDown_eq n._state n._state m.space hp
  have h1 : (n.moveDown o mask).1 ≠ -1 ↔ m.space < 12 := by
    rw [SearchNode.moveDown_returns, e]
    by_cases hz : m.space ≥ 12
    · simp [hz]
    · simp [hz, hcast]
      omega
  refine ⟨h1, fun hne => ?_⟩
  have hz := h1.1 hne
  rw [SearchNode.moveDown_output n o mask hne]
  rw [if_neg (by omega)] at e
  have e1 : ((m.space : Int) + 4) = ((Nat.add m.space 4 : Nat) : Int) := by
    have : Nat.add m.space 4 = m.space + 4 := rfl
    omega
  have e2 : m.space + 4 = Nat.add m.space 4 := rfl
  rw [e1, e2] at e
  exact nodeRel_kid n m mask Direction.DOWN (Nat.add m.space 4) _ _ h hc
    (by have : Nat.add m.space 4 = m.space + 4 := rfl
        omega)
    (by have : Nat.add m.space 4 = m.space + 4 := rfl
        omega) e

theorem moveUp_rel (n o : SearchNode) (m : FastNode) (mask : Nat) (h : NodeRel n m)
    (hc : m.cost < 127) :
    ((n.moveUp o mask).1 ≠ -1 ↔ 4 ≤ m.space) ∧
      ((n.moveUp o mask).1 ≠ -1 →
        NodeRel (n.moveUp o mask).2 (fastChild mask m 4 (Nat.sub m.space 4))) := by
  have hp := h.2.2.2.1
  have hp16 := h.space_lt
  have hcast : ∀ v : Nat, (v : Int) ≠ -1 := fun v => by omega
  have e := moveUp_eq n._state n._state m.space hp
  have h1 : (n.moveUp o mask).1 ≠ -1 ↔ 4 ≤ m.space := by
    rw [SearchNode.moveUp_returns, e]
    by_cases hz : m.space < 4
    · simp [hz]
    · simp [hz, hcast]
      omega
  refine ⟨h1, fun hne => ?_⟩
  have hz := h1.1 hne
  rw [SearchNode.moveUp_output n o mask hne]
  rw [if_neg (by omega)] at e
  have e1 : ((m.space : Int) - 4) = ((Nat.sub m.space 4 : Nat) : Int) := by
    have : Nat.sub m.space 4 = m.space - 4 := rfl
    omega
  have e2 : m.space - 4 = Nat.sub m.space 4 := rfl
  rw [e1, e2] at e
  exact nodeRel_kid n m mask Direction.UP (Nat.sub m.space 4) _ _ h hc
    (by have : Nat.sub m.space 4 = m.space - 4 := rfl
        omega)
    (by have : Nat.sub m.space 4 = m.space - 4 := rfl
        omega) e

theorem code_ne_iff (l d : Direction) : l ≠ d ↔ l.code ≠ d.code := by
  cases l <;> cases d <;> simp [Direction.code]

theorem pushStep_rel (st : List SearchNode × SearchNode) (r : Int × SearchNode)
    (cond : Prop) [Decidable cond] (c : Nat) (kid : FastNode)
    (hc : c ≠ 0 ↔ cond ∧ r.1 ≠ -1) (hk : r.1 ≠ -1 → NodeRel r.2 kid) :
    ∃ cs, (if cond then (if r.1 ≠ -1 then (st.1 ++ [r.2], r.2) else (st.1, r.2)) else st).1 =
        st.1 ++ cs ∧
      List.Forall₂ NodeRel cs (if c = 0 then [] else [kid]) := by
  by_cases h1 : cond
  · by_cases h2 : r.1 ≠ -1
    · rw [if_pos h1, if_pos h2, if_neg (hc.2 ⟨h1, h2⟩)]
      exact ⟨[r.2], rfl, List.Forall₂.cons (hk h2) List.Forall₂.nil⟩
    · have h0 : c = 0 := by
        by_contra h; exact h2 (hc.1 h).2
      rw [if_pos h1, if_neg h2, if_pos h0]
      exact ⟨[], by simp, List.Forall₂.nil⟩
  · have h0 : c = 0 := by
      by_contra h; exact h1 (hc.1 h).1
    rw [if_neg h1, if_pos h0]
    exact ⟨[], by simp, List.Forall₂.nil⟩

theorem product_ne_zero (l k b : Nat) :
    Nat.mul (Nat.add (Nat.sub l k) (Nat.sub k l)) b ≠ 0 ↔ l ≠ k ∧ b ≠ 0 := by
  show (l - k + (k - l)) * b ≠ 0 ↔ _
  rw [Nat.mul_ne_zero_iff]
  constructor
  · rintro ⟨h1, h2⟩; exact ⟨by omega, h2⟩
  · rintro ⟨h1, h2⟩; exact ⟨by omega, h2⟩

theorem bfsPushChildren_rel (n : SearchNode) (m : FastNode) (mask : Nat)
    (q : List SearchNode) (child : SearchNode) (h : NodeRel n m) (hc : m.cost < 127) :
    ∃ cs, (bfsPushChildren n mask q child).1 = q ++ cs ∧
      List.Forall₂ NodeRel cs (fastKids mask m) := by
  have hl : n._lastMove.code = m.last := h.2.2.2.2.1
  unfold bfsPushChildren
  lift_lets
  intro aLastMove r1 st1 r2 st2 r3 st3 r4 st4
  have hl2 : ∀ d : Direction, aLastMove ≠ d ↔ m.last ≠ d.code := by
    intro d
    rw [← hl]
    exact code_ne_iff _ _
  obtain ⟨c1, e1, p1⟩ : ∃ cs, st1.1 = q ++ cs ∧ List.Forall₂ NodeRel cs
      (if Nat.mul (Nat.add (Nat.sub m.last 2) (Nat.sub 2 m.last)) (Nat.mod m.space 4) = 0
        then [] else [fastChild mask m 1 (Nat.pred m.space)]) := by
    have hr := moveLeft_rel n child m mask h hc
    refine pushStep_rel (q, child) r1 (aLastMove ≠ Direction.RIGHT) _ _ ?_ hr.2
    rw [product_ne_zero, hl2, hr.1]
    rfl
  obtain ⟨c2, e2, p2⟩ : ∃ cs, st2.1 = st1.1 ++ cs ∧ List.Forall₂ NodeRel cs
      (if Nat.mul (Nat.add (Nat.sub m.last 1) (Nat.sub 1 m.last))
          (Nat.mod (Nat.succ m.space) 4) = 0
        then [] else [fastChild mask m 2 (Nat.succ m.space)]) := by
    have hr := moveRight_rel n st1.2 m mask h hc
    refine pushStep_rel st1 r2 (aLastMove ≠ Direction.LEFT) _ _ ?_ hr.2
    rw [product_ne_zero, hl2, hr.1]
    rfl
  obtain ⟨c3, e3, p3⟩ : ∃ cs, st3.1 = st2.1 ++ cs ∧ List.Forall₂ NodeRel cs
      (if Nat.mul (Nat.add (Nat.sub m.last 4) (Nat.sub 4 m.last)) (Nat.sub 12 m.space) = 0
        then [] else [fastChild mask m 3 (Nat.add m.space 4)]) := by
    have hr := moveDown_rel n st2.2 m mask h hc
    refine pushStep_rel st2 r3 (aLastMove ≠ Direction.UP) _ _ ?_ hr.2
    rw [product_ne_zero, hl2, hr.1]
    have : Nat.sub 12 m.space = 12 - m.space := rfl
    have e : Direction.UP.code = 4 := rfl
    rw [e]
    constructor
    · rintro ⟨a, b⟩; exact ⟨a, by omega⟩
    · rintro ⟨a, b⟩; exact ⟨a, by omega⟩
  obtain ⟨c4, e4, p4⟩ : ∃ cs, st4.1 = st3.1 ++ cs ∧ List.Forall₂ NodeRel cs
      (if Nat.mul (Nat.add (Nat.sub m.last 3) (Nat.sub 3 m.last)) (Nat.sub m.space 3) = 0
        then [] else [fastChild mask m 4 (Nat.sub m.space 4)]) := by
    have hr := moveUp_rel n st3.2 m mask h hc
    refine pushStep_rel st3 r4 (aLastMove ≠ Direction.DOWN) _ _ ?_ hr.2
    rw [product_ne_zero, hl2, hr.1]
    have : Nat.sub m.space 3 = m.space - 3 := rfl
    have e : Direction.DOWN.code = 3 := rfl
    rw [e]
    constructor
    · rintro ⟨a, b⟩; exact ⟨a, by omega⟩
    · rintro ⟨a, b⟩; exact ⟨a, by omega⟩
  refine ⟨c1 ++ (c2 ++ (c3 ++ c4)), ?_, ?_⟩
  · rw [e4, e3, e2, e1]
    simp only [List.append_assoc]
  · unfold fastKids
    exact List.rel_append p1 (List.rel_append p2 (List.rel_append p3 p4))

/-! ### The index of a hash -/

theorem hash2indexLoop_testBit (masks : List Nat) (h k : Nat) (n acc : Nat) :
    (hash2indexLoop masks h n acc).testBit k = true ↔
      acc.testBit k = true ∨ ∃ i, 1 ≤ i ∧ i ≤ n ∧
        (((nibbleAt h i) <<< ((nibbleAt (sIndicesForValues masks) i) <<< 2)) %
          4294967296).testBit k = true := by
  induction n generalizing acc with
  | zero =>
    rw [hash2indexLoop]
    constructor
    · intro hh; exact Or.inl hh
    · rintro (hh | ⟨i, h1, h2, _⟩)
      · exact hh
      · omega
  | succ n ih =>
    rw [hash2indexLoop, ih, Nat.testBit_or, Bool.or_eq_true]
    constructor
    · rintro ((hh | hh) | ⟨i, h1, h2, h3⟩)
      · exact Or.inl hh
      · exact Or.inr ⟨n + 1, by omega, le_refl _, hh⟩
      · exact Or.inr ⟨i, h1, by omega, h3⟩
    · rintro (hh | ⟨i, h1, h2, h3⟩)
      · exact Or.inl (Or.inl hh)
      · by_cases hi : i = n + 1
        · subst hi; exact Or.inl (Or.inr h3)
        · exact Or.inr ⟨i, h1, by omega, h3⟩

theorem packIndex_testBit (kIndices h k : Nat) (l : List Nat) (acc : Nat) :
    (packIndex kIndices h l acc).testBit k = true ↔
      acc.testBit k = true ∨ ∃ i ∈ l,
        (((nibbleAt h i) <<< ((nibbleAt kIndices i) <<< 2)) % 4294967296).testBit k = true := by
  induction l generalizing acc with
  | nil =>
    rw [packIndex]
    constructor
    · intro hh; exact Or.inl hh
    · rintro (hh | ⟨i, hi, _⟩)
      · exact hh
      · cases hi
  | cons a l ih =>
    rw [packIndex, ih]
    have e : (Nat.lor acc
        (Nat.mod
          (Nat.shiftLeft (Nat.land (Nat.shiftRight h (Nat.shiftLeft a 2)) 15)
            (Nat.shiftLeft (Nat.land (Nat.shiftRight kIndices (Nat.shiftLeft a 2)) 15) 2))
          4294967296)) =
        acc ||| (((nibbleAt h a) <<< ((nibbleAt kIndices a) <<< 2)) % 4294967296) := rfl
    rw [e, Nat.testBit_or, Bool.or_eq_true]
    simp only [List.mem_cons, exists_eq_or_imp]
    tauto

theorem hash2indexLoop_eq_packIndex (masks : List Nat) (moved : List Nat) (h : Nat)
    (hm : ∀ i ∈ moved, 1 ≤ i ∧ i ≤ 15) (hh : NibblesWithin h moved) :
    hash2indexLoop masks h kNumTilesMinusOne 0 =
      packIndex (sIndicesForValues masks) h moved 0 := by
  apply Nat.eq_of_testBit_eq
  intro k
  rw [Bool.eq_iff_iff, hash2indexLoop_testBit, packIndex_testBit]
  simp only [Nat.zero_testBit, Bool.false_eq_true, false_or]
  constructor
  · rintro ⟨i, h1, h2, h3⟩
    refine ⟨i, ?_, h3⟩
    by_contra hni
    have h15 : i ≤ 15 := h2
    rw [hh.2 i (by omega) (by omega) hni] at h3
    simp at h3
  · rintro ⟨i, hi, h3⟩
    exact ⟨i, (hm i hi).1, (hm i hi).2, h3⟩

theorem nibbleAt_term (x s j : Nat) (hx : x < 16) (hs : s < 8) :
    nibbleAt ((x <<< (s <<< 2)) % 4294967296) j = if j = s then x else 0 := by
  have hlt : x <<< (s <<< 2) < 4294967296 := by
    rw [shiftLeft_two, Nat.shiftLeft_eq]
    calc x * 2 ^ (4 * s) < 16 * 2 ^ (4 * s) :=
          Nat.mul_lt_mul_of_pos_right hx (Nat.two_pow_pos _)
      _ = 2 ^ (4 + 4 * s) := by rw [Nat.pow_add]
      _ ≤ 2 ^ 32 := Nat.pow_le_pow_right (by norm_num) (by omega)
  rw [Nat.mod_eq_of_lt hlt, nibbleAt_shiftLeft _ _ _ hx]

theorem packIndex_nibble_other (kIndices h : Nat) (l : List Nat) (acc j : Nat)
    (hl : ∀ i ∈ l, nibbleAt kIndices i < 8) (hj : j ∉ l.map (nibbleAt kIndices)) :
    nibbleAt (packIndex kIndices h l acc) j = nibbleAt acc j := by
  induction l generalizing acc with
  | nil => rfl
  | cons a l ih =>
    rw [packIndex]
    have e : (Nat.lor acc
        (Nat.mod
          (Nat.shiftLeft (Nat.land (Nat.shiftRight h (Nat.shiftLeft a 2)) 15)
            (Nat.shiftLeft (Nat.land (Nat.shiftRight kIndices (Nat.shiftLeft a 2)) 15) 2))
          4294967296)) =
        acc ||| (((nibbleAt h a) <<< ((nibbleAt kIndices a) <<< 2)) % 4294967296) := rfl
    rw [e, ih _ (fun i hi => hl i (List.mem_cons_of_mem _ hi))
      (fun hc => hj (by simp only [List.map_cons]; exact List.mem_cons_of_mem _ hc)),
      nibbleAt_or, nibbleAt_term _ _ _ (nibbleAt_lt _ _) (hl a (List.mem_cons_self _ _))]
    have hne : j ≠ nibbleAt kIndices a := by
      intro hc
      apply hj
      simp only [List.map_cons, hc]
      exact List.mem_cons_self _ _
    rw [if_neg hne]
    simp

theorem packIndex_nibble (kIndices h : Nat) (l : List Nat) (acc : Nat)
    (hl : ∀ i ∈ l, nibbleAt kIndices i < 8) (hn : (l.map (nibbleAt kIndices)).Nodup)
    (i : Nat) (hi : i ∈ l) (hacc : nibbleAt acc (nibbleAt kIndices i) = 0) :
    nibbleAt (packIndex kIndices h l acc) (nibbleAt kIndices i) = nibbleAt h i := by
  induction l generalizing acc with
  | nil => cases hi
  | cons a l ih =>
    rw [packIndex]
    have e : (Nat.lor acc
        (Nat.mod
          (Nat.shiftLeft (Nat.land (Nat.shiftRight h (Nat.shiftLeft a 2)) 15)
            (Nat.shiftLeft (Nat.land (Nat.shiftRight kIndices (Nat.shiftLeft a 2)) 15) 2))
          4294967296)) =
        acc ||| (((nibbleAt h a) <<< ((nibbleAt kIndices a) <<< 2)) % 4294967296) := rfl
    rw [e]
    have hl' : ∀ i ∈ l, nibbleAt kIndices i < 8 := fun i hi => hl i (List.mem_cons_of_mem _ hi)
    simp only [List.map_cons, List.nodup_cons] at hn
    have hterm := nibbleAt_term (nibbleAt h a) (nibbleAt kIndices a) (nibbleAt kIndices i)
      (nibbleAt_lt _ _) (hl a (List.mem_cons_self _ _))
    rcases List.mem_cons.1 hi with hia | hil
    · subst hia
      rw [packIndex_nibble_other _ _ _ _ _ hl' hn.1, nibbleAt_or, hterm, hacc, if_pos rfl]
      simp
    · have hne : nibbleAt kIndices i ≠ nibbleAt kIndices a := by
        intro hc
        apply hn.1
        rw [← hc]
        exact List.mem_map_of_mem _ hil
      apply ih _ hl' hn.2 hil
      rw [nibbleAt_or, hterm, hacc, if_neg hne]
      rfl

theorem closedKey_injective (kIndices : Nat) (moved : List Nat) (h1 h2 : Nat)
    (hs : SlotsDistinct kIndices moved) (hw1 : NibblesWithin h1 moved)
    (hw2 : NibblesWithin h2 moved)
    (hk : closedKey kIndices moved h1 = closedKey kIndices moved h2) : h1 = h2 := by
  unfold closedKey at hk
  rw [Nat.shiftLeft_eq, Nat.shiftLeft_eq] at hk
  have e15 : ∀ x : Nat, x &&& 15 = x % 16 := fun x => Nat.and_pow_two_sub_one_eq_mod x 4
  rw [e15, e15] at hk
  have hi : packIndex kIndices h1 moved 0 = packIndex kIndices h2 moved 0 := by omega
  have h0 : h1 % 16 = h2 % 16 := by omega
  apply eq_of_nibbleAt_eq hw1.1 hw2.1
  intro i hi16
  by_cases hi0 : i = 0
  · subst hi0
    rw [nibbleAt_zero_index, nibbleAt_zero_index]
    show h1 &&& 15 = h2 &&& 15
    rw [e15, e15, h0]
  · by_cases him : i ∈ moved
    · have hl : ∀ i ∈ moved, nibbleAt kIndices i < 8 := fun i hi => (hs.2 i hi).2.2
      rw [← packIndex_nibble kIndices h1 moved 0 hl hs.1 i him (nibbleAt_zero_left _),
        ← packIndex_nibble kIndices h2 moved 0 hl hs.1 i him (nibbleAt_zero_left _), hi]
    · rw [hw1.2 i hi16 hi0 him, hw2.2 i hi16 hi0 him]

theorem closedRel_nil (kIndices : Nat) (moved : List Nat) : ClosedRel kIndices moved [] 0 := by
  intro h _
  simp

theorem closedRel_cons (kIndices : Nat) (moved : List Nat) (closed : List Nat) (bits h0 : Nat)
    (hs : SlotsDistinct kIndices moved) (hw : NibblesWithin h0 moved)
    (hc : ClosedRel kIndices moved closed bits) :
    ClosedRel kIndices moved (h0 :: closed)
      (bits ||| (1 <<< closedKey kIndices moved h0)) := by
  intro h hh
  rw [List.contains_cons, Bool.or_eq_true, Nat.testBit_or, Bool.or_eq_true, hc h hh,
    Nat.one_shiftLeft, Nat.testBit_two_pow, beq_iff_eq, decide_eq_true_iff]
  constructor
  · rintro (e | e)
    · exact Or.inr (by rw [e])
    · exact Or.inl e
  · rintro (e | e)
    · exact Or.inr e
    · exact Or.inl (closedKey_injective kIndices moved h h0 hs hh hw e.symm)

theorem nibblesWithin_and (x mask : Nat) (moved : List Nat) (hm : NibblesWithin mask moved) :
    NibblesWithin (x &&& mask) moved := by
  refine ⟨lt_of_le_of_lt Nat.and_le_right hm.1, fun i hi h0 hni => ?_⟩
  rw [nibbleAt_and, hm.2 i hi h0 hni]
  exact Nat.and_zero _

/-! ### The cost table as the bytes of a number -/

theorem byteAt_testBit (x i k : Nat) :
    (byteAt x i).testBit k = (decide (k < 8) && x.testBit (8 * i + k)) := by
  have e : byteAt x i = (x >>> (i <<< 3)) &&& (2 ^ 8 - 1) := rfl
  rw [e, Nat.testBit_and, Nat.testBit_shiftRight, Nat.testBit_two_pow_sub_one,
    Nat.shiftLeft_eq, Bool.and_comm]
  norm_num [Nat.mul_comm]

theorem byteAt_lt (x i : Nat) : byteAt x i < 256 := by
  have e : byteAt x i = (x >>> (i <<< 3)) &&& (2 ^ 8 - 1) := rfl
  rw [e, Nat.and_pow_two_sub_one_eq_mod]
  exact Nat.mod_lt _ (by norm_num)

theorem byteAt_xor (a b i : Nat) : byteAt (a ^^^ b) i = byteAt a i ^^^ byteAt b i := by
  apply Nat.eq_of_testBit_eq
  intro k
  simp only [byteAt_testBit, Nat.testBit_xor]
  cases decide (k < 8) <;> simp

theorem byteAt_shiftLeft (v k i : Nat) (hv : v < 256) :
    byteAt (v <<< (k <<< 3)) i = if i = k then v else 0 := by
  have e3 : k <<< 3 = 8 * k := by rw [Nat.shiftLeft_eq]; omega
  rw [e3]
  apply Nat.eq_of_testBit_eq
  intro j
  rw [byteAt_testBit, Nat.testBit_shiftLeft]
  by_cases hj : j < 8
  · by_cases hik : i = k
    · subst hik
      have h1 : 8 * i + j ≥ 8 * i := by omega
      have h2 : 8 * i + j - 8 * i = j := by omega
      simp [hj, h2]
    · simp only [hj, decide_True, Bool.true_and, if_neg hik, Nat.zero_testBit]
      by_cases hlt : 8 * i + j ≥ 8 * k
      · have h4 : 8 * i + j - 8 * k ≥ 8 := by omega
        have : v < 2 ^ (8 * i + j - 8 * k) :=
          lt_of_lt_of_le (by simpa using hv) (Nat.pow_le_pow_right (by norm_num) h4)
        simp [Nat.testBit_lt_two_pow this]
      · simp [hlt]
  · have hv2 : v < 2 ^ j := lt_of_lt_of_le (by simpa using hv)
      (Nat.pow_le_pow_right (by norm_num) (by omega : 8 ≤ j))
    split <;> simp [hj, Nat.testBit_lt_two_pow hv2]

theorem byteAt_fastUpdate (t i c j : Nat) :
    byteAt (fastUpdate t i c) j = if j = i then min (byteAt t i) c else byteAt t j := by
  have hold := byteAt_lt t i
  have e : fastUpdate t i c =
      t ^^^ ((byteAt t i ^^^ (byteAt t i - (byteAt t i - c))) <<< (i <<< 3)) := rfl
  have hnew : byteAt t i - (byteAt t i - c) = min (byteAt t i) c := by omega
  have hx : byteAt t i ^^^ min (byteAt t i) c < 256 :=
    Nat.xor_lt_two_pow (n := 8) hold (lt_of_le_of_lt (Nat.min_le_left _ _) hold)
  rw [e, hnew, byteAt_xor, byteAt_shiftLeft _ _ _ hx]
  by_cases h : j = i
  · subst h
    rw [if_pos rfl, if_pos rfl, ← Nat.xor_assoc, Nat.xor_self, Nat.zero_xor]
  · rw [if_neg h, if_neg h, Nat.xor_zero]

theorem byteAt_eq_div_mod (t i : Nat) : byteAt t i = t / 256 ^ i % 256 := by
  have e : byteAt t i = (t >>> (i <<< 3)) &&& (2 ^ 8 - 1) := rfl
  rw [e, Nat.and_pow_two_sub_one_eq_mod, Nat.shiftRight_eq_div_pow, Nat.shiftLeft_eq]
  have : (2 : Nat) ^ (i * 2 ^ 3) = 256 ^ i := by
    rw [Nat.mul_comm, Nat.pow_mul]; norm_num
  rw [this]

theorem byteAt_fastTable (n i : Nat) (hi : i < n) : byteAt (fastTable n) i = 127 := by
  induction n generalizing i with
  | zero => omega
  | succ n ih =>
    have e : fastTable (n + 1) = 127 + 256 * fastTable n := rfl
    rw [e, byteAt_eq_div_mod]
    cases i with
    | zero => simp
    | succ i =>
      have h1 : (127 + 256 * fastTable n) / 256 ^ (i + 1) = fastTable n / 256 ^ i := by
        rw [pow_succ', ← Nat.div_div_eq_div_mul]
        congr 1
        omega
      rw [h1, ← byteAt_eq_div_mod]
      exact ih i (by omega)

theorem unpackTable_eq (t n : Nat) (acc : List Int) :
    unpackTable t n acc = (List.range n).map (fun i => Int.ofNat (byteAt t i)) ++ acc := by
  induction n generalizing acc with
  | zero => rfl
  | succ n ih =>
    rw [unpackTable, ih, List.range_succ, List.map_append]
    simp

theorem unpackTable_length (t n : Nat) : (unpackTable t n []).length = n := by
  rw [unpackTable_eq]; simp

theorem unpackTable_getElem? (t n j : Nat) :
    (unpackTable t n [])[j]? = if j < n then some ((byteAt t j : Nat) : Int) else none := by
  rw [unpackTable_eq, List.append_nil, List.getElem?_map]
  by_cases h : j < n
  · rw [if_pos h, List.getElem?_range h]; rfl
  · rw [if_neg h, List.getElem?_eq_none (by rw [List.length_range]; omega)]; rfl

theorem unpackTable_fastTable (n : Nat) :
    unpackTable (fastTable n) n [] = List.replicate n 127 := by
  apply List.ext_getElem?
  intro j
  rw [unpackTable_getElem?, List.getElem?_replicate]
  by_cases h : j < n
  · rw [if_pos h, if_pos h, byteAt_fastTable n j h]; rfl
  · rw [if_neg h, if_neg h]

theorem unpackTable_update (t len i c : Nat) (hi : i < len) :
    (unpackTable t len []).set i (min (c : Int) ((unpackTable t len []).getD i 0)) =
      unpackTable (fastUpdate t i c) len [] := by
  apply List.ext_getElem?
  intro j
  rw [List.getElem?_set, unpackTable_getElem?, unpackTable_getElem?, unpackTable_length,
    List.getD_eq_getElem?_getD, unpackTable_getElem?, if_pos hi, byteAt_fastUpdate]
  by_cases h : i = j
  · subst h
    rw [if_pos rfl, if_pos hi, if_pos hi, if_pos rfl]
    simp only [Option.getD_some]
    congr 1
    omega
  · rw [if_neg h, if_neg (fun e : j = i => h e.symm)]

/-! ### The two forms of the loop return the same table -/

theorem bfsLoop_mono (masks : List Nat) (mask : Nat) (fuel : Nat) :
    ∀ (t : List Int) (q : List SearchNode) (closed : List Nat) (child : SearchNode)
      (res : List Int),
      bfsLoop masks mask fuel t q closed child = some res →
      bfsLoop masks mask (fuel + 1) t q closed child = some res := by
  induction fuel with
  | zero =>
    intro t q closed child res h
    cases q with
    | nil => rw [bfsLoop_nil] at h ⊢; exact h
    | cons n q => rw [bfsLoop_zero] at h; cases h
  | succ fuel ih =>
    intro t q closed child res h
    cases q with
    | nil => rw [bfsLoop_nil] at h ⊢; exact h
    | cons n q =>
      rw [bfsLoop_succ] at h ⊢
      split_ifs at h ⊢ with h1 h2 h3
      · exact ih _ _ _ _ _ h
      · exact ih _ _ _ _ _ h

theorem fastStep_eq {α : Type} (kIndices mask : Nat) (moved : List Nat) (len : Nat)
    (m : FastNode) (t : Nat) (back : List FastNode) (bits : Nat)
    (f : Nat → List FastNode → Nat → Option α) :
    fastStep kIndices mask moved len m t back bits f =
      if bits.testBit (closedKey kIndices moved (m.tiles &&& mask)) = true then f t back bits
      else if packIndex kIndices (m.tiles &&& mask) moved 0 < len ∧
          packIndex kIndices (m.tiles &&& mask) moved 0 < 2147483648 ∧
          m.counter < 80 ∧ m.cost < 127 then
        f (fastUpdate t (packIndex kIndices (m.tiles &&& mask) moved 0) m.cost)
          ((fastKids mask m).reverse ++ back)
          (bits ||| (1 <<< closedKey kIndices moved (m.tiles &&& mask)))
      else none := by
  unfold fastStep
  simp only [forceNat_eq, ifZero_eq, fastChildren_eq]
  have ek : Nat.add (Nat.shiftLeft (packIndex kIndices (Nat.land m.tiles mask) moved 0) 4)
      (Nat.land (Nat.land m.tiles mask) 15) = closedKey kIndices moved (m.tiles &&& mask) := rfl
  have eh : Nat.land m.tiles mask = m.tiles &&& mask := rfl
  rw [ek, eh]
  have eb : Nat.land (Nat.shiftRight bits (closedKey kIndices moved (m.tiles &&& mask))) 1 =
      (bits >>> (closedKey kIndices moved (m.tiles &&& mask))) &&& 1 := rfl
  rw [eb, and_one_eq_testBit]
  by_cases hb : bits.testBit (closedKey kIndices moved (m.tiles &&& mask)) = true
  · rw [if_pos hb, if_pos hb, if_neg (by norm_num)]
  · rw [if_neg hb, if_neg hb, if_pos rfl]
    have eg : Nat.mul (Nat.sub len (packIndex kIndices (m.tiles &&& mask) moved 0))
        (Nat.mul (Nat.sub 2147483648 (packIndex kIndices (m.tiles &&& mask) moved 0))
          (Nat.mul (Nat.sub 80 m.counter) (Nat.sub 127 m.cost))) =
        (len - packIndex kIndices (m.tiles &&& mask) moved 0) *
          ((2147483648 - packIndex kIndices (m.tiles &&& mask) moved 0) *
            ((80 - m.counter) * (127 - m.cost))) := rfl
    rw [eg]
    by_cases hg : packIndex kIndices (m.tiles &&& mask) moved 0 < len ∧
        packIndex kIndices (m.tiles &&& mask) moved 0 < 2147483648 ∧
        m.counter < 80 ∧ m.cost < 127
    · have hne : (len - packIndex kIndices (m.tiles &&& mask) moved 0) *
          ((2147483648 - packIndex kIndices (m.tiles &&& mask) moved 0) *
            ((80 - m.counter) * (127 - m.cost))) ≠ 0 := by
        obtain ⟨g1, g2, g3, g4⟩ := hg
        apply Nat.mul_ne_zero (by omega)
        apply Nat.mul_ne_zero (by omega)
        exact Nat.mul_ne_zero (by omega) (by omega)
      rw [if_neg hne, if_pos hg]
      rfl
    · have he : (len - packIndex kIndices (m.tiles &&& mask) moved 0) *
          ((2147483648 - packIndex kIndices (m.tiles &&& mask) moved 0) *
            ((80 - m.counter) * (127 - m.cost))) = 0 := by
        by_contra hne
        apply hg
        change _ ≠ 0 at hne
        rw [Nat.mul_ne_zero_iff, Nat.mul_ne_zero_iff, Nat.mul_ne_zero_iff] at hne
        obtain ⟨g1, g2, g3, g4⟩ := hne
        exact ⟨by omega, by omega, by omega, by omega⟩
      rw [if_pos he, if_neg hg]

theorem bfsLoop_of_fastLoop (masks moved : List Nat) (mask len : Nat)
    (hs : SlotsDistinct (sIndicesForValues masks) moved) (hm : NibblesWithin mask moved)
    (fuel : Nat) :
    ∀ (t : Nat) (front back : List FastNode) (bits : Nat) (q : List SearchNode)
      (closed : List Nat) (child : SearchNode) (res : List Int),
      List.Forall₂ NodeRel q (front ++ back.reverse) →
      ClosedRel (sIndicesForValues masks) moved closed bits →
      fastLoop (sIndicesForValues masks) mask moved len fuel t front back bits = some res →
      bfsLoop masks mask fuel (unpackTable t len []) q closed child = some res := by
  induction fuel with
  | zero =>
    intro t front back bits q closed child res hq _ hr
    cases front with
    | nil =>
      cases back with
      | nil =>
        cases hq
        rw [bfsLoop_nil]
        exact hr
      | cons b bs => cases hr
    | cons m rest => cases hr
  | succ fuel ih =>
    intro t front back bits q closed child res hq hc hr
    cases front with
    | nil =>
      cases back with
      | nil =>
        cases hq
        rw [bfsLoop_nil]
        exact hr
      | cons b bs =>
        have hr2 : fastLoop (sIndicesForValues masks) mask moved len fuel t (b :: bs).reverse []
            bits = some res := hr
        apply bfsLoop_mono
        refine ih t _ [] bits q closed child res ?_ hc hr2
        simpa using hq
    | cons m rest =>
      have hr2 : fastStep (sIndicesForValues masks) mask moved len m t back bits
          (fun t1 back1 bits1 =>
            fastLoop (sIndicesForValues masks) mask moved len fuel t1 rest back1 bits1) =
          some res := hr
      rw [fastStep_eq] at hr2
      rw [List.cons_append] at hq
      cases hq with
      | cons hnm hq' =>
        rename_i n q'
        rw [bfsLoop_succ]
        have eh : n.getHashWithMask mask = m.tiles &&& mask := by
          show n._state._tilesPositions &&& mask = _
          rw [hnm.2.2.1]
        have hw : NibblesWithin (m.tiles &&& mask) moved := nibblesWithin_and _ _ _ hm
        rw [eh]
        by_cases hb : bits.testBit
            (closedKey (sIndicesForValues masks) moved (m.tiles &&& mask)) = true
        · rw [if_pos hb] at hr2
          have hcl : ¬ (closed.contains (m.tiles &&& mask) = false) := by
            rw [(hc _ hw).2 hb]; simp
          rw [if_neg hcl]
          exact ih t rest back bits q' closed child res hq' hc hr2
        · rw [if_neg hb] at hr2
          have hcl : closed.contains (m.tiles &&& mask) = false := by
            cases hcc : closed.contains (m.tiles &&& mask)
            · rfl
            · exact absurd ((hc _ hw).1 hcc) hb
          rw [if_pos hcl]
          split_ifs at hr2 with hg
          obtain ⟨g1, g2, g3, g4⟩ := hg
          have hidx : hash2index masks (m.tiles &&& mask) =
              ((packIndex (sIndicesForValues masks) (m.tiles &&& mask) moved 0 : Nat) : Int) := by
            unfold hash2index
            rw [hash2indexLoop_eq_packIndex masks moved _
              (fun i hi => ⟨(hs.2 i hi).1, (hs.2 i hi).2.1⟩) hw,
              toInt32_of_small _ (by omega) (by omega)]
          rw [hidx, unpackTable_length]
          rw [if_pos ⟨by omega, by omega⟩]
          have hcnt : n.getCounterPath = (m.counter : Int) := hnm.2.2.2.2.2.2
          have hcost : n.getCost2Here = (m.cost : Int) := hnm.2.2.2.2.2.1
          rw [if_pos (Or.inl ⟨by rw [hcnt]; omega, by rw [hcnt]; unfold kMaxPath; omega⟩)]
          obtain ⟨cs, e, hcs⟩ := bfsPushChildren_rel n m mask q' child hnm g4
          rw [e, hcost, Int.toNat_ofNat, unpackTable_update _ _ _ _ g1]
          refine ih _ rest _ _ (q' ++ cs) _ _ res ?_ ?_ hr2
          · rw [List.reverse_append, List.reverse_reverse, ← List.append_assoc]
            exact List.rel_append hq' hcs
          · exact closedRel_cons _ _ _ _ _ hs hw hc

theorem nodeRel_start : NodeRel (SearchNode.ofState State.generateSortedState) fastStart :=
  ⟨validState_sorted, rfl, rfl, by decide, rfl, rfl, rfl⟩

/-- A table returned by the second form of `bfs` is the table returned by
`bfs` on an empty table. -/
theorem bfs_of_fastBfs (fuel : Nat) (masks moved : List Nat) (i kIndices mask : Nat)
    (res : List Int) (hk : sIndicesForValues masks = kIndices) (hmask : masks.getD i 0 = mask)
    (hs : SlotsDistinct kIndices moved) (hm : NibblesWithin mask moved)
    (h : fastBfs fuel kIndices mask moved = some res) :
    bfs fuel masks i [] = some res := by
  subst hk hmask
  unfold fastBfs at h
  rw [forceNat_eq, forceNat_eq, forceNode_eq] at h
  unfold bfs
  simp only
  rw [resizeTable_nil, ← unpackTable_fastTable]
  exact bfsLoop_of_fastLoop masks moved _ _ hs hm fuel _ [fastStart] [] 0 _ [] _ res
    (List.Forall₂.cons nodeRel_start List.Forall₂.nil) (closedRel_nil _ _) h

theorem bfs_mono (fuel fuel' : Nat) (masks : List Nat) (i : Nat) (t res : List Int)
    (hf : fuel ≤ fuel') (h : bfs fuel masks i t = some res) : bfs fuel' masks i t = some res := by
  induction fuel' with
  | zero =>
    have : fuel = 0 := by omega
    subst this; exact h
  | succ k ih =>
    by_cases hk : fuel = k + 1
    · subst hk; exact h
    · have h1 := ih (by omega)
      unfold bfs at h1 ⊢
      exact bfsLoop_mono _ _ _ _ _ _ _ _ h1

theorem generateLoop_of_bfs (fuel : Nat) (masks : List Nat) (ts : List (List Int))
    (hlen : ts.length = masks.length)
    (h : ∀ i, i < masks.length → bfs fuel masks i [] = some (ts.getD i []))
    (k : Nat) (hk : k ≤ masks.length) :
    generateLoop fuel masks k
        { _costTablePartitions := ts.take (masks.length - k) ++ List.replicate k [] } =
      some { _costTablePartitions := ts } := by
  induction k with
  | zero =>
    rw [generateLoop]
    simp only [List.replicate_zero, List.append_nil, Nat.sub_zero]
    rw [← hlen, List.take_length]
  | succ k ih =>
    rw [generateLoop]
    simp only
    have hl : (ts.take (masks.length - (k + 1))).length = masks.length - (k + 1) := by
      rw [List.length_take]; omega
    have e1 : (ts.take (masks.length - (k + 1)) ++ List.replicate (k + 1) []).getD
        (masks.length - (k + 1)) [] = ([] : List Int) := by
      rw [List.getD_eq_getElem?_getD, List.getElem?_append_right (by omega), hl, Nat.sub_self,
        List.getElem?_replicate, if_pos (by omega)]
      rfl
    rw [e1, h _ (by omega)]
    simp only
    have e2 : (ts.take (masks.length - (k + 1)) ++ List.replicate (k + 1) []).set
        (masks.length - (k + 1)) (ts.getD (masks.length - (k + 1)) []) =
        ts.take (masks.length - k) ++ List.replicate k [] := by
      apply List.ext_getElem?
      intro j
      rw [List.getElem?_set]
      have hlen2 : (ts.take (masks.length - (k + 1)) ++ List.replicate (k + 1) ([] : List Int)).length
          = masks.length := by
        rw [List.length_append, hl, List.length_replicate]; omega
      rw [hlen2]
      by_cases hj : masks.length - (k + 1) = j
      · rw [if_pos hj, if_pos (by omega), List.getElem?_append_left (by
          rw [List.length_take]; omega), List.getElem?_take_of_lt (by omega), ← hj,
          List.getD_eq_getElem?_getD]
        rw [List.getElem?_eq_getElem (by omega)]
        rfl
      · rw [if_neg hj]
        by_cases hlt : j < masks.length - (k + 1)
        · rw [List.getElem?_append_left (by omega), List.getElem?_append_left (by
            rw [List.length_take]; omega), List.getElem?_take_of_lt (by omega),
            List.getElem?_take_of_lt (by omega)]
        · have hl3 : (ts.take (masks.length - k)).length = masks.length - k := by
            rw [List.length_take]; omega
          rw [List.getElem?_append_right (by omega), List.getElem?_append_right (by omega),
            hl, hl3, List.getElem?_replicate, List.getElem?_replicate]
          by_cases hjl : j < masks.length
          · rw [if_pos (by omega), if_pos (by omega)]
          · rw [if_neg (by omega), if_neg (by omega)]
    rw [e2]
    exact ih (by omega)

/-- The database after `generate()` on a fresh object, from the tables of
`bfs`. -/
theorem generate_of_bfs (fuel : Nat) (masks : List Nat) (ts : List (List Int))
    (hlen : ts.length = masks.length)
    (h : ∀ i, i < masks.length → bfs fuel masks i [] = some (ts.getD i [])) :
    PatternDB.generate fuel masks (PatternDB.new masks) =
      some { _costTablePartitions := ts } := by
  have := generateLoop_of_bfs fuel masks ts hlen h masks.length (le_refl _)
  rw [Nat.sub_self, List.take_zero, List.nil_append] at this
  exact this

/-! ### The tables of the model `pairModel` -/

set_option maxRecDepth 100000 in
theorem pairModel_fastBfs : ∀ i, i < 14 →
    fastBfs 7000 0x10000000000 (pairModel.getD i 0) (pairMoved.getD i []) =
      some (pairTables.getD i []) := by
  decide!

theorem pairModel_side : ∀ i, i < 14 →
    SlotsDistinct 0x10000000000 (pairMoved.getD i []) ∧
      NibblesWithin (pairModel.getD i 0) (pairMoved.getD i []) := by
  decide

theorem pairModel_bfs (fuel : Nat) (hf : 7000 ≤ fuel) (i : Nat) (hi : i < pairModel.length) :
    bfs fuel pairModel i [] = some (pairTables.getD i []) := by
  have hi2 : i < 14 := hi
  exact bfs_mono 7000 fuel _ _ _ _ hf
    (bfs_of_fastBfs 7000 pairModel (pairMoved.getD i []) i 0x10000000000 (pairModel.getD i 0) _
      (by decide) rfl (pairModel_side i hi2).1 (pairModel_side i hi2).2
      (pairModel_fastBfs i hi2))

/-- The database that `generate()` builds for the model `pairModel`. -/
theorem pairModel_generate (fuel : Nat) (hf : 7000 ≤ fuel) :
    PatternDB.generate fuel pairModel (PatternDB.new pairModel) =
      some { _costTablePartitions := pairTables } :=
  generate_of_bfs fuel pairModel pairTables rfl (pairModel_bfs fuel hf)

/-! ## Termination of the search and the search without a heuristic -/

theorem searchWeight_pos (k : Nat) : 0 < searchWeight k := by
  cases k <;> simp [searchWeight]

theorem searchWeight_mono {j k : Nat} (h : j ≤ k) : searchWeight j ≤ searchWeight k := by
  induction k with
  | zero =>
    have : j = 0 := by omega
    subst this; exact le_refl _
  | succ k ih =>
    by_cases hj : j = k + 1
    · subst hj; exact le_refl _
    · have := ih (by omega)
      simp only [searchWeight]
      omega

theorem stackWeight_append (bound : Int) (l1 l2 : List SearchNode) :
    stackWeight bound (l1 ++ l2) = stackWeight bound l1 + stackWeight bound l2 := by
  simp [stackWeight]

theorem stackWeight_cons (bound : Int) (n : SearchNode) (l : List SearchNode) :
    stackWeight bound (n :: l) = nodeWeight bound n + stackWeight bound l := by
  simp [stackWeight]

theorem optChild_cost (n : SearchNode) (d : Direction) (x : SearchNode)
    (hx : x ∈ optChild n d) : x._cost2Here = toInt8 (n._cost2Here + 1) := by
  obtain ⟨_, s1, _, rfl⟩ := (mem_optChild n d x).1 hx
  rfl

theorem optChild_weight (bound : Int) (n : SearchNode) (d : Direction) (k : Nat)
    (h0 : 0 ≤ n._cost2Here) (hb : bound ≤ 126) (hk : bound + 1 - n._cost2Here = ((k + 1 : Nat) : Int)) :
    stackWeight bound (optChild n d) ≤ searchWeight k ∧
      ∀ x ∈ optChild n d, 0 ≤ x._cost2Here := by
  have hc : toInt8 (n._cost2Here + 1) = n._cost2Here + 1 :=
    toInt8_of_small _ (by omega) (by push_cast at hk; omega)
  refine ⟨?_, fun x hx => by rw [optChild_cost n d x hx, hc]; omega⟩
  unfold optChild
  split_ifs
  · rcases applyDirection n._state d with _ | s1
    · simp only [stackWeight, List.map_nil, List.sum_nil]; omega
    · simp only [stackWeight, List.map_cons, List.map_nil, List.sum_cons, List.sum_nil,
        nodeWeight, childNode, hc, Nat.add_zero]
      apply searchWeight_mono
      push_cast at hk
      omega
  · simp only [stackWeight, List.map_nil, List.sum_nil]; omega

/-- The loop of `limitedDepthSearch` ends within `stackWeight` iterations. -/
theorem limitedDepthSearchLoop_terminates (h : State → Int) (hnn : ∀ s, 0 ≤ h s) (fuel : Nat) :
    ∀ (a : AlgorithmIDA) (stack : List SearchNode),
      a._maxCurrentDepth ≤ 126 → (∀ n ∈ stack, 0 ≤ n._cost2Here) →
      stackWeight a._maxCurrentDepth stack ≤ fuel →
      ∃ r, limitedDepthSearchLoop h fuel a stack = some r := by
  induction fuel with
  | zero =>
    intro a stack _ _ hw
    cases stack with
    | nil => exact ⟨_, limitedDepthSearchLoop_nil h 0 a⟩
    | cons n rest =>
      rw [stackWeight_cons] at hw
      have := searchWeight_pos (a._maxCurrentDepth + 1 - n._cost2Here).toNat
      unfold nodeWeight at hw
      omega
  | succ fuel ih =>
    intro a stack hb hc hw
    cases stack with
    | nil => exact ⟨_, limitedDepthSearchLoop_nil h _ a⟩
    | cons n rest =>
      rw [limitedDepthSearchLoop_succ]
      rw [stackWeight_cons] at hw
      have hn0 := hc n (List.mem_cons_self _ _)
      have hrest : ∀ x ∈ rest, 0 ≤ x._cost2Here := fun x hx => hc x (List.mem_cons_of_mem _ hx)
      have hpos := searchWeight_pos (a._maxCurrentDepth + 1 - n._cost2Here).toNat
      unfold nodeWeight at hw
      split_ifs with h1 h2
      · exact ⟨_, rfl⟩
      · have hh := hnn n._state
        obtain ⟨k, hk⟩ : ∃ k : Nat, a._maxCurrentDepth + 1 - n._cost2Here = ((k + 1 : Nat) : Int) :=
          ⟨(a._maxCurrentDepth - n._cost2Here).toNat, by push_cast; omega⟩
        have hk2 : (a._maxCurrentDepth + 1 - n._cost2Here).toNat = k + 1 := by omega
        rw [hk2, searchWeight] at hw
        have w := fun d => optChild_weight a._maxCurrentDepth n d k hn0 hb hk
        refine ih { a with _nodeExplored := a._nodeExplored + 1 } _ hb ?_ ?_
        · intro x hx
          rw [pushChildren_eq] at hx
          simp only [List.mem_append] at hx
          rcases hx with hx | hx | hx | hx | hx
          · exact (w _).2 x hx
          · exact (w _).2 x hx
          · exact (w _).2 x hx
          · exact (w _).2 x hx
          · exact hrest x hx
        · rw [pushChildren_eq]
          simp only [stackWeight_append]
          have w1 := (w Direction.UP).1
          have w2 := (w Direction.DOWN).1
          have w3 := (w Direction.RIGHT).1
          have w4 := (w Direction.LEFT).1
          show stackWeight a._maxCurrentDepth _ + (stackWeight a._maxCurrentDepth _ +
            (stackWeight a._maxCurrentDepth _ + (stackWeight a._maxCurrentDepth _ +
              stackWeight a._maxCurrentDepth rest))) ≤ fuel
          omega
      · exact ih { a with _nodeExplored := a._nodeExplored + 1 } rest hb hrest
          (by show stackWeight a._maxCurrentDepth rest ≤ fuel; omega)

theorem limitedDepthSearch_terminates (h : State → Int) (hnn : ∀ s, 0 ≤ h s) (fuel : Nat)
    (a : AlgorithmIDA) (start : State) (hb0 : 0 ≤ a._maxCurrentDepth)
    (hb : a._maxCurrentDepth ≤ 80) (hf : searchWeight 81 ≤ fuel) :
    ∃ r, a.limitedDepthSearch fuel start h = some r := by
  unfold AlgorithmIDA.limitedDepthSearch
  apply limitedDepthSearchLoop_terminates h hnn fuel a _ (by omega)
  · intro n hn
    rw [List.mem_singleton.1 hn]
    exact le_refl _
  · rw [stackWeight_cons]
    have : stackWeight a._maxCurrentDepth [] = 0 := rfl
    rw [this, Nat.add_zero]
    unfold nodeWeight
    refine le_trans (searchWeight_mono ?_) hf
    have : (SearchNode.ofState start)._cost2Here = 0 := rfl
    rw [this]
    omega

/-- Without a heuristic, a node whose state is the start of a shortest sequence
of legal moves to the solved state leads to the solved state in a search whose
bound plus one is at least the cost of the node plus the length of the
sequence: the last node of the sequence is tested before its cost is. -/
theorem good_of_path_zero (bound : Int) (hb : bound ≤ 126) :
    ∀ (ms : List Direction) (n : SearchNode), ValidState n._state →
      applyMoves n._state ms = some State.generateSortedState →
      (∀ m, Reach m n._state State.generateSortedState → ms.length ≤ m) →
      (∀ d, ms.head? = some d → n._lastMove ≠ d.opposite) →
      0 ≤ n._cost2Here → n._cost2Here + (ms.length : Int) ≤ bound + 1 →
      Good zeroHeuristic bound n := by
  intro ms
  induction ms with
  | nil =>
    intro n hv hms _ _ _ _
    simp only [applyMoves, Option.some.injEq] at hms
    exact Good.goal n ((eqState_final_iff _ hv).2 hms)
  | cons d ms ih =>
    intro n hv hms hmin hlast h0 hle
    simp only [applyMoves] at hms
    rcases h1 : applyDirection n._state d with _ | s1
    · rw [h1] at hms; cases hms
    rw [h1] at hms
    have hv1 := applyDirection_valid _ _ _ hv h1
    have hnotfinal : n._state.eqState kFinalState = false := by
      by_contra hf
      have hfin := (eqState_final_iff _ hv).1 (by simpa using hf)
      have := hmin 0 ⟨[], rfl, by rw [hfin]; rfl⟩
      simp at this
    simp only [List.length_cons] at hle
    have hz : zeroHeuristic n._state = 0 := rfl
    refine Good.step n (childNode n d s1) hnotfinal (by rw [hz]; push_cast at hle; omega)
      ⟨d, s1, hlast d rfl, h1, rfl⟩ ?_
    have hcost : (childNode n d s1)._cost2Here = n._cost2Here + 1 := by
      simp only [childNode]
      exact toInt8_of_small _ (by omega) (by push_cast at hle; omega)
    apply ih (childNode n d s1) hv1 hms
    · intro m hm
      have := hmin (m + 1) (reach_cons _ _ _ d _ h1 hm)
      simp only [List.length_cons] at this
      omega
    · intro d' hd' hopp
      cases ms with
      | nil => simp at hd'
      | cons d2 ms2 =>
        simp only [List.head?_cons, Option.some.injEq] at hd'
        subst hd'
        simp only [childNode] at hopp
        have hd2 : d2 = d.opposite := by rw [hopp, opposite_opposite]
        simp only [applyMoves] at hms
        have hback := applyDirection_opposite _ _ _ hv h1
        rw [hd2, hback] at hms
        have := hmin ms2.length ⟨ms2, rfl, hms⟩
        simp only [List.length_cons] at this
        omega
    · rw [hcost]; omega
    · rw [hcost]; push_cast at hle ⊢; omega

/-- Without a heuristic, a search that ends without a solution has a bound more
than one below the length of every sequence of legal moves from the start state
to the solved state. -/
theorem limitedDepthSearch_false_zero (fuel : Nat) (a a' : AlgorithmIDA) (start : State)
    (hs : ValidState start) (hb : a._maxCurrentDepth ≤ 126)
    (hr : a.limitedDepthSearch fuel start zeroHeuristic = some (false, a')) (d : Nat)
    (hd : IsMinimalSolutionLength start d) : a._maxCurrentDepth + 1 < (d : Int) := by
  by_contra hlt
  obtain ⟨⟨ms, hlen, hms⟩, hmin⟩ := hd
  have hgood : Good zeroHeuristic a._maxCurrentDepth (SearchNode.ofState start) := by
    apply good_of_path_zero _ hb ms (SearchNode.ofState start) hs hms
    · intro m hm; rw [hlen]; exact hmin m hm
    · intro d' hd'
      cases d' with
      | NONE =>
        cases ms with
        | nil => simp at hd'
        | cons d2 ms2 =>
          simp only [List.head?_cons, Option.some.injEq] at hd'
          subst hd'
          simp [applyMoves, applyDirection_none] at hms
      | LEFT => simp [SearchNode.ofState, Direction.opposite]
      | RIGHT => simp [SearchNode.ofState, Direction.opposite]
      | DOWN => simp [SearchNode.ofState, Direction.opposite]
      | UP => simp [SearchNode.ofState, Direction.opposite]
    · simp [SearchNode.ofState]
    · simp only [SearchNode.ofState, zero_add, hlen]; omega
  exact limitedDepthSearchLoop_not_good zeroHeuristic fuel a _ a' hr _
    (List.mem_singleton.2 rfl) hgood

theorem le_searchWeight (k : Nat) : k + 1 ≤ searchWeight k := by
  induction k with
  | zero => simp [searchWeight]
  | succ k ih => simp only [searchWeight]; omega

theorem evenBound_eq (d : Nat) : evenBound d = 2 * ((d / 2 : Nat) : Int) := by
  unfold evenBound; omega

/-- The loop of `findSolution` without a heuristic, from the bound that is `2 * k`
below the largest even bound that is at most the minimal number of moves. -/
theorem findSolutionLoop_zero (fuel : Nat) (start : State) (d : Nat) (hs : ValidState start)
    (hd : IsMinimalSolutionLength start d) (hd80 : d < 80) (hf : searchWeight 81 ≤ fuel)
    (k : Nat) :
    ∀ (n : Nat) (a : AlgorithmIDA), a._maxCurrentDepth = evenBound d - 2 * (k : Int) →
      0 ≤ a._maxCurrentDepth → k < n →
      ∃ r, findSolutionLoop fuel start zeroHeuristic n a false = some (true, r) ∧
        r._solutionLengthPath = (d : Int) ∧
        replayPath start (r._solutionPath.take d) = some State.generateSortedState := by
  have hnn : NonNegative zeroHeuristic := fun _ _ => le_refl _
  have hev : evenBound d ≤ (d : Int) ∧ (d : Int) ≤ evenBound d + 1 := by
    unfold evenBound; omega
  induction k with
  | zero =>
    intro n a hb h0 hn
    obtain ⟨n', rfl⟩ : ∃ n', n = n' + 1 := ⟨n - 1, by omega⟩
    rw [findSolutionLoop_eq, if_pos ⟨by unfold kTotalDepthLimit; omega, rfl⟩]
    simp only
    obtain ⟨⟨f, a1⟩, hl⟩ := limitedDepthSearch_terminates zeroHeuristic (fun _ => le_refl _)
      fuel a start h0 (by omega) hf
    rw [hl]
    simp only
    cases f with
    | false =>
      have := limitedDepthSearch_false_zero fuel a a1 start hs (by omega) hl d hd
      omega
    | true =>
      simp only [Bool.true_eq_false, if_false]
      rw [findSolutionLoop_true]
      refine ⟨a1, rfl, ?_⟩
      obtain ⟨ms, hms, hlen, hle⟩ :=
        limitedDepthSearch_length_bound fuel a a1 start zeroHeuristic hs hnn (by omega)
          (by omega) hl
      have hreach : Reach ms.length start State.generateSortedState := ⟨ms, rfl, hms⟩
      have hge := hd.2 _ hreach
      have hpar := reach_parity start _ _ _ hs hreach hd.1
      have hL : ms.length = d := by
        have e := evenBound_eq d
        omega
      obtain ⟨ms', hms', hlen', htake⟩ := limitedDepthSearch_sound fuel a a1 start zeroHeuristic
        hs hl
      have hL' : ms'.length = d := by omega
      refine ⟨by rw [hlen, hL], ?_⟩
      rw [← hL', htake (by unfold kMaxPath; omega), replayPath_map_symbol, hms']
  | succ k ih =>
    intro n a hb h0 hn
    obtain ⟨n', rfl⟩ : ∃ n', n = n' + 1 := ⟨n - 1, by omega⟩
    rw [findSolutionLoop_eq, if_pos ⟨by unfold kTotalDepthLimit; omega, rfl⟩]
    simp only
    obtain ⟨⟨f, a1⟩, hl⟩ := limitedDepthSearch_terminates zeroHeuristic (fun _ => le_refl _)
      fuel a start h0 (by omega) hf
    rw [hl]
    simp only
    have hmax := limitedDepthSearch_maxDepth fuel a a1 start zeroHeuristic f hl
    cases f with
    | true =>
      obtain ⟨ms, hms, hlen, hle⟩ :=
        limitedDepthSearch_length_bound fuel a a1 start zeroHeuristic hs hnn (by omega)
          (by omega) hl
      have hge := hd.2 _ ⟨ms, rfl, hms⟩
      push_cast at hb
      omega
    | false =>
      simp only [if_true]
      apply ih n' _ ?_ ?_ (by omega)
      · show a1._maxCurrentDepth + 2 = _
        rw [hmax, hb]; push_cast; ring
      · show 0 ≤ a1._maxCurrentDepth + 2
        rw [hmax]; omega

/-- The driver without a heuristic reports a solution of minimal length. -/
theorem findSolution_zero (fuel : Nat) (a : AlgorithmIDA) (start : State) (d : Nat)
    (hs : ValidState start) (hd : IsMinimalSolutionLength start d) (hd80 : d < 80)
    (hf : searchWeight 81 ≤ fuel) :
    ∃ r, a.findSolution fuel start zeroHeuristic = some (true, r) ∧
      r._solutionLengthPath = (d : Int) ∧
      replayPath start (r._solutionPath.take d) = some State.generateSortedState := by
  unfold AlgorithmIDA.findSolution
  have h82 := le_searchWeight 81
  apply findSolutionLoop_zero fuel start d hs hd hd80 hf (d / 2) fuel
  · show zeroHeuristic start = _
    rw [evenBound_eq]
    show (0 : Int) = _
    ring
  · exact le_refl _
  · omega

theorem limitedDepthSearchLoop_mono (h : State → Int) (fuel : Nat) :
    ∀ (a : AlgorithmIDA) (stack : List SearchNode) (r : Bool × AlgorithmIDA),
      limitedDepthSearchLoop h fuel a stack = some r →
      limitedDepthSearchLoop h (fuel + 1) a stack = some r := by
  induction fuel with
  | zero =>
    intro a stack r hr
    cases stack with
    | nil => rw [limitedDepthSearchLoop_nil] at hr ⊢; exact hr
    | cons n rest => rw [limitedDepthSearchLoop_zero] at hr; cases hr
  | succ fuel ih =>
    intro a stack r hr
    cases stack with
    | nil => rw [limitedDepthSearchLoop_nil] at hr ⊢; exact hr
    | cons n rest =>
      rw [limitedDepthSearchLoop_succ] at hr ⊢
      split_ifs at hr ⊢ with h1 h2
      · exact hr
      · exact ih _ _ _ hr
      · exact ih _ _ _ hr

theorem limitedDepthSearch_mono (h : State → Int) (fuel fuel' : Nat) (a : AlgorithmIDA)
    (start : State) (r : Bool × AlgorithmIDA) (hf : fuel ≤ fuel')
    (hr : a.limitedDepthSearch fuel start h = some r) :
    a.limitedDepthSearch fuel' start h = some r := by
  induction fuel' with
  | zero =>
    have : fuel = 0 := by omega
    subst this; exact hr
  | succ k ih =>
    by_cases hk : fuel = k + 1
    · subst hk; exact hr
    · exact limitedDepthSearchLoop_mono h k a _ r (ih (by omega))

theorem findSolutionLoop_mono (fuel fuel' : Nat) (start : State) (h : State → Int)
    (hf : fuel ≤ fuel') (n : Nat) :
    ∀ (n' : Nat) (a : AlgorithmIDA) (found : Bool) (x : Bool × AlgorithmIDA), n ≤ n' →
      findSolutionLoop fuel start h n a found = some x →
      findSolutionLoop fuel' start h n' a found = some x := by
  induction n with
  | zero =>
    intro n' a found x _ hr
    rw [findSolutionLoop_eq] at hr ⊢
    split_ifs at hr ⊢ with hc
    exact hr
  | succ n ih =>
    intro n' a found x hn hr
    obtain ⟨m, rfl⟩ : ∃ m, n' = m + 1 := ⟨n' - 1, by omega⟩
    rw [findSolutionLoop_eq] at hr ⊢
    split_ifs at hr ⊢ with hc
    · rcases hl : a.limitedDepthSearch fuel start h with _ | ⟨f, a1⟩
      · rw [hl] at hr; cases hr
      · rw [hl] at hr
        rw [limitedDepthSearch_mono h fuel fuel' a start _ hf hl]
        exact ih m _ _ x (by omega) hr
    · exact hr

/-- A result of `findSolution` does not change when the bound on the iterations
grows. -/
theorem findSolution_mono (fuel fuel' : Nat) (a : AlgorithmIDA) (start : State)
    (h : State → Int) (x : Bool × AlgorithmIDA) (hf : fuel ≤ fuel')
    (hr : a.findSolution fuel start h = some x) : a.findSolution fuel' start h = some x :=
  findSolutionLoop_mono fuel fuel' start h hf fuel fuel' _ _ x hf hr

theorem twoSteps_run :
    freshAlgorithm.findSolution 64 twoStepsState zeroHeuristic =
      some (true,
        { _maxCurrentDepth := 2
          _nodeExplored := 19
          _solutionLengthPath := 2
          _solutionPath := 'D' :: 'R' :: List.replicate 78 (Char.ofNat 0) }) := by
  decide!

theorem twoSteps_valid : ValidState twoStepsState := ⟨by decide, by decide, by decide⟩

theorem twoSteps_minimal : IsMinimalSolutionLength twoStepsState 2 := by
  have hnn : NonNegative zeroHeuristic := fun _ _ => le_refl _
  have hadm : Admissible zeroHeuristic := fun _ _ m _ => by
    simp only [zeroHeuristic]; omega
  have hpar : ∀ m, Reach m twoStepsState State.generateSortedState →
      (zeroHeuristic twoStepsState - (m : Int)) % 2 = 0 := by
    intro m hm
    have h2 : Reach 2 twoStepsState State.generateSortedState :=
      ⟨[Direction.DOWN, Direction.RIGHT], rfl, by decide!⟩
    have := reach_parity _ _ _ _ twoSteps_valid hm h2
    simp only [zeroHeuristic]
    omega
  obtain ⟨n, hn, hmin⟩ := findSolution_optimal 64 freshAlgorithm _ twoStepsState zeroHeuristic
    twoSteps_valid hnn hadm hpar twoSteps_run
  have : n = 2 := by
    have e : (2 : Int) = (n : Int) := hn
    omega
  rw [this] at hmin
  exact hmin

/-! ## Claims about the pattern database -/

/-- Claim C21. Pattern-database admissibility does not hold: the partition model
`pairModel` passes `isValidPartitions()`, the state `0xcfeda069b8754321` is
valid and solvable and eight legal moves take it to the solved state, so its
minimal number of moves is at most 8, and after `generate()` on a fresh object
`getCost` returns 10 for it. -/
theorem C21_getCost_exceeds_distance :
    isValidPartitions pairModel = true ∧
    ValidState eightMovesState ∧ eightMovesState.isSolveable = true ∧
    applyMoves eightMovesState
      [Direction.RIGHT, Direction.UP, Direction.LEFT, Direction.LEFT, Direction.DOWN,
        Direction.RIGHT, Direction.RIGHT, Direction.DOWN] = some State.generateSortedState ∧
    (∃ d, IsMinimalSolutionLength eightMovesState d ∧ d ≤ 8) ∧
    ∀ k : Nat, ∃ db : PatternDB,
      PatternDB.generate (7000 + k) pairModel (PatternDB.new pairModel) = some db ∧
      db.getCost pairModel eightMovesState = some 10 := by
  have hm : applyMoves eightMovesState
      [Direction.RIGHT, Direction.UP, Direction.LEFT, Direction.LEFT, Direction.DOWN,
        Direction.RIGHT, Direction.RIGHT, Direction.DOWN] = some State.generateSortedState := by
    decide!
  refine ⟨by decide!, validState_ofConfiguration _ (by norm_num) (by decide!), by decide!, hm,
    ?_, fun k => ⟨_, pairModel_generate (7000 + k) (by omega), by decide!⟩⟩
  have hr : Reach 8 eightMovesState State.generateSortedState := ⟨_, by rfl, hm⟩
  obtain ⟨d, hd⟩ := exists_minimal eightMovesState 8 hr
  exact ⟨d, hd, hd.2 8 hr⟩

/-- Claim C22. Pattern-database entries are not the minimal sub-problem costs:
in the valid model `pairModel`, the state `0xcfae8b0d76594321` is valid and
solvable and is reached from the solved state by nine legal moves of which one
moves a tile of the partition of tiles 15 and 10, and after `generate()` on a
fresh object the entry of that partition looked up for the state is 3. -/
theorem C22_entry_exceeds_partition_moves :
    isValidPartitions pairModel = true ∧
    ValidState nineMovesState ∧ nineMovesState.isSolveable = true ∧
    applyMoves State.generateSortedState
      [Direction.UP, Direction.UP, Direction.LEFT, Direction.LEFT, Direction.LEFT,
        Direction.DOWN, Direction.DOWN, Direction.RIGHT, Direction.UP] = some nineMovesState ∧
    movesOfPartition (pairModel.getD 0 0) State.generateSortedState
      [Direction.UP, Direction.UP, Direction.LEFT, Direction.LEFT, Direction.LEFT,
        Direction.DOWN, Direction.DOWN, Direction.RIGHT, Direction.UP] = 1 ∧
    ∀ k : Nat, ∃ db : PatternDB,
      PatternDB.generate (7000 + k) pairModel (PatternDB.new pairModel) = some db ∧
      PatternDB.entryOf pairModel db 0 nineMovesState = some 3 := by
  refine ⟨by decide!, validState_ofConfiguration _ (by norm_num) (by decide!), by decide!,
    by decide!, by decide!,
    fun k => ⟨_, pairModel_generate (7000 + k) (by omega), by decide!⟩⟩

/-- Claim C24. Partition-model validator: for a list of masks whose nibbles are
each `0x0` or `0xF`, `isValidPartitions()` returns true if and only if every
mask selects nibble 0, no nibble `1 .. 15` is selected by the masks of two
different partitions, and every nibble `1 .. 15` is selected by some mask. -/
theorem C24_isValidPartitions_iff (sMaskPartitions : List Nat)
    (hm : ∀ m ∈ sMaskPartitions, NibbleMask m) :
    isValidPartitions sMaskPartitions = true ↔
      (∀ m ∈ sMaskPartitions, Selects m 0) ∧
      (∀ (i j : Nat) (hi : i < sMaskPartitions.length) (hj : j < sMaskPartitions.length),
        i ≠ j → ∀ v, 1 ≤ v → v ≤ 15 →
          ¬ (Selects (sMaskPartitions.get ⟨i, hi⟩) v ∧ Selects (sMaskPartitions.get ⟨j, hj⟩) v)) ∧
      (∀ v, 1 ≤ v → v ≤ 15 → ∃ m ∈ sMaskPartitions, Selects m v) := by
  unfold isValidPartitions checkPartitionsDisjoint checkAllPartitionsHasZero
    checkPartitionsAreTotal kNumTilesMinusOne
  rw [Bool.and_eq_true, Bool.and_eq_true, checkDisjointOuter_iff, checkHasZeroLoop_iff,
    checkTotalLoop_iff, List.pairwise_iff_getElem]
  have hzero : (∀ m ∈ sMaskPartitions, m &&& 0xF = 0xF) ↔ ∀ m ∈ sMaskPartitions, Selects m 0 := by
    constructor
    · intro h m hmem; unfold Selects; rw [nibbleAt_zero_index]; exact h m hmem
    · intro h m hmem; rw [← nibbleAt_zero_index]; exact h m hmem
  have htotal : (∀ v, 1 ≤ v → v ≤ 15 → ∃ m ∈ sMaskPartitions, nibbleAt m v ≠ 0) ↔
      ∀ v, 1 ≤ v → v ≤ 15 → ∃ m ∈ sMaskPartitions, Selects m v := by
    constructor
    · intro h v h1 h2
      obtain ⟨m, hmem, hne⟩ := h v h1 h2
      exact ⟨m, hmem, ((hm m hmem).ne_zero_iff v (by omega)).1 hne⟩
    · intro h v h1 h2
      obtain ⟨m, hmem, hs⟩ := h v h1 h2
      exact ⟨m, hmem, ((hm m hmem).ne_zero_iff v (by omega)).2 hs⟩
  rw [hzero, htotal]
  constructor
  · rintro ⟨⟨hd, hz⟩, ht⟩
    refine ⟨hz, fun i j hi hj hij v hv1 hv2 => ?_, ht⟩
    have hmi := hm _ (List.get_mem sMaskPartitions i hi)
    have hmj := hm _ (List.get_mem sMaskPartitions j hj)
    rcases Nat.lt_or_gt_of_ne hij with hlt | hgt
    · exact ((and_eq_fifteen_iff _ _ hmi hmj).1 (hd i j hi hj hlt)).2.2 v hv1 hv2
    · intro hc
      exact ((and_eq_fifteen_iff _ _ hmj hmi).1 (hd j i hj hi hgt)).2.2 v hv1 hv2 ⟨hc.2, hc.1⟩
  · rintro ⟨hz, hd, ht⟩
    refine ⟨⟨fun i j hi hj hlt => ?_, hz⟩, ht⟩
    have hmi := List.get_mem sMaskPartitions i hi
    have hmj := List.get_mem sMaskPartitions j hj
    exact (and_eq_fifteen_iff _ _ (hm _ hmi) (hm _ hmj)).2
      ⟨hz _ hmi, hz _ hmj, hd i j hi hj (by omega)⟩

/-- Witness of C24: the partition model of the program (`Kpuzzle4::kMasksPattern`),
which the validator accepts. -/
theorem C24_isValidPartitions_iff_witness :
    isValidPartitions [0xFFFFF0000000000F, 0x00000FFFFF00000F, 0x0000000000FFFFFF] = true ∧
      ∀ v, 1 ≤ v → v ≤ 15 →
        ∃ m ∈ [0xFFFFF0000000000F, 0x00000FFFFF00000F, 0x0000000000FFFFFF], Selects m v :=
  ⟨by decide,
    ((C24_isValidPartitions_iff [0xFFFFF0000000000F, 0x00000FFFFF00000F, 0x0000000000FFFFFF]
      (by
        intro m hmem
        simp only [List.mem_cons, List.mem_singleton, List.not_mem_nil, or_false] at hmem
        rcases hmem with rfl | rfl | rfl <;> exact ⟨by decide, by decide⟩)).1 (by decide)).2.2⟩

/-! ### A stream with a table size that `resize` does not accept -/

/-- Claim C25. Serialisation round trip: for a partition model and cost tables
of any lengths that `resize` accepts (`aMaxSize` is the largest of them, see
`deserializeTablesLoop`; a vector has at most `max_size()` entries) and any
8-bit cost values, `serialize` into an empty stream followed by `deserialize`
of the bytes into a fresh `PatternDB` of the same model (or into any object of
the model) returns, reads the whole stream, and leaves cost tables equal to the
originals. -/
theorem C25_serialize_deserialize (aMaxSize : Nat) (sMaskPartitions : List Nat)
    (db db0 : PatternDB) (hw : WellTyped sMaskPartitions db)
    (hsz : ∀ t ∈ db._costTablePartitions, t.length ≤ aMaxSize)
    (h0 : db0._costTablePartitions.length = sMaskPartitions.length) :
    PatternDB.deserialize aMaxSize sMaskPartitions (PatternDB.new sMaskPartitions)
        (PatternDB.serialize sMaskPartitions db []) = DeserializeResult.loaded db [] ∧
      PatternDB.deserialize aMaxSize sMaskPartitions db0
          (PatternDB.serialize sMaskPartitions db []) =
        DeserializeResult.loaded db [] := by
  have e : PatternDB.serialize sMaskPartitions db [] =
      serializedLayout sMaskPartitions db._costTablePartitions ++ [] := by
    rw [serialize_eq _ _ hw.2.2.1]; simp
  rw [e]
  exact ⟨deserialize_encoded _ _ _ _ hw hsz (by simp [PatternDB.new]) [],
    deserialize_encoded _ _ _ _ hw hsz h0 []⟩

/-- Witness of C25: the model of the unit test `serializeAndDeserialize` with a
table of three entries, one of them negative, and `2 ^ 63 - 1` as the largest
size of a table. -/
theorem C25_serialize_deserialize_witness :
    PatternDB.serialize [0xF00000000000000F] { _costTablePartitions := [[5, 127, -3]] } [] =
        [1, 0, 0, 0, 15, 0, 0, 0, 0, 0, 0, 240, 3, 0, 0, 0, 0, 0, 0, 0, 5, 127, 253] ∧
      PatternDB.deserialize (2 ^ 63 - 1) [0xF00000000000000F]
        (PatternDB.new [0xF00000000000000F])
        (PatternDB.serialize [0xF00000000000000F] { _costTablePartitions := [[5, 127, -3]] } []) =
        DeserializeResult.loaded { _costTablePartitions := [[5, 127, -3]] } [] :=
  ⟨by decide,
    (C25_serialize_deserialize (2 ^ 63 - 1) [0xF00000000000000F]
      { _costTablePartitions := [[5, 127, -3]] }
      (PatternDB.new [0xF00000000000000F])
      ⟨by decide, by decide, by decide, by decide⟩ (by decide) (by decide)).1⟩

/-- Claim C26. Serialised byte layout: for a model with `n` partitions whose
object holds `n` cost tables, `serialize` appends to the stream exactly, in this
order, the 4 bytes of the partition count, the 8 bytes of each mask in partition
order, and for each partition in order the 8 bytes of the number of table
entries followed by one byte per entry holding the 8-bit pattern of its cost;
the output has `4 + 8 n +` the sum over the partitions of `8 +` table length
bytes; a count below `2 ^ 31`, a 64-bit mask and an 8-bit cost are read back
from their bytes. -/
theorem C26_serialized_layout (sMaskPartitions : List Nat) (db : PatternDB)
    (hlen : db._costTablePartitions.length = sMaskPartitions.length) (oStream : List Nat) :
    PatternDB.serialize sMaskPartitions db oStream =
        oStream ++ (objectBytes 4 (toU32 (sMaskPartitions.length : Int)) ++
          (sMaskPartitions.flatMap (objectBytes 8) ++
            db._costTablePartitions.flatMap
              (fun t => objectBytes 8 t.length ++ t.map toU8))) ∧
      (PatternDB.serialize sMaskPartitions db []).length =
        4 + 8 * sMaskPartitions.length +
          (db._costTablePartitions.map (fun t => 8 + t.length)).sum ∧
      (∀ k x, (objectBytes k x).length = k) ∧
      (sMaskPartitions.length < 2 ^ 31 →
        toInt32 ((objectValue (objectBytes 4 (toU32 (sMaskPartitions.length : Int))) : Nat) : Int)
          = (sMaskPartitions.length : Int)) ∧
      (∀ x, x < 2 ^ 64 → objectValue (objectBytes 8 x) = x) ∧
      (∀ c : Int, -128 ≤ c → c ≤ 127 → toU8 c < 256 ∧ toInt8 ((toU8 c : Nat) : Int) = c) := by
  refine ⟨?_, ?_, objectBytes_length, fun h => storedCount_layout _ h,
    fun x hx => objectValue_objectBytes_of_lt 8 x (lt_256_pow_8 x hx),
    fun c h0 h1 => ⟨toU8_lt c, toInt8_toU8 c h0 h1⟩⟩
  · rw [serialize_eq _ _ hlen]
    rfl
  · rw [serialize_eq _ _ hlen, List.nil_append, serializedLayout_length]

/-- Witness of C26: a model of two partitions with tables of two and one
entries. -/
theorem C26_serialized_layout_witness :
    PatternDB.serialize [0xFFFFFFFF0000000F, 0x00000000FFFFFFFF]
        { _costTablePartitions := [[1, 2], [-1]] } [] =
      [2, 0, 0, 0,
        15, 0, 0, 0, 255, 255, 255, 255, 255, 255, 255, 255, 0, 0, 0, 0,
        2, 0, 0, 0, 0, 0, 0, 0, 1, 2,
        1, 0, 0, 0, 0, 0, 0, 0, 255] ∧
      (PatternDB.serialize [0xFFFFFFFF0000000F, 0x00000000FFFFFFFF]
        { _costTablePartitions := [[1, 2], [-1]] } []).length = 4 + 8 * 2 + ((8 + 2) + (8 + 1)) :=
  ⟨by decide,
    (C26_serialized_layout [0xFFFFFFFF0000000F, 0x00000000FFFFFFFF]
      { _costTablePartitions := [[1, 2], [-1]] } rfl []).2.1⟩

/-- Claim C28. Masked hash: `getHashWithMask(m)` is `getTilesPositions() AND m`
for every state (and node) and every mask; and for valid states `A` and `B` and
a mask whose nibbles are each `0x0` or `0xF`, the masked hashes of `A` and `B`
are equal if and only if every tile value selected by the mask is at the same
board position in `A` and in `B`. -/
theorem C28_masked_hash (A B : State) (m : Nat) (hA : ValidState A) (hB : ValidState B)
    (hm : NibbleMask m) :
    (∀ (s : State) (m1 : Nat), s.getHashWithMask m1 = s.getTilesPositions &&& m1) ∧
    (∀ (n : SearchNode) (m1 : Nat),
      n.getHashWithMask m1 = n.getState.getTilesPositions &&& m1) ∧
    (A.getHashWithMask m = B.getHashWithMask m ↔
      ∀ v, v < 16 → Selects m v → positionOfTile A v = positionOfTile B v) := by
  refine ⟨fun _ _ => rfl, fun _ _ => rfl, ?_⟩
  unfold State.getHashWithMask
  have hA2 : A._tilesPositions < 2 ^ 64 := by
    rw [hA.tilesPositions_eq]; exact computePositionFromConfiguration_lt _
  have hB2 : B._tilesPositions < 2 ^ 64 := by
    rw [hB.tilesPositions_eq]; exact computePositionFromConfiguration_lt _
  rw [hash_eq_iff _ _ _ hA2 hB2 hm]
  constructor
  · intro h v hv hs
    rw [← tilesPositions_eq_positionOfTile A hA v hv, ← tilesPositions_eq_positionOfTile B hB v hv]
    exact h v hv hs
  · intro h v hv hs
    rw [tilesPositions_eq_positionOfTile A hA v hv, tilesPositions_eq_positionOfTile B hB v hv]
    exact h v hv hs

/-- Witness of C28: the two states of the unit test `hashWithMaskSame`, which
differ in the positions of the tiles 0 and 1 only, and the mask of the tiles 14
and 15. -/
theorem C28_masked_hash_witness :
    (State.ofConfiguration 0xfedcba9876543210).getHashWithMask 0xff00000000000000 =
        (State.ofConfiguration 0xfedcba9876543201).getHashWithMask 0xff00000000000000 ↔
      ∀ v, v < 16 → Selects 0xff00000000000000 v →
        positionOfTile (State.ofConfiguration 0xfedcba9876543210) v =
          positionOfTile (State.ofConfiguration 0xfedcba9876543201) v :=
  (C28_masked_hash (State.ofConfiguration 0xfedcba9876543210)
    (State.ofConfiguration 0xfedcba9876543201) 0xff00000000000000
    ⟨by decide, by decide, by decide⟩ ⟨by decide, by decide, by decide⟩
    ⟨by decide, by decide⟩).2.2

/-! ## Claims about the search without a heuristic and the path capacity -/

/-- Claim C29. Uninformed search is optimal: for a valid start state whose
shortest solution has `d < 80` moves, `findSolution` with the heuristic that
returns 0 on every state returns (for every bound on the iterations from
`searchWeight 81` on), reports a solution found, `getSolutionLength()` is `d`,
and the first `d` symbols of `getSolutionPath()` replayed from the start state
are legal moves that end in the solved state. For the board reached from the
solved state by `moveLeft` then `moveUp`, a fresh object reports length 2 and
the path `D`, `R`. -/
theorem C29_uninformed_search_optimal (start : State) (d : Nat) (a : AlgorithmIDA)
    (fuel : Nat) (hs : ValidState start) (hd : IsMinimalSolutionLength start d)
    (hd80 : d < 80) (hf : searchWeight 81 ≤ fuel) :
    (∃ r, a.findSolution fuel start zeroHeuristic = some (true, r) ∧
      r.getSolutionLength = (d : Int) ∧
      replayPath start (r.getSolutionPath.take d) = some State.generateSortedState) ∧
    applyMoves State.generateSortedState [Direction.LEFT, Direction.UP] = some twoStepsState ∧
    ∃ r, freshAlgorithm.findSolution fuel twoStepsState zeroHeuristic = some (true, r) ∧
      r.getSolutionLength = 2 ∧ r.getSolutionPath.take 2 = ['D', 'R'] := by
  refine ⟨findSolution_zero fuel a start d hs hd hd80 hf, by decide!, _, 
    findSolution_mono 64 fuel freshAlgorithm twoStepsState zeroHeuristic _ ?_ twoSteps_run,
    rfl, rfl⟩
  have := le_searchWeight 81
  omega

/-- Witness of C29: the start state of the unit test `AlgorithmIDA.TwoSteps`,
whose shortest solution has two moves. -/
theorem C29_uninformed_search_optimal_witness :
    ValidState twoStepsState ∧ IsMinimalSolutionLength twoStepsState 2 ∧
    ((∃ r, freshAlgorithm.findSolution (searchWeight 81) twoStepsState zeroHeuristic =
        some (true, r) ∧
      r.getSolutionLength = ((2 : Nat) : Int) ∧
      replayPath twoStepsState (r.getSolutionPath.take 2) = some State.generateSortedState) ∧
    applyMoves State.generateSortedState [Direction.LEFT, Direction.UP] = some twoStepsState ∧
    ∃ r, freshAlgorithm.findSolution (searchWeight 81) twoStepsState zeroHeuristic =
        some (true, r) ∧
      r.getSolutionLength = 2 ∧ r.getSolutionPath.take 2 = ['D', 'R']) :=
  ⟨twoSteps_valid, twoSteps_minimal,
    C29_uninformed_search_optimal twoStepsState 2 freshAlgorithm (searchWeight 81)
      twoSteps_valid twoSteps_minimal (by decide) (le_refl _)⟩

/-- Claim C30, evaluated at a failing input: the run of `findSolution` from the
valid state `kUnsolvableState` with the non-negative heuristic
`cornerHeuristic` expands a node whose path counter is 80; its last move is not
down and its move up is legal, so the expansion calls `moveUp`, which writes
`_path2Here[80]` and creates a node with path counter 81 and cost 81. -/
theorem C30_creates_node_beyond_capacity :
    ValidState kUnsolvableState ∧ (∀ s, 0 ≤ cornerHeuristic s) ∧
      ∃ n ∈ freshAlgorithm.expandedNodes 400 kUnsolvableState cornerHeuristic,
        n.getLastMove ≠ Direction.DOWN ∧ n.getCounterPath = 80 ∧
        ∀ o : SearchNode, (n.moveUp o kNoMask).1 ≠ -1 ∧
          (n.moveUp o kNoMask).2.getCounterPath = 81 ∧
          (n.moveUp o kNoMask).2.getCost2Here = 81 := by
  refine ⟨⟨by decide, by decide, by decide⟩, fun s => ?_, ?_⟩
  · unfold cornerHeuristic
    split_ifs <;> decide
  · obtain ⟨n, hn, h1, h2, _, h4, h5⟩ := cornerRun_expands
    refine ⟨n, hn, by rw [h4]; decide, h1, fun o => ?_⟩
    have hne : (n.moveUp o kNoMask).1 ≠ -1 := by
      rw [SearchNode.moveUp_returns, ← SearchNode.moveUp_returns n n kNoMask, h5]
      decide
    have h6 : (n._state.moveUp n._state).1 = 14 := by
      rw [← SearchNode.moveUp_returns n n kNoMask, h5]
    have hc : n._counterPath = 80 := h1
    have hk : n._cost2Here = 80 := h2
    rw [SearchNode.moveUp_output n o kNoMask hne]
    refine ⟨hne, ?_, ?_⟩
    · show n._counterPath + 1 = 81
      rw [hc]; rfl
    · show costAfterMove kNoMask (n._state.moveUp n._state).1 n._cost2Here = 81
      rw [h6, hk]
      decide

/-! ## Moves of the blank and the counter of `isSolveable` -/

theorem Exchanged.symm {d d' p q : Nat} (h : Exchanged d d' p q) (hpq : p ≠ q) :
    Exchanged d d' q p := by
  intro i hi
  rw [h i hi]
  by_cases h1 : i = p
  · subst h1
    rw [if_pos rfl, if_neg hpq, if_pos rfl]
  · rw [if_neg h1]
    by_cases h2 : i = q
    · subst h2
      rw [if_pos rfl, if_pos rfl]
    · rw [if_neg h2, if_neg h2, if_neg h1]

/-- Exchanging the blank with the tile after it changes the counter of
`isSolveable` by the change of the term of the blank only. -/
theorem solveCountList_blank (pre rest : List Nat) (b i : Nat) (hb : b ≠ 0) :
    solveCountList (pre ++ 0 :: b :: rest) i + ((i + pre.length + 1 : Nat) : Int) / 4 =
      solveCountList (pre ++ b :: 0 :: rest) i + ((i + pre.length : Nat) : Int) / 4 := by
  induction pre generalizing i with
  | nil =>
    simp only [List.nil_append, solveCountList, if_pos hb, List.filter_cons, List.length_nil,
      Nat.add_zero]
    simp
    omega
  | cons x pre ih =>
    have h1 := ih (i + 1)
    rw [List.cons_append, List.cons_append, solveCountList, solveCountList,
      filter_length_swap _ pre rest 0 b]
    simp only [List.length_cons]
    have e1 : i + 1 + pre.length + 1 = i + (pre.length + 1) + 1 := by omega
    have e2 : i + 1 + pre.length = i + (pre.length + 1) := by omega
    rw [e1, e2] at h1
    omega

/-- Exchanging the blank with the tile four positions after it, over three
tiles, keeps the parity of the counter of `isSolveable`. -/
theorem solveCountList_column (pre rest : List Nat) (a b1 b2 b3 i : Nat) (ha : a ≠ 0)
    (h1 : b1 ≠ 0) (h2 : b2 ≠ 0) (h3 : b3 ≠ 0) (ha1 : a ≠ b1) (ha2 : a ≠ b2) (ha3 : a ≠ b3) :
    (solveCountList (pre ++ 0 :: b1 :: b2 :: b3 :: a :: rest) i +
      solveCountList (pre ++ a :: b1 :: b2 :: b3 :: 0 :: rest) i) % 2 = 0 := by
  have s1 := solveCountList_swap (pre ++ [0, b1, b2]) rest b3 a i h3 ha (fun e => ha3 e.symm)
  have s2 := solveCountList_swap (pre ++ [0, b1]) (b3 :: rest) b2 a i h2 ha (fun e => ha2 e.symm)
  have s3 := solveCountList_swap (pre ++ [0]) (b2 :: b3 :: rest) b1 a i h1 ha
    (fun e => ha1 e.symm)
  have t1 := solveCountList_blank pre (b1 :: b2 :: b3 :: rest) a i ha
  have t2 := solveCountList_blank (pre ++ [a]) (b2 :: b3 :: rest) b1 i h1
  have t3 := solveCountList_blank (pre ++ [a, b1]) (b3 :: rest) b2 i h2
  have t4 := solveCountList_blank (pre ++ [a, b1, b2]) rest b3 i h3
  simp only [List.append_assoc, List.cons_append, List.nil_append, List.length_append,
    List.length_cons, List.length_nil] at s1 s2 s3 t1 t2 t3 t4
  omega

theorem range_split_five (i : Nat) (hi : i + 4 < 16) :
    List.range' 0 16 = List.range' 0 i ++ i :: (i + 1) :: (i + 2) :: (i + 3) :: (i + 4) ::
      List.range' (i + 5) (11 - i) := by
  have h1 : List.range' 0 16 = List.range' 0 i ++ List.range' (0 + i) (16 - i) := by
    rw [List.range'_append_1]; congr 1; omega
  have h2 : 16 - i = (11 - i) + 1 + 1 + 1 + 1 + 1 := by omega
  rw [h1, h2, List.range'_succ, List.range'_succ, List.range'_succ, List.range'_succ,
    List.range'_succ, Nat.zero_add]

theorem map_exchanged_column (c c' : Nat) (i : Nat) (hi : i + 4 < 16)
    (hex : Exchanged c c' i (i + 4)) :
    (List.range' 0 16).map (nibbleAt c) =
        (List.range' 0 i).map (nibbleAt c) ++ nibbleAt c i :: nibbleAt c (i + 1) ::
          nibbleAt c (i + 2) :: nibbleAt c (i + 3) :: nibbleAt c (i + 4) ::
          (List.range' (i + 5) (11 - i)).map (nibbleAt c) ∧
      (List.range' 0 16).map (nibbleAt c') =
        (List.range' 0 i).map (nibbleAt c) ++ nibbleAt c (i + 4) :: nibbleAt c (i + 1) ::
          nibbleAt c (i + 2) :: nibbleAt c (i + 3) :: nibbleAt c i ::
          (List.range' (i + 5) (11 - i)).map (nibbleAt c) := by
  rw [range_split_five i hi]
  refine ⟨by simp only [List.map_append, List.map_cons], ?_⟩
  simp only [List.map_append, List.map_cons]
  have e1 : (List.range' 0 i).map (nibbleAt c') = (List.range' 0 i).map (nibbleAt c) := by
    apply List.map_congr_left
    intro k hk
    rw [List.mem_range'_1] at hk
    rw [hex k (by omega), if_neg (by omega), if_neg (by omega)]
  have e2 : (List.range' (i + 5) (11 - i)).map (nibbleAt c') =
      (List.range' (i + 5) (11 - i)).map (nibbleAt c) := by
    apply List.map_congr_left
    intro k hk
    rw [List.mem_range'_1] at hk
    rw [hex k (by omega), if_neg (by omega), if_neg (by omega)]
  have e3 : nibbleAt c' i = nibbleAt c (i + 4) := by rw [hex i (by omega), if_pos rfl]
  have e4 : nibbleAt c' (i + 4) = nibbleAt c i := by
    rw [hex (i + 4) hi, if_neg (by omega), if_pos rfl]
  have e5 : nibbleAt c' (i + 1) = nibbleAt c (i + 1) := by
    rw [hex (i + 1) (by omega), if_neg (by omega), if_neg (by omega)]
  have e6 : nibbleAt c' (i + 2) = nibbleAt c (i + 2) := by
    rw [hex (i + 2) (by omega), if_neg (by omega), if_neg (by omega)]
  have e7 : nibbleAt c' (i + 3) = nibbleAt c (i + 3) := by
    rw [hex (i + 3) (by omega), if_neg (by omega), if_neg (by omega)]
  rw [e1, e2, e3, e4, e5, e6, e7]

/-- The counter of `isSolveable` after the exchange of the blank with a tile
next to it in its row. -/
theorem solveCount_row (c c' : Nat) (i : Nat) (hi : i + 1 < 16) (hrow : (i + 1) / 4 = i / 4)
    (h0 : (nibbleAt c i = 0 ∧ nibbleAt c (i + 1) ≠ 0) ∨
      (nibbleAt c i ≠ 0 ∧ nibbleAt c (i + 1) = 0))
    (hex : Exchanged c c' i (i + 1)) :
    solveCountList ((List.range' 0 16).map (nibbleAt c')) 0 =
      solveCountList ((List.range' 0 16).map (nibbleAt c)) 0 := by
  obtain ⟨m1, m2⟩ := map_exchanged c c' i hi hex
  rw [m1, m2]
  have hl : ((List.range' 0 i).map (nibbleAt c)).length = i := by
    rw [List.length_map, List.length_range']
  rcases h0 with ⟨ha, hb⟩ | ⟨ha, hb⟩
  · have t := solveCountList_blank ((List.range' 0 i).map (nibbleAt c))
      ((List.range' (i + 2) (14 - i)).map (nibbleAt c)) (nibbleAt c (i + 1)) 0 hb
    rw [hl] at t
    rw [ha]
    omega
  · have t := solveCountList_blank ((List.range' 0 i).map (nibbleAt c))
      ((List.range' (i + 2) (14 - i)).map (nibbleAt c)) (nibbleAt c i) 0 ha
    rw [hl] at t
    rw [hb]
    omega

/-- The counter of `isSolveable` after the exchange of the blank with the tile
above or below it keeps its parity. -/
theorem solveCount_column (c c' : Nat) (i : Nat) (hi : i + 4 < 16) (hd : NibblesDistinct c)
    (h0 : nibbleAt c i = 0 ∨ nibbleAt c (i + 4) = 0)
    (hex : Exchanged c c' i (i + 4)) :
    (solveCountList ((List.range' 0 16).map (nibbleAt c')) 0 +
      solveCountList ((List.range' 0 16).map (nibbleAt c)) 0) % 2 = 0 := by
  obtain ⟨m1, m2⟩ := map_exchanged_column c c' i hi hex
  rw [m1, m2]
  have d01 := hd i (i + 1) (by omega) (by omega) (by omega)
  have d02 := hd i (i + 2) (by omega) (by omega) (by omega)
  have d03 := hd i (i + 3) (by omega) (by omega) (by omega)
  have d04 := hd i (i + 4) (by omega) (by omega) (by omega)
  have d41 := hd (i + 4) (i + 1) (by omega) (by omega) (by omega)
  have d42 := hd (i + 4) (i + 2) (by omega) (by omega) (by omega)
  have d43 := hd (i + 4) (i + 3) (by omega) (by omega) (by omega)
  rcases h0 with ha | ha
  · have t := solveCountList_column ((List.range' 0 i).map (nibbleAt c))
      ((List.range' (i + 5) (11 - i)).map (nibbleAt c)) (nibbleAt c (i + 4))
      (nibbleAt c (i + 1)) (nibbleAt c (i + 2)) (nibbleAt c (i + 3)) 0
      (by omega) (by omega) (by omega) (by omega) d41 d42 d43
    rw [ha]
    omega
  · have t := solveCountList_column ((List.range' 0 i).map (nibbleAt c))
      ((List.range' (i + 5) (11 - i)).map (nibbleAt c)) (nibbleAt c i)
      (nibbleAt c (i + 1)) (nibbleAt c (i + 2)) (nibbleAt c (i + 3)) 0
      (by omega) (by omega) (by omega) (by omega) d01 d02 d03
    rw [ha]
    omega

theorem applyDirection_isSolveable (s s1 : State) (d : Direction) (hs : ValidState s)
    (h : applyDirection s d = some s1) : s1.isSolveable = s.isSolveable := by
  obtain ⟨p, hp, hidx, h0, hne⟩ := hs.blank
  rw [applyDirection_eq s p hidx d] at h
  rcases ht : target p d with _ | q
  · rw [ht] at h; cases h
  · rw [ht] at h
    simp only [Option.map_some', Option.some.injEq] at h
    obtain ⟨hq, hpq⟩ := target_lt p q d hp ht
    have hex := exchanged_moveData s._data p q hp hq hpq h0
    have hd := (isValid_iff_distinct s).1 hs.2.1
    have k1 := isSolveable_iff_range s
    have k2 := isSolveable_iff_range s1
    have e : s1._data = moveData s._data p q := by rw [← h]; rfl
    rw [e] at k2
    have key : (solveCountList ((List.range' 0 16).map (nibbleAt (moveData s._data p q))) 0 +
        solveCountList ((List.range' 0 16).map (nibbleAt s._data)) 0) % 2 = 0 := by
      cases d <;> simp only [target] at ht
      · cases ht
      · split_ifs at ht with hc
        simp only [Option.some.injEq] at ht
        have hq1 : p = q + 1 := by omega
        subst hq1
        have := solveCount_row s._data _ q hp (by omega)
          (Or.inr ⟨hne q hq (by omega), h0⟩) (hex.symm hpq)
        omega
      · split_ifs at ht with hc
        simp only [Option.some.injEq] at ht
        subst ht
        have := solveCount_row s._data _ p hq (by omega)
          (Or.inl ⟨h0, hne (p + 1) hq (by omega)⟩) hex
        omega
      · split_ifs at ht with hc
        simp only [Option.some.injEq] at ht
        subst ht
        exact solveCount_column s._data _ p hq hd (Or.inl h0) hex
      · split_ifs at ht with hc
        simp only [Option.some.injEq] at ht
        have hq1 : p = q + 4 := by omega
        subst hq1
        exact solveCount_column s._data _ q hp hd (Or.inr h0) (hex.symm hpq)
    cases hA : s.isSolveable <;> cases hB : s1.isSolveable <;>
      simp only [hA, hB, Bool.false_eq_true, false_iff, true_iff] at k1 k2 ⊢ <;> omega

theorem applyMoves_isSolveable (s t : State) (ms : List Direction) (hs : ValidState s)
    (h : applyMoves s ms = some t) : t.isSolveable = s.isSolveable := by
  induction ms generalizing s with
  | nil =>
    simp only [applyMoves, Option.some.injEq] at h
    rw [h]
  | cons d rest ih =>
    simp only [applyMoves] at h
    rcases hd : applyDirection s d with _ | s1
    · rw [hd] at h; cases h
    · rw [hd] at h
      rw [ih s1 (applyDirection_valid s s1 d hs hd) h, applyDirection_isSolveable s s1 d hs hd]

/-- A legal call of `moveLeft` is the move of `applyDirection`, whatever the
output parameter held. -/
theorem moveLeft_applyDirection (s o : State) (h : (s.moveLeft o).1 ≠ -1) :
    applyDirection s Direction.LEFT = some (s.moveLeft o).2 := by
  have h1 : (s.moveLeft s).1 ≠ -1 := by rw [State.moveLeft_fst s s o]; exact h
  rw [applyDirection_left, if_pos h1, State.moveLeft_snd s s o h1]

theorem moveRight_applyDirection (s o : State) (h : (s.moveRight o).1 ≠ -1) :
    applyDirection s Direction.RIGHT = some (s.moveRight o).2 := by
  have h1 : (s.moveRight s).1 ≠ -1 := by rw [State.moveRight_fst s s o]; exact h
  rw [applyDirection_right, if_pos h1, State.moveRight_snd s s o h1]

theorem moveDown_applyDirection (s o : State) (h : (s.moveDown o).1 ≠ -1) :
    applyDirection s Direction.DOWN = some (s.moveDown o).2 := by
  have h1 : (s.moveDown s).1 ≠ -1 := by rw [State.moveDown_fst s s o]; exact h
  rw [applyDirection_down, if_pos h1, State.moveDown_snd s s o h1]

theorem moveUp_applyDirection (s o : State) (h : (s.moveUp o).1 ≠ -1) :
    applyDirection s Direction.UP = some (s.moveUp o).2 := by
  have h1 : (s.moveUp s).1 ≠ -1 := by rw [State.moveUp_fst s s o]; exact h
  rw [applyDirection_up, if_pos h1, State.moveUp_snd s s o h1]

theorem validState_permutationLayout (t : State) (ht : ValidState t) : PermutationLayout t := by
  have hd := (isValid_iff_distinct t).1 ht.2.1
  obtain ⟨p, hp, _, h0, hne⟩ := ht.blank
  refine ⟨ht.1, hd, (distinct_iff_cover _).1 hd, p, hp, fun i hi => ?_⟩
  rw [getValueTileAt_eq]
  constructor
  · intro hz
    by_contra hip
    exact hne i hi hip hz
  · intro hip
    rw [hip]; exact h0

/-! ## The search from an unsolvable state -/

theorem singleModel_fastBfs :
    fastBfs 600 0 0xF00000000000000F [15] = some singleTable := by
  decide!

theorem singleModel_bfs (fuel : Nat) (hf : 600 ≤ fuel) :
    bfs fuel singleModel 0 [] = some singleTable :=
  bfs_mono 600 fuel _ _ _ _ hf
    (bfs_of_fastBfs 600 singleModel [15] 0 0 0xF00000000000000F _ (by decide) rfl
      (by decide) (by decide) singleModel_fastBfs)

/-- The database that `generate()` builds for the model `singleModel`. -/
theorem singleModel_generate (fuel : Nat) (hf : 600 ≤ fuel) :
    PatternDB.generate fuel singleModel (PatternDB.new singleModel) =
      some { _costTablePartitions := [singleTable] } := by
  refine generate_of_bfs fuel singleModel [singleTable] rfl (fun i hi => ?_)
  have hi0 : i = 0 := by
    have : i < 1 := hi
    omega
  subst hi0
  exact singleModel_bfs fuel hf

theorem enabledBit_eq (m : Nat) (hm : NibbleMask m) (i : Nat) (hi : i < 16) :
    (m >>> (i <<< 2)) &&& 0x1 = if nibbleAt m i = 0xF then 1 else 0 := by
  have e : (m >>> (i <<< 2)) &&& 0x1 = nibbleAt m i &&& 0x1 := by
    have h1 : (15 &&& 1 : Nat) = 1 := by decide
    unfold nibbleAt
    rw [Nat.land_assoc, h1]
  rw [e]
  rcases hm.2 i hi with h | h <;> rw [h] <;> decide

theorem countEnabledFieldLoop_eq (m : Nat) (hm : NibbleMask m) (n : Nat) (hn : n ≤ 16)
    (acc : Int) :
    countEnabledFieldLoop m n acc =
      acc + (((List.range' (16 - n) n).filter
        (fun v => decide (nibbleAt m v = 0xF))).length : Int) := by
  induction n generalizing acc with
  | zero => simp [countEnabledFieldLoop]
  | succ n ih =>
    rw [countEnabledFieldLoop]
    rw [ih (by omega)]
    have e : 16 - (n + 1) + 1 = 16 - n := by omega
    have hk : kNumTiles - (n + 1) = 16 - (n + 1) := rfl
    rw [List.range'_succ, e, List.filter_cons, hk, enabledBit_eq m hm _ (by omega)]
    by_cases h : nibbleAt m (16 - (n + 1)) = 0xF
    · simp only [h, decide_True, if_true, List.length_cons]
      push_cast
      omega
    · simp only [h, decide_False, if_false]
      push_cast
      omega

theorem countEnabledField_eq (m : Nat) (hm : NibbleMask m) :
    countEnabledField m = (selectedCount m : Int) := by
  unfold countEnabledField selectedCount
  have hk : kNumTiles = 16 := rfl
  rw [hk, countEnabledFieldLoop_eq m hm 16 (le_refl _) 0, Nat.sub_self, Int.zero_add,
    List.range_eq_range']

theorem selectedCount_le (m : Nat) : selectedCount m ≤ 16 := by
  unfold selectedCount
  have := List.length_filter_le (fun v => decide (nibbleAt m v = 0xF)) (List.range 16)
  rw [List.length_range] at this
  exact this

theorem computeSizeOfTableCost_eq (m : Nat) (hm : NibbleMask m) (hk : 1 ≤ selectedCount m) :
    computeSizeOfTableCost m = 16 ^ (selectedCount m - 1) := by
  have hle := selectedCount_le m
  unfold computeSizeOfTableCost
  simp only
  rw [countEnabledField_eq m hm]
  have e : (((selectedCount m : Int) - 1) * 4).toNat = 4 * (selectedCount m - 1) := by omega
  rw [e]
  unfold shl64
  rw [Nat.one_shiftLeft, Nat.mod_eq_of_lt (Nat.pow_lt_pow_right (by norm_num) (by omega)),
    pow_mul]
  norm_num

theorem bfsLoop_length (masks : List Nat) (mask : Nat) (fuel : Nat) :
    ∀ (t : List Int) (q : List SearchNode) (closed : List Nat) (child : SearchNode)
      (T : List Int),
      bfsLoop masks mask fuel t q closed child = some T → T.length = t.length := by
  induction fuel with
  | zero =>
    intro t q closed child T hr
    cases q with
    | nil => rw [bfsLoop_nil] at hr; cases hr; rfl
    | cons n q => rw [bfsLoop_zero] at hr; cases hr
  | succ fuel ih =>
    intro t q closed child T hr
    cases q with
    | nil => rw [bfsLoop_nil] at hr; cases hr; rfl
    | cons n q =>
      rw [bfsLoop_succ] at hr
      split_ifs at hr with h1 h2 h3
      · rw [ih _ _ _ _ T hr, List.length_set]
      · exact ih _ _ _ _ T hr

theorem resizeTable_length (t : List Int) (n : Nat) (v : Int) :
    (resizeTable t n v).length = n := by
  unfold resizeTable
  rw [List.length_append, List.length_take, List.length_replicate]
  omega

/-- The table that `bfs` returns has the size computed for the mask, whatever
the table held before. -/
theorem bfs_length (fuel : Nat) (masks : List Nat) (i : Nat) (t T : List Int)
    (h : bfs fuel masks i t = some T) :
    T.length = computeSizeOfTableCost (masks.getD i 0) := by
  unfold bfs at h
  simp only at h
  rw [bfsLoop_length _ _ _ _ _ _ _ T h, resizeTable_length]

theorem generateLoop_length (fuel : Nat) (masks : List Nat) (k : Nat) (hk : k ≤ masks.length) :
    ∀ (db db1 : PatternDB),
      db._costTablePartitions.length = masks.length →
      (∀ i, i < masks.length - k →
        (db.getCostTable i).length = computeSizeOfTableCost (masks.getD i 0)) →
      generateLoop fuel masks k db = some db1 →
      ∀ i, i < masks.length →
        (db1.getCostTable i).length = computeSizeOfTableCost (masks.getD i 0) := by
  induction k with
  | zero =>
    intro db db1 _ h1 hr i hi
    rw [generateLoop] at hr
    cases hr
    exact h1 i (by omega)
  | succ k ih =>
    intro db db1 hlen h1 hr
    rw [generateLoop] at hr
    rcases hb : bfs fuel masks (masks.length - (k + 1))
        (db._costTablePartitions.getD (masks.length - (k + 1)) []) with _ | T
    · rw [hb] at hr; cases hr
    · rw [hb] at hr
      have hT := bfs_length fuel masks _ _ T hb
      refine ih (by omega) _ db1 (by simp [hlen]) ?_ hr
      intro i hi
      unfold PatternDB.getCostTable
      simp only [List.getD_eq_getElem?_getD, List.getElem?_set]
      by_cases hi2 : masks.length - (k + 1) = i
      · rw [if_pos hi2, if_pos (by omega)]
        subst hi2
        simpa using hT
      · rw [if_neg hi2]
        have := h1 i (by omega)
        unfold PatternDB.getCostTable at this
        simpa [List.getD_eq_getElem?_getD] using this

/-- After `generate()`, on an object that holds any tables, every table has the
size computed for its mask. -/
theorem generate_length (fuel : Nat) (masks : List Nat) (db db1 : PatternDB)
    (hlen : db._costTablePartitions.length = masks.length)
    (h : PatternDB.generate fuel masks db = some db1) :
    ∀ i, i < masks.length →
      (db1.getCostTable i).length = computeSizeOfTableCost (masks.getD i 0) := by
  unfold PatternDB.generate at h
  exact generateLoop_length fuel masks masks.length (le_refl _) db db1 hlen
    (fun i hi => by omega) h

/-! ## `generate()` on an object that holds tables

`bfs` resizes the table it is given, which keeps the entries the table holds,
and assigns `min(cost, entry)`: the table it returns is the entry-wise minimum
of the table it returns for an empty table and of the resized old table. -/

/-- Claim C31, evaluated at a failing input: the two masks of the test
`checkZeroEnabled`, `0xF0F0F0F0F0F0F0F0` and `0x0F0F0F0F0F0F0F0F`, have nibbles
`0x0` or `0xF` and select no common nibble at all, and
`checkPartitionsDisjoint()` returns false for them. The test of the source is
`(m_i & m_j) != 0xF`, which fails unless both masks select nibble 0. -/
theorem C31_disjoint_masks_reported_overlapping :
    (∀ m ∈ noZeroModel, NibbleMask m) ∧
    (∀ v, v < 16 → ¬ (Selects (noZeroModel.getD 0 0) v ∧ Selects (noZeroModel.getD 1 0) v)) ∧
    noZeroModel.getD 0 0 &&& noZeroModel.getD 1 0 = 0 ∧
    checkPartitionsDisjoint noZeroModel = false := by
  refine ⟨?_, by simp only [Selects]; decide, by decide, by decide⟩
  intro m hmem
  simp only [noZeroModel, List.mem_cons, List.mem_singleton, List.not_mem_nil, or_false] at hmem
  rcases hmem with rfl | rfl <;> exact ⟨by decide, by decide⟩

/-- Claim C32. Cost-table size: for a mask whose nibbles are `0x0` or `0xF` and
that selects `k >= 1` nibbles (nibble 0 included), `countEnabledField` returns
`k` and `computeSizeOfTableCost` returns `16 ^ (k - 1)`; after `generate()`, on
an object that holds any tables, the table of every partition of a model of
such masks has `computeSizeOfTableCost(mask)` entries. `generate()` is taken
with a bound on the iterations of each `bfs`, and the statement is about the
runs that return. -/
theorem C32_cost_table_size (m : Nat) (hm : NibbleMask m) (hk : 1 ≤ selectedCount m) :
    countEnabledField m = (selectedCount m : Int) ∧
    computeSizeOfTableCost m = 16 ^ (selectedCount m - 1) ∧
    ∀ (fuel : Nat) (sMaskPartitions : List Nat) (db db1 : PatternDB),
      (∀ m1 ∈ sMaskPartitions, NibbleMask m1 ∧ 1 ≤ selectedCount m1) →
      db._costTablePartitions.length = sMaskPartitions.length →
      PatternDB.generate fuel sMaskPartitions db = some db1 →
      ∀ i, i < sMaskPartitions.length →
        (db1.getCostTable i).length = computeSizeOfTableCost (sMaskPartitions.getD i 0) ∧
        (db1.getCostTable i).length = 16 ^ (selectedCount (sMaskPartitions.getD i 0) - 1) := by
  refine ⟨countEnabledField_eq m hm, computeSizeOfTableCost_eq m hm hk, ?_⟩
  intro fuel masks db db1 hmasks hlen hg i hi
  have h1 := generate_length fuel masks db db1 hlen hg i hi
  refine ⟨h1, ?_⟩
  have hmem : masks.getD i 0 ∈ masks := by
    rw [List.getD_eq_getElem?_getD, List.getElem?_eq_getElem hi]
    exact List.getElem_mem _
  rw [h1, computeSizeOfTableCost_eq _ (hmasks _ hmem).1 (hmasks _ hmem).2]

/-- Witness of C32: the mask of tile 15 and the blank selects two nibbles, and
the table that `generate()` builds for the model of this single mask has 16
entries. -/
theorem C32_cost_table_size_witness :
    NibbleMask 0xF00000000000000F ∧ selectedCount 0xF00000000000000F = 2 ∧
    countEnabledField 0xF00000000000000F = (selectedCount 0xF00000000000000F : Int) ∧
    computeSizeOfTableCost 0xF00000000000000F = 16 ^ (selectedCount 0xF00000000000000F - 1) ∧
    PatternDB.generate 600 singleModel (PatternDB.new singleModel) =
      some { _costTablePartitions := [singleTable] } ∧
    (PatternDB.getCostTable { _costTablePartitions := [singleTable] } 0).length =
      16 ^ (selectedCount (singleModel.getD 0 0) - 1) := by
  have hm : NibbleMask 0xF00000000000000F := ⟨by decide, by decide⟩
  have h := C32_cost_table_size 0xF00000000000000F hm (by decide)
  refine ⟨hm, by decide, h.1, h.2.1, singleModel_generate 600 (le_refl _), ?_⟩
  refine (h.2.2 600 singleModel (PatternDB.new singleModel) _ ?_ rfl
    (singleModel_generate 600 (le_refl _)) 0 (by decide)).2
  intro m1 hm1
  simp only [singleModel, List.mem_singleton] at hm1
  subst hm1
  exact ⟨hm, by decide⟩

/-- Claim C33, evaluated at a failing input: the model of the test
`checkDisjoint`, with a partition of the eight tiles 8 to 15, passes
`isValidPartitions()`; the state two moves up from the solved state is valid
and solvable; for the mask of that partition `hash2index` returns the negative
`int` -1197802274 (tile 8, at position 11, is shifted into the bits 28 to 31
of the index), while the table has `2 ^ 32` entries, and the lookup of
`getCost` is outside the table whatever the tables hold. -/
theorem C33_packed_index_negative :
    isValidPartitions eightTilesModel = true ∧
    applyMoves State.generateSortedState [Direction.UP, Direction.UP] = some twoUpState ∧
    ValidState twoUpState ∧ twoUpState.isSolveable = true ∧
    hash2index eightTilesModel (twoUpState.getHashWithMask (eightTilesModel.getD 0 0)) =
      -1197802274 ∧
    computeSizeOfTableCost (eightTilesModel.getD 0 0) = 4294967296 ∧
    ∀ db : PatternDB, db.getCost eightTilesModel twoUpState = none := by
  have hi : hash2index eightTilesModel
      (twoUpState.getHashWithMask (eightTilesModel.getD 0 0)) = -1197802274 := by decide!
  refine ⟨by decide!, by decide!, validState_ofConfiguration _ (by norm_num) (by decide!),
    by decide!, hi, by decide!, fun db => ?_⟩
  have hl : eightTilesModel.length = 2 := rfl
  unfold PatternDB.getCost
  rw [hl, getCostLoop]
  simp only [hl, Nat.sub_self]
  rw [hi]
  simp

/-- Claim C34, evaluated at a failing input: the model `nineTilesModel`, with a
partition of the nine tiles 7 to 15, passes `isValidPartitions()`; the states
`oneLeftState` and `exchangedState` are valid and solvable and hold tile 7, a
tile of that partition, at the positions 6 and 5, so their masked hashes
differ at nibble 7; `hash2index` returns 2023406815 for both. -/
theorem C34_packed_index_collides :
    isValidPartitions nineTilesModel = true ∧
    ValidState oneLeftState ∧ oneLeftState.isSolveable = true ∧
    ValidState exchangedState ∧ exchangedState.isSolveable = true ∧
    Selects (nineTilesModel.getD 0 0) 7 ∧
    positionOfTile oneLeftState 7 = 6 ∧ positionOfTile exchangedState 7 = 5 ∧
    nibbleAt (oneLeftState.getHashWithMask (nineTilesModel.getD 0 0)) 7 = 6 ∧
    nibbleAt (exchangedState.getHashWithMask (nineTilesModel.getD 0 0)) 7 = 5 ∧
    hash2index nineTilesModel (oneLeftState.getHashWithMask (nineTilesModel.getD 0 0)) =
      2023406815 ∧
    hash2index nineTilesModel (exchangedState.getHashWithMask (nineTilesModel.getD 0 0)) =
      2023406815 := by
  refine ⟨by decide!, validState_ofConfiguration _ (by norm_num) (by decide!), by decide!,
    validState_ofConfiguration _ (by norm_num) (by decide!), by decide!,
    by unfold Selects; decide!, by decide!, by decide!, by decide!, by decide!, by decide!,
    by decide!⟩

/-- Claim C36, evaluated at a failing input: the array
`33, 2, 3, ..., 15, 0` has the element 33 outside `0 .. 15`, and the array
constructor builds from it the solved state, which `isValid()` and
`isSolveable()` accept: the constructor ORs `33 << 0` into the layout, whose
low nibble is 1 and whose next nibble is 2, the value that index 1 holds. -/
theorem C36_out_of_range_value_accepted :
    wrongValues 0 = 33 ∧
    State.ofValues wrongValues = State.generateSortedState ∧
    (State.ofValues wrongValues).isValid = true ∧
    (State.ofValues wrongValues).isSolveable = true := by
  refine ⟨rfl, by decide!, by decide!, by decide!⟩

/-- Claim C37. Moves preserve validity: for a valid state and each of the four
moves, when the call returns a value other than -1 the output state is valid
(`isValid()` returns true and the two caches are those of the layout), and its
layout is a permutation of `0 .. 15` with exactly one blank; the same holds
after every sequence of legal moves. -/
theorem C37_moves_preserve_validity (s oState : State) (hs : ValidState s) :
    ((s.moveLeft oState).1 ≠ -1 →
      (s.moveLeft oState).2.isValid = true ∧ ValidState (s.moveLeft oState).2 ∧
        PermutationLayout (s.moveLeft oState).2) ∧
    ((s.moveRight oState).1 ≠ -1 →
      (s.moveRight oState).2.isValid = true ∧ ValidState (s.moveRight oState).2 ∧
        PermutationLayout (s.moveRight oState).2) ∧
    ((s.moveUp oState).1 ≠ -1 →
      (s.moveUp oState).2.isValid = true ∧ ValidState (s.moveUp oState).2 ∧
        PermutationLayout (s.moveUp oState).2) ∧
    ((s.moveDown oState).1 ≠ -1 →
      (s.moveDown oState).2.isValid = true ∧ ValidState (s.moveDown oState).2 ∧
        PermutationLayout (s.moveDown oState).2) ∧
    ∀ (ms : List Direction) (t : State), applyMoves s ms = some t →
      t.isValid = true ∧ ValidState t ∧ PermutationLayout t := by
  have key : ∀ t : State, ValidState t →
      t.isValid = true ∧ ValidState t ∧ PermutationLayout t :=
    fun t ht => ⟨ht.2.1, ht, validState_permutationLayout t ht⟩
  refine ⟨fun h => key _ ?_, fun h => key _ ?_, fun h => key _ ?_, fun h => key _ ?_,
    fun ms t h => key _ (applyMoves_valid s t ms hs h)⟩
  · exact applyDirection_valid s _ Direction.LEFT hs (moveLeft_applyDirection s oState h)
  · exact applyDirection_valid s _ Direction.RIGHT hs (moveRight_applyDirection s oState h)
  · exact applyDirection_valid s _ Direction.UP hs (moveUp_applyDirection s oState h)
  · exact applyDirection_valid s _ Direction.DOWN hs (moveDown_applyDirection s oState h)

/-- Witness of C37: the move left and the move up of the solved state. -/
theorem C37_moves_preserve_validity_witness :
    ValidState State.generateSortedState ∧
    (State.generateSortedState.moveLeft (State.ofConfiguration 0)).1 ≠ -1 ∧
    (State.generateSortedState.moveLeft (State.ofConfiguration 0)).2.isValid = true ∧
    (State.generateSortedState.moveUp (State.ofConfiguration 0)).1 ≠ -1 ∧
    PermutationLayout (State.generateSortedState.moveUp (State.ofConfiguration 0)).2 :=
  ⟨validState_sorted, by decide,
    ((C37_moves_preserve_validity State.generateSortedState (State.ofConfiguration 0)
      validState_sorted).1 (by decide)).1, by decide,
    ((C37_moves_preserve_validity State.generateSortedState (State.ofConfiguration 0)
      validState_sorted).2.2.1 (by decide)).2.2⟩

/-- Claim C38. Moves preserve solvability: for a valid state `s` and each of the
four moves, when the call returns a value other than -1 the output state has
the result of `isSolveable()` that `s` has; so has every state reached from `s`
by legal moves, every state reached from the solved state is reported
solvable, and no sequence of legal moves takes a valid state that is reported
unsolvable to the solved state. -/
theorem C38_moves_preserve_solvability (s oState : State) (hs : ValidState s) :
    ((s.moveLeft oState).1 ≠ -1 → (s.moveLeft oState).2.isSolveable = s.isSolveable) ∧
    ((s.moveRight oState).1 ≠ -1 → (s.moveRight oState).2.isSolveable = s.isSolveable) ∧
    ((s.moveUp oState).1 ≠ -1 → (s.moveUp oState).2.isSolveable = s.isSolveable) ∧
    ((s.moveDown oState).1 ≠ -1 → (s.moveDown oState).2.isSolveable = s.isSolveable) ∧
    (∀ (ms : List Direction) (t : State), applyMoves s ms = some t →
      t.isSolveable = s.isSolveable) ∧
    (∀ (ms : List Direction) (t : State),
      applyMoves State.generateSortedState ms = some t → t.isSolveable = true) ∧
    (s.isSolveable = false →
      ∀ ms : List Direction, applyMoves s ms ≠ some State.generateSortedState) := by
  have hsorted : State.generateSortedState.isSolveable = true := by decide
  refine ⟨fun h => ?_, fun h => ?_, fun h => ?_, fun h => ?_,
    fun ms t h => applyMoves_isSolveable s t ms hs h, fun ms t h => ?_, fun hu ms h => ?_⟩
  · exact applyDirection_isSolveable s _ Direction.LEFT hs (moveLeft_applyDirection s oState h)
  · exact applyDirection_isSolveable s _ Direction.RIGHT hs (moveRight_applyDirection s oState h)
  · exact applyDirection_isSolveable s _ Direction.UP hs (moveUp_applyDirection s oState h)
  · exact applyDirection_isSolveable s _ Direction.DOWN hs (moveDown_applyDirection s oState h)
  · rw [applyMoves_isSolveable _ t ms validState_sorted h, hsorted]
  · have := applyMoves_isSolveable s _ ms hs h
    rw [hsorted, hu] at this
    cases this

/-- Witness of C38: the move up of the solved state, and the valid state
`0x0efdcba987654321` (tiles 14 and 15 exchanged), which is reported unsolvable
and from which no sequence of legal moves reaches the solved state. -/
theorem C38_moves_preserve_solvability_witness :
    ValidState State.generateSortedState ∧
    (State.generateSortedState.moveUp (State.ofConfiguration 0)).1 ≠ -1 ∧
    (State.generateSortedState.moveUp (State.ofConfiguration 0)).2.isSolveable =
      State.generateSortedState.isSolveable ∧
    ValidState kUnsolvableState ∧ kUnsolvableState.isSolveable = false ∧
    ∀ ms : List Direction, applyMoves kUnsolvableState ms ≠ some State.generateSortedState :=
  ⟨validState_sorted, by decide,
    (C38_moves_preserve_solvability State.generateSortedState (State.ofConfiguration 0)
      validState_sorted).2.2.1 (by decide),
    ⟨by decide, by decide, by decide⟩, by decide,
    (C38_moves_preserve_solvability kUnsolvableState (State.ofConfiguration 0)
      ⟨by decide, by decide, by decide⟩).2.2.2.2.2.2 (by decide)⟩

/-! ## Claims about a loaded pattern database -/

/-- Claim C39, evaluated at a failing input: for the model of the program,
`deserialize` accepts the file that `serialize` writes for an object that was
never generated (the count, the three masks, three sizes 0) and loads three
empty tables, whatever sizes `resize` accepts, while `computeSizeOfTableCost`
is `16 ^ 5` for each of the three masks; `getCost` then indexes outside the
table for every state. -/
theorem C39_loaded_tables_too_short :
    isValidPartitions kMasksPattern = true ∧
    PatternDB.serialize kMasksPattern (PatternDB.new kMasksPattern) [] = emptyTablesFile ∧
    (∀ aMaxSize : Nat,
      PatternDB.deserialize aMaxSize kMasksPattern (PatternDB.new kMasksPattern)
          emptyTablesFile =
        DeserializeResult.loaded { _costTablePartitions := [[], [], []] } []) ∧
    (∀ i, i < 3 → computeSizeOfTableCost (kMasksPattern.getD i 0) = 16 ^ 5) ∧
    ∀ s : State,
      PatternDB.getCost kMasksPattern { _costTablePartitions := [[], [], []] } s = none := by
  refine ⟨by decide!, by decide!, fun aMaxSize => ?_, by decide!, fun s => ?_⟩
  · have e : emptyTablesFile =
        serializedLayout kMasksPattern
          ({ _costTablePartitions := [[], [], []] } : PatternDB)._costTablePartitions ++ [] := by
      decide
    rw [e]
    refine deserialize_encoded aMaxSize kMasksPattern _ _
      ⟨by decide, by decide, by decide, by decide⟩ ?_ (by decide) []
    intro t ht
    simp only [List.mem_cons, List.mem_singleton, List.not_mem_nil, or_false, or_self] at ht
    subst ht
    exact Nat.zero_le _
  · have hl : kMasksPattern.length = 3 := rfl
    unfold PatternDB.getCost
    rw [hl, getCostLoop]
    simp only [hl, Nat.sub_self]
    rw [if_neg]
    rintro ⟨h0, h1⟩
    change _ < ((0 : Nat) : Int) at h1
    omega

end kpuzzle4
